import Mathlib

/-!
# pic-store: the reorganisation and renaming engine (`file_organiser.go`)

A shallow embedding of `fileOrganiser` over an explicit file-system state.

* A path is the list of its components below the root (`filepath.Clean` and
  `filepath.Abs` have already been applied to the arguments).
* The file system is an association list from paths to nodes; a node is a
  regular file (modification date, content) or a directory.
* Library calls (`os.ReadDir`, `os.Stat`, `os.MkdirAll`, `os.Rename`,
  `filepath.Glob`, `filepath.Match`, `filepath.Ext`, `strings.Fields`,
  `strings.Join`, `strings.ReplaceAll`, `sort.Strings`, `fmt.Sprintf`,
  `time.Format`) are modelled by the functions of the first sections.
* An operation returns the final state together with the returned error
  (`none` is Go's `nil`), so the state after a failure part-way is visible.
-/

set_option maxRecDepth 100000

namespace PicStore

/-! ## Paths, dates, nodes -/

/-- An absolute, cleaned path: its components below the root. -/
abbrev Path := List String

/-- Go's `time.Month`. -/
inductive Month
  | January | February | March | April | May | June
  | July | August | September | October | November | December
  deriving DecidableEq, Repr

/-- Number of the month, 1 to 12. -/
def Month.number : Month → Nat
  | .January => 1 | .February => 2 | .March => 3 | .April => 4
  | .May => 5 | .June => 6 | .July => 7 | .August => 8
  | .September => 9 | .October => 10 | .November => 11 | .December => 12

/-- English name of the month, as `Month.String` gives it. -/
def Month.name : Month → String
  | .January => "January" | .February => "February" | .March => "March"
  | .April => "April" | .May => "May" | .June => "June" | .July => "July"
  | .August => "August" | .September => "September" | .October => "October"
  | .November => "November" | .December => "December"

/-- The calendar date of a modification time in the local zone, which is all
that `Format("2006 01 January 02")` reads. `day` is the day of the month minus
one. -/
structure Time where
  year : Int
  month : Month
  day : Fin 31
  deriving DecidableEq, Repr

/-- A file-system node. Directory timestamps are not modelled: the program
reads the modification time of regular files only. -/
inductive Node
  | file (modTime : Time) (content : String)
  | dir
  deriving DecidableEq, Repr, Inhabited

/-- The file-system state: every existing path below the root with its node.
The root itself is always a directory and has no entry. -/
abbrev FS := List (Path × Node)

/-- Errors returned by the engine. `io` stands for any error of an underlying
file-system call, `badPattern` for `filepath.ErrBadPattern`. -/
inductive Err
  | io
  | badPattern
  | format
  | notExist
  | notDirectory
  | targetExists
  deriving DecidableEq, Repr

/-! ## Decimal formatting -/

/-- The character of a decimal digit. -/
def digitChar (d : Nat) : Char := Char.ofNat (48 + d)

/-- Decimal digits of `n`, most significant first, pushed in front of `acc`. -/
def decimalAux : Nat → Nat → List Char → List Char
  | 0, _, acc => acc
  | fuel + 1, n, acc =>
    if n < 10 then digitChar n :: acc
    else decimalAux fuel (n / 10) (digitChar (n % 10) :: acc)

/-- Decimal representation of a natural number. -/
def decimal (n : Nat) : List Char := decimalAux (n + 1) n []

/-- Zero padding to a minimum width: `%0<width>d` for a non-negative value. -/
def zeroPad (width n : Nat) : List Char :=
  List.replicate (width - (decimal n).length) '0' ++ decimal n

/-- Go's `appendInt(b, x, width)` of package `time`. -/
def appendInt (x : Int) (width : Nat) : List Char :=
  if x < 0 then '-' :: zeroPad width x.natAbs else zeroPad width x.natAbs

/-- The bucket name, `ModTime().Format("2006 01 January 02")`. -/
def formatDate (t : Time) : String :=
  String.mk (appendInt t.year 4 ++ ' ' :: zeroPad 2 t.month.number ++ ' ' ::
    t.month.name.data ++ ' ' :: zeroPad 2 (t.day.val + 1))

/-! ## File-system primitives -/

/-- The node stored at a path, first binding wins. -/
def lookup : FS → Path → Option Node
  | [], _ => none
  | (q, n) :: rest, p => if q = p then some n else lookup rest p

/-- Go's `os.Stat` on a tree without symbolic links: `none` is an error. -/
def stat (fs : FS) (p : Path) : Option Node :=
  if p = [] then some Node.dir else lookup fs p

/-- Directory part of a path (`filepath.Dir`). -/
def parent (p : Path) : Path := p.dropLast

/-- Whether a node is a directory. -/
def Node.isDir : Node → Bool
  | .dir => true
  | .file _ _ => false

/-- Whether a regular file exists at the path. -/
def isFileAt (fs : FS) (p : Path) : Bool :=
  match stat fs p with
  | some (Node.file _ _) => true
  | _ => false

/-- Whether a directory exists at the path. -/
def isDirAt (fs : FS) (p : Path) : Bool :=
  match stat fs p with
  | some Node.dir => true
  | _ => false

/-- The entry name of `p` when `p` is a direct entry of directory `d`. -/
def childName (d : Path) (e : Path × Node) : Option (String × Bool) :=
  if e.1.dropLast = d then (e.1.getLast?).map (fun n => (n, e.2.isDir)) else none

/-- Order of Go strings: lexicographic on the characters. (Go compares the
UTF-8 bytes, which orders valid strings exactly as their code points.) -/
def leChars : List Char → List Char → Bool
  | [], _ => true
  | _ :: _, [] => false
  | a :: as, b :: bs => if a = b then leChars as bs else decide (a.toNat < b.toNat)

/-- Order of two names. -/
def nameLe (a b : String) : Prop := leChars a.data b.data = true

instance : DecidableRel nameLe := fun a b => inferInstanceAs (Decidable (leChars a.data b.data = true))

/-- Order of directory entries: by file name. -/
def entryLe (a b : String × Bool) : Prop := nameLe a.1 b.1

instance : DecidableRel entryLe := fun a b => inferInstanceAs (Decidable (nameLe a.1 b.1))

/-- Go's `os.ReadDir`: the entries of a directory (name, is-directory), sorted
by file name; `none` when the path is not an existing directory. -/
def readDir (fs : FS) (d : Path) : Option (List (String × Bool)) :=
  match stat fs d with
  | some Node.dir => some (List.insertionSort entryLe (fs.filterMap (childName d)))
  | _ => none

/-- Go's `os.MkdirAll`: fails when the path or one of its ancestors is a
regular file, otherwise creates every missing directory on the way. -/
def mkdirAll (fs : FS) (p : Path) : Option FS :=
  if p.inits.any (fun q => isFileAt fs q) then none
  else some (fs ++ (p.inits.filter (fun q => (stat fs q).isNone)).map (fun q => (q, Node.dir)))

/-- New location of a path when `old` is moved to `new`. -/
def rekey (old new p : Path) : Path :=
  if old <+: p then new ++ p.drop old.length else p

/-- The state once the subtree at `old` has replaced whatever was at `new`. -/
def moveTree (fs : FS) (old new : Path) : FS :=
  (fs.filter (fun e => decide (¬ new <+: e.1))).map (fun e => (rekey old new e.1, e.2))

/-- Go's `os.Rename` on Unix; `none` is an error and leaves the state as it
was. An existing directory at `new` is refused; an existing regular file at
`new` is replaced by a regular file; renaming a file to itself does nothing. -/
def rename (fs : FS) (old new : Path) : Option FS :=
  if old = [] then none else
  match stat fs old, stat fs new with
  | none, _ => none
  | some _, some Node.dir => none
  | some Node.dir, some (Node.file _ _) => none
  | some (Node.file _ _), some (Node.file _ _) =>
    if old = new then some fs else some (moveTree fs old new)
  | some _, none =>
    if stat fs (parent new) = some Node.dir ∧ ¬ old <+: new then some (moveTree fs old new)
    else none

/-! ## OrganiseByDate -/

/-- The loop of `OrganiseByDate` over the entries read at the start. -/
def organiseByDateLoop (sourceDir targetDir : Path) : List (String × Bool) → FS → FS × Option Err
  | [], fs => (fs, none)
  | (name, isDir) :: rest, fs =>
    if isDir then organiseByDateLoop sourceDir targetDir rest fs
    else
      match stat fs (sourceDir ++ [name]) with
      | none => (fs, some Err.io)
      | some Node.dir => (fs, some Err.io)
      | some (Node.file t _) =>
        match mkdirAll fs (targetDir ++ [formatDate t]) with
        | none => (fs, some Err.io)
        | some fs1 =>
          match rename fs1 (sourceDir ++ [name]) (targetDir ++ [formatDate t, name]) with
          | none => (fs1, some Err.io)
          | some fs2 => organiseByDateLoop sourceDir targetDir rest fs2

/-- `OrganiseByDate(sourceDir, targetDir)`: moves every non-directory entry of
the source into the bucket of its modification date under the target. The
entry kinds are those of the `ReadDir` snapshot. (`os.Stat` cannot meet a
directory at a snapshot non-directory without symbolic links; that branch is
an error here.) -/
def OrganiseByDate (fs : FS) (sourceDir targetDir : Path) : FS × Option Err :=
  match readDir fs sourceDir with
  | none => (fs, some Err.io)
  | some entries => organiseByDateLoop sourceDir targetDir entries fs

/-! ## Strings -/

/-- Go's `unicode.IsSpace`. -/
def isSpace (c : Char) : Bool :=
  (9 ≤ c.toNat && c.toNat ≤ 13) || c.toNat == 32 || c.toNat == 0x85 || c.toNat == 0xA0 ||
  c.toNat == 0x1680 || (0x2000 ≤ c.toNat && c.toNat ≤ 0x200A) || c.toNat == 0x2028 ||
  c.toNat == 0x2029 || c.toNat == 0x202F || c.toNat == 0x205F || c.toNat == 0x3000

/-- The loop of `strings.Fields`: `cur` is the field being read; a space
closes it. -/
def fieldsAux : List Char → List Char → List (List Char)
  | [], cur => if cur = [] then [] else [cur]
  | c :: cs, cur =>
    if isSpace c then (if cur = [] then fieldsAux cs [] else cur :: fieldsAux cs [])
    else fieldsAux cs (cur ++ [c])

/-- Go's `strings.Fields`: the maximal runs of non-space characters. -/
def Fields (s : String) : List String := (fieldsAux s.data []).map String.mk

/-- The parts with the separator between each two of them. -/
def joinChars (sep : List Char) : List (List Char) → List Char
  | [] => []
  | [l] => l
  | l :: rest => l ++ sep ++ joinChars sep rest

/-- Go's `strings.Join`. -/
def Join (parts : List String) (sep : String) : String :=
  String.mk (joinChars sep.data (parts.map String.data))

/-- Go's `strings.ReplaceAll(s, " ", "_")`. -/
def replaceSpaces (s : String) : String :=
  String.mk (s.data.map (fun c => if c = ' ' then '_' else c))

/-- Extension of a file name: from its last dot on, empty without a dot. -/
def extChars : List Char → List Char
  | [] => []
  | c :: cs => if '.' ∈ cs then extChars cs else if c = '.' then c :: cs else []

/-- Go's `filepath.Ext`, which reads the last element of the path only. -/
def Ext (p : Path) : String :=
  match p.getLast? with
  | none => ""
  | some n => String.mk (extChars n.data)

/-- `fmt.Sprintf("%s_%05d%s", base, i, ext)`. -/
def seqName (base : String) (i : Nat) (ext : String) : String :=
  String.mk (base.data ++ '_' :: zeroPad 5 i ++ ext.data)

/-- The path as Go holds it, a string with `/` before each component. -/
def pathChars : Path → List Char
  | [] => []
  | c :: cs => '/' :: c.data ++ pathChars cs

/-- Order of two paths as strings. -/
def pathLe (p q : Path) : Prop := leChars (pathChars p) (pathChars q) = true

instance : DecidableRel pathLe := fun p q => inferInstanceAs (Decidable (leChars (pathChars p) (pathChars q) = true))

/-- Go's `sort.Strings` on a list of paths. -/
def sortPaths (l : List Path) : List Path := List.insertionSort pathLe l

/-! ## filepath.Match and filepath.Glob -/

/-- One element of a pattern. -/
inductive PatTok
  | star
  | anyChar
  | lit (c : Char)
  | cls (negated : Bool) (ranges : List (Char × Char))
  deriving DecidableEq, Repr

/-- Go's `getEsc`: one possibly escaped character of a character class, which
must be followed by more pattern text. -/
def getEsc : List Char → Option (Char × List Char)
  | [] => none
  | c :: rest =>
    if c = '-' ∨ c = ']' then none
    else if c = '\\' then
      match rest with
      | [] => none
      | d :: rest1 => if rest1 = [] then none else some (d, rest1)
    else if rest = [] then none else some (c, rest)

/-- The ranges of a character class up to its closing bracket. -/
def parseRanges : Nat → List Char → List (Char × Char) → Option (List (Char × Char) × List Char)
  | 0, _, _ => none
  | fuel + 1, chunk, acc =>
    if chunk.head? = some ']' ∧ acc ≠ [] then some (acc.reverse, chunk.tail)
    else
      match getEsc chunk with
      | none => none
      | some (lo, chunk1) =>
        if chunk1.head? = some '-' then
          match getEsc chunk1.tail with
          | none => none
          | some (hi, chunk2) => parseRanges fuel chunk2 ((lo, hi) :: acc)
        else parseRanges fuel chunk1 ((lo, lo) :: acc)

/-- The elements of a pattern; `none` is `ErrBadPattern`. -/
def parsePattern : Nat → List Char → Option (List PatTok)
  | _, [] => some []
  | 0, _ :: _ => none
  | fuel + 1, c :: rest =>
    if c = '*' then (parsePattern fuel rest).map (fun ts => PatTok.star :: ts)
    else if c = '?' then (parsePattern fuel rest).map (fun ts => PatTok.anyChar :: ts)
    else if c = '[' then
      match parseRanges rest.length (if rest.head? = some '^' then rest.tail else rest) [] with
      | none => none
      | some (rs, rest1) =>
        (parsePattern fuel rest1).map (fun ts => PatTok.cls (rest.head? = some '^') rs :: ts)
    else if c = '\\' then
      match rest with
      | [] => none
      | d :: rest1 => (parsePattern fuel rest1).map (fun ts => PatTok.lit d :: ts)
    else (parsePattern fuel rest).map (fun ts => PatTok.lit c :: ts)

/-- The suffixes a star can leave: it consumes any run without a separator. -/
def starTails : List Char → List (List Char)
  | [] => [[]]
  | c :: s => (c :: s) :: (if c = '/' then [] else starTails s)

/-- Whether the pattern elements match the whole name. -/
def matchToks : List PatTok → List Char → Bool
  | [], s => s.isEmpty
  | PatTok.star :: ts, s => (starTails s).any (fun t => matchToks ts t)
  | PatTok.anyChar :: ts, c :: s => c ≠ '/' && matchToks ts s
  | PatTok.lit a :: ts, c :: s => a = c && matchToks ts s
  | PatTok.cls neg rs :: ts, c :: s =>
    ((rs.any (fun r => r.1.toNat ≤ c.toNat && c.toNat ≤ r.2.toNat)) != neg) && matchToks ts s
  | _ :: _, [] => false

/-- Go's `filepath.Match` on Unix; `none` is `ErrBadPattern`. -/
def Match (pattern name : String) : Option Bool :=
  (parsePattern pattern.data.length pattern.data).map (fun ts => matchToks ts name.data)

/-- Go's `hasMeta` on Unix. -/
def hasMeta (s : String) : Bool :=
  s.data.any (fun c => c = '*' || c = '?' || c = '[' || c = '\\')

/-- Go's `glob(dir, pattern, matches)`: the entries of one directory whose
name matches, in name order; nothing when `dir` is not a directory. -/
def globDir (fs : FS) (dir : Path) (pattern : String) : List Path :=
  match readDir fs dir with
  | none => []
  | some entries =>
    (entries.filter (fun e => Match pattern e.1 = some true)).map (fun e => dir ++ [e.1])

/-- Go's `filepath.Glob` on a pattern given by its components, last one
first. The directory part is itself a pattern: when it holds a metacharacter
it is expanded recursively. `none` is `ErrBadPattern`. -/
def globRev (fs : FS) : List String → Option (List Path)
  | [] => some [[]]
  | file :: rdir =>
    if (file :: rdir).any (fun c => (Match c "").isNone) then none
    else if ¬ (file :: rdir).any hasMeta then
      (if (stat fs (rdir.reverse ++ [file])).isSome then some [rdir.reverse ++ [file]] else some [])
    else if ¬ rdir.any hasMeta then some (globDir fs rdir.reverse file)
    else
      match globRev fs rdir with
      | none => none
      | some m => some (m.flatMap (fun d => globDir fs d file))

/-- `filepath.Glob(filepath.Join(dir, pattern))`. -/
def Glob (fs : FS) (dir : Path) (pattern : String) : Option (List Path) :=
  globRev fs (pattern :: dir.reverse)

/-- The image patterns of the program. -/
def imageExtensions : List String := ["*.jpg", "*.JPG", "*.jpeg", "*.JPEG"]

/-- The video patterns of the program. -/
def videoExtensions : List String := ["*.mov", "*.MOV"]

/-- The glob loop shared by the operations: the matches of each pattern in
turn, appended; the first failing glob ends it. -/
def globAll (fs : FS) (dir : Path) : List String → Option (List Path)
  | [] => some []
  | pattern :: rest =>
    match Glob fs dir pattern with
    | none => none
    | some files => (globAll fs dir rest).map (fun more => files ++ more)

/-! ## OrganiseVideosAndRenameJPGs -/

/-- The rename loop of `organiseVideos`; `i` is the loop index. -/
def organiseVideosLoop (videosDir : Path) (videosName : String) : List Path → Nat → FS → FS × Option Err
  | [], _, fs => (fs, none)
  | file :: rest, i, fs =>
    match rename fs file (videosDir ++ [seqName videosName (i + 1) (Ext file)]) with
    | none => (fs, some Err.io)
    | some fs1 => organiseVideosLoop videosDir videosName rest (i + 1) fs1

/-- The `organiseVideos` step on one bucket. -/
def organiseVideos (fs : FS) (dir : Path) (dirName : String) : FS × Option Err :=
  match globAll fs dir videoExtensions with
  | none => (fs, some Err.badPattern)
  | some videoFiles =>
    if videoFiles.length = 0 then (fs, none)
    else
      match mkdirAll fs (dir ++ ["videos"]) with
      | none => (fs, some Err.io)
      | some fs1 =>
        if (Fields dirName).length ≠ 4 then (fs1, some Err.format)
        else organiseVideosLoop (dir ++ ["videos"]) (Join (Fields dirName) "_") (sortPaths videoFiles) 0 fs1

/-- The rename loop of `renameJPGs`; `i` is the loop index. -/
def renameJPGsLoop (dir : Path) (picsName : String) : List Path → Nat → FS → FS × Option Err
  | [], _, fs => (fs, none)
  | file :: rest, i, fs =>
    match rename fs file (dir ++ [seqName picsName (i + 1) ".jpg"]) with
    | none => (fs, some Err.io)
    | some fs1 => renameJPGsLoop dir picsName rest (i + 1) fs1

/-- The `renameJPGs` step on one bucket. -/
def renameJPGs (fs : FS) (dir : Path) (dirName : String) : FS × Option Err :=
  match globAll fs dir imageExtensions with
  | none => (fs, some Err.badPattern)
  | some imageFiles =>
    if imageFiles.length = 0 then (fs, none)
    else if (Fields dirName).length ≠ 4 then (fs, some Err.format)
    else renameJPGsLoop dir (Join (Fields dirName) "_") (sortPaths imageFiles) 0 fs

/-- The loop of `OrganiseVideosAndRenameJPGs` over the entries read at the
start: both steps on every directory entry, stopping at the first error. -/
def organiseBucketsLoop (targetDir : Path) : List (String × Bool) → FS → FS × Option Err
  | [], fs => (fs, none)
  | (name, isDir) :: rest, fs =>
    if ¬ isDir then organiseBucketsLoop targetDir rest fs
    else
      match organiseVideos fs (targetDir ++ [name]) name with
      | (fs1, some e) => (fs1, some e)
      | (fs1, none) =>
        match renameJPGs fs1 (targetDir ++ [name]) name with
        | (fs2, some e) => (fs2, some e)
        | (fs2, none) => organiseBucketsLoop targetDir rest fs2

/-- `OrganiseVideosAndRenameJPGs(targetDir)`. -/
def OrganiseVideosAndRenameJPGs (fs : FS) (targetDir : Path) : FS × Option Err :=
  match readDir fs targetDir with
  | none => (fs, some Err.io)
  | some entries => organiseBucketsLoop targetDir entries fs

/-! ## RenameDirectory -/

/-- Go's `filepath.Base` of an absolute cleaned path. -/
def Base (p : Path) : String :=
  match p.getLast? with
  | none => "/"
  | some n => n

/-- The pieces of a string between its separators `/`. -/
def splitSlash : List Char → List (List Char)
  | [] => [[]]
  | c :: cs =>
    if c = '/' then [] :: splitSlash cs
    else
      match splitSlash cs with
      | [] => [[c]]
      | piece :: pieces => (c :: piece) :: pieces

/-- Go's `filepath.Join(dir, elem)` for an absolute cleaned `dir`: the
elements of `elem` are appended, `.` and empty elements dropped, `..` removing
the element before it. -/
def joinPath (dir : Path) (elem : String) : Path :=
  (splitSlash elem.data).foldl
    (fun acc piece =>
      if piece = [] ∨ piece = ['.'] then acc
      else if piece = ['.', '.'] then acc.dropLast
      else acc ++ [String.mk piece])
    dir

/-- The image rename loop of `RenameDirectory`. -/
def renameImagesLoop (absDir : Path) (newBaseName : String) : List Path → Nat → FS → FS × Option Err
  | [], _, fs => (fs, none)
  | file :: rest, i, fs =>
    match rename fs file (joinPath absDir (seqName newBaseName (i + 1) ".jpg")) with
    | none => (fs, some Err.io)
    | some fs1 => renameImagesLoop absDir newBaseName rest (i + 1) fs1

/-- The video rename loop of `RenameDirectory`. -/
def renameVideosLoop (videosDir : Path) (newBaseName : String) : List Path → Nat → FS → FS × Option Err
  | [], _, fs => (fs, none)
  | file :: rest, i, fs =>
    match rename fs file (joinPath videosDir (seqName newBaseName (i + 1) (Ext file))) with
    | none => (fs, some Err.io)
    | some fs1 => renameVideosLoop videosDir newBaseName rest (i + 1) fs1

/-- New directory name: the first four fields of the old one, then the new
name when it is not empty. -/
def newDirName (baseName newName : String) : String :=
  if newName ≠ "" then String.mk ((Join ((Fields baseName).take 4) " ").data ++ ' ' :: newName.data)
  else Join ((Fields baseName).take 4) " "

/-- Final step of `RenameDirectory`: the directory itself, when its path changes. -/
def renameDirStep (fs : FS) (absDir newDirPath : Path) : FS × Option Err :=
  if absDir ≠ newDirPath then
    match rename fs absDir newDirPath with
    | none => (fs, some Err.io)
    | some fs1 => (fs1, none)
  else (fs, none)

/-- Video step of `RenameDirectory`, then the final step. -/
def renameVideosStep (fs : FS) (absDir newDirPath : Path) (newDir : String) : FS × Option Err :=
  if isDirAt fs (absDir ++ ["videos"]) then
    match globAll fs (absDir ++ ["videos"]) videoExtensions with
    | none => (fs, some Err.badPattern)
    | some videoFiles =>
      if videoFiles.length > 0 then
        match renameVideosLoop (absDir ++ ["videos"]) (replaceSpaces newDir) (sortPaths videoFiles) 0 fs with
        | (fs1, some e) => (fs1, some e)
        | (fs1, none) => renameDirStep fs1 absDir newDirPath
      else renameDirStep fs absDir newDirPath
  else renameDirStep fs absDir newDirPath

/-- Image step of `RenameDirectory`, then the following steps. -/
def renameImagesStep (fs : FS) (absDir newDirPath : Path) (newDir : String) : FS × Option Err :=
  match globAll fs absDir imageExtensions with
  | none => (fs, some Err.badPattern)
  | some imageFiles =>
    if imageFiles.length > 0 then
      match renameImagesLoop absDir (replaceSpaces newDir) (sortPaths imageFiles) 0 fs with
      | (fs1, some e) => (fs1, some e)
      | (fs1, none) => renameVideosStep fs1 absDir newDirPath newDir
    else renameVideosStep fs absDir newDirPath newDir

/-- `RenameDirectory(directory, newName)`, `absDir` being the absolute cleaned
form of `directory`. -/
def RenameDirectory (fs : FS) (absDir : Path) (newName : String) : FS × Option Err :=
  match stat fs absDir with
  | none => (fs, some Err.notExist)
  | some (Node.file _ _) => (fs, some Err.notDirectory)
  | some Node.dir =>
    if (Fields (Base absDir)).length < 4 then (fs, some Err.format)
    else if absDir ≠ joinPath (parent absDir) (newDirName (Base absDir) newName) ∧
        (stat fs (joinPath (parent absDir) (newDirName (Base absDir) newName))).isSome then
      (fs, some Err.targetExists)
    else
      renameImagesStep fs absDir (joinPath (parent absDir) (newDirName (Base absDir) newName))
        (newDirName (Base absDir) newName)

/-- Well-formed state: one binding per path, and the parent of every entry is
a directory. -/
def WF (fs : FS) : Prop :=
  (fs.map Prod.fst).Nodup ∧ ∀ e ∈ fs, e.1 ≠ [] ∧ stat fs (parent e.1) = some Node.dir

instance (fs : FS) : Decidable (WF fs) := inferInstanceAs (Decidable (_ ∧ _))

/-- The date 2023-06-15 of the test files. -/
def c1Date : Time := ⟨2023, Month.June, 14⟩

/-- A flat source directory with two images of 2023-06-15. -/
def c1Fs : FS :=
  [(["source"], Node.dir),
   (["source", "image1.jpg"], Node.file c1Date "one"),
   (["source", "image2.jpeg"], Node.file c1Date "two")]

/-- A source directory that is itself the bucket of its file under `/t`. -/
def c1BucketFs : FS :=
  [(["t"], Node.dir),
   (["t", "2023 06 June 15"], Node.dir),
   (["t", "2023 06 June 15", "image1.jpg"], Node.file c1Date "one")]

/-- A sequence of renames, each source to its destination, stopping at the
first failure. -/
def renamePairs : List (Path × Path) → FS → FS × Option Err
  | [], fs => (fs, none)
  | (a, b) :: rest, fs =>
    match rename fs a b with
    | none => (fs, some Err.io)
    | some fs1 => renamePairs rest fs1

/-- The sources of a numbering loop with their destinations. -/
def seqPairs (dest : Nat → Path → Path) : List Path → Nat → List (Path × Path)
  | [], _ => []
  | f :: rest, i => (f, dest i f) :: seqPairs dest rest (i + 1)

/-- The number a string of decimal digits denotes. -/
def digitsValue (l : List Char) : Nat := l.foldl (fun acc c => 10 * acc + (c.toNat - 48)) 0

/-- A character that `filepath.Match` reads specially. -/
def isMetaChar (c : Char) : Bool := c = '*' || c = '?' || c = '[' || c = '\\'

/-- No metacharacter in any component of the path. -/
def noMeta (p : Path) : Bool := p.all (fun c => !hasMeta c)

/-- Whether the name matches one of the image patterns of the program. -/
def isImageName (n : String) : Bool := imageExtensions.any (fun pat => Match pat n == some true)

/-- Whether the name matches one of the video patterns of the program. -/
def isVideoName (n : String) : Bool := videoExtensions.any (fun pat => Match pat n == some true)

/-- The names of the entries of a directory that satisfy `pred`, in the
order of `ReadDir` (ascending); empty when `dir` is not a directory. -/
def entriesMatching (fs : FS) (dir : Path) (pred : String → Bool) : List String :=
  (((readDir fs dir).getD []).filter (fun e => pred e.1)).map Prod.fst

/-- A star pattern followed by plain characters. -/
def StarPattern (pat : String) : Prop :=
  ∃ lits : List Char, pat = String.mk ('*' :: lits) ∧ ∀ c ∈ lits, isMetaChar c = false

/-- The date of the files of the examples. -/
def c2Date : Time := ⟨2023, Month.June, 14⟩

/-- A bucket with two images in mixed extension spelling, and a stray file. -/
def c2Fs : FS :=
  [(["t"], Node.dir),
   (["t", "2023 06 June 15"], Node.dir),
   (["t", "2023 06 June 15", "img1.JPG"], Node.file c2Date "one"),
   (["t", "2023 06 June 15", "img0.jpeg"], Node.file c2Date "zero"),
   (["t", "random.txt"], Node.file c2Date "r")]

/-- A bucket where a new image sorts before an image that bears a canonical name. -/
def c2ClashFs : FS :=
  [(["t"], Node.dir),
   (["t", "2023 06 June 15"], Node.dir),
   (["t", "2023 06 June 15", "0.jpg"], Node.file c2Date "new"),
   (["t", "2023 06 June 15", "2023_06_June_15_00001.jpg"], Node.file c2Date "old")]

/-- A bucket under a target directory whose name holds a bracket. -/
def c2MetaFs : FS :=
  [(["p[x]"], Node.dir),
   (["p[x]", "2023 06 June 15"], Node.dir),
   (["p[x]", "2023 06 June 15", "a.jpg"], Node.file c2Date "a")]

/-- The date of the files of the examples. -/
def c3Date : Time := ⟨2023, Month.June, 14⟩

/-- A bucket with one image and two videos in mixed extension case. -/
def c3Fs : FS :=
  [(["t"], Node.dir),
   (["t", "2023 06 June 15"], Node.dir),
   (["t", "2023 06 June 15", "img1.jpg"], Node.file c3Date "i"),
   (["t", "2023 06 June 15", "vid2.MOV"], Node.file c3Date "two"),
   (["t", "2023 06 June 15", "vid1.mov"], Node.file c3Date "one")]

/-- A bucket with one video under a target directory whose name holds a bracket. -/
def c3MetaFs : FS :=
  [(["p[x]"], Node.dir),
   (["p[x]", "2023 06 June 15"], Node.dir),
   (["p[x]", "2023 06 June 15", "clip.mov"], Node.file c3Date "c")]

/-- A bucket with one video file and a subdirectory named like a video. -/
def c3DirFs : FS :=
  [(["t"], Node.dir),
   (["t", "2023 06 June 15"], Node.dir),
   (["t", "2023 06 June 15", "a.mov"], Node.dir),
   (["t", "2023 06 June 15", "b.mov"], Node.file c3Date "b")]

/-- The date of the files of the examples. -/
def c4Date : Time := ⟨2023, Month.June, 14⟩

/-- The directory `/a/2023 06 June 15 Paris` holding `x.jpg`. -/
def c4Fs : FS :=
  [(["a"], Node.dir),
   (["a", "2023 06 June 15 Paris"], Node.dir),
   (["a", "2023 06 June 15 Paris", "x.jpg"], Node.file c4Date "x")]

/-- A directory where a new image sorts before an image that bears a name of the new pattern. -/
def c4ClashFs : FS :=
  [(["a"], Node.dir),
   (["a", "2023 06 June 15 Paris"], Node.dir),
   (["a", "2023 06 June 15 Paris", "0.jpg"], Node.file c4Date "new"),
   (["a", "2023 06 June 15 Paris", "2023_06_June_15_Rome_00001.jpg"], Node.file c4Date "old")]

/-- The directory of the example under a parent whose name holds a bracket. -/
def c4MetaFs : FS :=
  [(["p[x]"], Node.dir),
   (["p[x]", "2023 06 June 15 Paris"], Node.dir),
   (["p[x]", "2023 06 June 15 Paris", "x.jpg"], Node.file c4Date "x")]

/-- A directory with an image and a subdirectory that bears a name of the new pattern. -/
def c4DirFs : FS :=
  [(["a"], Node.dir),
   (["a", "2023 06 June 15 Paris"], Node.dir),
   (["a", "2023 06 June 15 Paris", "0.jpg"], Node.file c4Date "new"),
   (["a", "2023 06 June 15 Paris", "2023_06_June_15_Rome_00001.jpg"], Node.dir)]

/-- A directory whose `videos` subdirectory holds a video and a subdirectory
that bears a name of the new pattern. -/
def c4VideoFs : FS :=
  [(["a"], Node.dir),
   (["a", "2023 06 June 15 Paris"], Node.dir),
   (["a", "2023 06 June 15 Paris", "videos"], Node.dir),
   (["a", "2023 06 June 15 Paris", "videos", "0.mov"], Node.file c4Date "v"),
   (["a", "2023 06 June 15 Paris", "videos", "2023_06_June_15_Rome_00001.mov"], Node.dir)]

/-- Whether a node is a regular file. -/
def Node.isFile : Node → Bool
  | .file _ _ => true
  | .dir => false

/-- The number of regular files in the tree under `root`. -/
def fileCount (fs : FS) (root : Path) : Nat :=
  (fs.filter (fun e => decide (root <+: e.1) && e.2.isFile)).length

/-- The date of the files of the examples. -/
def c5Date : Time := ⟨2023, Month.June, 14⟩

/-- A bucket that was normalised before, `videos` holding one video, into
which a new video has been put. -/
def c5VideosFs : FS :=
  [(["t"], Node.dir),
   (["t", "2023 06 June 15"], Node.dir),
   (["t", "2023 06 June 15", "videos"], Node.dir),
   (["t", "2023 06 June 15", "videos", "2023_06_June_15_00001.mov"], Node.file c5Date "old"),
   (["t", "2023 06 June 15", "clip.mov"], Node.file c5Date "new")]

/-- A bucket that was normalised before, holding one image, into which a new
image has been put that sorts before it. -/
def c5ImagesFs : FS :=
  [(["t"], Node.dir),
   (["t", "2023 06 June 15"], Node.dir),
   (["t", "2023 06 June 15", "2023_06_June_15_00001.jpg"], Node.file c5Date "old"),
   (["t", "2023 06 June 15", "20230615_103000.jpg"], Node.file c5Date "new")]

/-- A source with one image and a target whose bucket of that day already
holds an image of the same name. -/
def c5DateFs : FS :=
  [(["s"], Node.dir),
   (["s", "IMG_0001.jpg"], Node.file c5Date "new"),
   (["t"], Node.dir),
   (["t", "2023 06 June 15"], Node.dir),
   (["t", "2023 06 June 15", "IMG_0001.jpg"], Node.file c5Date "old")]

/-- A renamed bucket into which a new image has been put that sorts before
the image it holds. -/
def c5RenameFs : FS :=
  [(["a"], Node.dir),
   (["a", "2023 06 June 15 Paris"], Node.dir),
   (["a", "2023 06 June 15 Paris", "2023_06_June_15_Paris_00001.jpg"], Node.file c5Date "old"),
   (["a", "2023 06 June 15 Paris", "20230615_103000.jpg"], Node.file c5Date "new")]

/-- The date of the files of the examples. -/
def c6Date : Time := ⟨2023, Month.June, 14⟩

/-- Two sibling buckets, `Paris` and `Rome`, each with an image. -/
def c6Fs : FS :=
  [(["a"], Node.dir),
   (["a", "2023 06 June 15 Paris"], Node.dir),
   (["a", "2023 06 June 15 Paris", "x.jpg"], Node.file c6Date "x"),
   (["a", "2023 06 June 15 Rome"], Node.dir),
   (["a", "2023 06 June 15 Rome", "y.jpg"], Node.file c6Date "y")]

/-- Whether the bucket `dir` named `name` is in normal form: no video entry
directly inside, image entries that are regular files and bear, in ascending
order, the names `<prefix>_<%05d of 1>.jpg`, `<prefix>_<%05d of 2>.jpg`, ...,
and a four-field name when there is an image. -/
def normalised (fs : FS) (dir : Path) (name : String) : Bool :=
  (entriesMatching fs dir isVideoName).isEmpty &&
  (entriesMatching fs dir isImageName ==
    (List.range (entriesMatching fs dir isImageName).length).map
      (fun k => seqName (Join (Fields name) "_") (k + 1) ".jpg")) &&
  (entriesMatching fs dir isImageName).all (fun n => isFileAt fs (dir ++ [n])) &&
  ((entriesMatching fs dir isImageName).isEmpty || (Fields name).length == 4)

/-- Whether the directory has an entry matching a video or an image pattern. -/
def hasMatching (fs : FS) (dir : Path) : Bool :=
  !(entriesMatching fs dir isVideoName).isEmpty || !(entriesMatching fs dir isImageName).isEmpty

/-- Whether the character is a decimal digit. -/
def isDigit (c : Char) : Bool := decide (48 ≤ c.toNat) && decide (c.toNat ≤ 57)

/-- Whether none of the image entries of `dir` already bears the name that an
image before it in ascending order is to receive. -/
def noClash (fs : FS) (dir : Path) (pics : String) : Bool :=
  (List.range (entriesMatching fs dir isImageName).length).all (fun j =>
    (List.range j).all (fun i =>
      (entriesMatching fs dir isImageName)[j]? != some (seqName pics (i + 1) ".jpg")))

/-- Whether the images of the bucket `dir` named `name` can be renumbered
without replacing one of them: the name holds no separator, the image entries
are regular files, fewer than 100000, and none bears the name that an image
before it in ascending order is to receive. -/
def cleanBucket (fs : FS) (dir : Path) (name : String) : Bool :=
  decide ('/' ∉ name.data) &&
    (entriesMatching fs dir isImageName).all (fun n => isFileAt fs (dir ++ [n])) &&
    decide ((entriesMatching fs dir isImageName).length < 100000) &&
    noClash fs dir (Join (Fields name) "_")

/-- The date of the files of the examples. -/
def c7Date : Time := ⟨2023, Month.June, 14⟩

/-- A target with a bucket of two images and one video, an empty directory
and a text file. -/
def c7Fs : FS :=
  [(["t"], Node.dir),
   (["t", "2023 06 June 15"], Node.dir),
   (["t", "2023 06 June 15", "img2.JPG"], Node.file c7Date "b"),
   (["t", "2023 06 June 15", "img1.jpg"], Node.file c7Date "a"),
   (["t", "2023 06 June 15", "vid1.mov"], Node.file c7Date "v"),
   (["t", "misc"], Node.dir),
   (["t", "random.txt"], Node.file c7Date "r")]

/-- A bucket where a new image sorts before an image that bears a canonical name. -/
def c7ClashFs : FS :=
  [(["t"], Node.dir),
   (["t", "2023 06 June 15"], Node.dir),
   (["t", "2023 06 June 15", "0.jpg"], Node.file c7Date "new"),
   (["t", "2023 06 June 15", "2023_06_June_15_00001.jpg"], Node.file c7Date "old")]

/-- A bucket that holds a subdirectory named like an image. -/
def c7DirFs : FS :=
  [(["t"], Node.dir),
   (["t", "2023 06 June 15"], Node.dir),
   (["t", "2023 06 June 15", "album.jpg"], Node.dir)]

/-- A target with an image in the bucket `2023 06 June 5` and two empty
subdirectories whose names hold glob metacharacters: as patterns,
`2023 06 June [15]` matches the name of the bucket and `2023 06 June ?15]`
matches the name `2023 06 June [15]`. -/
def c7MetaFs : FS :=
  [(["t"], Node.dir),
   (["t", "2023 06 June 5"], Node.dir),
   (["t", "2023 06 June 5", "a.jpg"], Node.file c7Date "a"),
   (["t", "2023 06 June ?15]"], Node.dir),
   (["t", "2023 06 June [15]"], Node.dir)]

/-- The date of the files of the examples. -/
def c8Date : Time := ⟨2023, Month.June, 14⟩

/-- The directory `/a/2023 06 June 15 Paris` holding two unnumbered images
and a numbered video under `videos`. -/
def c8Fs : FS :=
  [(["a"], Node.dir),
   (["a", "2023 06 June 15 Paris"], Node.dir),
   (["a", "2023 06 June 15 Paris", "y.JPG"], Node.file c8Date "y"),
   (["a", "2023 06 June 15 Paris", "x.jpg"], Node.file c8Date "x"),
   (["a", "2023 06 June 15 Paris", "videos"], Node.dir),
   (["a", "2023 06 June 15 Paris", "videos", "v.mov"], Node.file c8Date "v")]

/-- A directory where a new image sorts before an image that bears a name of
the pattern of the directory. -/
def c8ClashFs : FS :=
  [(["a"], Node.dir),
   (["a", "2023 06 June 15 Paris"], Node.dir),
   (["a", "2023 06 June 15 Paris", "0.jpg"], Node.file c8Date "new"),
   (["a", "2023 06 June 15 Paris", "2023_06_June_15_Paris_00001.jpg"], Node.file c8Date "old")]

/-- The directory of the example under a parent whose name holds a bracket. -/
def c8MetaFs : FS :=
  [(["p[x]"], Node.dir),
   (["p[x]", "2023 06 June 15 Paris"], Node.dir),
   (["p[x]", "2023 06 June 15 Paris", "x.jpg"], Node.file c8Date "x")]

/-- The date of the files of the examples. -/
def c9Date : Time := ⟨2023, Month.June, 14⟩

/-- A target with an empty directory `empty dir`, a directory `misc` holding
an image, and a well-named bucket holding an image. -/
def c9Fs : FS :=
  [(["t"], Node.dir),
   (["t", "empty dir"], Node.dir),
   (["t", "misc"], Node.dir),
   (["t", "misc", "a.jpg"], Node.file c9Date "a"),
   (["t", "2023 06 June 15"], Node.dir),
   (["t", "2023 06 June 15", "img1.jpg"], Node.file c9Date "i")]

/-- A target with an empty directory named `*` and a well-named bucket with an image. -/
def c9StarFs : FS :=
  [(["t"], Node.dir),
   (["t", "*"], Node.dir),
   (["t", "2023 06 June 15"], Node.dir),
   (["t", "2023 06 June 15", "img1.jpg"], Node.file c9Date "i")]

/-- A target with an empty directory named `a[`. -/
def c9BracketFs : FS :=
  [(["t"], Node.dir),
   (["t", "a["], Node.dir)]

/-- The date of the files of the examples: 15 June 2023. -/
def c10Date : Time := ⟨2023, Month.June, 14⟩

/-- A source with an image and a subdirectory `keep` holding an image, and an
empty target. -/
def c10Fs : FS :=
  [(["s"], Node.dir),
   (["s", "keep"], Node.dir),
   (["s", "keep", "inner.jpg"], Node.file c10Date "k"),
   (["s", "x.jpg"], Node.file c10Date "x"),
   (["t"], Node.dir)]

/-- A directory, source and target at once, with an image and the bucket of
its day from an earlier call. -/
def c10SameFs : FS :=
  [(["s"], Node.dir),
   (["s", "2023 06 June 15"], Node.dir),
   (["s", "2023 06 June 15", "old.jpg"], Node.file c10Date "o"),
   (["s", "x.jpg"], Node.file c10Date "x")]

/-- A source with an image and a subdirectory `sorted` that is the target. -/
def c10InsideFs : FS :=
  [(["s"], Node.dir),
   (["s", "sorted"], Node.dir),
   (["s", "x.jpg"], Node.file c10Date "x")]

/-- The name a video of `videos` receives in `RenameDirectory`: number `k+1`
and the extension of the old name `n`. -/
def videoSeqName (vd : Path) (nb : String) (k : Nat) (n : String) : String :=
  seqName nb (k + 1) (Ext (vd ++ [n]))

/-- The date of the files of the examples. -/
def c11Date : Time := ⟨2023, Month.June, 14⟩

/-- The directory `/a/2023 06 June 15 Paris` with one image and, under
`videos`, two videos in mixed extension case and a text file. -/
def c11Fs : FS :=
  [(["a"], Node.dir),
   (["a", "2023 06 June 15 Paris"], Node.dir),
   (["a", "2023 06 June 15 Paris", "x.jpg"], Node.file c11Date "x"),
   (["a", "2023 06 June 15 Paris", "videos"], Node.dir),
   (["a", "2023 06 June 15 Paris", "videos", "v2.MOV"], Node.file c11Date "two"),
   (["a", "2023 06 June 15 Paris", "videos", "v1.mov"], Node.file c11Date "one"),
   (["a", "2023 06 June 15 Paris", "videos", "notes.txt"], Node.file c11Date "n")]

/-- The directory of the example, with one video, under a parent whose name
holds a bracket. -/
def c11MetaFs : FS :=
  [(["p[x]"], Node.dir),
   (["p[x]", "2023 06 June 15 Paris"], Node.dir),
   (["p[x]", "2023 06 June 15 Paris", "videos"], Node.dir),
   (["p[x]", "2023 06 June 15 Paris", "videos", "v1.mov"], Node.file c11Date "one")]

/-- A directory whose `videos` holds a new video that sorts before a video
bearing a name of the new pattern. -/
def c11ClashFs : FS :=
  [(["a"], Node.dir),
   (["a", "2023 06 June 15 Paris"], Node.dir),
   (["a", "2023 06 June 15 Paris", "videos"], Node.dir),
   (["a", "2023 06 June 15 Paris", "videos", "0.mov"], Node.file c11Date "new"),
   (["a", "2023 06 June 15 Paris", "videos", "2023_06_June_15_Rome_00001.mov"],
     Node.file c11Date "old")]

/-- A directory whose `videos` holds one video file and a subdirectory named
like a video. -/
def c11DirFs : FS :=
  [(["a"], Node.dir),
   (["a", "2023 06 June 15 Paris"], Node.dir),
   (["a", "2023 06 June 15 Paris", "videos"], Node.dir),
   (["a", "2023 06 June 15 Paris", "videos", "a.mov"], Node.dir),
   (["a", "2023 06 June 15 Paris", "videos", "b.mov"], Node.file c11Date "b")]

/-- The date of the files of the examples. -/
def c12Date : Time := ⟨2023, Month.June, 14⟩

/-- The bucket of the test `OnlyImages`: `img1.jpg` and `img2.jpeg`. -/
def c12JpegFs : FS :=
  [(["t"], Node.dir),
   (["t", "2023 06 June 15"], Node.dir),
   (["t", "2023 06 June 15", "img1.jpg"], Node.file c12Date "one"),
   (["t", "2023 06 June 15", "img2.jpeg"], Node.file c12Date "two")]

/-- The bucket of the test `PreservesExtensionCase`: `img1.JPG`, `img2.HEIC`
and `vid1.MOV`. -/
def c12UpperFs : FS :=
  [(["t"], Node.dir),
   (["t", "2023 06 June 15"], Node.dir),
   (["t", "2023 06 June 15", "img1.JPG"], Node.file c12Date "one"),
   (["t", "2023 06 June 15", "img2.HEIC"], Node.file c12Date "two"),
   (["t", "2023 06 June 15", "vid1.MOV"], Node.file c12Date "v")]

/-- The bucket of the first test of the normaliser: `img1.jpg`, `img2.heic`,
`vid1.mov` and `vid2.MOV`. -/
def c12HeicFs : FS :=
  [(["t"], Node.dir),
   (["t", "2023 06 June 15"], Node.dir),
   (["t", "2023 06 June 15", "img1.jpg"], Node.file c12Date "one"),
   (["t", "2023 06 June 15", "img2.heic"], Node.file c12Date "two"),
   (["t", "2023 06 June 15", "vid1.mov"], Node.file c12Date "v"),
   (["t", "2023 06 June 15", "vid2.MOV"], Node.file c12Date "w")]

/-- A list of 100000 paths `d/000000`, `d/000001`, ... in ascending order. -/
def c13Files : List Path :=
  (List.range 100000).map (fun k => ["d"] ++ [String.mk (zeroPad 6 k)])

/-- Three video paths, not in order. -/
def c13Videos : List Path := [["d", "c.MOV"], ["d", "a.mov"], ["d", "b.MOV"]]

/-- The date of the files of the examples. -/
def c14Date : Time := ⟨2023, Month.June, 14⟩

/-- A parent with a directory of six fields and a directory of three fields,
each holding an image. -/
def c14Fs : FS :=
  [(["a"], Node.dir),
   (["a", "2023 06 June 15 Paris by night"], Node.dir),
   (["a", "2023 06 June 15 Paris by night", "x.jpg"], Node.file c14Date "x"),
   (["a", "2023 06 June"], Node.dir),
   (["a", "2023 06 June", "y.jpg"], Node.file c14Date "y")]

/-- The date of the files of the examples. -/
def c15Date : Time := ⟨2023, Month.June, 14⟩

/-- The directory `/a/2023 06 June 15 Paris` with two images, a text file and,
under `videos`, two videos in mixed extension case. -/
def c15Fs : FS :=
  [(["a"], Node.dir),
   (["a", "2023 06 June 15 Paris"], Node.dir),
   (["a", "2023 06 June 15 Paris", "y.JPG"], Node.file c15Date "y"),
   (["a", "2023 06 June 15 Paris", "x.jpg"], Node.file c15Date "x"),
   (["a", "2023 06 June 15 Paris", "notes.txt"], Node.file c15Date "n"),
   (["a", "2023 06 June 15 Paris", "videos"], Node.dir),
   (["a", "2023 06 June 15 Paris", "videos", "v2.MOV"], Node.file c15Date "two"),
   (["a", "2023 06 June 15 Paris", "videos", "v1.mov"], Node.file c15Date "one")]

/-- The directory `/a/2023 06 June 15 Paris` with one image. -/
def c15OneFs : FS :=
  [(["a"], Node.dir),
   (["a", "2023 06 June 15 Paris"], Node.dir),
   (["a", "2023 06 June 15 Paris", "x.jpg"], Node.file c15Date "x")]

/-- A directory whose own name holds a bracket, with one image. -/
def c15MetaFs : FS :=
  [(["a"], Node.dir),
   (["a", "2023 06 June 15 [x]"], Node.dir),
   (["a", "2023 06 June 15 [x]", "x.jpg"], Node.file c15Date "x")]

/-- A directory with an image that sorts before an image bearing a name of the
pattern of `Rome`. -/
def c15ClashFs : FS :=
  [(["a"], Node.dir),
   (["a", "2023 06 June 15 Paris"], Node.dir),
   (["a", "2023 06 June 15 Paris", "0.jpg"], Node.file c15Date "new"),
   (["a", "2023 06 June 15 Paris", "2023_06_June_15_Rome_00001.jpg"], Node.file c15Date "old")]

/-! ## Theorems -/

theorem lookup_eq_none_iff (fs : FS) (p : Path) :
    lookup fs p = none ↔ p ∉ fs.map Prod.fst := by
  induction fs with
  | nil => simp [lookup]
  | cons e fs ih =>
    obtain ⟨q, n⟩ := e
    by_cases h : q = p
    · simp [lookup, h]
    · simp [lookup, h, ih, Ne.symm h]

theorem mem_of_lookup {fs : FS} {p : Path} {n : Node} (h : lookup fs p = some n) :
    (p, n) ∈ fs := by
  induction fs with
  | nil => simp [lookup] at h
  | cons e fs ih =>
    obtain ⟨q, m⟩ := e
    by_cases hq : q = p
    · simp [lookup, hq] at h
      simp [hq, h]
    · simp [lookup, hq] at h
      exact List.mem_cons_of_mem _ (ih h)

theorem lookup_of_mem {fs : FS} (hnd : (fs.map Prod.fst).Nodup) {p : Path} {n : Node}
    (h : (p, n) ∈ fs) : lookup fs p = some n := by
  induction fs with
  | nil => simp at h
  | cons e fs ih =>
    obtain ⟨q, m⟩ := e
    simp only [List.map_cons, List.nodup_cons] at hnd
    rcases List.mem_cons.1 h with h1 | h1
    · cases h1
      simp [lookup]
    · have : q ≠ p := by
        rintro rfl
        exact hnd.1 (List.mem_map_of_mem Prod.fst h1)
      simp [lookup, this, ih hnd.2 h1]

theorem lookup_append (fs gs : FS) (p : Path) :
    lookup (fs ++ gs) p = match lookup fs p with
      | some n => some n
      | none => lookup gs p := by
  induction fs with
  | nil => simp [lookup]
  | cons e fs ih =>
    obtain ⟨q, m⟩ := e
    by_cases hq : q = p
    · simp [lookup, hq]
    · simp [lookup, hq, ih]

theorem lookup_map_dir (l : List Path) (p : Path) :
    lookup (l.map (fun q => (q, Node.dir))) p = if p ∈ l then some Node.dir else none := by
  induction l with
  | nil => simp [lookup]
  | cons q l ih =>
    by_cases hq : q = p
    · simp [lookup, hq]
    · simp [lookup, hq, ih, Ne.symm hq]

theorem not_prefix_append_of_diverge {old new : Path} (h1 : ¬ new <+: old) (h2 : ¬ old <+: new)
    (r : Path) : ¬ new <+: old ++ r := by
  intro h
  rcases List.prefix_or_prefix_of_prefix h (List.prefix_append old r) with h3 | h3
  · exact h1 h3
  · exact h2 h3

theorem rekey_under (old new r : Path) : rekey old new (old ++ r) = new ++ r := by
  simp [rekey]

theorem rekey_outside {old p : Path} (new : Path) (h : ¬ old <+: p) : rekey old new p = p := by
  simp [rekey, h]

/-- Pointwise description of `moveTree`. -/
theorem lookup_moveTree (fs : FS) {old new : Path} (h1 : ¬ new <+: old) (h2 : ¬ old <+: new)
    (p : Path) :
    lookup (moveTree fs old new) p =
      if new <+: p then lookup fs (old ++ p.drop new.length)
      else if old <+: p then none else lookup fs p := by
  induction fs with
  | nil => simp [moveTree, lookup]
  | cons e fs ih =>
    obtain ⟨k, n⟩ := e
    unfold moveTree at ih ⊢
    by_cases hk : new <+: k
    · -- the entry is dropped
      simp only [List.filter_cons, hk, not_true_eq_false, decide_False, Bool.false_eq_true,
        if_false, ih]
      have hne1 : ∀ r, k ≠ old ++ r := by
        rintro r rfl
        exact not_prefix_append_of_diverge h1 h2 r hk
      by_cases hp : new <+: p
      · simp [hp, lookup, hne1]
      · have hkp : k ≠ p := by rintro rfl; exact hp hk
        by_cases hop : old <+: p
        · simp [hp, hop]
        · simp [hp, hop, lookup, hkp]
    · simp only [List.filter_cons, hk, not_false_eq_true, decide_True, if_true, List.map_cons,
        lookup, ih]
      by_cases hok : old <+: k
      · obtain ⟨s, rfl⟩ := hok
        rw [rekey_under]
        by_cases hp : new <+: p
        · obtain ⟨r, rfl⟩ := hp
          simp
        · have hne : new ++ s ≠ p := by rintro rfl; exact hp (List.prefix_append _ _)
          simp only [hne, if_false, hp]
          by_cases hop : old <+: p
          · simp [hop]
          · have : old ++ s ≠ p := by rintro rfl; exact hop (List.prefix_append _ _)
            simp [hop, this]
      · rw [rekey_outside _ hok]
        by_cases hp : new <+: p
        · have hkp : k ≠ p := by rintro rfl; exact hk hp
          have hkp2 : k ≠ old ++ List.drop new.length p := by
            rintro rfl; exact hok (List.prefix_append _ _)
          simp [hp, hkp, hkp2]
        · by_cases hop : old <+: p
          · have hkp : k ≠ p := by rintro rfl; exact hok hop
            simp [hp, hop, hkp]
          · simp [hp, hop]

theorem stat_cons_ne {fs : FS} {p : Path} (h : p ≠ []) : stat fs p = lookup fs p := by
  simp [stat, h]

theorem stat_isSome_mem {fs : FS} {p : Path} {n : Node} (h : stat fs p = some n) (hp : p ≠ []) :
    (p, n) ∈ fs := by
  rw [stat_cons_ne hp] at h
  exact mem_of_lookup h

theorem stat_of_mem {fs : FS} (hwf : WF fs) {p : Path} {n : Node} (h : (p, n) ∈ fs) :
    stat fs p = some n := by
  rw [stat_cons_ne (hwf.2 _ h).1]
  exact lookup_of_mem hwf.1 h

/-- In a well-formed state every proper ancestor of an existing path is a directory. -/
theorem WF.prefix_dir {fs : FS} (hwf : WF fs) (a : Path) :
    ∀ r : Path, r ≠ [] → (stat fs (a ++ r)).isSome → stat fs a = some Node.dir := by
  intro r
  induction r using List.reverseRecOn with
  | nil => intro h; exact absurd rfl h
  | append_singleton r x ih =>
    intro _ hs
    obtain ⟨n, hn⟩ := Option.isSome_iff_exists.1 hs
    have hne : a ++ (r ++ [x]) ≠ [] := by simp
    have hmem := stat_isSome_mem hn hne
    have hpar := (hwf.2 _ hmem).2
    have : parent (a ++ (r ++ [x])) = a ++ r := by
      simp [parent, ← List.append_assoc, List.dropLast_concat]
    rw [this] at hpar
    by_cases hr : r = []
    · simpa [hr] using hpar
    · exact ih hr (by simp [hpar])

theorem WF.no_child_of_file {fs : FS} (hwf : WF fs) {a : Path} {t : Time} {c : String}
    (ha : stat fs a = some (Node.file t c)) {r : Path} (hr : r ≠ []) : stat fs (a ++ r) = none := by
  by_contra h
  have := hwf.prefix_dir a r hr (Option.ne_none_iff_isSome.1 h)
  rw [ha] at this
  cases this

theorem WF.no_child_of_none {fs : FS} (hwf : WF fs) {a : Path}
    (ha : stat fs a = none) (r : Path) : stat fs (a ++ r) = none := by
  by_cases hr : r = []
  · simpa [hr] using ha
  · by_contra h
    have := hwf.prefix_dir a r hr (Option.ne_none_iff_isSome.1 h)
    rw [ha] at this
    cases this

theorem WF.parent_dir {fs : FS} (hwf : WF fs) {p : Path} (hp : p ≠ []) (h : (stat fs p).isSome) :
    stat fs (parent p) = some Node.dir := by
  obtain ⟨n, hn⟩ := Option.isSome_iff_exists.1 h
  exact (hwf.2 _ (stat_isSome_mem hn hp)).2

/-- Pointwise description of `moveTree` through `stat`. -/
theorem stat_moveTree (fs : FS) {old new : Path} (ho : old ≠ []) (hn : new ≠ [])
    (h1 : ¬ new <+: old) (h2 : ¬ old <+: new) (p : Path) :
    stat (moveTree fs old new) p =
      if new <+: p then stat fs (old ++ p.drop new.length)
      else if old <+: p then none else stat fs p := by
  by_cases hp : p = []
  · subst hp
    simp [stat, hn, ho]
  · rw [stat_cons_ne hp, lookup_moveTree fs h1 h2]
    by_cases hnp : new <+: p
    · simp [hnp, stat, ho]
    · simp [hnp, stat, hp]

/-- What a successful `rename` did: nothing (a file renamed to itself) or `moveTree`. -/
theorem rename_cases {fs fs1 : FS} (hwf : WF fs) {old new : Path} (h : rename fs old new = some fs1) :
    (old = new ∧ fs1 = fs ∧ isFileAt fs old = true) ∨
    (fs1 = moveTree fs old new ∧ old ≠ [] ∧ new ≠ [] ∧ old ≠ new ∧ (stat fs old).isSome ∧
      stat fs new ≠ some Node.dir ∧ stat fs (parent new) = some Node.dir ∧
      ¬ new <+: old ∧ ¬ old <+: new) := by
  unfold rename at h
  by_cases ho : old = []
  · simp [ho] at h
  · simp only [ho, if_false] at h
    have hnn : stat fs new ≠ some Node.dir := by
      intro hd
      rw [hd] at h
      cases hso : stat fs old <;> simp [hso] at h
    have hn : new ≠ [] := by
      rintro rfl
      exact hnn (by simp [stat])
    have hsome : (stat fs old).isSome := by
      cases hso : stat fs old with
      | none => simp [hso] at h
      | some _ => simp
    have hno : old ≠ new → ¬ new <+: old := by
      intro hne hpre
      obtain ⟨r, rfl⟩ := hpre
      have hr : r ≠ [] := by rintro rfl; simp at hne
      exact hnn (hwf.prefix_dir new r hr hsome)
    cases hso : stat fs old with
    | none => simp [hso] at h
    | some o =>
      cases hsn : stat fs new with
      | none =>
        simp only [hso, hsn] at h
        split at h
        · rename_i hc
          right
          have hne : old ≠ new := by
            rintro rfl
            rw [hso] at hsn; cases hsn
          simp only [Option.some.injEq] at h
          exact ⟨h.symm, ho, hn, hne, by simp, by simp, hc.1, hno hne, hc.2⟩
        · cases h
      | some m =>
        cases m with
        | dir => exact absurd hsn hnn
        | file t c =>
          cases o with
          | dir => simp [hso, hsn] at h
          | file t0 c0 =>
            simp only [hso, hsn] at h
            by_cases hon : old = new
            · left
              simp only [hon, if_true, Option.some.injEq] at h
              exact ⟨hon, h.symm, by simp [isFileAt, ← hon, hso]⟩
            · right
              simp only [hon, if_false, Option.some.injEq] at h
              refine ⟨h.symm, ho, hn, hon, by simp, by simp, hwf.parent_dir hn (by simp [hsn]), hno hon, ?_⟩
              intro hpre
              obtain ⟨r, rfl⟩ := hpre
              have hr : r ≠ [] := by rintro rfl; simp at hon
              have := hwf.prefix_dir old r hr (by simp [hsn])
              rw [hso] at this
              cases this

/-- Pointwise description of a successful `rename`. -/
theorem stat_rename {fs fs1 : FS} (hwf : WF fs) {old new : Path} (h : rename fs old new = some fs1)
    (p : Path) :
    stat fs1 p =
      if new <+: p then stat fs (old ++ p.drop new.length)
      else if old <+: p then none else stat fs p := by
  rcases rename_cases hwf h with ⟨hon, hfs, _⟩ | ⟨hfs, ho, hn, _, _, _, _, h1, h2⟩
  · subst hon hfs
    by_cases hp : old <+: p
    · obtain ⟨r, rfl⟩ := hp
      simp
    · simp [hp]
  · rw [hfs]
    exact stat_moveTree fs ho hn h1 h2 p

theorem moveTree_keys (fs : FS) (old new : Path) :
    (moveTree fs old new).map Prod.fst =
      ((fs.map Prod.fst).filter (fun k => decide (¬ new <+: k))).map (rekey old new) := by
  induction fs with
  | nil => simp [moveTree]
  | cons e fs ih =>
    unfold moveTree at ih ⊢
    by_cases hk : new <+: e.1
    · simpa [List.filter_cons, hk] using ih
    · simpa [List.filter_cons, hk] using ih

theorem nodup_inits (p : Path) : p.inits.Nodup := by
  induction p with
  | nil => simp
  | cons a l ih =>
    rw [List.inits_cons, List.nodup_cons]
    constructor
    · simp
    · exact ih.map (fun x y h => by simpa using h)

theorem rekey_injOn {old new : Path} {k1 k2 : Path}
    (hk1 : ¬ new <+: k1) (hk2 : ¬ new <+: k2) (h : rekey old new k1 = rekey old new k2) :
    k1 = k2 := by
  by_cases ho1 : old <+: k1
  · obtain ⟨s1, rfl⟩ := ho1
    by_cases ho2 : old <+: k2
    · obtain ⟨s2, rfl⟩ := ho2
      simpa [rekey_under] using h
    · rw [rekey_under, rekey_outside _ ho2] at h
      exact absurd (h ▸ List.prefix_append _ _) hk2
  · by_cases ho2 : old <+: k2
    · obtain ⟨s2, rfl⟩ := ho2
      rw [rekey_under, rekey_outside _ ho1] at h
      exact absurd (h ▸ List.prefix_append _ _) hk1
    · simpa [rekey_outside _ ho1, rekey_outside _ ho2] using h

theorem WF_moveTree {fs : FS} (hwf : WF fs) {old new : Path} (ho : old ≠ []) (hn : new ≠ [])
    (h1 : ¬ new <+: old) (h2 : ¬ old <+: new) (hpar : stat fs (parent new) = some Node.dir) :
    WF (moveTree fs old new) := by
  constructor
  · rw [moveTree_keys]
    apply List.Nodup.map_on
    · intro k1 hk1 k2 hk2 h
      simp only [List.mem_filter, decide_eq_true_eq] at hk1 hk2
      exact rekey_injOn hk1.2 hk2.2 h
    · exact hwf.1.filter _
  · intro e he
    unfold moveTree at he
    simp only [List.mem_map, List.mem_filter, decide_eq_true_eq] at he
    obtain ⟨⟨k, n⟩, ⟨hmem, hk⟩, rfl⟩ := he
    simp only
    have hkne := (hwf.2 _ hmem).1
    have hkpar := (hwf.2 _ hmem).2
    simp only at hkne hkpar hk
    by_cases hok : old <+: k
    · obtain ⟨s, rfl⟩ := hok
      rw [rekey_under]
      refine ⟨by simp [hn], ?_⟩
      rw [stat_moveTree fs ho hn h1 h2]
      by_cases hs : s = []
      · subst hs
        have hnp : ¬ new <+: parent (new ++ []) := by
          intro hp
          have := hp.length_le
          simp [parent] at this
          have : new.length ≠ 0 := by simpa using hn
          omega
        have hop : ¬ old <+: parent (new ++ []) := by
          intro hp
          apply h2
          simp only [List.append_nil, parent] at hp
          exact hp.trans (List.dropLast_prefix new)
        simp only [hnp, hop, if_false]
        simpa using hpar
      · have hpar2 : parent (new ++ s) = new ++ s.dropLast := by
          simp [parent, List.dropLast_append_of_ne_nil _ hs]
        have hpar3 : parent (old ++ s) = old ++ s.dropLast := by
          simp [parent, List.dropLast_append_of_ne_nil _ hs]
        rw [hpar2]
        rw [hpar3] at hkpar
        simpa using hkpar
    · rw [rekey_outside _ hok]
      refine ⟨hkne, ?_⟩
      rw [stat_moveTree fs ho hn h1 h2]
      have hnp : ¬ new <+: parent k := fun hp => hk (hp.trans (List.dropLast_prefix k))
      have hop : ¬ old <+: parent k := fun hp => hok (hp.trans (List.dropLast_prefix k))
      simpa [hnp, hop] using hkpar

/-- A successful `rename` keeps the state well-formed. -/
theorem WF_rename {fs fs1 : FS} (hwf : WF fs) {old new : Path} (h : rename fs old new = some fs1) :
    WF fs1 := by
  rcases rename_cases hwf h with ⟨_, hfs, _⟩ | ⟨hfs, ho, hn, _, _, _, hpar, h1, h2⟩
  · rw [hfs]; exact hwf
  · rw [hfs]; exact WF_moveTree hwf ho hn h1 h2 hpar

/-- Pointwise description of a successful `mkdirAll`. -/
theorem stat_mkdirAll {fs fs1 : FS} {p : Path} (h : mkdirAll fs p = some fs1) (q : Path) :
    stat fs1 q = match stat fs q with
      | some n => some n
      | none => if q <+: p then some Node.dir else none := by
  unfold mkdirAll at h
  split at h
  · cases h
  · simp only [Option.some.injEq] at h
    subst h
    by_cases hq : q = []
    · simp [stat, hq]
    · simp only [stat, hq, if_false, lookup_append, lookup_map_dir]
      cases hl : lookup fs q with
      | some n => simp
      | none =>
        simp only [List.mem_filter, List.mem_inits]
        by_cases hqp : q <+: p
        · simp [hqp, stat, hq, hl]
        · simp [hqp]

theorem mkdirAll_no_file {fs fs1 : FS} {p : Path} (h : mkdirAll fs p = some fs1) {q : Path}
    (hq : q <+: p) : isFileAt fs q = false := by
  unfold mkdirAll at h
  split at h
  · cases h
  · rename_i hany
    simp only [List.any_eq_true, List.mem_inits, not_exists, not_and, Bool.not_eq_true] at hany
    exact hany q hq

theorem mkdirAll_dir {fs fs1 : FS} {p : Path} (h : mkdirAll fs p = some fs1) {q : Path}
    (hq : q <+: p) : stat fs1 q = some Node.dir := by
  rw [stat_mkdirAll h]
  have hf := mkdirAll_no_file h hq
  unfold isFileAt at hf
  cases hs : stat fs q with
  | none => simp [hq]
  | some n =>
    cases n with
    | dir => rfl
    | file t c => simp [hs] at hf

theorem stat_mkdirAll_of_some {fs fs1 : FS} {p : Path} (h : mkdirAll fs p = some fs1) {q : Path}
    {n : Node} (hq : stat fs q = some n) : stat fs1 q = some n := by
  rw [stat_mkdirAll h, hq]

/-- A successful `mkdirAll` keeps the state well-formed. -/
theorem WF_mkdirAll {fs fs1 : FS} (hwf : WF fs) {p : Path} (h : mkdirAll fs p = some fs1) :
    WF fs1 := by
  have hstat := stat_mkdirAll h
  have hdir := fun q hq => mkdirAll_dir h (q := q) hq
  unfold mkdirAll at h
  split at h
  · cases h
  · simp only [Option.some.injEq] at h
    constructor
    · rw [← h, List.map_append, List.nodup_append]
      refine ⟨hwf.1, ?_, ?_⟩
      · rw [List.map_map]
        have : (Prod.fst ∘ fun q : Path => (q, Node.dir)) = id := rfl
        rw [this, List.map_id]
        exact (nodup_inits p).filter _
      · intro k hk1 hk2
        simp only [List.map_map, List.mem_map, List.mem_filter, Function.comp] at hk2
        obtain ⟨q, ⟨_, hq⟩, rfl⟩ := hk2
        have hq0 : q ≠ [] := by
          rintro rfl
          simp [stat] at hq
        rw [stat_cons_ne hq0, Option.isNone_iff_eq_none, lookup_eq_none_iff] at hq
        exact hq hk1
    · intro e he
      rw [← h] at he
      rcases List.mem_append.1 he with he | he
      · refine ⟨(hwf.2 e he).1, ?_⟩
        rw [hstat, (hwf.2 e he).2]
      · simp only [List.mem_map, List.mem_filter, List.mem_inits] at he
        obtain ⟨q, ⟨hqp, hq⟩, rfl⟩ := he
        have hq0 : q ≠ [] := by
          rintro rfl
          simp [stat] at hq
        exact ⟨hq0, hdir _ ((List.dropLast_prefix q).trans hqp)⟩

/-- Pointwise description of a successful `rename` of a regular file. -/
theorem stat_rename_file {fs fs1 : FS} (hwf : WF fs) {a b : Path} (h : rename fs a b = some fs1)
    (ha : isFileAt fs a = true) (p : Path) :
    stat fs1 p = if p = b then stat fs a else if p = a then none else stat fs p := by
  obtain ⟨t, c, hfile⟩ : ∃ t c, stat fs a = some (Node.file t c) := by
    unfold isFileAt at ha
    split at ha
    · exact ⟨_, _, by assumption⟩
    · cases ha
  have hbdir : stat fs b ≠ some Node.dir := by
    rcases rename_cases hwf h with ⟨hab, _, _⟩ | ⟨_, _, _, _, _, hb, _⟩
    · rw [← hab, hfile]; simp
    · exact hb
  have hbchild : ∀ r, r ≠ [] → stat fs (b ++ r) = none := by
    intro r hr
    by_contra hne
    exact hbdir (hwf.prefix_dir b r hr (Option.ne_none_iff_isSome.1 hne))
  rw [stat_rename hwf h]
  by_cases hbp : b <+: p
  · obtain ⟨r, rfl⟩ := hbp
    by_cases hr : r = []
    · subst hr; simp
    · have h1 : b ++ r ≠ b := by simpa using hr
      have h2 : b ++ r ≠ a := by
        intro heq
        have := hbchild r hr
        rw [heq, hfile] at this
        cases this
      simp [h1, h2, hwf.no_child_of_file hfile hr, hbchild r hr]
  · have h1 : p ≠ b := by rintro rfl; exact hbp (List.prefix_refl _)
    by_cases hap : a <+: p
    · obtain ⟨r, rfl⟩ := hap
      by_cases hr : r = []
      · subst hr
        simp only [List.append_nil] at hbp h1 ⊢
        simp [hbp, h1]
      · have h2 : a ++ r ≠ a := by simpa using hr
        simp [hbp, h1, h2, hwf.no_child_of_file hfile hr]
    · have h2 : p ≠ a := by rintro rfl; exact hap (List.prefix_refl _)
      simp [hbp, hap, h1, h2]

theorem childName_eq_some (d : Path) (e : Path × Node) (n : String) (b : Bool) :
    childName d e = some (n, b) ↔ e.1 = d ++ [n] ∧ e.2.isDir = b := by
  unfold childName
  constructor
  · intro h
    split at h
    · rename_i hd
      simp only [Option.map_eq_some'] at h
      obtain ⟨m, hm, hmb⟩ := h
      simp only [Prod.mk.injEq] at hmb
      have hne : e.1 ≠ [] := by
        intro h0
        rw [h0] at hm
        simp at hm
      have := List.dropLast_append_getLast hne
      rw [List.getLast?_eq_getLast _ hne] at hm
      simp only [Option.some.injEq] at hm
      rw [hd, hm, hmb.1] at this
      exact ⟨this.symm, hmb.2⟩
    · cases h
  · rintro ⟨h1, h2⟩
    simp [h1, h2]

/-- The entries `ReadDir` returns are exactly the existing direct entries. -/
theorem mem_readDir {fs : FS} (hwf : WF fs) {d : Path} {es : List (String × Bool)}
    (h : readDir fs d = some es) (n : String) (b : Bool) :
    (n, b) ∈ es ↔ ∃ node, stat fs (d ++ [n]) = some node ∧ node.isDir = b := by
  unfold readDir at h
  split at h
  · simp only [Option.some.injEq] at h
    rw [← h, (List.perm_insertionSort entryLe _).mem_iff, List.mem_filterMap]
    constructor
    · rintro ⟨e, he, hc⟩
      rw [childName_eq_some] at hc
      refine ⟨e.2, ?_, hc.2⟩
      rw [← hc.1]
      exact stat_of_mem hwf he
    · rintro ⟨node, hs, hb⟩
      refine ⟨(d ++ [n], node), stat_isSome_mem hs (by simp), ?_⟩
      rw [childName_eq_some]
      exact ⟨rfl, hb⟩
  · cases h

/-- `ReadDir` lists every name once. -/
theorem nodup_readDir {fs : FS} (hwf : WF fs) {d : Path} {es : List (String × Bool)}
    (h : readDir fs d = some es) : (es.map Prod.fst).Nodup := by
  unfold readDir at h
  split at h
  · simp only [Option.some.injEq] at h
    rw [← h]
    refine ((List.perm_insertionSort entryLe _).map Prod.fst).nodup_iff.2 ?_
    have hkeys : (fs.filterMap (childName d)).map Prod.fst =
        (fs.map Prod.fst).filterMap (fun k => if k.dropLast = d then k.getLast? else none) := by
      rw [List.map_filterMap, List.filterMap_map]
      congr 1
      funext e
      simp only [childName, Function.comp]
      split
      · rw [Option.map_map]
        have : (Prod.fst ∘ fun n : String => (n, e.2.isDir)) = id := rfl
        rw [this, Option.map_id, id]
      · rfl
    rw [hkeys]
    refine List.Nodup.filterMap ?_ hwf.1
    intro k1 k2 n h1 h2
    simp only [Option.mem_def] at h1 h2
    split at h1
    · split at h2
      · rename_i hd1 hd2
        have hne1 : k1 ≠ [] := by rintro rfl; simp at h1
        have hne2 : k2 ≠ [] := by rintro rfl; simp at h2
        rw [List.getLast?_eq_getLast _ hne1] at h1
        rw [List.getLast?_eq_getLast _ hne2] at h2
        simp only [Option.some.injEq] at h1 h2
        rw [← List.dropLast_append_getLast hne1, ← List.dropLast_append_getLast hne2,
          hd1, hd2, h1, h2]
      · cases h2
    · cases h1
  · cases h

theorem snoc_inj {a b : Path} {x y : String} (h : a ++ [x] = b ++ [y]) : a = b ∧ x = y := by
  have := List.append_inj' h rfl
  simpa using this

theorem isFileAt_mkdirAll {fs fs1 : FS} {p : Path} (h : mkdirAll fs p = some fs1) (q : Path) :
    isFileAt fs1 q = isFileAt fs q := by
  unfold isFileAt
  rw [stat_mkdirAll h]
  cases hs : stat fs q with
  | some n => rfl
  | none => by_cases hq : q <+: p <;> simp [hq]

theorem isFileAt_of_stat {fs : FS} {p : Path} {t : Time} {c : String}
    (h : stat fs p = some (Node.file t c)) : isFileAt fs p = true := by
  simp [isFileAt, h]

/-- Invariant of the `OrganiseByDate` loop. -/
theorem organiseByDateLoop_spec (src tgt : Path) :
    ∀ (entries : List (String × Bool)) (fs fs' : FS), WF fs → (entries.map Prod.fst).Nodup →
      organiseByDateLoop src tgt entries fs = (fs', none) →
      WF fs' ∧
      (∀ name t c, (name, false) ∈ entries → stat fs (src ++ [name]) = some (Node.file t c) →
        stat fs' (tgt ++ [formatDate t, name]) = some (Node.file t c) ∧
        (src ≠ tgt ++ [formatDate t] → isFileAt fs' (src ++ [name]) = false)) ∧
      (∀ b n t c, n ∉ entries.map Prod.fst → stat fs (tgt ++ [b, n]) = some (Node.file t c) →
        stat fs' (tgt ++ [b, n]) = some (Node.file t c)) ∧
      (∀ n, n ∉ entries.map Prod.fst → isFileAt fs (src ++ [n]) = false →
        isFileAt fs' (src ++ [n]) = false) := by
  intro entries
  induction entries with
  | nil =>
    intro fs fs' hwf _ h
    simp only [organiseByDateLoop, Prod.mk.injEq, and_true] at h
    subst h
    exact ⟨hwf, by simp, fun _ _ _ _ _ h => h, fun _ _ h => h⟩
  | cons e rest ih =>
    intro fs fs' hwf hnd h
    obtain ⟨name1, isDir1⟩ := e
    simp only [List.map_cons, List.nodup_cons] at hnd
    cases isDir1 with
    | true =>
      simp only [organiseByDateLoop, if_true] at h
      obtain ⟨hwf', hA, hB, hC⟩ := ih fs fs' hwf hnd.2 h
      refine ⟨hwf', ?_, ?_, ?_⟩
      · intro name t c hmem hs
        rcases List.mem_cons.1 hmem with heq | hmem
        · cases heq
        · exact hA name t c hmem hs
      · intro b n t c hn hs
        exact hB b n t c (fun hc => hn (List.mem_cons_of_mem _ hc)) hs
      · intro n hn hs
        exact hC n (fun hc => hn (List.mem_cons_of_mem _ hc)) hs
    | false =>
      simp only [organiseByDateLoop, Bool.false_eq_true, if_false] at h
      cases hs1 : stat fs (src ++ [name1]) with
      | none => simp [hs1] at h
      | some node =>
        cases node with
        | dir => simp [hs1] at h
        | file t1 c1 =>
          simp only [hs1] at h
          cases hmk : mkdirAll fs (tgt ++ [formatDate t1]) with
          | none => simp [hmk] at h
          | some fs1 =>
            simp only [hmk] at h
            cases hrn : rename fs1 (src ++ [name1]) (tgt ++ [formatDate t1, name1]) with
            | none => simp [hrn] at h
            | some fs2 =>
              simp only [hrn] at h
              have hwf1 := WF_mkdirAll hwf hmk
              have hwf2 := WF_rename hwf1 hrn
              have hold1 : stat fs1 (src ++ [name1]) = some (Node.file t1 c1) :=
                stat_mkdirAll_of_some hmk hs1
              have hst2 := stat_rename_file hwf1 hrn (isFileAt_of_stat hold1)
              obtain ⟨hwf', hA, hB, hC⟩ := ih fs2 fs' hwf2 hnd.2 h
              have hnew : tgt ++ [formatDate t1, name1] = (tgt ++ [formatDate t1]) ++ [name1] := by
                simp
              -- a path with another last component is untouched by this step
              have hframe : ∀ (d : Path) (n : String), n ≠ name1 →
                  stat fs2 (d ++ [n]) = stat fs1 (d ++ [n]) := by
                intro d n hn
                rw [hst2]
                have h1 : d ++ [n] ≠ tgt ++ [formatDate t1, name1] := by
                  rw [hnew]; intro heq; exact hn (snoc_inj heq).2
                have h2 : d ++ [n] ≠ src ++ [name1] := by
                  intro heq; exact hn (snoc_inj heq).2
                simp [h1, h2]
              refine ⟨hwf', ?_, ?_, ?_⟩
              · intro name t c hmem hs
                rcases List.mem_cons.1 hmem with heq | hmem2
                · simp only [Prod.mk.injEq, and_true] at heq
                  subst heq
                  rw [hs1] at hs
                  simp only [Option.some.injEq, Node.file.injEq] at hs
                  obtain ⟨rfl, rfl⟩ := hs
                  have hplaced : stat fs2 (tgt ++ [formatDate t1, name]) = some (Node.file t1 c1) := by
                    rw [hst2]; simp [hold1]
                  refine ⟨hB _ _ _ _ hnd.1 hplaced, ?_⟩
                  intro hne
                  apply hC _ hnd.1
                  unfold isFileAt
                  rw [hst2]
                  have h1 : src ++ [name] ≠ tgt ++ [formatDate t1, name] := by
                    rw [hnew]; intro heq; exact hne (snoc_inj heq).1
                  simp [h1]
                · have hne : name ≠ name1 := by
                    intro hc
                    have := List.mem_map_of_mem Prod.fst hmem2
                    exact hnd.1 (hc ▸ this)
                  apply hA name t c hmem2
                  rw [hframe src name hne]
                  exact stat_mkdirAll_of_some hmk hs
              · intro b n t c hn hs
                simp only [List.map_cons, List.mem_cons, not_or] at hn
                apply hB b n t c hn.2
                have : tgt ++ [b, n] = (tgt ++ [b]) ++ [n] := by simp
                rw [this, hframe _ n hn.1, ← this]
                exact stat_mkdirAll_of_some hmk hs
              · intro n hn hs
                simp only [List.map_cons, List.mem_cons, not_or] at hn
                apply hC n hn.2
                unfold isFileAt
                rw [hframe src n hn.1]
                have := isFileAt_mkdirAll hmk (src ++ [n])
                unfold isFileAt at this hs
                rw [this, hs]

/-- C1 (amended): on a well-formed state, after `OrganiseByDate(source, target)`
returned nil, every regular file that was a direct entry of `source` stands,
with its date and content, at `target/<bucket>/<name>`, the bucket being the
formatted modification date; and no regular file is left at `source/<name>`
unless `source` is itself that bucket directory `target/<bucket>`. -/
theorem organiseByDate_moves_files (fs fs' : FS) (src tgt : Path) (name : String) (t : Time)
    (c : String) (hwf : WF fs) (h : OrganiseByDate fs src tgt = (fs', none))
    (hf : stat fs (src ++ [name]) = some (Node.file t c)) :
    stat fs' (tgt ++ [formatDate t, name]) = some (Node.file t c) ∧
      (src ≠ tgt ++ [formatDate t] → isFileAt fs' (src ++ [name]) = false) := by
  unfold OrganiseByDate at h
  cases hrd : readDir fs src with
  | none => simp [hrd] at h
  | some entries =>
    simp only [hrd] at h
    obtain ⟨_, hA, _, _⟩ := organiseByDateLoop_spec src tgt entries fs fs' hwf (nodup_readDir hwf hrd) h
    exact hA name t c ((mem_readDir hwf hrd name false).2 ⟨_, hf, rfl⟩) hf

/-- Witness of C1: `image2.jpeg` of 2023-06-15 ends under `target/2023 06 June 15`. -/
theorem organiseByDate_moves_files_witness :
    stat (OrganiseByDate c1Fs ["source"] ["target"]).1 (["target"] ++ [formatDate c1Date, "image2.jpeg"]) =
        some (Node.file c1Date "two") ∧
      (["source"] ≠ ["target"] ++ [formatDate c1Date] →
        isFileAt (OrganiseByDate c1Fs ["source"] ["target"]).1 (["source"] ++ ["image2.jpeg"]) = false) :=
  organiseByDate_moves_files c1Fs _ ["source"] ["target"] "image2.jpeg" c1Date "two"
    (by decide) (by decide) (by decide)

/-- Counterexample to C1 as stated: the flat source `/t/2023 06 June 15` holds
one image of 2023-06-15 and the target is `/t`; the call returns nil and the
image is still in the source, renamed onto itself. -/
theorem organiseByDate_source_bucket_counterexample :
    WF c1BucketFs ∧
    readDir c1BucketFs ["t", "2023 06 June 15"] = some [("image1.jpg", false)] ∧
    (OrganiseByDate c1BucketFs ["t", "2023 06 June 15"] ["t"]).2 = none ∧
    stat c1BucketFs ["t", "2023 06 June 15", "image1.jpg"] = some (Node.file c1Date "one") ∧
    stat (OrganiseByDate c1BucketFs ["t", "2023 06 June 15"] ["t"]).1
      ["t", "2023 06 June 15", "image1.jpg"] = some (Node.file c1Date "one") := by
  decide

theorem stat_file_of_isFileAt {fs : FS} {p : Path} (h : isFileAt fs p = true) :
    ∃ t c, stat fs p = some (Node.file t c) := by
  unfold isFileAt at h
  split at h
  · exact ⟨_, _, by assumption⟩
  · cases h

/-- Renaming a regular file succeeds when the destination is not a directory
and lies in an existing directory. -/
theorem rename_file_ok {fs : FS} (hwf : WF fs) {a b : Path} (ha : isFileAt fs a = true)
    (hb : stat fs b ≠ some Node.dir) (hpar : stat fs (parent b) = some Node.dir) :
    ∃ fs1, rename fs a b = some fs1 := by
  obtain ⟨t, c, hfile⟩ := stat_file_of_isFileAt ha
  have ha0 : a ≠ [] := by
    rintro rfl
    simp [stat] at hfile
  unfold rename
  simp only [ha0, if_false, hfile]
  cases hsb : stat fs b with
  | none =>
    have hnp : ¬ a <+: b := by
      rintro ⟨r, rfl⟩
      by_cases hr : r = []
      · subst hr
        rw [List.append_nil, hfile] at hsb
        cases hsb
      · have hp : parent (a ++ r) = a ++ r.dropLast := by
          simp [parent, List.dropLast_append_of_ne_nil _ hr]
        rw [hp] at hpar
        by_cases hr2 : r.dropLast = []
        · rw [hr2, List.append_nil, hfile] at hpar
          cases hpar
        · rw [hwf.no_child_of_file hfile hr2] at hpar
          cases hpar
    simp [hpar, hnp]
  | some m =>
    cases m with
    | dir => exact absurd hsb hb
    | file t2 c2 =>
      simp only
      by_cases hab : a = b
      · exact ⟨fs, by simp [hab]⟩
      · exact ⟨moveTree fs a b, by simp [hab]⟩

/-- A sequence of renames of regular files that never meets an occupied
destination: it succeeds, every source ends at its destination and nothing
else changes. -/
theorem renamePairs_spec : ∀ (pairs : List (Path × Path)) (fs : FS), WF fs →
    (∀ x ∈ pairs, isFileAt fs x.1 = true) →
    (pairs.map Prod.fst).Nodup → (pairs.map Prod.snd).Nodup →
    (∀ x ∈ pairs, stat fs (parent x.2) = some Node.dir) →
    (∀ x ∈ pairs, stat fs x.2 ≠ none → x.2 ∈ pairs.map Prod.fst) →
    pairs.Pairwise (fun x y => y.1 ≠ x.2) →
    ∃ fs', renamePairs pairs fs = (fs', none) ∧ WF fs' ∧
      (∀ x ∈ pairs, stat fs' x.2 = stat fs x.1) ∧
      (∀ p, p ∉ pairs.map Prod.snd →
        stat fs' p = if p ∈ pairs.map Prod.fst then none else stat fs p) := by
  intro pairs
  induction pairs with
  | nil =>
    intro fs hwf _ _ _ _ _ _
    exact ⟨fs, rfl, hwf, by simp, by simp⟩
  | cons x rest ih =>
    intro fs hwf hfiles hsrc hdst hpar hfree hord
    obtain ⟨a, b⟩ := x
    simp only [List.map_cons, List.nodup_cons] at hsrc hdst
    rw [List.pairwise_cons] at hord
    have ha : isFileAt fs a = true := hfiles (a, b) (List.mem_cons_self _ _)
    obtain ⟨t, c, hfile⟩ := stat_file_of_isFileAt ha
    -- the destination is free, or is the source itself
    have hb : stat fs b = none ∨ b = a := by
      by_cases hsb : stat fs b = none
      · exact Or.inl hsb
      · right
        have := hfree (a, b) (List.mem_cons_self _ _) hsb
        simp only [List.map_cons, List.mem_cons, List.mem_map] at this
        rcases this with h | ⟨y, hy, hyb⟩
        · exact h
        · exact absurd hyb (hord.1 y hy)
    have hbdir : stat fs b ≠ some Node.dir := by
      rcases hb with h | h
      · rw [h]; simp
      · rw [h, hfile]; simp
    obtain ⟨fs1, hrn⟩ := rename_file_ok hwf ha hbdir (hpar (a, b) (List.mem_cons_self _ _))
    have hwf1 := WF_rename hwf hrn
    have hst1 := stat_rename_file hwf hrn ha
    -- sources of the rest are untouched
    have hsrc_ne : ∀ y ∈ rest, y.1 ≠ a ∧ y.1 ≠ b := by
      intro y hy
      refine ⟨?_, hord.1 y hy⟩
      intro h
      exact hsrc.1 (h ▸ List.mem_map_of_mem Prod.fst hy)
    have hsrc_same : ∀ y ∈ rest, stat fs1 y.1 = stat fs y.1 := by
      intro y hy
      rw [hst1]
      simp [(hsrc_ne y hy).1, (hsrc_ne y hy).2]
    have hfiles1 : ∀ y ∈ rest, isFileAt fs1 y.1 = true := by
      intro y hy
      have := hfiles y (List.mem_cons_of_mem _ hy)
      unfold isFileAt at this ⊢
      rw [hsrc_same y hy]
      exact this
    have hpar1 : ∀ y ∈ rest, stat fs1 (parent y.2) = some Node.dir := by
      intro y hy
      have hp := hpar y (List.mem_cons_of_mem _ hy)
      rw [hst1]
      have h1 : parent y.2 ≠ b := by
        intro h
        rw [h] at hp
        exact hbdir hp
      have h2 : parent y.2 ≠ a := by
        intro h
        rw [h, hfile] at hp
        cases hp
      simp [h1, h2, hp]
    have hfree1 : ∀ y ∈ rest, stat fs1 y.2 ≠ none → y.2 ∈ rest.map Prod.fst := by
      intro y hy hne
      have hyb : y.2 ≠ b := by
        intro h
        exact hdst.1 (h ▸ List.mem_map_of_mem Prod.snd hy)
      rw [hst1] at hne
      simp only [hyb, if_false] at hne
      by_cases hya : y.2 = a
      · simp [hya] at hne
      · simp only [hya, if_false] at hne
        have := hfree y (List.mem_cons_of_mem _ hy) hne
        simp only [List.map_cons, List.mem_cons] at this
        rcases this with h | h
        · exact absurd h hya
        · exact h
    obtain ⟨fs', hrun, hwf', hmoved, hother⟩ :=
      ih fs1 hwf1 hfiles1 hsrc.2 hdst.2 hpar1 hfree1 hord.2
    refine ⟨fs', by simp [renamePairs, hrn, hrun], hwf', ?_, ?_⟩
    · intro y hy
      rcases List.mem_cons.1 hy with rfl | hy
      · -- the head: placed at b, then untouched
        have hbn : b ∉ rest.map Prod.snd := hdst.1
        rw [hother b hbn]
        have hbs : b ∉ rest.map Prod.fst := by
          intro h
          obtain ⟨y, hy, hyb⟩ := List.mem_map.1 h
          exact hord.1 y hy hyb
        simp [hbs, hst1]
      · rw [hmoved y hy, hsrc_same y hy]
    · intro p hp
      simp only [List.map_cons, List.mem_cons, not_or] at hp
      rw [hother p hp.2]
      by_cases hps : p ∈ rest.map Prod.fst
      · simp [hps]
      · simp only [hps, if_false, hst1, hp.1, List.map_cons, List.mem_cons, or_false]

/-! ### The order of strings -/

theorem char_toNat_inj {a b : Char} (h : a.toNat = b.toNat) : a = b := by
  have := congrArg Char.ofNat h
  simpa using this

theorem leChars_refl (a : List Char) : leChars a a = true := by
  induction a with
  | nil => rfl
  | cons x xs ih => simp [leChars, ih]

theorem leChars_total (a b : List Char) : leChars a b = true ∨ leChars b a = true := by
  induction a generalizing b with
  | nil => left; rfl
  | cons x xs ih =>
    cases b with
    | nil => right; rfl
    | cons y ys =>
      by_cases hxy : x = y
      · subst hxy
        simpa [leChars] using ih ys
      · have hyx : y ≠ x := Ne.symm hxy
        have hne : x.toNat ≠ y.toNat := fun h => hxy (char_toNat_inj h)
        simp only [leChars, hxy, hyx, if_false, decide_eq_true_eq]
        omega

theorem leChars_antisymm {a b : List Char} (h1 : leChars a b = true) (h2 : leChars b a = true) :
    a = b := by
  induction a generalizing b with
  | nil =>
    cases b with
    | nil => rfl
    | cons y ys => simp [leChars] at h2
  | cons x xs ih =>
    cases b with
    | nil => simp [leChars] at h1
    | cons y ys =>
      by_cases hxy : x = y
      · subst hxy
        simp only [leChars, if_true] at h1 h2
        rw [ih h1 h2]
      · have hyx : y ≠ x := Ne.symm hxy
        simp only [leChars, hxy, hyx, if_false, decide_eq_true_eq] at h1 h2
        omega

theorem leChars_trans {a b c : List Char} (h1 : leChars a b = true) (h2 : leChars b c = true) :
    leChars a c = true := by
  induction a generalizing b c with
  | nil => rfl
  | cons x xs ih =>
    cases b with
    | nil => simp [leChars] at h1
    | cons y ys =>
      cases c with
      | nil => simp [leChars] at h2
      | cons z zs =>
        by_cases hxy : x = y
        · subst hxy
          by_cases hxz : x = z
          · subst hxz
            simp only [leChars, if_true] at h1 h2 ⊢
            exact ih h1 h2
          · simp only [leChars, hxz, if_false, if_true] at h1 h2 ⊢
            exact h2
        · by_cases hyz : y = z
          · subst hyz
            simp only [leChars, hxy, if_false, if_true] at h1 h2 ⊢
            exact h1
          · simp only [leChars, hxy, hyz, if_false, decide_eq_true_eq] at h1 h2
            have hxz : x ≠ z := by
              rintro rfl
              omega
            simp only [leChars, hxz, if_false, decide_eq_true_eq]
            omega

theorem leChars_append_left (p a b : List Char) : leChars (p ++ a) (p ++ b) = leChars a b := by
  induction p with
  | nil => rfl
  | cons x xs ih => simp [leChars, ih]

theorem nameLe_isTotal : IsTotal String nameLe := ⟨fun a b => leChars_total a.data b.data⟩

theorem nameLe_isTrans : IsTrans String nameLe := ⟨fun _ _ _ h1 h2 => leChars_trans h1 h2⟩

theorem nameLe_isAntisymm : IsAntisymm String nameLe :=
  ⟨fun _ _ h1 h2 => String.ext (leChars_antisymm h1 h2)⟩

/-! ### Decimal formatting -/

theorem decimalAux_acc (fuel n : Nat) (acc : List Char) :
    decimalAux fuel n acc = decimalAux fuel n [] ++ acc := by
  induction fuel generalizing n acc with
  | zero => simp [decimalAux]
  | succ f ih =>
    unfold decimalAux
    by_cases h : n < 10
    · simp [h]
    · simp only [h, if_false]
      rw [ih (n / 10) (digitChar (n % 10) :: acc), ih (n / 10) [digitChar (n % 10)]]
      simp

theorem decimalAux_fuel (f1 : Nat) : ∀ (f2 n : Nat) (acc : List Char), n < f1 → n < f2 →
    decimalAux f1 n acc = decimalAux f2 n acc := by
  induction f1 with
  | zero => intro f2 n acc h; omega
  | succ f ih =>
    intro f2 n acc h1 h2
    cases f2 with
    | zero => omega
    | succ g =>
      unfold decimalAux
      by_cases h : n < 10
      · simp [h]
      · simp only [h, if_false]
        have : n / 10 < n := Nat.div_lt_self (by omega) (by omega)
        exact ih g (n / 10) _ (by omega) (by omega)

theorem decimal_small {n : Nat} (h : n < 10) : decimal n = [digitChar n] := by
  simp [decimal, decimalAux, h]

theorem decimal_big {n : Nat} (h : ¬ n < 10) :
    decimal n = decimal (n / 10) ++ [digitChar (n % 10)] := by
  have hlt : n / 10 < n := Nat.div_lt_self (by omega) (by omega)
  unfold decimal
  rw [decimalAux, if_neg h, decimalAux_acc]
  rw [decimalAux_fuel n (n / 10 + 1) (n / 10) [] hlt (by omega)]

theorem digitChar_toNat {d : Nat} (h : d < 10) : (digitChar d).toNat = 48 + d := by
  interval_cases d <;> rfl

theorem digitsValue_snoc (l : List Char) (c : Char) :
    digitsValue (l ++ [c]) = 10 * digitsValue l + (c.toNat - 48) := by
  simp [digitsValue, List.foldl_append]

theorem digitsValue_decimal (n : Nat) : digitsValue (decimal n) = n := by
  induction n using Nat.strong_induction_on with
  | _ n ih =>
    by_cases h : n < 10
    · rw [decimal_small h]
      simp [digitsValue, digitChar_toNat h]
    · rw [decimal_big h, digitsValue_snoc, ih (n / 10) (Nat.div_lt_self (by omega) (by omega)),
        digitChar_toNat (Nat.mod_lt n (by omega))]
      omega

theorem digitsValue_zeros (k : Nat) (l : List Char) :
    digitsValue (List.replicate k '0' ++ l) = digitsValue l := by
  have key : ∀ k, List.foldl (fun acc c => 10 * acc + (c.toNat - 48)) 0
      (List.replicate k '0') = 0 := by
    intro k
    induction k with
    | zero => rfl
    | succ k ih => 
      rw [List.replicate_succ', List.foldl_append, ih]
      rfl
  simp [digitsValue, List.foldl_append, key]

theorem digitsValue_zeroPad (w n : Nat) : digitsValue (zeroPad w n) = n := by
  rw [zeroPad, digitsValue_zeros, digitsValue_decimal]

/-- Distinct numbers are formatted differently. -/
theorem zeroPad_injective (w : Nat) {i j : Nat} (h : zeroPad w i = zeroPad w j) : i = j := by
  have := congrArg digitsValue h
  simpa [digitsValue_zeroPad] using this

theorem decimal_not_slash (n : Nat) : ∀ c ∈ decimal n, c ≠ '/' := by
  induction n using Nat.strong_induction_on with
  | _ n ih =>
    intro c hc
    by_cases h : n < 10
    · rw [decimal_small h] at hc
      simp only [List.mem_singleton] at hc
      subst hc
      interval_cases n <;> decide
    · rw [decimal_big h, List.mem_append] at hc
      rcases hc with hc | hc
      · exact ih (n / 10) (Nat.div_lt_self (by omega) (by omega)) c hc
      · simp only [List.mem_singleton] at hc
        subst hc
        have := Nat.mod_lt n (show 10 > 0 by omega)
        generalize n % 10 = d at this
        interval_cases d <;> decide

theorem zeroPad_not_slash (w n : Nat) : ∀ c ∈ zeroPad w n, c ≠ '/' := by
  intro c hc
  rw [zeroPad, List.mem_append] at hc
  rcases hc with hc | hc
  · rw [List.eq_of_mem_replicate hc]; decide
  · exact decimal_not_slash n c hc

theorem parsePattern_lits (l : List Char) : ∀ fuel, l.length ≤ fuel →
    (∀ c ∈ l, isMetaChar c = false) → parsePattern fuel l = some (l.map PatTok.lit) := by
  induction l with
  | nil => intro fuel _ _; cases fuel <;> rfl
  | cons c cs ih =>
    intro fuel hf hm
    cases fuel with
    | zero => simp at hf
    | succ f =>
      have hc := hm c (List.mem_cons_self _ _)
      simp only [isMetaChar, Bool.or_eq_false_iff, decide_eq_false_iff_not] at hc
      obtain ⟨⟨⟨h1, h2⟩, h3⟩, h4⟩ := hc
      have := ih f (by simpa using hf) (fun d hd => hm d (List.mem_cons_of_mem _ hd))
      simp [parsePattern, h1, h2, h3, h4, this]

theorem mem_starTails (s t : List Char) :
    t ∈ starTails s ↔ ∃ u, s = u ++ t ∧ '/' ∉ u := by
  induction s with
  | nil =>
    simp only [starTails, List.mem_singleton]
    constructor
    · rintro rfl; exact ⟨[], rfl, by simp⟩
    · rintro ⟨u, hu, _⟩
      have := congrArg List.length hu
      simp at this
      exact List.length_eq_zero.1 (by omega)
  | cons c s ih =>
    simp only [starTails, List.mem_cons]
    constructor
    · rintro (rfl | h)
      · exact ⟨[], rfl, by simp⟩
      · by_cases hc : c = '/'
        · simp [hc] at h
        · simp only [hc, if_false] at h
          obtain ⟨u, hu, hs⟩ := ih.1 h
          refine ⟨c :: u, by simp [hu], ?_⟩
          simp only [List.mem_cons, not_or]
          exact ⟨Ne.symm hc, hs⟩
    · rintro ⟨u, hu, hs⟩
      cases u with
      | nil => left; simpa using hu.symm
      | cons d u =>
        right
        simp only [List.cons_append, List.cons.injEq] at hu
        obtain ⟨rfl, hu⟩ := hu
        simp only [List.mem_cons, not_or] at hs
        have hc : c ≠ '/' := Ne.symm hs.1
        simp only [hc, if_false]
        exact ih.2 ⟨u, hu, hs.2⟩

theorem matchToks_lits (l t : List Char) : matchToks (l.map PatTok.lit) t = true ↔ t = l := by
  induction l generalizing t with
  | nil => cases t <;> simp [matchToks]
  | cons c cs ih =>
    cases t with
    | nil => simp [matchToks]
    | cons d ds =>
      simp only [List.map_cons, matchToks, Bool.and_eq_true, decide_eq_true_eq, ih,
        List.cons.injEq]
      constructor
      · rintro ⟨h1, h2⟩; exact ⟨h1.symm, h2⟩
      · rintro ⟨h1, h2⟩; exact ⟨h1.symm, h2⟩

/-- A pattern `*` followed by plain characters matches the names that end
with these characters. -/
theorem Match_star_lits (lits : List Char) (hl : ∀ c ∈ lits, isMetaChar c = false) (n : String) :
    Match (String.mk ('*' :: lits)) n = some true ↔ ∃ u, n.data = u ++ lits ∧ '/' ∉ u := by
  have hp : parsePattern (lits.length + 1) ('*' :: lits) = some (PatTok.star :: lits.map PatTok.lit) := by
    simp [parsePattern, parsePattern_lits lits lits.length (le_refl _) hl]
  simp only [Match, List.length_cons, hp, Option.map_some', Option.some.injEq, matchToks,
    List.any_eq_true, mem_starTails, matchToks_lits]
  constructor
  · rintro ⟨t, ⟨u, hu, hs⟩, rfl⟩; exact ⟨u, hu, hs⟩
  · rintro ⟨u, hu, hs⟩; exact ⟨lits, ⟨u, hu, hs⟩, rfl⟩

theorem Match_star_lits_isSome (lits : List Char) (hl : ∀ c ∈ lits, isMetaChar c = false) (n : String) :
    (Match (String.mk ('*' :: lits)) n).isSome = true := by
  have hp : parsePattern (lits.length + 1) ('*' :: lits) = some (PatTok.star :: lits.map PatTok.lit) := by
    simp [parsePattern, parsePattern_lits lits lits.length (le_refl _) hl]
  simp [Match, hp]

theorem hasMeta_eq_false_iff (c : String) : hasMeta c = false ↔ ∀ x ∈ c.data, isMetaChar x = false := by
  simp only [hasMeta, isMetaChar, List.any_eq_false, Bool.not_eq_true]

theorem Match_noMeta_isSome {c : String} (h : hasMeta c = false) (n : String) :
    (Match c n).isSome = true := by
  rw [hasMeta_eq_false_iff] at h
  have hp := parsePattern_lits c.data c.data.length (le_refl _) h
  simp only [Match, hp]
  rfl

theorem noMeta_iff (p : Path) : noMeta p = true ↔ ∀ c ∈ p, hasMeta c = false := by
  simp [noMeta]

/-- On a directory path without metacharacters, `Glob` with a star pattern
lists the one directory. -/
theorem Glob_noMeta (fs : FS) {dir : Path} (hd : noMeta dir = true) (lits : List Char)
    (hl : ∀ c ∈ lits, isMetaChar c = false) :
    Glob fs dir (String.mk ('*' :: lits)) = some (globDir fs dir (String.mk ('*' :: lits))) := by
  rw [noMeta_iff] at hd
  have hvalid : ((String.mk ('*' :: lits)) :: dir.reverse).any (fun c => (Match c "").isNone) = false := by
    rw [List.any_eq_false]
    intro c hc
    rcases List.mem_cons.1 hc with rfl | hc
    · simp [Option.isNone_iff_eq_none, ← Option.not_isSome_iff_eq_none, Match_star_lits_isSome lits hl]
    · simp [Option.isNone_iff_eq_none, ← Option.not_isSome_iff_eq_none,
        Match_noMeta_isSome (hd c (List.mem_reverse.1 hc))]
  have hmeta : ((String.mk ('*' :: lits)) :: dir.reverse).any hasMeta = true := by
    simp [hasMeta]
  have hdir : dir.reverse.any hasMeta = false := by
    rw [List.any_eq_false]
    intro c hc
    simp [hd c (List.mem_reverse.1 hc)]
  simp only [Glob, globRev, hvalid, hmeta, hdir, Bool.false_eq_true, if_false, not_true_eq_false,
    not_false_eq_true, if_true, List.reverse_reverse]

theorem pathChars_append (p q : Path) : pathChars (p ++ q) = pathChars p ++ pathChars q := by
  induction p with
  | nil => rfl
  | cons c cs ih => simp [pathChars, ih]

theorem pathLe_snoc_iff (dir : Path) (a b : String) :
    pathLe (dir ++ [a]) (dir ++ [b]) ↔ nameLe a b := by
  simp [pathLe, nameLe, pathChars_append, leChars_append_left, pathChars, leChars]

theorem sortPaths_map (dir : Path) (names : List String) :
    sortPaths (names.map (fun n => dir ++ [n])) =
      (List.insertionSort nameLe names).map (fun n => dir ++ [n]) := by
  unfold sortPaths
  rw [List.map_insertionSort nameLe pathLe]
  intro a _ b _
  exact (pathLe_snoc_iff dir a b).symm

theorem sorted_readDir {fs : FS} {d : Path} {es : List (String × Bool)}
    (h : readDir fs d = some es) : (es.map Prod.fst).Sorted nameLe := by
  unfold readDir at h
  split at h
  · simp only [Option.some.injEq] at h
    rw [← h]
    have hs : List.Sorted entryLe (List.insertionSort entryLe (fs.filterMap (childName d))) :=
      @List.sorted_insertionSort _ entryLe _ ⟨fun a b => leChars_total a.1.data b.1.data⟩
        ⟨fun _ _ _ h1 h2 => leChars_trans h1 h2⟩ _
    exact (List.pairwise_map.2 hs)
  · cases h

theorem readDir_isSome (fs : FS) (dir : Path) : (readDir fs dir).isSome = isDirAt fs dir := by
  unfold readDir isDirAt
  cases stat fs dir with
  | none => rfl
  | some n => cases n <;> rfl

theorem mem_entriesMatching {fs : FS} (hwf : WF fs) (dir : Path) (pred : String → Bool)
    (n : String) :
    n ∈ entriesMatching fs dir pred ↔
      isDirAt fs dir = true ∧ (stat fs (dir ++ [n])).isSome = true ∧ pred n = true := by
  unfold entriesMatching
  cases hrd : readDir fs dir with
  | none =>
    have : isDirAt fs dir = false := by
      rw [← readDir_isSome, hrd]; rfl
    simp [this]
  | some es =>
    have hd : isDirAt fs dir = true := by
      rw [← readDir_isSome, hrd]; rfl
    simp only [Option.getD_some, List.mem_map, List.mem_filter, hd, true_and]
    constructor
    · rintro ⟨⟨m, b⟩, ⟨hm, hp⟩, rfl⟩
      obtain ⟨node, hs, _⟩ := (mem_readDir hwf hrd m b).1 hm
      exact ⟨by simp [hs], hp⟩
    · rintro ⟨hs, hp⟩
      obtain ⟨node, hn⟩ := Option.isSome_iff_exists.1 hs
      exact ⟨(n, node.isDir), ⟨(mem_readDir hwf hrd n node.isDir).2 ⟨node, hn, rfl⟩, hp⟩, rfl⟩

theorem nodup_entriesMatching {fs : FS} (hwf : WF fs) (dir : Path) (pred : String → Bool) :
    (entriesMatching fs dir pred).Nodup := by
  unfold entriesMatching
  cases hrd : readDir fs dir with
  | none => simp
  | some es =>
    have hnd := nodup_readDir hwf hrd
    simp only [Option.getD_some]
    exact (hnd.sublist ((List.filter_sublist _).map Prod.fst))

theorem sorted_entriesMatching (fs : FS) (dir : Path) (pred : String → Bool) :
    (entriesMatching fs dir pred).Sorted nameLe := by
  unfold entriesMatching
  cases hrd : readDir fs dir with
  | none => simp
  | some es =>
    simp only [Option.getD_some]
    exact (sorted_readDir hrd).sublist ((List.filter_sublist _).map Prod.fst)

/-- The names `globDir` finds for one pattern. -/
theorem globDir_eq (fs : FS) (dir : Path) (pat : String) :
    globDir fs dir pat =
      (entriesMatching fs dir (fun n => Match pat n == some true)).map (fun n => dir ++ [n]) := by
  unfold globDir entriesMatching
  cases hrd : readDir fs dir with
  | none => simp
  | some es =>
    simp only [Option.getD_some, List.map_map]
    congr 1
    apply List.filter_congr
    intro e _
    cases Match pat e.1 with
    | none => rfl
    | some b => cases b <;> rfl

/-- On a directory path without metacharacters the glob loop yields, pattern
after pattern, the matching entries of that directory. -/
theorem globAll_noMeta (fs : FS) {dir : Path} (hd : noMeta dir = true) :
    ∀ pats : List String, (∀ pat ∈ pats, StarPattern pat) →
      globAll fs dir pats = some ((pats.flatMap (fun pat =>
        entriesMatching fs dir (fun n => Match pat n == some true))).map (fun n => dir ++ [n])) := by
  intro pats
  induction pats with
  | nil => intro _; rfl
  | cons pat rest ih =>
    intro hp
    obtain ⟨lits, rfl, hl⟩ := hp pat (List.mem_cons_self _ _)
    simp only [globAll, Glob_noMeta fs hd lits hl, ih (fun q hq => hp q (List.mem_cons_of_mem _ hq)),
      Option.map_some', globDir_eq, List.flatMap_cons, List.map_append]

theorem suffix_disjoint (l1 l2 : List Char) (h12 : ¬ l1 <:+ l2) (h21 : ¬ l2 <:+ l1)
    (hl1 : ∀ c ∈ l1, isMetaChar c = false) (hl2 : ∀ c ∈ l2, isMetaChar c = false) (n : String) :
    ¬ (Match (String.mk ('*' :: l1)) n = some true ∧ Match (String.mk ('*' :: l2)) n = some true) := by
  rintro ⟨h1, h2⟩
  obtain ⟨u1, hu1, _⟩ := (Match_star_lits l1 hl1 n).1 h1
  obtain ⟨u2, hu2, _⟩ := (Match_star_lits l2 hl2 n).1 h2
  have s1 : l1 <:+ n.data := ⟨u1, hu1.symm⟩
  have s2 : l2 <:+ n.data := ⟨u2, hu2.symm⟩
  rcases List.suffix_or_suffix_of_suffix s1 s2 with h | h
  · exact h12 h
  · exact h21 h

theorem starPattern_images : ∀ pat ∈ imageExtensions, StarPattern pat := by
  intro pat hp
  simp only [imageExtensions, List.mem_cons, List.mem_singleton, List.not_mem_nil, or_false] at hp
  rcases hp with rfl | rfl | rfl | rfl
  · exact ⟨".jpg".data, rfl, by decide⟩
  · exact ⟨".JPG".data, rfl, by decide⟩
  · exact ⟨".jpeg".data, rfl, by decide⟩
  · exact ⟨".JPEG".data, rfl, by decide⟩

theorem starPattern_videos : ∀ pat ∈ videoExtensions, StarPattern pat := by
  intro pat hp
  simp only [videoExtensions, List.mem_cons, List.mem_singleton, List.not_mem_nil, or_false] at hp
  rcases hp with rfl | rfl
  · exact ⟨".mov".data, rfl, by decide⟩
  · exact ⟨".MOV".data, rfl, by decide⟩

/-- Whatever its outcome, a sequence of renames changes nothing outside the
subtrees of its sources and destinations. -/
theorem renamePairs_frame : ∀ (pairs : List (Path × Path)) (fs fs' : FS) (e : Option Err),
    WF fs → renamePairs pairs fs = (fs', e) →
    WF fs' ∧ ∀ p, (∀ x ∈ pairs, ¬ x.1 <+: p ∧ ¬ x.2 <+: p) → stat fs' p = stat fs p := by
  intro pairs
  induction pairs with
  | nil =>
    intro fs fs' e hwf h
    simp only [renamePairs, Prod.mk.injEq] at h
    rw [← h.1]
    exact ⟨hwf, fun _ _ => rfl⟩
  | cons x rest ih =>
    intro fs fs' e hwf h
    obtain ⟨a, b⟩ := x
    simp only [renamePairs] at h
    cases hrn : rename fs a b with
    | none =>
      simp only [hrn, Prod.mk.injEq] at h
      rw [← h.1]
      exact ⟨hwf, fun _ _ => rfl⟩
    | some fs1 =>
      simp only [hrn] at h
      obtain ⟨hwf', hfr⟩ := ih fs1 fs' e (WF_rename hwf hrn) h
      refine ⟨hwf', ?_⟩
      intro p hp
      rw [hfr p (fun y hy => hp y (List.mem_cons_of_mem _ hy)), stat_rename hwf hrn]
      have := hp (a, b) (List.mem_cons_self _ _)
      simp [this.1, this.2]

theorem seqPairs_fst (dest : Nat → Path → Path) (files : List Path) (i : Nat) :
    (seqPairs dest files i).map Prod.fst = files := by
  induction files generalizing i with
  | nil => rfl
  | cons f rest ih => simp [seqPairs, ih]

theorem mem_seqPairs {dest : Nat → Path → Path} {files : List Path} {i : Nat} {x : Path × Path}
    (h : x ∈ seqPairs dest files i) : ∃ k, i ≤ k ∧ x.1 ∈ files ∧ x.2 = dest k x.1 := by
  induction files generalizing i with
  | nil => simp [seqPairs] at h
  | cons f rest ih =>
    simp only [seqPairs, List.mem_cons] at h
    rcases h with rfl | h
    · exact ⟨i, le_refl _, List.mem_cons_self _ _, rfl⟩
    · obtain ⟨k, hk, hm, hd⟩ := ih h
      exact ⟨k, by omega, List.mem_cons_of_mem _ hm, hd⟩

theorem nodup_seqPairs_snd {dest : Nat → Path → Path}
    (hinj : ∀ i j f g, dest i f = dest j g → i = j) (files : List Path) (i : Nat) :
    ((seqPairs dest files i).map Prod.snd).Nodup := by
  induction files generalizing i with
  | nil => simp [seqPairs]
  | cons f rest ih =>
    simp only [seqPairs, List.map_cons, List.nodup_cons]
    refine ⟨?_, ih (i + 1)⟩
    intro hmem
    obtain ⟨x, hx, hxd⟩ := List.mem_map.1 hmem
    obtain ⟨k, hk, _, hd⟩ := mem_seqPairs hx
    rw [hd] at hxd
    have := hinj _ _ _ _ hxd
    omega

theorem nodup_seqPairs_snd_of_mem {dest : Nat → Path → Path} (files : List Path)
    (hinj : ∀ i j, ∀ f ∈ files, ∀ g ∈ files, dest i f = dest j g → i = j) (i : Nat) :
    ((seqPairs dest files i).map Prod.snd).Nodup := by
  induction files generalizing i with
  | nil => simp [seqPairs]
  | cons f rest ih =>
    simp only [seqPairs, List.map_cons, List.nodup_cons]
    refine ⟨?_, ih (fun a b x hx y hy => hinj a b x (List.mem_cons_of_mem _ hx) y
      (List.mem_cons_of_mem _ hy)) (i + 1)⟩
    intro hmem
    obtain ⟨x, hx, hxd⟩ := List.mem_map.1 hmem
    obtain ⟨k, hk, hxm, hd⟩ := mem_seqPairs hx
    rw [hd] at hxd
    have := hinj _ _ _ (List.mem_cons_of_mem _ hxm) _ (List.mem_cons_self _ _) hxd
    omega

theorem getElem?_seqPairs (dest : Nat → Path → Path) (files : List Path) (i k : Nat) :
    (seqPairs dest files i)[k]? = (files[k]?).map (fun f => (f, dest (i + k) f)) := by
  induction files generalizing i k with
  | nil => simp [seqPairs]
  | cons f rest ih =>
    cases k with
    | zero => simp [seqPairs]
    | succ k =>
      simp only [seqPairs, List.getElem?_cons_succ, ih]
      have : i + 1 + k = i + (k + 1) := by omega
      rw [this]

theorem renameJPGsLoop_eq (dir : Path) (picsName : String) (files : List Path) (i : Nat) (fs : FS) :
    renameJPGsLoop dir picsName files i fs =
      renamePairs (seqPairs (fun k _ => dir ++ [seqName picsName (k + 1) ".jpg"]) files i) fs := by
  induction files generalizing i fs with
  | nil => rfl
  | cons f rest ih =>
    simp only [renameJPGsLoop, seqPairs, renamePairs]
    cases rename fs f (dir ++ [seqName picsName (i + 1) ".jpg"]) with
    | none => rfl
    | some fs1 => exact ih (i + 1) fs1

theorem organiseVideosLoop_eq (videosDir : Path) (videosName : String) (files : List Path) (i : Nat)
    (fs : FS) :
    organiseVideosLoop videosDir videosName files i fs =
      renamePairs (seqPairs (fun k f => videosDir ++ [seqName videosName (k + 1) (Ext f)]) files i)
        fs := by
  induction files generalizing i fs with
  | nil => rfl
  | cons f rest ih =>
    simp only [organiseVideosLoop, seqPairs, renamePairs]
    cases rename fs f (videosDir ++ [seqName videosName (i + 1) (Ext f)]) with
    | none => rfl
    | some fs1 => exact ih (i + 1) fs1

theorem renameImagesLoop_eq (absDir : Path) (newBaseName : String) (files : List Path) (i : Nat)
    (fs : FS) :
    renameImagesLoop absDir newBaseName files i fs =
      renamePairs (seqPairs (fun k _ => joinPath absDir (seqName newBaseName (k + 1) ".jpg")) files i)
        fs := by
  induction files generalizing i fs with
  | nil => rfl
  | cons f rest ih =>
    simp only [renameImagesLoop, seqPairs, renamePairs]
    cases rename fs f (joinPath absDir (seqName newBaseName (i + 1) ".jpg")) with
    | none => rfl
    | some fs1 => exact ih (i + 1) fs1

theorem renameVideosLoop_eq (videosDir : Path) (newBaseName : String) (files : List Path) (i : Nat)
    (fs : FS) :
    renameVideosLoop videosDir newBaseName files i fs =
      renamePairs
        (seqPairs (fun k f => joinPath videosDir (seqName newBaseName (k + 1) (Ext f))) files i)
        fs := by
  induction files generalizing i fs with
  | nil => rfl
  | cons f rest ih =>
    simp only [renameVideosLoop, seqPairs, renamePairs]
    cases rename fs f (joinPath videosDir (seqName newBaseName (i + 1) (Ext f))) with
    | none => rfl
    | some fs1 => exact ih (i + 1) fs1

/-- Names formatted from distinct numbers with extensions of one length differ. -/
theorem seqName_inj {base : String} {i j : Nat} {e1 e2 : String}
    (hlen : e1.data.length = e2.data.length) (h : seqName base i e1 = seqName base j e2) : i = j := by
  have h1 := congrArg String.data h
  simp only [seqName] at h1
  have h2 := (List.append_inj' h1 hlen).1
  simp only [List.append_cancel_left_eq, List.cons.injEq, true_and] at h2
  exact zeroPad_injective 5 h2

/-- The sorted glob result of a directory without metacharacters in its path:
the matching entries in ascending name order. -/
theorem sortPaths_globAll {fs : FS} (hwf : WF fs) {dir : Path} (hd : noMeta dir = true)
    (pats : List String) (hstar : ∀ pat ∈ pats, StarPattern pat)
    (hdisj : pats.Pairwise (fun p q => ∀ n, ¬ (Match p n = some true ∧ Match q n = some true))) :
    ∃ L, globAll fs dir pats = some L ∧
      L.length = (entriesMatching fs dir (fun n => pats.any (fun pat => Match pat n == some true))).length ∧
      sortPaths L = (entriesMatching fs dir
        (fun n => pats.any (fun pat => Match pat n == some true))).map (fun n => dir ++ [n]) := by
  refine ⟨_, globAll_noMeta fs hd pats hstar, ?_, ?_⟩
  all_goals
    have hnd : (pats.flatMap (fun pat =>
        entriesMatching fs dir (fun n => Match pat n == some true))).Nodup := by
      rw [List.nodup_flatMap]
      refine ⟨fun pat _ => nodup_entriesMatching hwf dir _, ?_⟩
      refine hdisj.imp ?_
      intro p q hpq
      rw [Function.onFun, List.disjoint_left]
      intro n hn1 hn2
      rw [mem_entriesMatching hwf] at hn1 hn2
      exact hpq n ⟨by simpa using hn1.2.2, by simpa using hn2.2.2⟩
    have hperm : (pats.flatMap (fun pat =>
        entriesMatching fs dir (fun n => Match pat n == some true))).Perm
        (entriesMatching fs dir (fun n => pats.any (fun pat => Match pat n == some true))) := by
      rw [List.perm_ext_iff_of_nodup hnd (nodup_entriesMatching hwf dir _)]
      intro n
      simp only [List.mem_flatMap, mem_entriesMatching hwf, List.any_eq_true]
      constructor
      · rintro ⟨pat, hp, h1, h2, h3⟩; exact ⟨h1, h2, pat, hp, h3⟩
      · rintro ⟨h1, h2, pat, hp, h3⟩; exact ⟨pat, hp, h1, h2, h3⟩
  · rw [List.length_map]
    exact hperm.length_eq
  · rw [sortPaths_map]
    congr 1
    haveI := nameLe_isTotal
    haveI := nameLe_isTrans
    haveI := nameLe_isAntisymm
    exact List.eq_of_perm_of_sorted ((List.perm_insertionSort nameLe _).trans hperm)
      (List.sorted_insertionSort nameLe _) (sorted_entriesMatching fs dir _)

theorem disjoint_images :
    imageExtensions.Pairwise (fun p q => ∀ n, ¬ (Match p n = some true ∧ Match q n = some true)) := by
  simp only [imageExtensions, List.pairwise_cons, List.mem_cons, List.mem_singleton,
    List.not_mem_nil, forall_eq_or_imp, forall_eq, IsEmpty.forall_iff, implies_true,
    List.Pairwise.nil, and_true]
  refine ⟨⟨?_, ?_, ?_⟩, ⟨?_, ?_⟩, ?_⟩
  · exact suffix_disjoint ".jpg".data ".JPG".data (by decide) (by decide) (by decide) (by decide)
  · exact suffix_disjoint ".jpg".data ".jpeg".data (by decide) (by decide) (by decide) (by decide)
  · exact suffix_disjoint ".jpg".data ".JPEG".data (by decide) (by decide) (by decide) (by decide)
  · exact suffix_disjoint ".JPG".data ".jpeg".data (by decide) (by decide) (by decide) (by decide)
  · exact suffix_disjoint ".JPG".data ".JPEG".data (by decide) (by decide) (by decide) (by decide)
  · exact suffix_disjoint ".jpeg".data ".JPEG".data (by decide) (by decide) (by decide) (by decide)

theorem disjoint_videos :
    videoExtensions.Pairwise (fun p q => ∀ n, ¬ (Match p n = some true ∧ Match q n = some true)) := by
  simp only [videoExtensions, List.pairwise_cons, List.mem_cons, List.mem_singleton,
    List.not_mem_nil, forall_eq_or_imp, forall_eq, IsEmpty.forall_iff, implies_true,
    List.Pairwise.nil, and_true]
  exact suffix_disjoint ".mov".data ".MOV".data (by decide) (by decide) (by decide) (by decide)

/-- The sorted image list of the code is the list of image entries in name order. -/
theorem sortPaths_images {fs : FS} (hwf : WF fs) {dir : Path} (hd : noMeta dir = true) :
    ∃ L, globAll fs dir imageExtensions = some L ∧
      L.length = (entriesMatching fs dir isImageName).length ∧
      sortPaths L = (entriesMatching fs dir isImageName).map (fun n => dir ++ [n]) :=
  sortPaths_globAll hwf hd imageExtensions starPattern_images disjoint_images

/-- The sorted video list of the code is the list of video entries in name order. -/
theorem sortPaths_videos {fs : FS} (hwf : WF fs) {dir : Path} (hd : noMeta dir = true) :
    ∃ L, globAll fs dir videoExtensions = some L ∧
      L.length = (entriesMatching fs dir isVideoName).length ∧
      sortPaths L = (entriesMatching fs dir isVideoName).map (fun n => dir ++ [n]) :=
  sortPaths_globAll hwf hd videoExtensions starPattern_videos disjoint_videos

/-- A name that ends in `.jpg` after a part without separator is an image name. -/
theorem isImageName_of_jpg {n : String} {u : List Char} (hu : n.data = u ++ ".jpg".data)
    (hs : '/' ∉ u) : isImageName n = true := by
  have := (Match_star_lits ".jpg".data (by decide) n).2 ⟨u, hu, hs⟩
  have h2 : Match "*.jpg" n = some true := this
  simp [isImageName, imageExtensions, h2]

theorem isImageName_seqName {base : String} (hb : '/' ∉ base.data) (i : Nat) :
    isImageName (seqName base i ".jpg") = true := by
  apply isImageName_of_jpg (u := base.data ++ '_' :: zeroPad 5 i)
  · simp [seqName]
  · simp only [List.mem_append, List.mem_cons, not_or]
    exact ⟨hb, by decide, fun h => zeroPad_not_slash 5 i _ h rfl⟩

theorem isImageName_iff (n : String) :
    isImageName n = true ↔ ∃ l ∈ [".jpg".data, ".JPG".data, ".jpeg".data, ".JPEG".data],
      ∃ u, n.data = u ++ l ∧ '/' ∉ u := by
  have e1 := Match_star_lits ".jpg".data (by decide) n
  have e2 := Match_star_lits ".JPG".data (by decide) n
  have e3 := Match_star_lits ".jpeg".data (by decide) n
  have e4 := Match_star_lits ".JPEG".data (by decide) n
  have f1 : Match "*.jpg" n = some true ↔ _ := e1
  have f2 : Match "*.JPG" n = some true ↔ _ := e2
  have f3 : Match "*.jpeg" n = some true ↔ _ := e3
  have f4 : Match "*.JPEG" n = some true ↔ _ := e4
  simp only [isImageName, imageExtensions, List.any_cons, List.any_nil, Bool.or_false,
    Bool.or_eq_true, beq_iff_eq, f1, f2, f3, f4, List.mem_cons, List.mem_singleton,
    List.not_mem_nil, or_false, exists_eq_or_imp, exists_eq_left]

theorem isVideoName_iff (n : String) :
    isVideoName n = true ↔ ∃ l ∈ [".mov".data, ".MOV".data], ∃ u, n.data = u ++ l ∧ '/' ∉ u := by
  have e1 := Match_star_lits ".mov".data (by decide) n
  have e2 := Match_star_lits ".MOV".data (by decide) n
  have f1 : Match "*.mov" n = some true ↔ _ := e1
  have f2 : Match "*.MOV" n = some true ↔ _ := e2
  simp only [isVideoName, videoExtensions, List.any_cons, List.any_nil, Bool.or_false,
    Bool.or_eq_true, beq_iff_eq, f1, f2, List.mem_cons, List.mem_singleton,
    List.not_mem_nil, or_false, exists_eq_or_imp, exists_eq_left]

/-- No name is both an image name and a video name. -/
theorem not_image_of_video {n : String} (hv : isVideoName n = true) : isImageName n = false := by
  by_contra hi
  rw [Bool.not_eq_false, isImageName_iff] at hi
  rw [isVideoName_iff] at hv
  obtain ⟨l1, hl1, u1, hu1, _⟩ := hi
  obtain ⟨l2, hl2, u2, hu2, _⟩ := hv
  have s1 : l1 <:+ n.data := ⟨u1, hu1.symm⟩
  have s2 : l2 <:+ n.data := ⟨u2, hu2.symm⟩
  simp only [List.mem_cons, List.mem_singleton, List.not_mem_nil, or_false] at hl1 hl2
  have key : ¬ l1 <:+ l2 ∧ ¬ l2 <:+ l1 := by
    rcases hl1 with rfl | rfl | rfl | rfl <;> rcases hl2 with rfl | rfl <;> decide
  rcases List.suffix_or_suffix_of_suffix s1 s2 with h | h
  · exact key.1 h
  · exact key.2 h

theorem pairwise_seqPairs (dest : Nat → Path → Path) : ∀ (files : List Path) (i : Nat),
    (∀ a b fa fb, a < b → files[a]? = some fa → files[b]? = some fb → fb ≠ dest (i + a) fa) →
    (seqPairs dest files i).Pairwise (fun x y => y.1 ≠ x.2) := by
  intro files
  induction files with
  | nil => intro i _; simp [seqPairs]
  | cons f rest ih =>
    intro i h
    simp only [seqPairs, List.pairwise_cons]
    constructor
    · intro y hy
      obtain ⟨k, _, hmem, _⟩ := mem_seqPairs hy
      obtain ⟨b, hb⟩ := List.mem_iff_getElem?.1 hmem
      exact h 0 (b + 1) f y.1 (by omega) (by simp) (by simpa using hb)
    · apply ih (i + 1)
      intro a b fa fb hab ha hb
      have := h (a + 1) (b + 1) fa fb (by omega) (by simpa using ha) (by simpa using hb)
      have e : i + (a + 1) = i + 1 + a := by omega
      rwa [e] at this

theorem mem_seqPairs_index {dest : Nat → Path → Path} {files : List Path} {i : Nat}
    {x : Path × Path} (h : x ∈ seqPairs dest files i) :
    ∃ k, k < files.length ∧ files[k]? = some x.1 ∧ x.2 = dest (i + k) x.1 := by
  obtain ⟨k, hk⟩ := List.mem_iff_getElem?.1 h
  rw [getElem?_seqPairs] at hk
  cases hf : files[k]? with
  | none => simp [hf] at hk
  | some f =>
    simp only [hf, Option.map_some', Option.some.injEq] at hk
    subst hk
    exact ⟨k, (List.getElem?_eq_some_iff.1 hf).1, hf, rfl⟩

theorem snoc_injective (dir : Path) : Function.Injective (fun n : String => dir ++ [n]) := by
  intro a b h
  exact (snoc_inj h).2

theorem parent_snoc (dir : Path) (n : String) : parent (dir ++ [n]) = dir := by
  simp [parent]

theorem isDirAt_iff {fs : FS} {p : Path} : isDirAt fs p = true ↔ stat fs p = some Node.dir := by
  unfold isDirAt
  cases stat fs p with
  | none => simp
  | some n => cases n <;> simp

/-- Renumbering in place the entries of `dir` selected by `pred`, these being
regular files of which none bears the new name of an earlier one: the
sequence of renames succeeds, the k-th entry in name order receives its new
name, and nothing else changes. -/
theorem renumber_spec {fs : FS} (hwf : WF fs) (dir : Path) (pred : String → Bool)
    (dest : Nat → Path → Path) (newName : Nat → String → String)
    (hdest : ∀ k n, dest k (dir ++ [n]) = dir ++ [newName k n])
    (hpred : ∀ k n, n ∈ entriesMatching fs dir pred → pred (newName k n) = true)
    (hinj : ∀ i j n m, n ∈ entriesMatching fs dir pred → m ∈ entriesMatching fs dir pred →
      newName i n = newName j m → i = j)
    (hfiles : ∀ n ∈ entriesMatching fs dir pred, isFileAt fs (dir ++ [n]) = true)
    (hclash : ∀ i j ni nj, i < j → (entriesMatching fs dir pred)[i]? = some ni →
      (entriesMatching fs dir pred)[j]? = some nj → nj ≠ newName i ni) :
    ∃ fs', renamePairs (seqPairs dest ((entriesMatching fs dir pred).map (fun n => dir ++ [n])) 0) fs =
        (fs', none) ∧ WF fs' ∧
      (∀ k n, (entriesMatching fs dir pred)[k]? = some n →
        stat fs' (dir ++ [newName k n]) = stat fs (dir ++ [n])) ∧
      (∀ p, (∀ k n, (entriesMatching fs dir pred)[k]? = some n → p ≠ dir ++ [newName k n]) →
        stat fs' p =
          if p ∈ (entriesMatching fs dir pred).map (fun n => dir ++ [n]) then none
          else stat fs p) := by
  set names := entriesMatching fs dir pred with hnames
  set pairs := seqPairs dest (names.map (fun n => dir ++ [n])) 0 with hpairs
  have hfst : pairs.map Prod.fst = names.map (fun n => dir ++ [n]) := seqPairs_fst _ _ _
  have hsrcmem : ∀ x ∈ pairs, ∃ n ∈ names, x.1 = dir ++ [n] := by
    intro x hx
    have : x.1 ∈ pairs.map Prod.fst := List.mem_map_of_mem Prod.fst hx
    rw [hfst, List.mem_map] at this
    obtain ⟨n, hn, hxn⟩ := this
    exact ⟨n, hn, hxn.symm⟩
  have hdstmem : ∀ x ∈ pairs, ∃ k n, names[k]? = some n ∧ x.1 = dir ++ [n] ∧
      x.2 = dir ++ [newName k n] := by
    intro x hx
    obtain ⟨k, _, hk, hd⟩ := mem_seqPairs_index hx
    rw [List.getElem?_map] at hk
    cases hnk : names[k]? with
    | none => simp [hnk] at hk
    | some n =>
      simp only [hnk, Option.map_some', Option.some.injEq] at hk
      refine ⟨k, n, hnk, hk.symm, ?_⟩
      rw [hd, ← hk, zero_add, hdest]
  have hdirAt : ∀ n ∈ names, isDirAt fs dir = true := fun n hn =>
    ((mem_entriesMatching hwf dir pred n).1 hn).1
  obtain ⟨fs', hrun, hwf', hmoved, hother⟩ := renamePairs_spec pairs fs hwf
    (by
      intro x hx
      obtain ⟨n, hn, hxn⟩ := hsrcmem x hx
      rw [hxn]
      exact hfiles n hn)
    (by
      rw [hfst]
      exact (nodup_entriesMatching hwf dir pred).map (snoc_injective dir))
    (nodup_seqPairs_snd_of_mem _ (by
      intro i j f hf g hg h
      obtain ⟨n, hn, rfl⟩ := List.mem_map.1 hf
      obtain ⟨m, hm, rfl⟩ := List.mem_map.1 hg
      rw [hdest, hdest] at h
      exact hinj i j n m hn hm (snoc_inj h).2) _)
    (by
      intro x hx
      obtain ⟨n, hn, _⟩ := hsrcmem x hx
      obtain ⟨k, m, _, _, hxk⟩ := hdstmem x hx
      rw [hxk, parent_snoc]
      exact isDirAt_iff.1 (hdirAt n hn))
    (by
      intro x hx hne
      obtain ⟨n, hn, _⟩ := hsrcmem x hx
      obtain ⟨k, m, hk, _, hxk⟩ := hdstmem x hx
      rw [hfst, hxk]
      apply List.mem_map_of_mem
      rw [hnames, mem_entriesMatching hwf]
      refine ⟨hdirAt n hn, ?_, hpred k m (List.getElem?_mem hk)⟩
      rw [hxk] at hne
      exact Option.ne_none_iff_isSome.1 hne)
    (by
      apply pairwise_seqPairs
      intro a b fa fb hab ha hb
      rw [List.getElem?_map] at ha hb
      cases hna : names[a]? with
      | none => simp [hna] at ha
      | some na =>
        cases hnb : names[b]? with
        | none => simp [hnb] at hb
        | some nb =>
          simp only [hna, hnb, Option.map_some', Option.some.injEq] at ha hb
          subst ha hb
          rw [zero_add, hdest]
          intro h
          exact hclash a b na nb hab hna hnb (snoc_inj h).2)
  refine ⟨fs', hrun, hwf', ?_, ?_⟩
  · intro k n hk
    have hp : pairs[k]? = some (dir ++ [n], dir ++ [newName k n]) := by
      rw [hpairs, getElem?_seqPairs, List.getElem?_map, hk]
      simp [hdest]
    exact hmoved _ (List.mem_iff_getElem?.2 ⟨k, hp⟩)
  · intro p hp
    rw [hother p, hfst]
    intro hmem
    obtain ⟨x, hx, hxp⟩ := List.mem_map.1 hmem
    obtain ⟨k, n, hk, _, hxk⟩ := hdstmem x hx
    exact hp k n hk (by rw [← hxp, hxk])

/-- The image loop with an arbitrary file-name prefix without separator, on a
directory whose image entries are regular files, none of them bearing the new
name of an earlier one. -/
theorem renameJPGsLoop_spec {fs : FS} (hwf : WF fs) {dir : Path} (hd : noMeta dir = true)
    (pics : String) (hslash : '/' ∉ pics.data)
    (hfiles : ∀ n ∈ entriesMatching fs dir isImageName, isFileAt fs (dir ++ [n]) = true)
    (hclash : ∀ i j, i < j → (entriesMatching fs dir isImageName)[j]? ≠
      some (seqName pics (i + 1) ".jpg")) :
    ∃ L, globAll fs dir imageExtensions = some L ∧
      L.length = (entriesMatching fs dir isImageName).length ∧
      ∃ fs', renameJPGsLoop dir pics (sortPaths L) 0 fs = (fs', none) ∧ WF fs' ∧
      (∀ k n, (entriesMatching fs dir isImageName)[k]? = some n →
        stat fs' (dir ++ [seqName pics (k + 1) ".jpg"]) = stat fs (dir ++ [n])) ∧
      (∀ p, (∀ k, k < (entriesMatching fs dir isImageName).length →
          p ≠ dir ++ [seqName pics (k + 1) ".jpg"]) →
        stat fs' p =
          if p ∈ (entriesMatching fs dir isImageName).map (fun n => dir ++ [n]) then none
          else stat fs p) := by
  obtain ⟨L, hL, hlen, hsort⟩ := sortPaths_images hwf hd
  refine ⟨L, hL, hlen, ?_⟩
  obtain ⟨fs', hrun, hwf', hA, hB⟩ := renumber_spec hwf dir isImageName
    (fun k _ => dir ++ [seqName pics (k + 1) ".jpg"]) (fun k _ => seqName pics (k + 1) ".jpg")
    (fun _ _ => rfl) (fun k _ _ => isImageName_seqName hslash _)
    (by
      intro i j _ _ _ _ h
      have := seqName_inj rfl h
      omega)
    hfiles
    (by
      intro i j ni nj hij _ hj h
      exact hclash i j hij (by rw [hj, h]))
  refine ⟨fs', by rw [renameJPGsLoop_eq, hsort]; exact hrun, hwf', hA, ?_⟩
  intro p hp
  apply hB
  intro k n hk
  exact hp k (List.getElem?_eq_some_iff.1 hk).1

/-- The image step on a bucket whose image entries are regular files, none
of them bearing the new name of an earlier one: it succeeds, the k-th image
in name order becomes number k+1, and nothing else changes. -/
theorem renameJPGs_spec {fs : FS} (hwf : WF fs) {dir : Path} (hd : noMeta dir = true)
    (dirName : String) (h4 : (Fields dirName).length = 4)
    (hslash : '/' ∉ (Join (Fields dirName) "_").data)
    (hfiles : ∀ n ∈ entriesMatching fs dir isImageName, isFileAt fs (dir ++ [n]) = true)
    (hclash : ∀ i j, i < j → (entriesMatching fs dir isImageName)[j]? ≠
      some (seqName (Join (Fields dirName) "_") (i + 1) ".jpg")) :
    ∃ fs', renameJPGs fs dir dirName = (fs', none) ∧ WF fs' ∧
      (∀ k n, (entriesMatching fs dir isImageName)[k]? = some n →
        stat fs' (dir ++ [seqName (Join (Fields dirName) "_") (k + 1) ".jpg"]) =
          stat fs (dir ++ [n])) ∧
      (∀ p, (∀ k, k < (entriesMatching fs dir isImageName).length →
          p ≠ dir ++ [seqName (Join (Fields dirName) "_") (k + 1) ".jpg"]) →
        stat fs' p =
          if p ∈ (entriesMatching fs dir isImageName).map (fun n => dir ++ [n]) then none
          else stat fs p) := by
  obtain ⟨L, hL, hlen, fs', hrun, hwf', hA, hB⟩ :=
    renameJPGsLoop_spec hwf hd (Join (Fields dirName) "_") hslash hfiles hclash
  unfold renameJPGs
  simp only [hL]
  by_cases h0 : L.length = 0
  · have hnil : entriesMatching fs dir isImageName = [] := List.length_eq_zero.1 (hlen ▸ h0)
    simp only [h0, if_true]
    exact ⟨fs, rfl, hwf, by simp [hnil], by simp [hnil]⟩
  · simp only [h0, if_false, h4, ne_eq, not_true_eq_false]
    exact ⟨fs', hrun, hwf', hA, hB⟩

/-- The list of matching entries depends only on the directory and on what
stands at the matching names. -/
theorem entriesMatching_congr {fs1 fs2 : FS} (h1 : WF fs1) (h2 : WF fs2) (dir : Path)
    (pred : String → Bool) (hdir : isDirAt fs1 dir = isDirAt fs2 dir)
    (h : ∀ n, pred n = true → (stat fs1 (dir ++ [n])).isSome = (stat fs2 (dir ++ [n])).isSome) :
    entriesMatching fs1 dir pred = entriesMatching fs2 dir pred := by
  haveI := nameLe_isAntisymm
  apply List.eq_of_perm_of_sorted (r := nameLe) _ (sorted_entriesMatching fs1 dir pred)
    (sorted_entriesMatching fs2 dir pred)
  rw [List.perm_ext_iff_of_nodup (nodup_entriesMatching h1 dir pred)
    (nodup_entriesMatching h2 dir pred)]
  intro n
  rw [mem_entriesMatching h1, mem_entriesMatching h2, hdir]
  constructor
  · rintro ⟨a, b, c⟩; exact ⟨a, (h n c) ▸ b, c⟩
  · rintro ⟨a, b, c⟩; exact ⟨a, (h n c).symm ▸ b, c⟩

theorem prefix_snoc_cases {p dir : Path} {x : String} (h : p <+: dir ++ [x]) :
    p = dir ++ [x] ∨ p <+: dir := by
  rw [List.prefix_concat_iff] at h
  exact h

/-- In a well-formed state a directory that exists has all its ancestors. -/
theorem WF.stat_ancestor {fs : FS} (hwf : WF fs) {dir p : Path} (hdir : (stat fs dir).isSome = true)
    (hp : p <+: dir) : (stat fs p).isSome = true := by
  obtain ⟨r, rfl⟩ := hp
  by_cases hr : r = []
  · simpa [hr] using hdir
  · rw [hwf.prefix_dir p r hr hdir]; rfl

/-- The video step, whatever its outcome, changes nothing outside the video
entries of the bucket and its `videos` subdirectory. -/
theorem organiseVideos_frame {fs : FS} (hwf : WF fs) {dir : Path} (hd : noMeta dir = true)
    (dirName : String) {fs' : FS} {e : Option Err} (h : organiseVideos fs dir dirName = (fs', e)) :
    WF fs' ∧ ∀ p, ¬ (dir ++ ["videos"]) <+: p →
      (∀ n, isVideoName n = true → ¬ (dir ++ [n]) <+: p) → stat fs' p = stat fs p := by
  obtain ⟨L, hL, hlen, hsort⟩ := sortPaths_videos hwf hd
  unfold organiseVideos at h
  simp only [hL] at h
  by_cases h0 : L.length = 0
  · simp only [h0, if_true, Prod.mk.injEq] at h
    rw [← h.1]
    exact ⟨hwf, fun _ _ _ => rfl⟩
  · simp only [h0, if_false] at h
    cases hmk : mkdirAll fs (dir ++ ["videos"]) with
    | none =>
      simp only [hmk, Prod.mk.injEq] at h
      rw [← h.1]
      exact ⟨hwf, fun _ _ _ => rfl⟩
    | some fs1 =>
      simp only [hmk] at h
      have hwf1 := WF_mkdirAll hwf hmk
      -- the bucket exists, since it has a video entry
      have hne : entriesMatching fs dir isVideoName ≠ [] := by
        intro hnil
        rw [hnil] at hlen
        exact h0 hlen
      obtain ⟨n0, hn0⟩ := List.exists_mem_of_ne_nil _ hne
      have hdirAt : isDirAt fs dir = true := ((mem_entriesMatching hwf dir _ n0).1 hn0).1
      have hst1 : ∀ p, ¬ (dir ++ ["videos"]) <+: p → stat fs1 p = stat fs p := by
        intro p hp
        rw [stat_mkdirAll hmk]
        cases hs : stat fs p with
        | some n => rfl
        | none =>
          by_cases hpre : p <+: dir ++ ["videos"]
          · rcases prefix_snoc_cases hpre with rfl | hpd
            · exact absurd (List.prefix_refl _) hp
            · have := hwf.stat_ancestor (by rw [isDirAt_iff.1 hdirAt]; rfl) hpd
              rw [hs] at this
              cases this
          · simp [hpre]
      by_cases h4 : (Fields dirName).length = 4
      · simp only [h4, ne_eq, not_true_eq_false, if_false, organiseVideosLoop_eq, hsort] at h
        obtain ⟨hwf', hfr⟩ := renamePairs_frame _ fs1 fs' e hwf1 h
        refine ⟨hwf', ?_⟩
        intro p hp hv
        rw [hfr p, hst1 p hp]
        intro x hx
        obtain ⟨k, _, hmem, hdst⟩ := mem_seqPairs hx
        obtain ⟨n, hn, hxn⟩ := List.mem_map.1 hmem
        constructor
        · rw [← hxn]
          exact hv n ((mem_entriesMatching hwf dir _ n).1 hn).2.2
        · rw [hdst]
          intro hpre
          apply hp
          exact (List.prefix_append _ _).trans hpre
      · simp only [h4, ne_eq, not_false_eq_true, if_true, Prod.mk.injEq] at h
        rw [← h.1]
        exact ⟨hwf1, fun p hp _ => hst1 p hp⟩

/-- The image step, whatever its outcome, changes nothing outside the image
entries of the bucket and the entries with the new names. -/
theorem renameJPGs_frame {fs : FS} (hwf : WF fs) {dir : Path} (hd : noMeta dir = true)
    (dirName : String) {fs' : FS} {e : Option Err} (h : renameJPGs fs dir dirName = (fs', e)) :
    WF fs' ∧ ∀ p,
      (∀ x, (isImageName x = true ∨ ∃ k, x = seqName (Join (Fields dirName) "_") (k + 1) ".jpg") →
        ¬ (dir ++ [x]) <+: p) → stat fs' p = stat fs p := by
  obtain ⟨L, hL, hlen, hsort⟩ := sortPaths_images hwf hd
  unfold renameJPGs at h
  simp only [hL] at h
  by_cases h0 : L.length = 0
  · simp only [h0, if_true, Prod.mk.injEq] at h
    rw [← h.1]
    exact ⟨hwf, fun _ _ => rfl⟩
  · simp only [h0, if_false] at h
    by_cases h4 : (Fields dirName).length = 4
    · simp only [h4, ne_eq, not_true_eq_false, if_false, renameJPGsLoop_eq, hsort] at h
      obtain ⟨hwf', hfr⟩ := renamePairs_frame _ fs fs' e hwf h
      refine ⟨hwf', ?_⟩
      intro p hp
      rw [hfr p]
      intro x hx
      obtain ⟨k, _, hmem, hdst⟩ := mem_seqPairs hx
      obtain ⟨n, hn, hxn⟩ := List.mem_map.1 hmem
      constructor
      · rw [← hxn]
        exact hp n (Or.inl ((mem_entriesMatching hwf dir _ n).1 hn).2.2)
      · rw [hdst]
        exact hp _ (Or.inr ⟨k, rfl⟩)
    · simp only [h4, ne_eq, not_false_eq_true, if_true, Prod.mk.injEq] at h
      rw [← h.1]
      exact ⟨hwf, fun _ _ => rfl⟩

theorem not_prefix_of_sibling {target p : Path} {n b : String} (hnb : n ≠ b)
    (hp : (target ++ [b]) <+: p) (r : Path) : ¬ (target ++ [n] ++ r) <+: p := by
  intro h
  have h1 : (target ++ [n]) <+: p := (List.prefix_append _ _).trans h
  rcases List.prefix_or_prefix_of_prefix h1 hp with h2 | h2
  · have := List.IsPrefix.eq_of_length h2 (by simp)
    exact hnb (snoc_inj this).2
  · have := List.IsPrefix.eq_of_length h2 (by simp)
    exact hnb (snoc_inj this).2.symm

/-- Both steps on a bucket, whatever their outcome, change nothing under a
sibling of the bucket. -/
theorem organiseBucket_frame {fs : FS} (hwf : WF fs) {target : Path} {n b : String}
    (hd : noMeta (target ++ [n]) = true) (hnb : n ≠ b) {fs1 : FS} {e1 : Option Err}
    (fs2 : FS) (e2 : Option Err) (h1 : organiseVideos fs (target ++ [n]) n = (fs1, e1)) :
    WF fs1 ∧ (∀ p, (target ++ [b]) <+: p → stat fs1 p = stat fs p) ∧
    (renameJPGs fs1 (target ++ [n]) n = (fs2, e2) →
      WF fs2 ∧ ∀ p, (target ++ [b]) <+: p → stat fs2 p = stat fs p) := by
  obtain ⟨hwf1, hfr1⟩ := organiseVideos_frame hwf hd n h1
  have hf1 : ∀ p, (target ++ [b]) <+: p → stat fs1 p = stat fs p := by
    intro p hp
    apply hfr1 p
    · have := not_prefix_of_sibling hnb hp ["videos"]
      simpa using this
    · intro m _
      have := not_prefix_of_sibling hnb hp ([] : Path)
      intro hc
      exact not_prefix_of_sibling hnb hp [m] (by simpa using hc)
  refine ⟨hwf1, hf1, ?_⟩
  intro h2
  obtain ⟨hwf2, hfr2⟩ := renameJPGs_frame hwf1 hd n h2
  refine ⟨hwf2, ?_⟩
  intro p hp
  rw [hfr2 p, hf1 p hp]
  intro x _ hc
  exact not_prefix_of_sibling hnb hp [x] (by simpa using hc)

/-- The bucket loop, whatever its outcome, changes nothing under a directory
that is not among the entries it processes. -/
theorem organiseBucketsLoop_frame {target : Path} (ht : noMeta target = true) (b : String) :
    ∀ (es : List (String × Bool)) (fs fs' : FS) (e : Option Err), WF fs →
      b ∉ es.map Prod.fst → (∀ x ∈ es, x.2 = true → hasMeta x.1 = false) →
      organiseBucketsLoop target es fs = (fs', e) →
      WF fs' ∧ ∀ p, (target ++ [b]) <+: p → stat fs' p = stat fs p := by
  intro es
  induction es with
  | nil =>
    intro fs fs' e hwf _ _ h
    simp only [organiseBucketsLoop, Prod.mk.injEq] at h
    rw [← h.1]
    exact ⟨hwf, fun _ _ => rfl⟩
  | cons x rest ih =>
    intro fs fs' e hwf hb hm h
    obtain ⟨n, isDir⟩ := x
    simp only [List.map_cons, List.mem_cons, not_or] at hb
    have hm' : ∀ x ∈ rest, x.2 = true → hasMeta x.1 = false :=
      fun x hx => hm x (List.mem_cons_of_mem _ hx)
    cases isDir with
    | false =>
      simp only [organiseBucketsLoop, Bool.false_eq_true, not_false_eq_true, if_true] at h
      exact ih fs fs' e hwf hb.2 hm' h
    | true =>
      simp only [organiseBucketsLoop, not_true_eq_false, if_false] at h
      have hdn : noMeta (target ++ [n]) = true := by
        rw [noMeta_iff] at ht ⊢
        intro c hc
        rcases List.mem_append.1 hc with hc | hc
        · exact ht c hc
        · simp only [List.mem_singleton] at hc
          rw [hc]
          exact hm (n, true) (List.mem_cons_self _ _) rfl
      have hnb : n ≠ b := fun hc => hb.1 hc.symm
      cases hv : organiseVideos fs (target ++ [n]) n with
      | mk fs1 e1 =>
        cases hj : renameJPGs fs1 (target ++ [n]) n with
        | mk fs2 e2 =>
          obtain ⟨hwf1, hf1, hrest⟩ := organiseBucket_frame hwf hdn hnb fs2 e2 hv
          cases e1 with
          | some err =>
            simp only [hv, Prod.mk.injEq] at h
            rw [← h.1]
            exact ⟨hwf1, hf1⟩
          | none =>
            obtain ⟨hwf2, hf2⟩ := hrest hj
            simp only [hv, hj] at h
            cases e2 with
            | some err =>
              simp only [Prod.mk.injEq] at h
              rw [← h.1]
              exact ⟨hwf2, hf2⟩
            | none =>
              simp only at h
              obtain ⟨hwf', hf'⟩ := ih fs2 fs' e hwf2 hb.2 hm' h
              exact ⟨hwf', fun p hp => by rw [hf' p hp, hf2 p hp]⟩

theorem mem_fieldsAux : ∀ (l cur tok : List Char), tok ∈ fieldsAux l cur →
    ∀ c ∈ tok, c ∈ cur ∨ c ∈ l := by
  intro l
  induction l with
  | nil =>
    intro cur tok h c hc
    by_cases hcur : cur = []
    · simp [fieldsAux, hcur] at h
    · simp only [fieldsAux, hcur, if_false, List.mem_singleton] at h
      subst h
      exact Or.inl hc
  | cons x xs ih =>
    intro cur tok h c hc
    by_cases hx : isSpace x = true
    · by_cases hcur : cur = []
      · simp only [fieldsAux, hx, hcur, if_true] at h
        rcases ih [] tok h c hc with h1 | h1
        · simp at h1
        · exact Or.inr (List.mem_cons_of_mem _ h1)
      · simp only [fieldsAux, hx, hcur, if_true, if_false, List.mem_cons] at h
        rcases h with rfl | h
        · exact Or.inl hc
        · rcases ih [] tok h c hc with h1 | h1
          · simp at h1
          · exact Or.inr (List.mem_cons_of_mem _ h1)
    · simp only [fieldsAux, hx, Bool.false_eq_true, if_false] at h
      rcases ih (cur ++ [x]) tok h c hc with h1 | h1
      · rcases List.mem_append.1 h1 with h2 | h2
        · exact Or.inl h2
        · simp only [List.mem_singleton] at h2
          exact Or.inr (by simp [h2])
      · exact Or.inr (List.mem_cons_of_mem _ h1)

theorem mem_joinChars {sep : List Char} : ∀ {ls : List (List Char)} {c : Char},
    c ∈ joinChars sep ls → c ∈ sep ∨ ∃ l ∈ ls, c ∈ l := by
  intro ls
  induction ls with
  | nil => intro c h; simp [joinChars] at h
  | cons l rest ih =>
    intro c h
    cases rest with
    | nil =>
      simp only [joinChars] at h
      exact Or.inr ⟨l, List.mem_cons_self _ _, h⟩
    | cons l2 rest2 =>
      simp only [joinChars, List.mem_append] at h
      rcases h with (h | h) | h
      · exact Or.inr ⟨l, List.mem_cons_self _ _, h⟩
      · exact Or.inl h
      · rcases ih h with h1 | ⟨l3, hl3, hc⟩
        · exact Or.inl h1
        · exact Or.inr ⟨l3, List.mem_cons_of_mem _ hl3, hc⟩

/-- The file-name prefix of a bucket holds no separator when its name holds none. -/
theorem join_fields_no_slash {name : String} (h : '/' ∉ name.data) :
    '/' ∉ (Join (Fields name) "_").data := by
  intro hc
  simp only [Join, Fields, List.map_map] at hc
  rcases mem_joinChars hc with h1 | ⟨l, hl, hcl⟩
  · revert h1; decide
  · simp only [List.mem_map, Function.comp] at hl
    obtain ⟨tok, htok, rfl⟩ := hl
    rcases mem_fieldsAux _ _ _ htok _ hcl with h1 | h1
    · simp at h1
    · exact h h1

/-- After a renumbering of the entries selected by `pred`, described
pointwise, the selected entries (of the directory where it now stands) are
exactly the new names. -/
theorem entries_after_renumber {fs fs' : FS} (hwf : WF fs) (hwf' : WF fs') (dir dir' : Path)
    (pred : String → Bool) (newName : Nat → String)
    (hinj : ∀ i j, i < (entriesMatching fs dir pred).length → j < (entriesMatching fs dir pred).length →
      newName i = newName j → i = j)
    (hpred : ∀ k, pred (newName k) = true)
    (hdir : isDirAt fs' dir' = isDirAt fs dir)
    (hA : ∀ k n, (entriesMatching fs dir pred)[k]? = some n →
      stat fs' (dir' ++ [newName k]) = stat fs (dir ++ [n]))
    (hB : ∀ n, pred n = true →
      (∀ k, k < (entriesMatching fs dir pred).length → n ≠ newName k) →
      stat fs' (dir' ++ [n]) = if n ∈ entriesMatching fs dir pred then none else stat fs (dir ++ [n])) :
    (entriesMatching fs' dir' pred).Perm
      ((List.range (entriesMatching fs dir pred).length).map newName) := by
  set names := entriesMatching fs dir pred with hnames
  rw [List.perm_ext_iff_of_nodup (nodup_entriesMatching hwf' dir' pred)
    ((List.nodup_range _).map_on (fun i hi j hj h =>
      hinj i j (List.mem_range.1 hi) (List.mem_range.1 hj) h))]
  intro n
  rw [mem_entriesMatching hwf', List.mem_map]
  constructor
  · rintro ⟨h1, h2, h3⟩
    by_contra hno
    have hne : ∀ k, k < names.length → n ≠ newName k := by
      intro k hk h
      exact hno ⟨k, List.mem_range.2 hk, h.symm⟩
    rw [hB n h3 hne] at h2
    by_cases hmem : n ∈ names
    · simp [hmem] at h2
    · simp only [hmem, if_false] at h2
      apply hmem
      rw [hnames, mem_entriesMatching hwf]
      exact ⟨hdir ▸ h1, h2, h3⟩
  · rintro ⟨k, hk, rfl⟩
    have hk' := List.mem_range.1 hk
    have hget : names[k]? = some names[k] := List.getElem?_eq_getElem hk'
    have hmem : names[k] ∈ entriesMatching fs dir pred := List.getElem_mem _
    rw [mem_entriesMatching hwf] at hmem
    refine ⟨hdir ▸ hmem.1, ?_, hpred k⟩
    rw [hA k _ hget]
    exact hmem.2.1

/-- A successful bucket loop: the state in which a given bucket was reached,
the two steps on that bucket, and the frame around them. -/
theorem organiseBucketsLoop_focus {target : Path} (ht : noMeta target = true) (b : String) :
    ∀ (es : List (String × Bool)) (fs fs' : FS), WF fs → (es.map Prod.fst).Nodup →
      (b, true) ∈ es → (∀ x ∈ es, x.2 = true → hasMeta x.1 = false) →
      organiseBucketsLoop target es fs = (fs', none) →
      ∃ fsa fsv fsb, WF fsa ∧ (∀ p, (target ++ [b]) <+: p → stat fsa p = stat fs p) ∧
        organiseVideos fsa (target ++ [b]) b = (fsv, none) ∧
        renameJPGs fsv (target ++ [b]) b = (fsb, none) ∧
        WF fs' ∧ (∀ p, (target ++ [b]) <+: p → stat fs' p = stat fsb p) := by
  intro es
  induction es with
  | nil => intro fs fs' _ _ hb; simp at hb
  | cons x rest ih =>
    intro fs fs' hwf hnd hb hm h
    obtain ⟨n, isDir⟩ := x
    simp only [List.map_cons, List.nodup_cons] at hnd
    have hm' : ∀ x ∈ rest, x.2 = true → hasMeta x.1 = false :=
      fun x hx => hm x (List.mem_cons_of_mem _ hx)
    have hdn : isDir = true → noMeta (target ++ [n]) = true := by
      intro hdir
      rw [noMeta_iff] at ht ⊢
      intro c hc
      rcases List.mem_append.1 hc with hc | hc
      · exact ht c hc
      · simp only [List.mem_singleton] at hc
        rw [hc]
        exact hm (n, isDir) (List.mem_cons_self _ _) hdir
    rcases List.mem_cons.1 hb with heq | hb'
    · -- the bucket is the head
      simp only [Prod.mk.injEq] at heq
      obtain ⟨rfl, rfl⟩ := heq
      simp only [organiseBucketsLoop, not_true_eq_false, if_false] at h
      cases hv : organiseVideos fs (target ++ [b]) b with
      | mk fsv e1 =>
        cases e1 with
        | some err => simp [hv] at h
        | none =>
          cases hj : renameJPGs fsv (target ++ [b]) b with
          | mk fsb e2 =>
            cases e2 with
            | some err => simp [hv, hj] at h
            | none =>
              simp only [hv, hj] at h
              have hwfv := (organiseVideos_frame hwf (hdn rfl) b hv).1
              have hwfb := (renameJPGs_frame hwfv (hdn rfl) b hj).1
              obtain ⟨hwf', hf'⟩ := organiseBucketsLoop_frame ht b rest fsb fs' none hwfb
                hnd.1 hm' h
              exact ⟨fs, fsv, fsb, hwf, fun _ _ => rfl, hv, hj, hwf', hf'⟩
    · have hnb : n ≠ b := by
        rintro rfl
        exact hnd.1 (List.mem_map_of_mem Prod.fst hb')
      cases isDir with
      | false =>
        simp only [organiseBucketsLoop, Bool.false_eq_true, not_false_eq_true, if_true] at h
        exact ih fs fs' hwf hnd.2 hb' hm' h
      | true =>
        simp only [organiseBucketsLoop, not_true_eq_false, if_false] at h
        cases hv : organiseVideos fs (target ++ [n]) n with
        | mk fs1 e1 =>
          cases e1 with
          | some err => simp [hv] at h
          | none =>
            cases hj : renameJPGs fs1 (target ++ [n]) n with
            | mk fs2 e2 =>
              cases e2 with
              | some err => simp [hv, hj] at h
              | none =>
                simp only [hv, hj] at h
                obtain ⟨_, _, hrest⟩ := organiseBucket_frame hwf
                  (hdn rfl) hnb fs2 none hv
                obtain ⟨hwf2, hf2⟩ := hrest hj
                obtain ⟨fsa, fsv, fsb, hwfa, hfa, hv', hj', hwf', hf'⟩ :=
                  ih fs2 fs' hwf2 hnd.2 hb' hm' h
                exact ⟨fsa, fsv, fsb, hwfa, fun p hp => by rw [hfa p hp, hf2 p hp], hv', hj',
                  hwf', hf'⟩

theorem isImageName_videos : isImageName "videos" = false := by decide

theorem snoc_prefix_snoc {dir : Path} {a b : String} (h : (dir ++ [a]) <+: (dir ++ [b])) : a = b := by
  have := List.IsPrefix.eq_of_length h (by simp)
  exact (snoc_inj this).2

/-- The video step leaves the bucket directory and its image entries alone. -/
theorem organiseVideos_keeps_images {fs : FS} (hwf : WF fs) {dir : Path} (hd : noMeta dir = true)
    (dirName : String) {fs' : FS} {e : Option Err} (h : organiseVideos fs dir dirName = (fs', e)) :
    WF fs' ∧ stat fs' dir = stat fs dir ∧
      ∀ n, isImageName n = true → stat fs' (dir ++ [n]) = stat fs (dir ++ [n]) := by
  obtain ⟨hwf', hfr⟩ := organiseVideos_frame hwf hd dirName h
  refine ⟨hwf', ?_, ?_⟩
  · apply hfr
    · intro hc
      have := hc.length_le
      simp at this
    · intro n _ hc
      have := hc.length_le
      simp at this
  · intro n hn
    apply hfr
    · intro hc
      have := snoc_prefix_snoc hc
      rw [← this, isImageName_videos] at hn
      cases hn
    · intro m hm hc
      have := snoc_prefix_snoc hc
      rw [← this, not_image_of_video hm] at hn
      cases hn

/-- The image entries of a bucket after a run that returned nil: the numbered
names, the `k`-th image in ascending name order being number `k+1`. -/
theorem images_after_organise (fs fs' : FS) (target : Path) (b : String)
    (hwf : WF fs) (ht : noMeta target = true)
    (hm : ∀ x ∈ (readDir fs target).getD [], x.2 = true → hasMeta x.1 = false)
    (hb : isDirAt fs (target ++ [b]) = true) (hslash : '/' ∉ b.data)
    (h4 : (Fields b).length = 4)
    (hfiles : ∀ n ∈ entriesMatching fs (target ++ [b]) isImageName,
      isFileAt fs (target ++ [b] ++ [n]) = true)
    (hclash : ∀ j, j < (entriesMatching fs (target ++ [b]) isImageName).length → ∀ i, i < j →
      (entriesMatching fs (target ++ [b]) isImageName)[j]? ≠
        some (seqName (Join (Fields b) "_") (i + 1) ".jpg"))
    (hrun : OrganiseVideosAndRenameJPGs fs target = (fs', none)) :
    (entriesMatching fs' (target ++ [b]) isImageName).Perm
        ((List.range (entriesMatching fs (target ++ [b]) isImageName).length).map
          (fun k => seqName (Join (Fields b) "_") (k + 1) ".jpg")) ∧
      ∀ k n, (entriesMatching fs (target ++ [b]) isImageName)[k]? = some n →
        stat fs' (target ++ [b] ++ [seqName (Join (Fields b) "_") (k + 1) ".jpg"]) =
          stat fs (target ++ [b] ++ [n]) := by
  unfold OrganiseVideosAndRenameJPGs at hrun
  cases hrd : readDir fs target with
  | none => simp [hrd] at hrun
  | some es =>
    simp only [hrd] at hrun
    have hbmem : (b, true) ∈ es := (mem_readDir hwf hrd b true).2 ⟨Node.dir, isDirAt_iff.1 hb, rfl⟩
    have hmes : ∀ x ∈ es, x.2 = true → hasMeta x.1 = false := by
      simpa [hrd] using hm
    obtain ⟨fsa, fsv, fsb, hwfa, hfa, hv, hj, hwf', hf'⟩ :=
      organiseBucketsLoop_focus ht b es fs fs' hwf (nodup_readDir hwf hrd) hbmem hmes hrun
    have hdn : noMeta (target ++ [b]) = true := by
      rw [noMeta_iff] at ht ⊢
      intro c hc
      rcases List.mem_append.1 hc with hc | hc
      · exact ht c hc
      · simp only [List.mem_singleton] at hc
        rw [hc]
        exact hmes (b, true) hbmem rfl
    obtain ⟨hwfv, hvdir, hvimg⟩ := organiseVideos_keeps_images hwfa hdn b hv
    -- the image entries when the image step starts are those of the start
    have hsame : ∀ n, isImageName n = true →
        stat fsv (target ++ [b] ++ [n]) = stat fs (target ++ [b] ++ [n]) := by
      intro n hn
      rw [hvimg n hn, hfa _ (List.prefix_append _ _)]
    have hdirv : stat fsv (target ++ [b]) = stat fs (target ++ [b]) := by
      rw [hvdir, hfa _ (List.prefix_refl _)]
    have hnames : entriesMatching fsv (target ++ [b]) isImageName =
        entriesMatching fs (target ++ [b]) isImageName := by
      apply entriesMatching_congr hwfv hwf
      · unfold isDirAt; rw [hdirv]
      · intro n hn; rw [hsame n hn]
    obtain ⟨fsb', hj', hwfb, hA, hB⟩ := renameJPGs_spec hwfv hdn b h4 (join_fields_no_slash hslash)
      (by
        intro n hn
        rw [hnames] at hn
        have := hfiles n hn
        unfold isFileAt at this ⊢
        rw [hsame n ((mem_entriesMatching hwf _ _ n).1 hn).2.2]
        exact this)
      (by
        rw [hnames]
        intro i j hij
        by_cases hj : j < (entriesMatching fs (target ++ [b]) isImageName).length
        · exact hclash j hj i hij
        · rw [List.getElem?_eq_none (by omega)]
          simp)
    rw [hj] at hj'
    simp only [Prod.mk.injEq, and_true] at hj'
    subst hj'
    rw [hnames] at hA hB
    -- from the state after the image step back to the start, and on to the end
    have hA' : ∀ k n, (entriesMatching fs (target ++ [b]) isImageName)[k]? = some n →
        stat fs' (target ++ [b] ++ [seqName (Join (Fields b) "_") (k + 1) ".jpg"]) =
          stat fs (target ++ [b] ++ [n]) := by
      intro k n hk
      rw [hf' _ (List.prefix_append _ _), hA k n hk]
      exact hsame n ((mem_entriesMatching hwf _ _ n).1 (List.getElem?_mem hk)).2.2
    refine ⟨?_, hA'⟩
    have hperm := entries_after_renumber hwfv hwfb (target ++ [b]) (target ++ [b]) isImageName
      (fun k => seqName (Join (Fields b) "_") (k + 1) ".jpg")
      (by
        intro i j _ _ h
        have := seqName_inj rfl h
        omega)
      (fun k => isImageName_seqName (join_fields_no_slash hslash) _)
      (by
        unfold isDirAt
        rw [hB (target ++ [b])]
        · have : target ++ [b] ∉ (entriesMatching fs (target ++ [b]) isImageName).map
              (fun n => target ++ [b] ++ [n]) := by
            intro h
            obtain ⟨n, _, hn⟩ := List.mem_map.1 h
            have := congrArg List.length hn
            simp at this
          rw [if_neg this]
        · intro k _ h
          have := congrArg List.length h
          simp at this)
      (by rw [hnames]; exact hA)
      (by
        rw [hnames]
        intro n _ hne
        rw [hB (target ++ [b] ++ [n]) (fun k hk h => hne k hk (snoc_inj h).2)]
        by_cases hmem : n ∈ entriesMatching fs (target ++ [b]) isImageName
        · rw [if_pos hmem, if_pos (List.mem_map_of_mem _ hmem)]
        · rw [if_neg hmem, if_neg]
          intro h
          obtain ⟨m, hm, hh⟩ := List.mem_map.1 h
          exact hmem ((snoc_inj hh).2 ▸ hm))
    rw [hnames] at hperm
    have hfinal : entriesMatching fs' (target ++ [b]) isImageName =
        entriesMatching fsb (target ++ [b]) isImageName := by
      apply entriesMatching_congr hwf' hwfb
      · unfold isDirAt; rw [hf' _ (List.prefix_refl _)]
      · intro n _; rw [hf' _ (List.prefix_append _ _)]
    rw [hfinal]
    exact hperm

/-- C2 (amended): let `b` be a bucket of `target` with a four-field name, no
glob metacharacter in the components of `target` nor in the name of any
directory entry of `target`, its image entries being regular files of which
none already bears the name that an image before it in ascending order is to
receive. After `OrganiseVideosAndRenameJPGs(target)` returned nil the image
entries of the bucket are exactly the names `<prefix>_<%05d of k+1>.jpg` for
`k` below their number, and the `k`-th image in ascending name order is the
one numbered `k+1`. -/
theorem organise_renumbers_images (fs fs' : FS) (target : Path) (b : String)
    (hwf : WF fs) (ht : noMeta target = true)
    (hm : ∀ x ∈ (readDir fs target).getD [], x.2 = true → hasMeta x.1 = false)
    (hb : isDirAt fs (target ++ [b]) = true) (hslash : '/' ∉ b.data)
    (h4 : (Fields b).length = 4)
    (hfiles : ∀ n ∈ entriesMatching fs (target ++ [b]) isImageName,
      isFileAt fs (target ++ [b] ++ [n]) = true)
    (hclash : ∀ j, j < (entriesMatching fs (target ++ [b]) isImageName).length → ∀ i, i < j →
      (entriesMatching fs (target ++ [b]) isImageName)[j]? ≠
        some (seqName (Join (Fields b) "_") (i + 1) ".jpg"))
    (hrun : OrganiseVideosAndRenameJPGs fs target = (fs', none)) :
    (entriesMatching fs' (target ++ [b]) isImageName).Perm
        ((List.range (entriesMatching fs (target ++ [b]) isImageName).length).map
          (fun k => seqName (Join (Fields b) "_") (k + 1) ".jpg")) ∧
      ∀ k n, (entriesMatching fs (target ++ [b]) isImageName)[k]? = some n →
        stat fs' (target ++ [b] ++ [seqName (Join (Fields b) "_") (k + 1) ".jpg"]) =
          stat fs (target ++ [b] ++ [n]) :=
  images_after_organise fs fs' target b hwf ht hm hb hslash h4 hfiles hclash hrun

/-- Witness of C2: `img0.jpeg` and `img1.JPG` become numbers 1 and 2 with `.jpg`. -/
theorem organise_renumbers_images_witness :
    (entriesMatching (OrganiseVideosAndRenameJPGs c2Fs ["t"]).1 (["t"] ++ ["2023 06 June 15"])
        isImageName).Perm
        ((List.range (entriesMatching c2Fs (["t"] ++ ["2023 06 June 15"]) isImageName).length).map
          (fun k => seqName (Join (Fields "2023 06 June 15") "_") (k + 1) ".jpg")) ∧
      ∀ k n, (entriesMatching c2Fs (["t"] ++ ["2023 06 June 15"]) isImageName)[k]? = some n →
        stat (OrganiseVideosAndRenameJPGs c2Fs ["t"]).1
          (["t"] ++ ["2023 06 June 15"] ++ [seqName (Join (Fields "2023 06 June 15") "_") (k + 1) ".jpg"]) =
          stat c2Fs (["t"] ++ ["2023 06 June 15"] ++ [n]) :=
  organise_renumbers_images c2Fs _ ["t"] "2023 06 June 15" (by decide) (by decide) (by decide)
    (by decide) (by decide) (by decide) (by decide) (by decide) (by decide)

/-- Counterexample to C2 as stated. First state: the bucket holds the two images
`0.jpg` and `2023_06_June_15_00001.jpg`; the call returns nil and one image is
left, `2023_06_June_15_00002.jpg`. Second state: the target directory is named
`p[x]`; the call returns nil and the image `a.jpg` has not been renamed. -/
theorem organise_images_clash_counterexample :
    (WF c2ClashFs ∧
      (OrganiseVideosAndRenameJPGs c2ClashFs ["t"]).2 = none ∧
      entriesMatching c2ClashFs ["t", "2023 06 June 15"] isImageName =
        ["0.jpg", "2023_06_June_15_00001.jpg"] ∧
      entriesMatching (OrganiseVideosAndRenameJPGs c2ClashFs ["t"]).1 ["t", "2023 06 June 15"]
        isImageName = ["2023_06_June_15_00002.jpg"]) ∧
    (WF c2MetaFs ∧
      (OrganiseVideosAndRenameJPGs c2MetaFs ["p[x]"]).2 = none ∧
      entriesMatching c2MetaFs ["p[x]", "2023 06 June 15"] isImageName = ["a.jpg"] ∧
      entriesMatching (OrganiseVideosAndRenameJPGs c2MetaFs ["p[x]"]).1 ["p[x]", "2023 06 June 15"]
        isImageName = ["a.jpg"]) := by
  decide

theorem extChars_append (u w : List Char) (hw : '.' ∉ w) : extChars (u ++ '.' :: w) = '.' :: w := by
  induction u with
  | nil => simp [extChars, hw]
  | cons c u ih => simp [extChars, ih]

theorem Ext_snoc (dir : Path) (n : String) : Ext (dir ++ [n]) = String.mk (extChars n.data) := by
  simp [Ext]

/-- The extension of a video entry is the `.mov` or `.MOV` its name ends with. -/
theorem Ext_video (dir : Path) {n : String} (h : isVideoName n = true) :
    (Ext (dir ++ [n]) = ".mov" ∨ Ext (dir ++ [n]) = ".MOV") ∧ (Ext (dir ++ [n])).data <:+ n.data := by
  rw [isVideoName_iff] at h
  obtain ⟨l, hl, u, hu, _⟩ := h
  simp only [List.mem_cons, List.mem_singleton, List.not_mem_nil, or_false] at hl
  rw [Ext_snoc, hu]
  rcases hl with rfl | rfl
  · have : extChars (u ++ ".mov".data) = ".mov".data := extChars_append u "mov".data (by decide)
    rw [this]
    exact ⟨Or.inl rfl, ⟨u, rfl⟩⟩
  · have : extChars (u ++ ".MOV".data) = ".MOV".data := extChars_append u "MOV".data (by decide)
    rw [this]
    exact ⟨Or.inr rfl, ⟨u, rfl⟩⟩

theorem Ext_video_length (dir : Path) {n : String} (h : isVideoName n = true) :
    (Ext (dir ++ [n])).data.length = 4 := by
  rcases (Ext_video dir h).1 with h1 | h1 <;> rw [h1] <;> rfl

/-- The video step on a bucket without `videos` entry whose video entries are
regular files: it succeeds; with at least one video the `videos` directory
holds the k-th video in name order as number k+1, the video entries are gone
from the bucket, and nothing else changes. -/
theorem organiseVideos_spec {fs : FS} (hwf : WF fs) {dir : Path} (hd : noMeta dir = true)
    (dirName : String) (h4 : (Fields dirName).length = 4)
    (hnov : stat fs (dir ++ ["videos"]) = none)
    (hfiles : ∀ n ∈ entriesMatching fs dir isVideoName, isFileAt fs (dir ++ [n]) = true) :
    ∃ fs', organiseVideos fs dir dirName = (fs', none) ∧ WF fs' ∧
      (entriesMatching fs dir isVideoName = [] → fs' = fs) ∧
      (entriesMatching fs dir isVideoName ≠ [] → stat fs' (dir ++ ["videos"]) = some Node.dir) ∧
      (∀ k n, (entriesMatching fs dir isVideoName)[k]? = some n →
        stat fs' (dir ++ ["videos"] ++ [seqName (Join (Fields dirName) "_") (k + 1) (Ext (dir ++ [n]))]) =
          stat fs (dir ++ [n])) ∧
      (∀ p, p ≠ dir ++ ["videos"] →
        (∀ k n, (entriesMatching fs dir isVideoName)[k]? = some n →
          p ≠ dir ++ ["videos"] ++ [seqName (Join (Fields dirName) "_") (k + 1) (Ext (dir ++ [n]))]) →
        stat fs' p =
          if p ∈ (entriesMatching fs dir isVideoName).map (fun n => dir ++ [n]) then none
          else stat fs p) := by
  obtain ⟨L, hL, hlen, hsort⟩ := sortPaths_videos hwf hd
  unfold organiseVideos
  simp only [hL]
  by_cases h0 : L.length = 0
  · have hnil : entriesMatching fs dir isVideoName = [] := List.length_eq_zero.1 (hlen ▸ h0)
    simp only [h0, if_true]
    exact ⟨fs, rfl, hwf, fun _ => rfl, fun h => absurd hnil h, by simp [hnil], by simp [hnil]⟩
  · simp only [h0, if_false]
    set names := entriesMatching fs dir isVideoName with hnames
    set pics := Join (Fields dirName) "_" with hpics
    have hne : names ≠ [] := by
      intro hnil
      rw [hnil] at hlen
      exact h0 hlen
    obtain ⟨n0, hn0⟩ := List.exists_mem_of_ne_nil _ hne
    have hdirAt : stat fs dir = some Node.dir :=
      isDirAt_iff.1 ((mem_entriesMatching hwf dir _ n0).1 hn0).1
    -- the `videos` directory can be made
    have hmk : ∃ fs1, mkdirAll fs (dir ++ ["videos"]) = some fs1 := by
      unfold mkdirAll
      have : (dir ++ ["videos"]).inits.any (fun q => isFileAt fs q) = false := by
        rw [List.any_eq_false]
        intro q hq
        rw [List.mem_inits] at hq
        rcases prefix_snoc_cases hq with rfl | hqd
        · simp [isFileAt, hnov]
        · obtain ⟨r, rfl⟩ := hqd
          by_cases hr : r = []
          · subst hr
            rw [List.append_nil] at hdirAt
            simp [isFileAt, hdirAt]
          · simp [isFileAt, hwf.prefix_dir q r hr (by rw [hdirAt]; rfl)]
      rw [if_neg (by rw [this]; simp)]
      exact ⟨_, rfl⟩
    obtain ⟨fs1, hmk⟩ := hmk
    have hwf1 := WF_mkdirAll hwf hmk
    have hst1 : ∀ p, p ≠ dir ++ ["videos"] → stat fs1 p = stat fs p := by
      intro p hp
      rw [stat_mkdirAll hmk]
      cases hs : stat fs p with
      | some n => rfl
      | none =>
        by_cases hpre : p <+: dir ++ ["videos"]
        · rcases prefix_snoc_cases hpre with rfl | hpd
          · exact absurd rfl hp
          · have := hwf.stat_ancestor (by rw [hdirAt]; rfl) hpd
            rw [hs] at this
            cases this
        · simp [hpre]
    have hvid1 : stat fs1 (dir ++ ["videos"]) = some Node.dir :=
      mkdirAll_dir hmk (List.prefix_refl _)
    simp only [hmk, h4, ne_eq, not_true_eq_false, if_false, organiseVideosLoop_eq, hsort]
    set dest : Nat → Path → Path :=
      fun k f => dir ++ ["videos"] ++ [seqName pics (k + 1) (Ext f)] with hdest
    set pairs := seqPairs dest (names.map (fun n => dir ++ [n])) 0 with hpairs
    have hfst : pairs.map Prod.fst = names.map (fun n => dir ++ [n]) := seqPairs_fst _ _ _
    have hsrcmem : ∀ x ∈ pairs, ∃ n ∈ names, x.1 = dir ++ [n] := by
      intro x hx
      have : x.1 ∈ pairs.map Prod.fst := List.mem_map_of_mem Prod.fst hx
      rw [hfst, List.mem_map] at this
      obtain ⟨n, hn, hxn⟩ := this
      exact ⟨n, hn, hxn.symm⟩
    have hdstmem : ∀ x ∈ pairs, ∃ k n, names[k]? = some n ∧ x.1 = dir ++ [n] ∧
        x.2 = dir ++ ["videos"] ++ [seqName pics (k + 1) (Ext (dir ++ [n]))] := by
      intro x hx
      obtain ⟨k, _, hk, hd⟩ := mem_seqPairs_index hx
      rw [List.getElem?_map] at hk
      cases hnk : names[k]? with
      | none => simp [hnk] at hk
      | some n =>
        simp only [hnk, Option.map_some', Option.some.injEq] at hk
        refine ⟨k, n, hnk, hk.symm, ?_⟩
        rw [hd, ← hk]
        simp [hdest]
    have hsrc_ne_vid : ∀ n : String, dir ++ [n] ≠ dir ++ ["videos"] ∨ isVideoName n = false := by
      intro n
      by_cases hn : n = "videos"
      · right; rw [hn]; decide
      · left; intro h; exact hn (snoc_inj h).2
    have hlen_ne : ∀ (n x : String), dir ++ [n] ≠ dir ++ ["videos"] ++ [x] := by
      intro n x h
      have := congrArg List.length h
      simp at this
    obtain ⟨fs', hrun, hwf', hmoved, hother⟩ := renamePairs_spec pairs fs1 hwf1
      (by
        intro x hx
        obtain ⟨n, hn, hxn⟩ := hsrcmem x hx
        rw [hxn]
        have hv := ((mem_entriesMatching hwf dir _ n).1 hn).2.2
        have := hfiles n hn
        unfold isFileAt at this ⊢
        rw [hst1]
        · exact this
        · rcases hsrc_ne_vid n with h | h
          · exact h
          · rw [h] at hv; cases hv)
      (by
        rw [hfst]
        exact (nodup_entriesMatching hwf dir isVideoName).map (snoc_injective dir))
      (nodup_seqPairs_snd_of_mem _ (by
        intro i j f hf g hg h
        obtain ⟨n, hn, rfl⟩ := List.mem_map.1 hf
        obtain ⟨m, hm, rfl⟩ := List.mem_map.1 hg
        have hvn := ((mem_entriesMatching hwf dir _ n).1 hn).2.2
        have hvm := ((mem_entriesMatching hwf dir _ m).1 hm).2.2
        have := seqName_inj (by rw [Ext_video_length dir hvn, Ext_video_length dir hvm])
          (snoc_inj h).2
        omega) _)
      (by
        intro x hx
        obtain ⟨k, n, _, _, hxk⟩ := hdstmem x hx
        rw [hxk, parent_snoc]
        exact hvid1)
      (by
        intro x hx hne
        exfalso
        obtain ⟨k, n, _, _, hxk⟩ := hdstmem x hx
        apply hne
        rw [hxk, hst1]
        · exact hwf.no_child_of_none hnov _
        · intro h
          have := congrArg List.length h
          simp at this)
      (by
        rw [List.pairwise_iff_forall_sublist]
        intro x y hxy
        have hx := hxy.subset (List.mem_cons_self _ _)
        have hy := hxy.subset (List.mem_cons_of_mem _ (List.mem_singleton_self _))
        obtain ⟨n, _, hyn⟩ := hsrcmem y hy
        obtain ⟨k, m, _, _, hxk⟩ := hdstmem x hx
        rw [hyn, hxk]
        exact hlen_ne _ _)
    refine ⟨fs', hrun, hwf', fun h => absurd h hne, ?_, ?_, ?_⟩
    · intro _
      rw [hother]
      · have : dir ++ ["videos"] ∉ pairs.map Prod.fst := by
          rw [hfst]
          intro h
          obtain ⟨n, hn, hh⟩ := List.mem_map.1 h
          have hv := ((mem_entriesMatching hwf dir _ n).1 hn).2.2
          rcases hsrc_ne_vid n with h1 | h1
          · exact h1 hh
          · rw [h1] at hv; cases hv
        simp [this, hvid1]
      · intro h
        obtain ⟨x, hx, hh⟩ := List.mem_map.1 h
        obtain ⟨k, n, _, _, hxk⟩ := hdstmem x hx
        rw [hxk] at hh
        have := congrArg List.length hh
        simp at this
    · intro k n hk
      have hp : pairs[k]? = some (dir ++ [n], dir ++ ["videos"] ++ [seqName pics (k + 1) (Ext (dir ++ [n]))]) := by
        rw [hpairs, getElem?_seqPairs, List.getElem?_map, hk]
        simp [hdest]
      rw [hmoved _ (List.mem_iff_getElem?.2 ⟨k, hp⟩)]
      have hv := ((mem_entriesMatching hwf dir _ n).1 (List.getElem?_mem hk)).2.2
      apply hst1
      rcases hsrc_ne_vid n with h | h
      · exact h
      · rw [h] at hv; cases hv
    · intro p hpv hp
      rw [hother p, hfst, hst1 p hpv]
      intro hmem
      obtain ⟨x, hx, hxp⟩ := List.mem_map.1 hmem
      obtain ⟨k, n, hk, _, hxk⟩ := hdstmem x hx
      exact hp k n hk (by rw [← hxp, hxk])

/-- The image step leaves alone every path below an entry of the bucket that
is neither an image name nor a new image name. -/
theorem renameJPGs_keeps {fs : FS} (hwf : WF fs) {dir : Path} (hd : noMeta dir = true)
    {dirName : String} (hslash : '/' ∉ (Join (Fields dirName) "_").data) {fs' : FS}
    {e : Option Err} (h : renameJPGs fs dir dirName = (fs', e)) {x : String}
    (hx : isImageName x = false) (r : Path) : stat fs' (dir ++ [x] ++ r) = stat fs (dir ++ [x] ++ r) := by
  apply (renameJPGs_frame hwf hd dirName h).2
  intro y hy hpre
  have hyx : y = x := by
    have h1 : (dir ++ [y]) <+: (dir ++ [x] ++ r) := hpre
    have h2 : (dir ++ [x]) <+: (dir ++ [x] ++ r) := List.prefix_append _ _
    rcases List.prefix_or_prefix_of_prefix h1 h2 with h3 | h3
    · exact snoc_prefix_snoc h3
    · exact (snoc_prefix_snoc h3).symm
  have hiy : isImageName y = true := by
    rcases hy with h1 | ⟨k, rfl⟩
    · exact h1
    · exact isImageName_seqName hslash _
  rw [hyx, hx] at hiy
  cases hiy

theorem isVideoName_videos : isVideoName "videos" = false := by decide

/-- C3 (amended): let `b` be a bucket of `target` with a four-field name and no
`videos` entry, no glob metacharacter in the components of `target` nor in
the name of any directory entry of `target`, its video entries being regular
files. After `OrganiseVideosAndRenameJPGs(target)` returned nil: with at
least one video the `videos` subdirectory exists and its entries are exactly
the names `<prefix>_<%05d of k+1><ext>` for `k` below the number of videos,
the `k`-th video in ascending name order being number `k+1` and `<ext>` its
own `.mov` or `.MOV`; no video entry is left in the bucket; without a video
no `videos` entry exists. -/
theorem organise_moves_videos (fs fs' : FS) (target : Path) (b : String)
    (hwf : WF fs) (ht : noMeta target = true)
    (hm : ∀ x ∈ (readDir fs target).getD [], x.2 = true → hasMeta x.1 = false)
    (hb : isDirAt fs (target ++ [b]) = true) (hslash : '/' ∉ b.data)
    (h4 : (Fields b).length = 4)
    (hnov : stat fs (target ++ [b] ++ ["videos"]) = none)
    (hfiles : ∀ n ∈ entriesMatching fs (target ++ [b]) isVideoName,
      isFileAt fs (target ++ [b] ++ [n]) = true)
    (hrun : OrganiseVideosAndRenameJPGs fs target = (fs', none)) :
    (entriesMatching fs (target ++ [b]) isVideoName ≠ [] →
      isDirAt fs' (target ++ [b] ++ ["videos"]) = true ∧
      (entriesMatching fs' (target ++ [b] ++ ["videos"]) (fun _ => true)).Perm
        ((List.range (entriesMatching fs (target ++ [b]) isVideoName).length).map
          (fun k => seqName (Join (Fields b) "_") (k + 1)
            (Ext (target ++ [b] ++ [(entriesMatching fs (target ++ [b]) isVideoName).getD k ""])))) ∧
      ∀ k n, (entriesMatching fs (target ++ [b]) isVideoName)[k]? = some n →
        stat fs' (target ++ [b] ++ ["videos"] ++
            [seqName (Join (Fields b) "_") (k + 1) (Ext (target ++ [b] ++ [n]))]) =
          stat fs (target ++ [b] ++ [n]) ∧
        (Ext (target ++ [b] ++ [n]) = ".mov" ∨ Ext (target ++ [b] ++ [n]) = ".MOV") ∧
        (Ext (target ++ [b] ++ [n])).data <:+ n.data) ∧
    entriesMatching fs' (target ++ [b]) isVideoName = [] ∧
    (entriesMatching fs (target ++ [b]) isVideoName = [] →
      stat fs' (target ++ [b] ++ ["videos"]) = none) := by
  unfold OrganiseVideosAndRenameJPGs at hrun
  cases hrd : readDir fs target with
  | none => simp [hrd] at hrun
  | some es =>
    simp only [hrd] at hrun
    have hbmem : (b, true) ∈ es := (mem_readDir hwf hrd b true).2 ⟨Node.dir, isDirAt_iff.1 hb, rfl⟩
    have hmes : ∀ x ∈ es, x.2 = true → hasMeta x.1 = false := by
      simpa [hrd] using hm
    obtain ⟨fsa, fsv, fsb, hwfa, hfa, hv, hj, hwf', hf'⟩ :=
      organiseBucketsLoop_focus ht b es fs fs' hwf (nodup_readDir hwf hrd) hbmem hmes hrun
    have hdn : noMeta (target ++ [b]) = true := by
      rw [noMeta_iff] at ht ⊢
      intro c hc
      rcases List.mem_append.1 hc with hc | hc
      · exact ht c hc
      · simp only [List.mem_singleton] at hc
        rw [hc]
        exact hmes (b, true) hbmem rfl
    have hps := join_fields_no_slash hslash
    set dir := target ++ [b] with hdir
    set pics := Join (Fields b) "_" with hpics
    have hnames : entriesMatching fsa dir isVideoName = entriesMatching fs dir isVideoName := by
      apply entriesMatching_congr hwfa hwf
      · unfold isDirAt; rw [hfa _ (List.prefix_refl _)]
      · intro n _; rw [hfa _ (List.prefix_append _ _)]
    set names := entriesMatching fs dir isVideoName with hnm
    obtain ⟨fsv', hv', hwfv, hnil, hvdir, hA, hB⟩ := organiseVideos_spec hwfa hdn b h4
      (by rw [hfa _ (List.prefix_append _ _)]; exact hnov)
      (by
        intro n hn
        rw [hnames] at hn
        have := hfiles n hn
        unfold isFileAt at this ⊢
        rw [hfa _ (List.prefix_append _ _)]
        exact this)
    rw [hv] at hv'
    simp only [Prod.mk.injEq, and_true] at hv'
    subst hv'
    rw [hnames] at hnil hvdir hA hB
    -- the image step and the later buckets leave the videos alone
    have hkeep : ∀ (x : String) (r : Path), isImageName x = false →
        stat fs' (dir ++ [x] ++ r) = stat fsv (dir ++ [x] ++ r) := by
      intro x r hx
      rw [hf' _ (by rw [List.append_assoc]; exact List.prefix_append _ _),
        renameJPGs_keeps hwfv hdn hps hj hx r]
    have hkeepv : ∀ r : Path, stat fs' (dir ++ ["videos"] ++ r) = stat fsv (dir ++ ["videos"] ++ r) :=
      fun r => hkeep "videos" r isImageName_videos
    have hvideo_of_mem : ∀ n, n ∈ names → isVideoName n = true := fun n hn =>
      ((mem_entriesMatching hwf dir _ n).1 hn).2.2
    refine ⟨?_, ?_, ?_⟩
    · intro hne
      have hdirv : stat fs' (dir ++ ["videos"]) = some Node.dir := by
        have := hkeepv []
        rw [List.append_nil] at this
        rw [this, hvdir hne]
      refine ⟨isDirAt_iff.2 hdirv, ?_, ?_⟩
      · rw [List.perm_ext_iff_of_nodup (nodup_entriesMatching hwf' _ _)]
        · intro x
          rw [mem_entriesMatching hwf', List.mem_map]
          constructor
          · rintro ⟨_, h2, _⟩
            by_contra hno
            have h3 := hkeepv [x]
            rw [h3, hB] at h2
            · have hnot : dir ++ ["videos"] ++ [x] ∉ names.map (fun n => dir ++ [n]) := by
                intro h
                obtain ⟨n, _, hn⟩ := List.mem_map.1 h
                have := congrArg List.length hn
                simp at this
              rw [if_neg hnot, hfa _ (by rw [List.append_assoc]; exact List.prefix_append _ _),
                hwf.no_child_of_none hnov] at h2
              cases h2
            · intro h
              have := congrArg List.length h
              simp at this
            · intro k n hk h
              apply hno
              refine ⟨k, List.mem_range.2 (List.getElem?_eq_some_iff.1 hk).1, ?_⟩
              simp only [List.getD_eq_getElem?_getD, hk, Option.getD_some]
              exact (snoc_inj h).2.symm
          · rintro ⟨k, hk, rfl⟩
            have hk' := List.mem_range.1 hk
            have hget : names[k]? = some names[k] := List.getElem?_eq_getElem hk'
            refine ⟨isDirAt_iff.2 hdirv, ?_, rfl⟩
            simp only [List.getD_eq_getElem?_getD, hget, Option.getD_some]
            rw [hkeepv [_], hA k _ hget, hfa _ (List.prefix_append _ _)]
            exact ((mem_entriesMatching hwf dir _ _).1 (List.getElem_mem hk')).2.1
        · apply (List.nodup_range _).map_on
          intro i hi j hj h
          have hi' := List.mem_range.1 hi
          have hj' := List.mem_range.1 hj
          have e1 : names.getD i "" = names[i] := by
            simp [List.getD_eq_getElem?_getD, List.getElem?_eq_getElem hi']
          have e2 : names.getD j "" = names[j] := by
            simp [List.getD_eq_getElem?_getD, List.getElem?_eq_getElem hj']
          simp only [e1, e2] at h
          have := seqName_inj (by
            rw [Ext_video_length dir (hvideo_of_mem _ (List.getElem_mem hi')),
              Ext_video_length dir (hvideo_of_mem _ (List.getElem_mem hj'))]) h
          omega
      · intro k n hk
        have hvn := hvideo_of_mem n (List.getElem?_mem hk)
        refine ⟨?_, Ext_video dir hvn⟩
        rw [hkeepv [_], hA k n hk, hfa _ (List.prefix_append _ _)]
    · -- no video entry is left in the bucket
      rw [List.eq_nil_iff_forall_not_mem]
      intro n hn
      rw [mem_entriesMatching hwf'] at hn
      obtain ⟨_, h2, h3⟩ := hn
      have h4' := hkeep n [] (not_image_of_video h3)
      rw [List.append_nil] at h4'
      by_cases hnn : names = []
      · rw [h4', hnil hnn, hfa _ (List.prefix_append _ _)] at h2
        have : n ∈ names := by
          rw [hnm, mem_entriesMatching hwf]
          exact ⟨hb, h2, h3⟩
        rw [hnn] at this
        cases this
      · rw [h4', hB] at h2
        · by_cases hmem : dir ++ [n] ∈ names.map (fun n => dir ++ [n])
          · simp [hmem] at h2
          · rw [if_neg hmem, hfa _ (List.prefix_append _ _)] at h2
            apply hmem
            apply List.mem_map_of_mem
            rw [hnm, mem_entriesMatching hwf]
            exact ⟨hb, h2, h3⟩
        · intro h
          rw [(snoc_inj h).2, isVideoName_videos] at h3
          cases h3
        · intro k m _ h
          have := congrArg List.length h
          simp at this
    · intro hnn
      have := hkeepv []
      rw [List.append_nil] at this
      rw [this, hnil hnn, hfa _ (List.prefix_append _ _)]
      exact hnov

/-- Witness of C3: `vid1.mov` and `vid2.MOV` become numbers 1 and 2 under `videos`. -/
theorem organise_moves_videos_witness :
    (entriesMatching c3Fs (["t"] ++ ["2023 06 June 15"]) isVideoName ≠ [] →
      isDirAt (OrganiseVideosAndRenameJPGs c3Fs ["t"]).1
        (["t"] ++ ["2023 06 June 15"] ++ ["videos"]) = true ∧
      (entriesMatching (OrganiseVideosAndRenameJPGs c3Fs ["t"]).1
        (["t"] ++ ["2023 06 June 15"] ++ ["videos"]) (fun _ => true)).Perm
        ((List.range (entriesMatching c3Fs (["t"] ++ ["2023 06 June 15"]) isVideoName).length).map
          (fun k => seqName (Join (Fields "2023 06 June 15") "_") (k + 1)
            (Ext (["t"] ++ ["2023 06 June 15"] ++
              [(entriesMatching c3Fs (["t"] ++ ["2023 06 June 15"]) isVideoName).getD k ""])))) ∧
      ∀ k n, (entriesMatching c3Fs (["t"] ++ ["2023 06 June 15"]) isVideoName)[k]? = some n →
        stat (OrganiseVideosAndRenameJPGs c3Fs ["t"]).1 (["t"] ++ ["2023 06 June 15"] ++ ["videos"] ++
            [seqName (Join (Fields "2023 06 June 15") "_") (k + 1)
              (Ext (["t"] ++ ["2023 06 June 15"] ++ [n]))]) =
          stat c3Fs (["t"] ++ ["2023 06 June 15"] ++ [n]) ∧
        (Ext (["t"] ++ ["2023 06 June 15"] ++ [n]) = ".mov" ∨
          Ext (["t"] ++ ["2023 06 June 15"] ++ [n]) = ".MOV") ∧
        (Ext (["t"] ++ ["2023 06 June 15"] ++ [n])).data <:+ n.data) ∧
    entriesMatching (OrganiseVideosAndRenameJPGs c3Fs ["t"]).1 (["t"] ++ ["2023 06 June 15"])
      isVideoName = [] ∧
    (entriesMatching c3Fs (["t"] ++ ["2023 06 June 15"]) isVideoName = [] →
      stat (OrganiseVideosAndRenameJPGs c3Fs ["t"]).1
        (["t"] ++ ["2023 06 June 15"] ++ ["videos"]) = none) :=
  organise_moves_videos c3Fs _ ["t"] "2023 06 June 15" (by decide) (by decide) (by decide)
    (by decide) (by decide) (by decide) (by decide) (by decide) (by decide)

/-- Counterexample to C3 as stated. First state: the target directory is named
`p[x]`; the call returns nil, the video `clip.mov` is still in the bucket and
no `videos` directory exists. Second state: the bucket holds the video file
`b.mov` and a subdirectory `a.mov`; the call returns nil and the one video
file is number 2 under `videos`, number 1 being the subdirectory. -/
theorem organise_videos_meta_counterexample :
    (WF c3MetaFs ∧
      (Fields "2023 06 June 15").length = 4 ∧
      stat c3MetaFs ["p[x]", "2023 06 June 15", "videos"] = none ∧
      entriesMatching c3MetaFs ["p[x]", "2023 06 June 15"] isVideoName = ["clip.mov"] ∧
      (OrganiseVideosAndRenameJPGs c3MetaFs ["p[x]"]).2 = none ∧
      stat (OrganiseVideosAndRenameJPGs c3MetaFs ["p[x]"]).1
        ["p[x]", "2023 06 June 15", "videos"] = none ∧
      isFileAt (OrganiseVideosAndRenameJPGs c3MetaFs ["p[x]"]).1
        ["p[x]", "2023 06 June 15", "clip.mov"] = true) ∧
    (WF c3DirFs ∧
      (OrganiseVideosAndRenameJPGs c3DirFs ["t"]).2 = none ∧
      stat (OrganiseVideosAndRenameJPGs c3DirFs ["t"]).1
        ["t", "2023 06 June 15", "videos", "2023_06_June_15_00001.mov"] = some Node.dir ∧
      stat (OrganiseVideosAndRenameJPGs c3DirFs ["t"]).1
        ["t", "2023 06 June 15", "videos", "2023_06_June_15_00002.mov"] =
          some (Node.file c3Date "b")) := by
  decide

theorem splitSlash_of_no_slash (l : List Char) (h : '/' ∉ l) : splitSlash l = [l] := by
  induction l with
  | nil => rfl
  | cons c cs ih =>
    simp only [List.mem_cons, not_or] at h
    have hc : c ≠ '/' := Ne.symm h.1
    simp [splitSlash, hc, ih h.2]

/-- Joining a single plain file name to a directory appends it. -/
theorem joinPath_single (dir : Path) (s : String) (hs : '/' ∉ s.data) (h0 : s.data ≠ [])
    (h1 : s.data ≠ ['.']) (h2 : s.data ≠ ['.', '.']) : joinPath dir s = dir ++ [s] := by
  simp [joinPath, splitSlash_of_no_slash s.data hs, h0, h1, h2]

theorem seqName_plain (base : String) (i : Nat) (ext : String) :
    (seqName base i ext).data ≠ [] ∧ (seqName base i ext).data ≠ ['.'] ∧
      (seqName base i ext).data ≠ ['.', '.'] := by
  have hmem : '_' ∈ (seqName base i ext).data := by simp [seqName]
  refine ⟨?_, ?_, ?_⟩ <;> intro h <;> rw [h] at hmem <;> revert hmem <;> decide

theorem seqName_no_slash {base : String} (hb : '/' ∉ base.data) (i : Nat) {ext : String}
    (he : '/' ∉ ext.data) : '/' ∉ (seqName base i ext).data := by
  simp only [seqName, List.mem_append, List.mem_cons, not_or]
  exact ⟨⟨hb, by decide, fun h => zeroPad_not_slash 5 i _ h rfl⟩, he⟩

theorem joinPath_seqName (dir : Path) {base : String} (hb : '/' ∉ base.data) (i : Nat)
    {ext : String} (he : '/' ∉ ext.data) :
    joinPath dir (seqName base i ext) = dir ++ [seqName base i ext] :=
  joinPath_single dir _ (seqName_no_slash hb i he) (seqName_plain base i ext).1
    (seqName_plain base i ext).2.1 (seqName_plain base i ext).2.2

theorem replaceSpaces_no_slash {s : String} (h : '/' ∉ s.data) : '/' ∉ (replaceSpaces s).data := by
  simp only [replaceSpaces, List.mem_map, not_exists, not_and]
  intro c hc
  by_cases hsp : c = ' '
  · simp [hsp]
  · simp only [hsp, if_false]
    rintro rfl
    exact h hc

theorem take_fields_no_slash {name : String} (h : '/' ∉ name.data) (k : Nat) (sep : String)
    (hsep : '/' ∉ sep.data) : '/' ∉ (Join ((Fields name).take k) sep).data := by
  intro hc
  simp only [Join, Fields] at hc
  rcases mem_joinChars hc with h1 | ⟨l, hl, hcl⟩
  · exact hsep h1
  · obtain ⟨tokS, htokS, rfl⟩ := List.mem_map.1 hl
    have := List.mem_of_mem_take htokS
    obtain ⟨tok, htok, rfl⟩ := List.mem_map.1 this
    rcases mem_fieldsAux _ _ _ htok _ hcl with h1 | h1
    · simp at h1
    · exact h h1

/-- The new directory name holds no separator when the old name and the new
free text hold none. -/
theorem newDirName_no_slash {baseName newName : String} (hb : '/' ∉ baseName.data)
    (hn : '/' ∉ newName.data) : '/' ∉ (newDirName baseName newName).data := by
  unfold newDirName
  have h1 := take_fields_no_slash hb 4 " " (by decide)
  by_cases hne : newName ≠ ""
  · simp only [hne, if_true, List.mem_append, List.mem_cons, not_or, ne_eq, not_false_eq_true]
    exact ⟨h1, by decide, hn⟩
  · simp only [hne, if_false]
    exact h1

theorem joinChars_two_mem (sep a b : List Char) (rest : List (List Char)) :
    ∀ c ∈ sep, c ∈ joinChars sep (a :: b :: rest) := by
  intro c hc
  simp only [joinChars, List.mem_append]
  exact Or.inl (Or.inr hc)

/-- With four fields at least in the old name the new directory name holds a space. -/
theorem newDirName_has_space {baseName : String} (newName : String)
    (h4 : 4 ≤ (Fields baseName).length) : ' ' ∈ (newDirName baseName newName).data := by
  have hj : ' ' ∈ (Join ((Fields baseName).take 4) " ").data := by
    rcases hf : Fields baseName with _ | ⟨a, _ | ⟨b, rest⟩⟩
    · rw [hf] at h4; simp at h4
    · rw [hf] at h4; simp at h4
    · have : List.take 4 (a :: b :: rest) = a :: b :: List.take 2 rest := rfl
      rw [this]
      simp only [Join, List.map_cons]
      exact joinChars_two_mem _ _ _ _ ' ' (by decide)
  unfold newDirName
  by_cases hne : newName ≠ ""
  · rw [if_pos hne]
    exact List.mem_append_left _ hj
  · rw [if_neg hne]
    exact hj

theorem newDirName_plain {baseName : String} (newName : String)
    (h4 : 4 ≤ (Fields baseName).length) :
    (newDirName baseName newName).data ≠ [] ∧ (newDirName baseName newName).data ≠ ['.'] ∧
      (newDirName baseName newName).data ≠ ['.', '.'] := by
  have hmem := newDirName_has_space newName h4
  refine ⟨?_, ?_, ?_⟩ <;> intro h <;> rw [h] at hmem <;> revert hmem <;> decide

/-- A sequence of renames of regular files, each to a place that is not a
directory and lies in an existing directory, succeeds: an occupied
destination is replaced. -/
theorem renamePairs_total : ∀ (pairs : List (Path × Path)) (fs : FS), WF fs →
    (∀ x ∈ pairs, isFileAt fs x.1 = true) → (pairs.map Prod.fst).Nodup →
    (∀ x ∈ pairs, stat fs x.2 ≠ some Node.dir) →
    (∀ x ∈ pairs, stat fs (parent x.2) = some Node.dir) →
    ∃ fs', renamePairs pairs fs = (fs', none) := by
  intro pairs
  induction pairs with
  | nil => intro fs _ _ _ _ _; exact ⟨fs, rfl⟩
  | cons x rest ih =>
    intro fs hwf hfiles hsrc hdst hpar
    obtain ⟨a, b⟩ := x
    simp only [List.map_cons, List.nodup_cons] at hsrc
    have ha := hfiles (a, b) (List.mem_cons_self _ _)
    have hb := hdst (a, b) (List.mem_cons_self _ _)
    obtain ⟨t, c, hfile⟩ := stat_file_of_isFileAt ha
    obtain ⟨fs1, hrn⟩ := rename_file_ok hwf ha hb (hpar (a, b) (List.mem_cons_self _ _))
    have hst1 := stat_rename_file hwf hrn ha
    simp only at ha hb hfile hrn hst1
    obtain ⟨fs', hrun⟩ := ih fs1 (WF_rename hwf hrn)
      (by
        intro y hy
        have hya : y.1 ≠ a := fun h => hsrc.1 (h ▸ List.mem_map_of_mem Prod.fst hy)
        have := hfiles y (List.mem_cons_of_mem _ hy)
        unfold isFileAt at this ⊢
        rw [hst1]
        by_cases hyb : y.1 = b
        · simp [hyb, hfile]
        · simpa [hyb, hya] using this)
      hsrc.2
      (by
        intro y hy
        rw [hst1]
        by_cases hyb : y.2 = b
        · simp [hyb, hfile]
        · by_cases hya : y.2 = a
          · rw [if_neg hyb, if_pos hya]
            simp
          · simpa [hyb, hya] using hdst y (List.mem_cons_of_mem _ hy))
      (by
        intro y hy
        have hp := hpar y (List.mem_cons_of_mem _ hy)
        rw [hst1]
        have h1 : parent y.2 ≠ b := by
          intro h
          rw [h] at hp
          exact hb hp
        have h2 : parent y.2 ≠ a := by
          intro h
          rw [h, hfile] at hp
          cases hp
        simp [h1, h2, hp])
    exact ⟨fs', by simp [renamePairs, hrn, hrun]⟩

/-- A name that ends in `.mov` or `.MOV` after a part without separator is a video name. -/
theorem isVideoName_seqName {base : String} (hb : '/' ∉ base.data) (i : Nat) {ext : String}
    (he : ext = ".mov" ∨ ext = ".MOV") : isVideoName (seqName base i ext) = true := by
  rw [isVideoName_iff]
  have hu : '/' ∉ base.data ++ '_' :: zeroPad 5 i := by
    simp only [List.mem_append, List.mem_cons, not_or]
    exact ⟨hb, by decide, fun h => zeroPad_not_slash 5 i _ h rfl⟩
  rcases he with rfl | rfl
  · exact ⟨".mov".data, by simp, base.data ++ '_' :: zeroPad 5 i, by simp [seqName], hu⟩
  · exact ⟨".MOV".data, by simp, base.data ++ '_' :: zeroPad 5 i, by simp [seqName], hu⟩

theorem seqPairs_congr {d1 d2 : Nat → Path → Path} (files : List Path)
    (h : ∀ k, ∀ f ∈ files, d1 k f = d2 k f) (i : Nat) :
    seqPairs d1 files i = seqPairs d2 files i := by
  induction files generalizing i with
  | nil => rfl
  | cons f rest ih =>
    simp only [seqPairs]
    rw [h i f (List.mem_cons_self _ _), ih (fun k g hg => h k g (List.mem_cons_of_mem _ hg))]

theorem renameImagesLoop_eq_JPGs (absDir : Path) {newBaseName : String}
    (hb : '/' ∉ newBaseName.data) (files : List Path) (i : Nat) (fs : FS) :
    renameImagesLoop absDir newBaseName files i fs = renameJPGsLoop absDir newBaseName files i fs := by
  rw [renameImagesLoop_eq, renameJPGsLoop_eq]
  congr 1
  apply seqPairs_congr
  intro k f _
  exact joinPath_seqName absDir hb (k + 1) (by decide)

theorem noMeta_snoc {dir : Path} (hd : noMeta dir = true) {x : String} (hx : hasMeta x = false) :
    noMeta (dir ++ [x]) = true := by
  rw [noMeta_iff] at hd ⊢
  intro c hc
  rcases List.mem_append.1 hc with hc | hc
  · exact hd c hc
  · simp only [List.mem_singleton] at hc
    rw [hc]; exact hx

theorem not_videos_prefix_of_image (dir : Path) {x : String} (hx : isImageName x = true) :
    ¬ (dir ++ ["videos"]) <+: (dir ++ [x]) := by
  intro h
  have := snoc_prefix_snoc h
  rw [← this, isImageName_videos] at hx
  cases hx

/-- The image and video steps of `RenameDirectory` on a directory whose image
entries are regular files, none of them bearing the new name of an earlier
one, and whose video entries under `videos` are regular files: both succeed
and lead to the final step; outside `videos` only the images have changed. -/
theorem renameImagesStep_spec {fs : FS} (hwf : WF fs) {absDir : Path} (hd : noMeta absDir = true)
    (newDirPath : Path) (nd : String) (hnb : '/' ∉ (replaceSpaces nd).data)
    (hfiles : ∀ n ∈ entriesMatching fs absDir isImageName, isFileAt fs (absDir ++ [n]) = true)
    (hclash : ∀ i j, i < j → (entriesMatching fs absDir isImageName)[j]? ≠
      some (seqName (replaceSpaces nd) (i + 1) ".jpg"))
    (hvfiles : ∀ n ∈ entriesMatching fs (absDir ++ ["videos"]) isVideoName,
      isFileAt fs (absDir ++ ["videos"] ++ [n]) = true) :
    ∃ fs3, renameImagesStep fs absDir newDirPath nd = renameDirStep fs3 absDir newDirPath ∧
      WF fs3 ∧
      (∀ k n, (entriesMatching fs absDir isImageName)[k]? = some n →
        stat fs3 (absDir ++ [seqName (replaceSpaces nd) (k + 1) ".jpg"]) = stat fs (absDir ++ [n])) ∧
      (∀ p, ¬ (absDir ++ ["videos"]) <+: p →
        (∀ k, k < (entriesMatching fs absDir isImageName).length →
          p ≠ absDir ++ [seqName (replaceSpaces nd) (k + 1) ".jpg"]) →
        stat fs3 p =
          if p ∈ (entriesMatching fs absDir isImageName).map (fun n => absDir ++ [n]) then none
          else stat fs p) := by
  obtain ⟨L, hL, hlen, fs1, hloop, hwf1, hA, hB⟩ :=
    renameJPGsLoop_spec hwf hd (replaceSpaces nd) hnb hfiles hclash
  set nb := replaceSpaces nd with hnbdef
  set names := entriesMatching fs absDir isImageName with hnames
  set vd := absDir ++ ["videos"] with hvd
  -- the image step leads to the video step on `fs1`
  have hstep1 : renameImagesStep fs absDir newDirPath nd = renameVideosStep fs1 absDir newDirPath nd := by
    unfold renameImagesStep
    simp only [hL]
    by_cases h0 : L.length > 0
    · simp only [h0, if_true, ← hnbdef, renameImagesLoop_eq_JPGs absDir hnb, hloop]
    · have hL0 : L = [] := List.length_eq_zero.1 (by omega)
      rw [hL0] at hloop
      simp only [sortPaths, List.insertionSort, renameJPGsLoop, Prod.mk.injEq, and_true] at hloop
      simp only [h0, if_false, hloop]
  -- paths under `videos` are as at the start
  have hvsame : ∀ r : Path, stat fs1 (vd ++ r) = stat fs (vd ++ r) := by
    intro r
    have hnotsrc : vd ++ r ∉ names.map (fun n => absDir ++ [n]) := by
      intro h
      obtain ⟨n, hn, hh⟩ := List.mem_map.1 h
      have hi := ((mem_entriesMatching hwf absDir _ n).1 hn).2.2
      apply not_videos_prefix_of_image absDir hi
      rw [hh]
      exact List.prefix_append _ _
    rw [hB, if_neg hnotsrc]
    intro k _ h
    have hi : isImageName (seqName nb (k + 1) ".jpg") = true := isImageName_seqName hnb _
    apply not_videos_prefix_of_image absDir hi
    rw [← h]
    exact List.prefix_append _ _
  have hvnames : entriesMatching fs1 vd isVideoName = entriesMatching fs vd isVideoName := by
    apply entriesMatching_congr hwf1 hwf
    · unfold isDirAt
      have := hvsame []
      rw [List.append_nil] at this
      rw [this]
    · intro n _
      rw [hvsame [n]]
  have hvdn : noMeta vd = true := noMeta_snoc hd (by decide)
  -- the video step
  have hstep2 : ∃ fs3, renameVideosStep fs1 absDir newDirPath nd = renameDirStep fs3 absDir newDirPath ∧
      WF fs3 ∧ ∀ p, ¬ vd <+: p → stat fs3 p = stat fs1 p := by
    unfold renameVideosStep
    by_cases hisd : isDirAt fs1 (absDir ++ ["videos"]) = true
    · obtain ⟨Lv, hLv, hlenv, hsortv⟩ := sortPaths_videos hwf1 hvdn
      simp only [hisd, if_true, hLv]
      by_cases h0 : Lv.length > 0
      · simp only [h0, if_true, renameVideosLoop_eq, hsortv, ← hnbdef]
        set pairs := seqPairs (fun k f => joinPath vd (seqName nb (k + 1) (Ext f)))
          ((entriesMatching fs1 vd isVideoName).map (fun n => vd ++ [n])) 0 with hpairs
        have hmem : ∀ x ∈ pairs, ∃ k n, n ∈ entriesMatching fs1 vd isVideoName ∧ x.1 = vd ++ [n] ∧
            x.2 = vd ++ [seqName nb (k + 1) (Ext (vd ++ [n]))] ∧
            (Ext (vd ++ [n]) = ".mov" ∨ Ext (vd ++ [n]) = ".MOV") := by
          intro x hx
          obtain ⟨k, _, hxm, hxd⟩ := mem_seqPairs hx
          obtain ⟨n, hn, hxn⟩ := List.mem_map.1 hxm
          have hv := ((mem_entriesMatching hwf1 vd _ n).1 hn).2.2
          have hext := (Ext_video vd hv).1
          refine ⟨k, n, hn, hxn.symm, ?_, hext⟩
          rw [hxd, ← hxn]
          apply joinPath_seqName vd hnb
          rcases hext with h | h <;> rw [h] <;> decide
        have hfile1 : ∀ n ∈ entriesMatching fs1 vd isVideoName, isFileAt fs1 (vd ++ [n]) = true := by
          intro n hn
          have := hvfiles n (hvnames ▸ hn)
          unfold isFileAt at this ⊢
          rw [hvsame [n]]
          exact this
        obtain ⟨fs2, hrun⟩ := renamePairs_total pairs fs1 hwf1
          (by
            intro x hx
            obtain ⟨k, n, hn, hx1, _, _⟩ := hmem x hx
            rw [hx1]
            exact hfile1 n hn)
          (by
            rw [hpairs, seqPairs_fst]
            exact (nodup_entriesMatching hwf1 vd isVideoName).map (snoc_injective vd))
          (by
            intro x hx hdirx
            obtain ⟨k, n, hn, _, hx2, hext⟩ := hmem x hx
            rw [hx2] at hdirx
            have hin : seqName nb (k + 1) (Ext (vd ++ [n])) ∈ entriesMatching fs1 vd isVideoName := by
              rw [mem_entriesMatching hwf1]
              exact ⟨hisd, by rw [hdirx]; rfl, isVideoName_seqName hnb _ hext⟩
            have := hfile1 _ hin
            unfold isFileAt at this
            rw [hdirx] at this
            cases this)
          (by
            intro x hx
            obtain ⟨k, n, _, _, hx2, _⟩ := hmem x hx
            rw [hx2, parent_snoc]
            exact isDirAt_iff.1 hisd)
        obtain ⟨hwf2, hfr⟩ := renamePairs_frame pairs fs1 fs2 none hwf1 hrun
        refine ⟨fs2, by rw [hrun], hwf2, ?_⟩
        intro p hp
        apply hfr
        intro x hx
        obtain ⟨k, n, _, hx1, hx2, _⟩ := hmem x hx
        rw [hx1, hx2]
        exact ⟨fun h => hp ((List.prefix_append _ _).trans h),
          fun h => hp ((List.prefix_append _ _).trans h)⟩
      · simp only [h0, if_false]
        exact ⟨fs1, rfl, hwf1, fun _ _ => rfl⟩
    · simp only [hisd, Bool.false_eq_true, if_false]
      exact ⟨fs1, rfl, hwf1, fun _ _ => rfl⟩
  obtain ⟨fs3, hrun3, hwf3, hfr3⟩ := hstep2
  refine ⟨fs3, by rw [hstep1, hrun3], hwf3, ?_, ?_⟩
  · intro k n hk
    rw [hfr3, hA k n hk]
    exact not_videos_prefix_of_image absDir (isImageName_seqName hnb _)
  · intro p hp hne
    rw [hfr3 p hp, hB p hne]

theorem Base_snoc (par : Path) (B : String) : Base (par ++ [B]) = B := by
  simp [Base]

/-- Renaming an existing entry to a free place in an existing directory
outside its own subtree moves the subtree. -/
theorem rename_free_ok {fs : FS} {old new : Path} {n : Node} (ho : stat fs old = some n)
    (h0 : old ≠ []) (hn : stat fs new = none) (hp : stat fs (parent new) = some Node.dir)
    (hpre : ¬ old <+: new) : rename fs old new = some (moveTree fs old new) := by
  unfold rename
  simp [h0, ho, hn, hp, hpre]

/-- The new directory name written out: the first four fields with single
spaces, then a space and the new free text. -/
theorem newDirName_tokens {B newName : String} {t1 t2 t3 t4 : String} {rest : List String}
    (hf : Fields B = t1 :: t2 :: t3 :: t4 :: rest) (hne : newName ≠ "") :
    newDirName B newName =
      String.mk (t1.data ++ ' ' :: (t2.data ++ ' ' :: (t3.data ++ ' ' :: t4.data)) ++
        ' ' :: newName.data) := by
  simp [newDirName, hne, hf, Join, joinChars]

/-- The path of the renamed directory, a sibling of the old one. -/
theorem newDirPath_eq (par : Path) {B : String} (newName : String) (hBs : '/' ∉ B.data)
    (h4 : 4 ≤ (Fields B).length) (hns : '/' ∉ newName.data) :
    joinPath (parent (par ++ [B])) (newDirName (Base (par ++ [B])) newName) =
      par ++ [newDirName B newName] := by
  rw [parent_snoc, Base_snoc]
  exact joinPath_single par _ (newDirName_no_slash hBs hns) (newDirName_plain newName h4).1
    (newDirName_plain newName h4).2.1 (newDirName_plain newName h4).2.2

/-- C4 (amended): let `par/B` be an existing directory whose name `B` has at
least four fields, with no glob metacharacter in the components of its path,
and `newName` a text without separator such that
`par/<first four fields> <newName>` does not exist. When the image entries of
the directory are regular files, none of them bearing the new name of an
image before it in ascending order, and the video entries of its `videos`
subdirectory are regular files, `RenameDirectory` returns nil; afterwards the
directory stands at the new path and no longer at `par/B`, and its image
entries are exactly `<P>_<%05d of k+1>.jpg` for `k` below their number, the
`k`-th image in ascending name order being number `k+1`, where `P` is the new
directory name with every space replaced by `_`. -/
theorem renameDirectory_renames (fs : FS) (par : Path) (B newName : String)
    (hwf : WF fs) (hdir : isDirAt fs (par ++ [B]) = true) (hmeta : noMeta (par ++ [B]) = true)
    (hBs : '/' ∉ B.data) (h4 : 4 ≤ (Fields B).length) (hns : '/' ∉ newName.data)
    (hfree : stat fs (par ++ [newDirName B newName]) = none)
    (hfiles : ∀ n ∈ entriesMatching fs (par ++ [B]) isImageName,
      isFileAt fs (par ++ [B] ++ [n]) = true)
    (hclash : ∀ j, j < (entriesMatching fs (par ++ [B]) isImageName).length → ∀ i, i < j →
      (entriesMatching fs (par ++ [B]) isImageName)[j]? ≠
        some (seqName (replaceSpaces (newDirName B newName)) (i + 1) ".jpg"))
    (hvfiles : ∀ n ∈ entriesMatching fs (par ++ [B] ++ ["videos"]) isVideoName,
      isFileAt fs (par ++ [B] ++ ["videos"] ++ [n]) = true) :
    (RenameDirectory fs (par ++ [B]) newName).2 = none ∧
    isDirAt (RenameDirectory fs (par ++ [B]) newName).1 (par ++ [newDirName B newName]) = true ∧
    stat (RenameDirectory fs (par ++ [B]) newName).1 (par ++ [B]) = none ∧
    (entriesMatching (RenameDirectory fs (par ++ [B]) newName).1 (par ++ [newDirName B newName])
        isImageName).Perm
      ((List.range (entriesMatching fs (par ++ [B]) isImageName).length).map
        (fun k => seqName (replaceSpaces (newDirName B newName)) (k + 1) ".jpg")) ∧
    ∀ k n, (entriesMatching fs (par ++ [B]) isImageName)[k]? = some n →
      stat (RenameDirectory fs (par ++ [B]) newName).1
          (par ++ [newDirName B newName] ++
            [seqName (replaceSpaces (newDirName B newName)) (k + 1) ".jpg"]) =
        stat fs (par ++ [B] ++ [n]) := by
  have hnd := newDirName_no_slash hBs hns
  have hnb := replaceSpaces_no_slash hnd
  obtain ⟨fs3, hsteps, hwf3, hA, hB3⟩ := renameImagesStep_spec hwf hmeta
    (par ++ [newDirName B newName]) (newDirName B newName) hnb hfiles
    (by
      intro i j hij
      by_cases hj : j < (entriesMatching fs (par ++ [B]) isImageName).length
      · exact hclash j hj i hij
      · rw [List.getElem?_eq_none (by omega)]
        simp)
    hvfiles
  set absDir := par ++ [B] with habs
  set nd := newDirName B newName with hndd
  set nb := replaceSpaces nd with hnbd
  set names := entriesMatching fs absDir isImageName with hnames
  have hsd : stat fs absDir = some Node.dir := isDirAt_iff.1 hdir
  have hneq : absDir ≠ par ++ [nd] := by
    intro h
    rw [← h, hsd] at hfree
    cases hfree
  -- paths of the length of the directory, or above it, are untouched by the steps
  have hshort : ∀ p : Path, p.length ≤ absDir.length → stat fs3 p = stat fs p := by
    intro p hp
    rw [hB3]
    · rw [if_neg]
      intro h
      obtain ⟨n, _, hn⟩ := List.mem_map.1 h
      have := congrArg List.length hn
      simp at this
      omega
    · intro h
      have := h.length_le
      simp at this
      omega
    · intro k _ h
      have := congrArg List.length h
      simp at this
      omega
  have hrun : RenameDirectory fs absDir newName =
      (moveTree fs3 absDir (par ++ [nd]), none) ∧
      rename fs3 absDir (par ++ [nd]) = some (moveTree fs3 absDir (par ++ [nd])) := by
    have hren : rename fs3 absDir (par ++ [nd]) = some (moveTree fs3 absDir (par ++ [nd])) := by
      apply rename_free_ok (n := Node.dir)
      · rw [hshort _ (le_refl _)]; exact hsd
      · simp [habs]
      · rw [hshort _ (by simp [habs])]; exact hfree
      · rw [parent_snoc, hshort _ (by simp [habs])]
        have := hwf.parent_dir (p := absDir) (by simp [habs]) (by rw [hsd]; rfl)
        rwa [habs, parent_snoc] at this
      · intro h
        exact hneq (List.IsPrefix.eq_of_length h (by simp [habs]))
    refine ⟨?_, hren⟩
    unfold RenameDirectory
    have hb : Base absDir = B := Base_snoc par B
    have hpar : parent absDir = par := parent_snoc par B
    have hpath : joinPath par nd = par ++ [nd] :=
      joinPath_single par _ hnd (newDirName_plain newName h4).1
        (newDirName_plain newName h4).2.1 (newDirName_plain newName h4).2.2
    have hcf : ¬ (absDir ≠ par ++ [nd] ∧ (stat fs (par ++ [nd])).isSome = true) := by
      rw [hfree]
      simp
    simp only [hsd, hb, hpar]
    rw [if_neg (by omega), ← hndd, hpath, if_neg hcf, hsteps]
    unfold renameDirStep
    rw [if_pos hneq, hren]
  obtain ⟨hrun, hren⟩ := hrun
  have hst := stat_rename hwf3 hren
  have hmoved : ∀ r : Path, stat (moveTree fs3 absDir (par ++ [nd])) (par ++ [nd] ++ r) =
      stat fs3 (absDir ++ r) := by
    intro r
    rw [hst]
    simp
  rw [hrun]
  simp only
  refine ⟨trivial, ?_, ?_, ?_, ?_⟩
  · have := hmoved []
    simp only [List.append_nil] at this
    rw [isDirAt_iff, this, hshort _ (le_refl _)]
    exact hsd
  · rw [hst]
    have h1 : ¬ (par ++ [nd]) <+: absDir := by
      intro h
      exact hneq (List.IsPrefix.eq_of_length h (by simp [habs])).symm
    simp [h1]
  · apply entries_after_renumber hwf (WF_rename hwf3 hren) absDir (par ++ [nd]) isImageName
      (fun k => seqName nb (k + 1) ".jpg")
    · intro i j _ _ h
      have := seqName_inj rfl h
      omega
    · exact fun k => isImageName_seqName hnb _
    · have := hmoved []
      simp only [List.append_nil] at this
      unfold isDirAt
      rw [this, hshort _ (le_refl _)]
    · intro k n hk
      rw [hmoved [_], hA k n hk]
    · intro n hn hne'
      rw [hmoved [n], hB3]
      · by_cases hmem : n ∈ names
        · rw [if_pos hmem, if_pos (List.mem_map_of_mem _ hmem)]
        · rw [if_neg hmem, if_neg]
          intro h
          obtain ⟨m, hm, hh⟩ := List.mem_map.1 h
          exact hmem ((snoc_inj hh).2 ▸ hm)
      · exact not_videos_prefix_of_image absDir hn
      · intro k hk h
        exact hne' k hk (snoc_inj h).2
  · intro k n hk
    rw [hmoved [_], hA k n hk]

/-- Witness of C4: the example of the specification, `Paris` renamed to `Rome`. -/
theorem renameDirectory_renames_witness :
    ((RenameDirectory c4Fs (["a"] ++ ["2023 06 June 15 Paris"]) "Rome").2 = none ∧
    isDirAt (RenameDirectory c4Fs (["a"] ++ ["2023 06 June 15 Paris"]) "Rome").1
      (["a"] ++ [newDirName "2023 06 June 15 Paris" "Rome"]) = true ∧
    stat (RenameDirectory c4Fs (["a"] ++ ["2023 06 June 15 Paris"]) "Rome").1
      (["a"] ++ ["2023 06 June 15 Paris"]) = none ∧
    (entriesMatching (RenameDirectory c4Fs (["a"] ++ ["2023 06 June 15 Paris"]) "Rome").1
        (["a"] ++ [newDirName "2023 06 June 15 Paris" "Rome"]) isImageName).Perm
      ((List.range (entriesMatching c4Fs (["a"] ++ ["2023 06 June 15 Paris"]) isImageName).length).map
        (fun k => seqName (replaceSpaces (newDirName "2023 06 June 15 Paris" "Rome")) (k + 1) ".jpg")) ∧
    ∀ k n, (entriesMatching c4Fs (["a"] ++ ["2023 06 June 15 Paris"]) isImageName)[k]? = some n →
      stat (RenameDirectory c4Fs (["a"] ++ ["2023 06 June 15 Paris"]) "Rome").1
          (["a"] ++ [newDirName "2023 06 June 15 Paris" "Rome"] ++
            [seqName (replaceSpaces (newDirName "2023 06 June 15 Paris" "Rome")) (k + 1) ".jpg"]) =
        stat c4Fs (["a"] ++ ["2023 06 June 15 Paris"] ++ [n])) ∧
    stat (RenameDirectory c4Fs ["a", "2023 06 June 15 Paris"] "Rome").1
      ["a", "2023 06 June 15 Rome", "2023_06_June_15_Rome_00001.jpg"] =
        some (Node.file c4Date "x") :=
  ⟨renameDirectory_renames c4Fs ["a"] "2023 06 June 15 Paris" "Rome" (by decide) (by decide)
    (by decide) (by decide) (by decide) (by decide) (by decide) (by decide) (by decide)
    (by decide), by decide⟩

/-- Counterexample to C4 as stated. First state: the directory holds the two
images `0.jpg` and `2023_06_June_15_Rome_00001.jpg`; the call returns nil and
the renamed directory holds one image, number 2. Second state: the parent is
named `p[x]`; the call returns nil and the image is still named `x.jpg`.
Third state: the directory holds `0.jpg` and a subdirectory named
`2023_06_June_15_Rome_00001.jpg`; the call returns an error. Fourth state:
the `videos` subdirectory holds `0.mov` and a subdirectory named
`2023_06_June_15_Rome_00001.mov`; the call returns an error. -/
theorem renameDirectory_clash_counterexample :
    (WF c4ClashFs ∧
      (Fields "2023 06 June 15 Paris").length = 5 ∧
      stat c4ClashFs ["a", "2023 06 June 15 Rome"] = none ∧
      entriesMatching c4ClashFs ["a", "2023 06 June 15 Paris"] isImageName =
        ["0.jpg", "2023_06_June_15_Rome_00001.jpg"] ∧
      (RenameDirectory c4ClashFs ["a", "2023 06 June 15 Paris"] "Rome").2 = none ∧
      entriesMatching (RenameDirectory c4ClashFs ["a", "2023 06 June 15 Paris"] "Rome").1
        ["a", "2023 06 June 15 Rome"] isImageName = ["2023_06_June_15_Rome_00002.jpg"]) ∧
    (WF c4MetaFs ∧
      stat c4MetaFs ["p[x]", "2023 06 June 15 Rome"] = none ∧
      (RenameDirectory c4MetaFs ["p[x]", "2023 06 June 15 Paris"] "Rome").2 = none ∧
      entriesMatching (RenameDirectory c4MetaFs ["p[x]", "2023 06 June 15 Paris"] "Rome").1
        ["p[x]", "2023 06 June 15 Rome"] isImageName = ["x.jpg"]) ∧
    (WF c4DirFs ∧
      stat c4DirFs ["a", "2023 06 June 15 Rome"] = none ∧
      (RenameDirectory c4DirFs ["a", "2023 06 June 15 Paris"] "Rome").2 = some Err.io) ∧
    (WF c4VideoFs ∧
      stat c4VideoFs ["a", "2023 06 June 15 Rome"] = none ∧
      (RenameDirectory c4VideoFs ["a", "2023 06 June 15 Paris"] "Rome").2 = some Err.io) := by
  decide

/-- C5 (code bug): each operation returns nil and leaves fewer regular files
than it found, an existing file having been replaced by a rename: a video
moved onto `videos/<prefix>_00001.mov`, an image renamed onto
`<prefix>_00001.jpg`, a file moved by `OrganiseByDate` onto a file of the
same name in the bucket, an image renamed by `RenameDirectory` onto
`<prefix>_00001.jpg`. The file found at the destination afterwards is the one
that was moved. -/
theorem operations_lose_files :
    (WF c5VideosFs ∧ (OrganiseVideosAndRenameJPGs c5VideosFs ["t"]).2 = none ∧
      fileCount c5VideosFs ["t"] = 2 ∧
      fileCount (OrganiseVideosAndRenameJPGs c5VideosFs ["t"]).1 ["t"] = 1 ∧
      stat (OrganiseVideosAndRenameJPGs c5VideosFs ["t"]).1
        ["t", "2023 06 June 15", "videos", "2023_06_June_15_00001.mov"] =
          some (Node.file c5Date "new")) ∧
    (WF c5ImagesFs ∧ (OrganiseVideosAndRenameJPGs c5ImagesFs ["t"]).2 = none ∧
      fileCount c5ImagesFs ["t"] = 2 ∧
      fileCount (OrganiseVideosAndRenameJPGs c5ImagesFs ["t"]).1 ["t"] = 1) ∧
    (WF c5DateFs ∧ (OrganiseByDate c5DateFs ["s"] ["t"]).2 = none ∧
      fileCount c5DateFs [] = 2 ∧
      fileCount (OrganiseByDate c5DateFs ["s"] ["t"]).1 [] = 1 ∧
      stat (OrganiseByDate c5DateFs ["s"] ["t"]).1 ["t", "2023 06 June 15", "IMG_0001.jpg"] =
        some (Node.file c5Date "new")) ∧
    (WF c5RenameFs ∧ (RenameDirectory c5RenameFs ["a", "2023 06 June 15 Paris"] "Paris").2 = none ∧
      fileCount c5RenameFs ["a"] = 2 ∧
      fileCount (RenameDirectory c5RenameFs ["a", "2023 06 June 15 Paris"] "Paris").1 ["a"] = 1) := by
  decide

/-- C6: when the computed destination path
`Join(Dir(absDir), <first four fields> [+ " " + newName])` exists and differs
from the path of the directory, `RenameDirectory` returns an error and the
file-system state is exactly what it was: nothing inside the directory is
renamed, the directory stays, the destination is untouched. The error is the
conflict error when the directory exists with four fields at least in its
name. -/
theorem renameDirectory_conflict (fs : FS) (absDir : Path) (newName : String)
    (hex : (stat fs (joinPath (parent absDir) (newDirName (Base absDir) newName))).isSome = true)
    (hne : joinPath (parent absDir) (newDirName (Base absDir) newName) ≠ absDir) :
    (RenameDirectory fs absDir newName).2 ≠ none ∧
    (RenameDirectory fs absDir newName).1 = fs ∧
    (isDirAt fs absDir = true → 4 ≤ (Fields (Base absDir)).length →
      (RenameDirectory fs absDir newName).2 = some Err.targetExists) := by
  unfold RenameDirectory
  cases hs : stat fs absDir with
  | none => simp [isDirAt, hs]
  | some node =>
    cases node with
    | file t c => simp [isDirAt, hs]
    | dir =>
      by_cases h4 : (Fields (Base absDir)).length < 4
      · rw [if_pos h4]
        refine ⟨by simp, rfl, ?_⟩
        intro _ h
        omega
      · have hc : absDir ≠ joinPath (parent absDir) (newDirName (Base absDir) newName) ∧
            (stat fs (joinPath (parent absDir) (newDirName (Base absDir) newName))).isSome = true :=
          ⟨Ne.symm hne, hex⟩
        rw [if_neg h4, if_pos hc]
        exact ⟨by simp, rfl, fun _ _ => rfl⟩

/-- Witness of C6: renaming `Paris` to `Rome` beside an existing `Rome`. -/
theorem renameDirectory_conflict_witness :
    (RenameDirectory c6Fs ["a", "2023 06 June 15 Paris"] "Rome").2 ≠ none ∧
    (RenameDirectory c6Fs ["a", "2023 06 June 15 Paris"] "Rome").1 = c6Fs ∧
    (isDirAt c6Fs ["a", "2023 06 June 15 Paris"] = true →
      4 ≤ (Fields (Base ["a", "2023 06 June 15 Paris"])).length →
      (RenameDirectory c6Fs ["a", "2023 06 June 15 Paris"] "Rome").2 = some Err.targetExists) :=
  renameDirectory_conflict c6Fs ["a", "2023 06 June 15 Paris"] "Rome" (by decide) (by decide)

theorem rename_self {fs : FS} {p : Path} (h : isFileAt fs p = true) : rename fs p p = some fs := by
  obtain ⟨t, c, hs⟩ := stat_file_of_isFileAt h
  have hne : p ≠ [] := by
    rintro rfl
    simp [stat] at hs
  unfold rename
  rw [if_neg hne]
  simp [hs]

theorem renameJPGsLoop_self (dir : Path) (pics : String) (fs : FS) : ∀ (n i : Nat),
    (∀ k, i ≤ k → k < i + n → isFileAt fs (dir ++ [seqName pics (k + 1) ".jpg"]) = true) →
    renameJPGsLoop dir pics
      ((List.range' i n).map (fun k => dir ++ [seqName pics (k + 1) ".jpg"])) i fs = (fs, none) := by
  intro n
  induction n with
  | zero =>
    intro i _
    rfl
  | succ n ih =>
    intro i h
    simp only [List.range', List.map_cons, renameJPGsLoop]
    rw [rename_self (h i (le_refl i) (by omega))]
    exact ih (i + 1) (fun k h1 h2 => h k (by omega) (by omega))

theorem normalised_noop {fs : FS} (hwf : WF fs) {dir : Path} (hd : noMeta dir = true)
    {name : String} (hn : normalised fs dir name = true) :
    organiseVideos fs dir name = (fs, none) ∧ renameJPGs fs dir name = (fs, none) := by
  simp only [normalised, Bool.and_eq_true, List.isEmpty_iff, beq_iff_eq, List.all_eq_true,
    Bool.or_eq_true] at hn
  obtain ⟨⟨⟨hv, himg⟩, hfiles⟩, h4⟩ := hn
  constructor
  · obtain ⟨L, hL, hlen, _⟩ := sortPaths_videos hwf hd
    unfold organiseVideos
    rw [hL]
    simp only
    rw [if_pos (by rw [hlen, hv]; rfl)]
  · obtain ⟨L, hL, hlen, hsort⟩ := sortPaths_images hwf hd
    unfold renameJPGs
    rw [hL]
    simp only
    by_cases h0 : L.length = 0
    · rw [if_pos h0]
    · rw [if_neg h0]
      have hne : entriesMatching fs dir isImageName ≠ [] := by
        intro h
        rw [h] at hlen
        exact h0 hlen
      have h4' : (Fields name).length = 4 := by
        rcases h4 with h | h
        · exact absurd h hne
        · exact h
      rw [if_neg (by simp [h4']), hsort]
      have hmap : (entriesMatching fs dir isImageName).map (fun n => dir ++ [n]) =
          (List.range' 0 (entriesMatching fs dir isImageName).length).map
            (fun k => dir ++ [seqName (Join (Fields name) "_") (k + 1) ".jpg"]) := by
        conv_lhs => rw [himg]
        rw [List.map_map, List.range_eq_range']
        rfl
      rw [hmap]
      apply renameJPGsLoop_self
      intro k _ hk
      apply hfiles
      rw [himg]
      exact List.mem_map.2 ⟨k, List.mem_range.2 (by omega), rfl⟩

theorem organiseBucketsLoop_noop {fs : FS} (hwf : WF fs) {target : Path}
    (ht : noMeta target = true) : ∀ es : List (String × Bool),
    (∀ x ∈ es, x.2 = true → hasMeta x.1 = false ∧ normalised fs (target ++ [x.1]) x.1 = true) →
    organiseBucketsLoop target es fs = (fs, none) := by
  intro es
  induction es with
  | nil =>
    intro _
    rfl
  | cons x rest ih =>
    intro h
    obtain ⟨name, isDir⟩ := x
    cases isDir with
    | false =>
      simp only [organiseBucketsLoop]
      exact ih (fun y hy => h y (List.mem_cons_of_mem _ hy))
    | true =>
      obtain ⟨hm, hn⟩ := h (name, true) (List.mem_cons_self _ _) rfl
      obtain ⟨h1, h2⟩ := normalised_noop hwf (noMeta_snoc ht hm) hn
      simp only [organiseBucketsLoop, h1, h2]
      exact ih (fun y hy => h y (List.mem_cons_of_mem _ hy))

theorem renamePairs_err : ∀ (pairs : List (Path × Path)) (fs fs' : FS) (e : Option Err),
    renamePairs pairs fs = (fs', e) → e = none ∨ e = some Err.io := by
  intro pairs
  induction pairs with
  | nil =>
    intro fs fs' e h
    simp only [renamePairs, Prod.mk.injEq] at h
    exact Or.inl h.2.symm
  | cons x rest ih =>
    intro fs fs' e h
    obtain ⟨a, b⟩ := x
    simp only [renamePairs] at h
    cases hr : rename fs a b with
    | none =>
      simp only [hr, Prod.mk.injEq] at h
      exact Or.inr h.2.symm
    | some fs1 =>
      simp only [hr] at h
      exact ih fs1 fs' e h

theorem organiseVideos_outcome {fs : FS} (hwf : WF fs) {dir : Path} (hd : noMeta dir = true)
    (dirName : String) {fs' : FS} {e : Option Err} (h : organiseVideos fs dir dirName = (fs', e)) :
    (entriesMatching fs dir isVideoName = [] → fs' = fs ∧ e = none) ∧
    (entriesMatching fs dir isVideoName ≠ [] → (Fields dirName).length ≠ 4 →
      (e = some Err.format ∨ e = some Err.io) ∧
      ∀ p node, stat fs p = some node → stat fs' p = some node) ∧
    (entriesMatching fs dir isVideoName ≠ [] → (Fields dirName).length = 4 →
      e = none ∨ e = some Err.io) := by
  obtain ⟨L, hL, hlen, hsort⟩ := sortPaths_videos hwf hd
  unfold organiseVideos at h
  simp only [hL] at h
  by_cases h0 : L.length = 0
  · simp only [h0, if_true, Prod.mk.injEq] at h
    have hnil : entriesMatching fs dir isVideoName = [] := List.length_eq_zero.1 (by omega)
    exact ⟨fun _ => ⟨h.1.symm, h.2.symm⟩, fun hne => absurd hnil hne, fun hne => absurd hnil hne⟩
  · simp only [h0, if_false] at h
    have hne : entriesMatching fs dir isVideoName ≠ [] := by
      intro hnil
      rw [hnil] at hlen
      exact h0 hlen
    refine ⟨fun hnil => absurd hnil hne, ?_, ?_⟩
    · intro _ h4
      cases hmk : mkdirAll fs (dir ++ ["videos"]) with
      | none =>
        simp only [hmk, Prod.mk.injEq] at h
        rw [← h.1, ← h.2]
        exact ⟨Or.inr rfl, fun _ _ hs => hs⟩
      | some fs1 =>
        simp only [hmk, h4, ne_eq, not_false_eq_true, if_true, Prod.mk.injEq] at h
        rw [← h.1, ← h.2]
        exact ⟨Or.inl rfl, fun _ _ hs => stat_mkdirAll_of_some hmk hs⟩
    · intro _ h4
      cases hmk : mkdirAll fs (dir ++ ["videos"]) with
      | none =>
        simp only [hmk, Prod.mk.injEq] at h
        exact Or.inr h.2.symm
      | some fs1 =>
        simp only [hmk, h4, ne_eq, not_true_eq_false, if_false, organiseVideosLoop_eq] at h
        exact renamePairs_err _ _ _ _ h

theorem renameJPGs_outcome {fs : FS} (hwf : WF fs) {dir : Path} (hd : noMeta dir = true)
    (dirName : String) {fs' : FS} {e : Option Err} (h : renameJPGs fs dir dirName = (fs', e)) :
    (entriesMatching fs dir isImageName = [] → fs' = fs ∧ e = none) ∧
    (entriesMatching fs dir isImageName ≠ [] → (Fields dirName).length ≠ 4 →
      fs' = fs ∧ e = some Err.format) ∧
    (entriesMatching fs dir isImageName ≠ [] → (Fields dirName).length = 4 →
      e = none ∨ e = some Err.io) := by
  obtain ⟨L, hL, hlen, hsort⟩ := sortPaths_images hwf hd
  unfold renameJPGs at h
  simp only [hL] at h
  by_cases h0 : L.length = 0
  · simp only [h0, if_true, Prod.mk.injEq] at h
    have hnil : entriesMatching fs dir isImageName = [] := List.length_eq_zero.1 (by omega)
    exact ⟨fun _ => ⟨h.1.symm, h.2.symm⟩, fun hne => absurd hnil hne, fun hne => absurd hnil hne⟩
  · simp only [h0, if_false] at h
    have hne : entriesMatching fs dir isImageName ≠ [] := by
      intro hnil
      rw [hnil] at hlen
      exact h0 hlen
    refine ⟨fun hnil => absurd hnil hne, ?_, ?_⟩
    · intro _ h4
      simp only [h4, ne_eq, not_false_eq_true, if_true, Prod.mk.injEq] at h
      exact ⟨h.1.symm, h.2.symm⟩
    · intro _ h4
      simp only [h4, ne_eq, not_true_eq_false, if_false, renameJPGsLoop_eq] at h
      exact renamePairs_err _ _ _ _ h

theorem hasMatching_congr {fs1 fs2 : FS} (h1 : WF fs1) (h2 : WF fs2) (dir : Path)
    (h : ∀ p, dir <+: p → stat fs1 p = stat fs2 p) :
    hasMatching fs1 dir = hasMatching fs2 dir := by
  have hd : isDirAt fs1 dir = isDirAt fs2 dir := by
    unfold isDirAt
    rw [h dir (List.prefix_refl _)]
  unfold hasMatching
  rw [entriesMatching_congr h1 h2 dir isVideoName hd
      (fun n _ => by rw [h _ (List.prefix_append _ _)]),
    entriesMatching_congr h1 h2 dir isImageName hd
      (fun n _ => by rw [h _ (List.prefix_append _ _)])]

theorem hasMatching_iff (fs : FS) (dir : Path) :
    hasMatching fs dir = true ↔
      entriesMatching fs dir isVideoName ≠ [] ∨ entriesMatching fs dir isImageName ≠ [] := by
  unfold hasMatching
  simp [List.isEmpty_iff]

/-- The outcome of the loop over the buckets when no rename or mkdir fails:
the format error is returned exactly when a directory entry has matching
entries and a name not of four fields, and then every such directory still
has each of its entries. -/
theorem organiseBucketsLoop_format {target : Path} (ht : noMeta target = true) :
    ∀ (es : List (String × Bool)) (fs fs' : FS) (e : Option Err), WF fs → (es.map Prod.fst).Nodup →
      (∀ x ∈ es, x.2 = true → hasMeta x.1 = false) →
      organiseBucketsLoop target es fs = (fs', e) → e ≠ some Err.io →
      (e = none ∨ e = some Err.format) ∧
      (e = some Err.format ↔
        ∃ x ∈ es, x.2 = true ∧ hasMatching fs (target ++ [x.1]) = true ∧ (Fields x.1).length ≠ 4) ∧
      (e = some Err.format → ∀ x ∈ es, x.2 = true →
        hasMatching fs (target ++ [x.1]) = true → (Fields x.1).length ≠ 4 →
        ∀ p node, (target ++ [x.1]) <+: p → stat fs p = some node → stat fs' p = some node) := by
  intro es
  induction es with
  | nil =>
    intro fs fs' e _ _ _ h _
    simp only [organiseBucketsLoop, Prod.mk.injEq] at h
    rw [← h.2]
    simp
  | cons x rest ih =>
    intro fs fs' e hwf hnd hm h hio
    obtain ⟨name, isDir⟩ := x
    simp only [List.map_cons, List.nodup_cons] at hnd
    have hmr : ∀ y ∈ rest, y.2 = true → hasMeta y.1 = false :=
      fun y hy => hm y (List.mem_cons_of_mem _ hy)
    cases isDir with
    | false =>
      simp only [organiseBucketsLoop] at h
      obtain ⟨i1, i2, i3⟩ := ih fs fs' e hwf hnd.2 hmr h hio
      refine ⟨i1, ?_, ?_⟩
      · rw [i2]
        constructor
        · rintro ⟨y, hy, hh⟩
          exact ⟨y, List.mem_cons_of_mem _ hy, hh⟩
        · rintro ⟨y, hy, hh⟩
          rcases List.mem_cons.1 hy with rfl | hy
          · exact absurd hh.1 (by simp)
          · exact ⟨y, hy, hh⟩
      · intro he y hy hy2
        rcases List.mem_cons.1 hy with rfl | hy
        · exact absurd hy2 (by simp)
        · exact i3 he y hy hy2
    | true =>
      have hmeta : hasMeta name = false := hm (name, true) (List.mem_cons_self _ _) rfl
      have hdm := noMeta_snoc ht hmeta
      simp only [organiseBucketsLoop, not_true_eq_false, if_false] at h
      -- siblings are untouched by the two steps on the head
      have hsib : ∀ y ∈ rest, y.1 ≠ name := by
        intro y hy hyn
        exact hnd.1 (hyn ▸ List.mem_map_of_mem Prod.fst hy)
      cases hv : organiseVideos fs (target ++ [name]) name with
      | mk fs1 e1 =>
        obtain ⟨v1, v2, v3⟩ := organiseVideos_outcome hwf hdm name hv
        cases e1 with
        | some err =>
          simp only [hv, Prod.mk.injEq] at h
          obtain ⟨h1, h2⟩ := h
          subst h1
          subst h2
          have hne : entriesMatching fs (target ++ [name]) isVideoName ≠ [] := by
            intro hnil
            have := (v1 hnil).2
            cases this
          have h4 : (Fields name).length ≠ 4 := by
            intro h4
            rcases v3 hne h4 with h | h
            · cases h
            · exact hio h
          obtain ⟨hef, hkeep⟩ := v2 hne h4
          have hef' : some err = some Err.format := by
            rcases hef with h | h
            · exact h
            · exact absurd h hio
          refine ⟨Or.inr hef', ?_, ?_⟩
          · constructor
            · intro _
              exact ⟨(name, true), List.mem_cons_self _ _, rfl,
                (hasMatching_iff _ _).2 (Or.inl hne), h4⟩
            · intro _
              exact hef'
          · intro _ y hy _ _ _ p node _ hs
            exact hkeep p node hs
        | none =>
          simp only [hv] at h
          have hwf1 := (organiseVideos_frame hwf hdm name hv).1
          cases hj : renameJPGs fs1 (target ++ [name]) name with
          | mk fs2 e2 =>
            obtain ⟨j1, j2, j3⟩ := renameJPGs_outcome hwf1 hdm name hj
            -- with videos the name has four fields, the video step having succeeded
            have hv4 : entriesMatching fs (target ++ [name]) isVideoName ≠ [] →
                (Fields name).length = 4 := by
              intro hne
              by_contra h4
              rcases (v2 hne h4).1 with h | h <;> cases h
            cases e2 with
            | some err =>
              simp only [hj, Prod.mk.injEq] at h
              obtain ⟨h1, h2⟩ := h
              subst h1
              subst h2
              have hne : entriesMatching fs1 (target ++ [name]) isImageName ≠ [] := by
                intro hnil
                have := (j1 hnil).2
                cases this
              have h4 : (Fields name).length ≠ 4 := by
                intro h4
                rcases j3 hne h4 with h | h
                · cases h
                · exact hio h
              obtain ⟨hfs, hef⟩ := j2 hne h4
              have hvnil : entriesMatching fs (target ++ [name]) isVideoName = [] := by
                by_contra hne'
                exact h4 (hv4 hne')
              have hfs1 : fs1 = fs := (v1 hvnil).1
              subst hfs
              subst hfs1
              refine ⟨Or.inr hef, ?_, ?_⟩
              · constructor
                · intro _
                  exact ⟨(name, true), List.mem_cons_self _ _, rfl,
                    (hasMatching_iff _ _).2 (Or.inr hne), h4⟩
                · intro _
                  exact hef
              · intro _ y hy _ _ _ p node _ hs
                exact hs
            | none =>
              simp only [hj] at h
              have hwf2 := (renameJPGs_frame hwf1 hdm name hj).1
              obtain ⟨i1, i2, i3⟩ := ih fs2 fs' e hwf2 hnd.2 hmr h hio
              -- what lies under a sibling is as before
              have hsame : ∀ y ∈ rest, ∀ p, (target ++ [y.1]) <+: p → stat fs2 p = stat fs p := by
                intro y hy p hp
                exact ((organiseBucket_frame hwf hdm (hsib y hy).symm fs2 none hv).2.2 hj).2 p hp
              have hmatch : ∀ y ∈ rest, hasMatching fs2 (target ++ [y.1]) =
                  hasMatching fs (target ++ [y.1]) :=
                fun y hy => hasMatching_congr hwf2 hwf _ (hsame y hy)
              -- the head is not an offending directory
              have hhead : ¬ (hasMatching fs (target ++ [name]) = true ∧ (Fields name).length ≠ 4) := by
                rintro ⟨hmt, h4⟩
                have hvnil : entriesMatching fs (target ++ [name]) isVideoName = [] := by
                  by_contra hne'
                  exact h4 (hv4 hne')
                have hfs1 : fs1 = fs := (v1 hvnil).1
                subst hfs1
                rcases (hasMatching_iff _ _).1 hmt with hne | hne
                · exact hne hvnil
                · have := (j2 hne h4).2
                  cases this
              refine ⟨i1, ?_, ?_⟩
              · rw [i2]
                constructor
                · rintro ⟨y, hy, hy2, hmt, h4⟩
                  exact ⟨y, List.mem_cons_of_mem _ hy, hy2, (hmatch y hy) ▸ hmt, h4⟩
                · rintro ⟨y, hy, hy2, hmt, h4⟩
                  rcases List.mem_cons.1 hy with rfl | hy
                  · exact absurd ⟨hmt, h4⟩ hhead
                  · exact ⟨y, hy, hy2, (hmatch y hy).symm ▸ hmt, h4⟩
              · intro he y hy hy2 hmt h4 p node hp hs
                rcases List.mem_cons.1 hy with rfl | hy
                · exact absurd ⟨hmt, h4⟩ hhead
                · apply i3 he y hy hy2 ((hmatch y hy).symm ▸ hmt) h4 p node hp
                  rw [hsame y hy p hp]
                  exact hs

theorem noMatching_noop {fs : FS} (hwf : WF fs) {dir : Path} (hd : noMeta dir = true)
    (name : String) (h : hasMatching fs dir = false) :
    organiseVideos fs dir name = (fs, none) ∧ renameJPGs fs dir name = (fs, none) := by
  have hv : entriesMatching fs dir isVideoName = [] := by
    by_contra hne
    have := (hasMatching_iff fs dir).2 (Or.inl hne)
    rw [h] at this
    cases this
  have hi : entriesMatching fs dir isImageName = [] := by
    by_contra hne
    have := (hasMatching_iff fs dir).2 (Or.inr hne)
    rw [h] at this
    cases this
  constructor
  · cases hr : organiseVideos fs dir name with
    | mk fs1 e1 =>
      obtain ⟨h1, h2⟩ := (organiseVideos_outcome hwf hd name hr).1 hv
      rw [h1, h2]
  · cases hr : renameJPGs fs dir name with
    | mk fs1 e1 =>
      obtain ⟨h1, h2⟩ := (renameJPGs_outcome hwf hd name hr).1 hi
      rw [h1, h2]

/-- The loop over the buckets is the loop over the directory entries that
have matching entries. -/
theorem organiseBucketsLoop_skip {target : Path} (ht : noMeta target = true) (keep : String → Bool) :
    ∀ (es : List (String × Bool)) (fs : FS), WF fs → (es.map Prod.fst).Nodup →
      (∀ x ∈ es, x.2 = true → hasMeta x.1 = false) →
      (∀ x ∈ es, x.2 = true → keep x.1 = hasMatching fs (target ++ [x.1])) →
      organiseBucketsLoop target es fs =
        organiseBucketsLoop target (es.filter (fun x => x.2 && keep x.1)) fs := by
  intro es
  induction es with
  | nil =>
    intro fs _ _ _ _
    rfl
  | cons x rest ih =>
    intro fs hwf hnd hm hk
    obtain ⟨name, isDir⟩ := x
    simp only [List.map_cons, List.nodup_cons] at hnd
    have hmr : ∀ y ∈ rest, y.2 = true → hasMeta y.1 = false :=
      fun y hy => hm y (List.mem_cons_of_mem _ hy)
    have hkr : ∀ y ∈ rest, y.2 = true → keep y.1 = hasMatching fs (target ++ [y.1]) :=
      fun y hy => hk y (List.mem_cons_of_mem _ hy)
    cases isDir with
    | false =>
      rw [List.filter_cons_of_neg (by simp)]
      simp only [organiseBucketsLoop]
      exact ih fs hwf hnd.2 hmr hkr
    | true =>
      have hmeta : hasMeta name = false := hm (name, true) (List.mem_cons_self _ _) rfl
      have hdm := noMeta_snoc ht hmeta
      have hkn : keep name = hasMatching fs (target ++ [name]) :=
        hk (name, true) (List.mem_cons_self _ _) rfl
      have hsib : ∀ y ∈ rest, y.1 ≠ name := by
        intro y hy hyn
        exact hnd.1 (hyn ▸ List.mem_map_of_mem Prod.fst hy)
      cases hkeep : keep name with
      | false =>
        rw [List.filter_cons_of_neg (by simp [hkeep])]
        obtain ⟨h1, h2⟩ := noMatching_noop hwf hdm name (hkn ▸ hkeep)
        simp only [organiseBucketsLoop, not_true_eq_false, if_false, h1, h2]
        exact ih fs hwf hnd.2 hmr hkr
      | true =>
        rw [List.filter_cons_of_pos (by simp [hkeep])]
        simp only [organiseBucketsLoop, not_true_eq_false, if_false]
        cases hv : organiseVideos fs (target ++ [name]) name with
        | mk fs1 e1 =>
          cases e1 with
          | some err => rfl
          | none =>
            simp only
            have hwf1 := (organiseVideos_frame hwf hdm name hv).1
            cases hj : renameJPGs fs1 (target ++ [name]) name with
            | mk fs2 e2 =>
              cases e2 with
              | some err => rfl
              | none =>
                simp only
                have hwf2 := (renameJPGs_frame hwf1 hdm name hj).1
                apply ih fs2 hwf2 hnd.2 hmr
                intro y hy hy2
                rw [hkr y hy hy2]
                apply hasMatching_congr hwf hwf2
                intro p hp
                exact (((organiseBucket_frame hwf hdm (hsib y hy).symm fs2 none hv).2.2 hj).2 p hp).symm

theorem isDigit_digitChar {d : Nat} (h : d < 10) : isDigit (digitChar d) = true := by
  simp only [isDigit, digitChar_toNat h, Bool.and_eq_true, decide_eq_true_eq]
  omega

theorem decimal_isDigit : ∀ (n : Nat), ∀ c ∈ decimal n, isDigit c = true := by
  intro n
  induction n using Nat.strong_induction_on with
  | _ n ih =>
    intro c hc
    by_cases h : n < 10
    · rw [decimal_small h] at hc
      simp only [List.mem_singleton] at hc
      rw [hc]
      exact isDigit_digitChar h
    · rw [decimal_big h] at hc
      rcases List.mem_append.1 hc with hc | hc
      · exact ih (n / 10) (by omega) c hc
      · simp only [List.mem_singleton] at hc
        rw [hc]
        exact isDigit_digitChar (Nat.mod_lt _ (by omega))

theorem decimal_length_le : ∀ (k n : Nat), n < 10 ^ (k + 1) → (decimal n).length ≤ k + 1 := by
  intro k
  induction k with
  | zero =>
    intro n hn
    rw [decimal_small (by simpa using hn)]
    simp
  | succ k ih =>
    intro n hn
    by_cases h : n < 10
    · rw [decimal_small h]
      simp
    · rw [decimal_big h]
      have : n / 10 < 10 ^ (k + 1) := by
        rw [Nat.div_lt_iff_lt_mul (by omega)]
        rw [pow_succ] at hn
        exact hn
      have := ih (n / 10) this
      simp only [List.length_append, List.length_singleton]
      omega

theorem zeroPad_length {w n : Nat} (hw : 0 < w) (hn : n < 10 ^ w) : (zeroPad w n).length = w := by
  obtain ⟨k, rfl⟩ : ∃ k, w = k + 1 := ⟨w - 1, by omega⟩
  have := decimal_length_le k n hn
  simp only [zeroPad, List.length_append, List.length_replicate]
  omega

theorem zeroPad_isDigit (w n : Nat) : ∀ c ∈ zeroPad w n, isDigit c = true := by
  intro c hc
  simp only [zeroPad, List.mem_append, List.mem_replicate] at hc
  rcases hc with ⟨_, rfl⟩ | hc
  · decide
  · exact decimal_isDigit n c hc

theorem foldl_digits (l : List Char) : ∀ acc : Nat,
    l.foldl (fun acc c => 10 * acc + (c.toNat - 48)) acc =
      acc * 10 ^ l.length + l.foldl (fun acc c => 10 * acc + (c.toNat - 48)) 0 := by
  induction l with
  | nil =>
    intro acc
    simp
  | cons c cs ih =>
    intro acc
    simp only [List.foldl_cons, List.length_cons]
    rw [ih (10 * acc + (c.toNat - 48)), ih (10 * 0 + (c.toNat - 48))]
    ring

theorem digitsValue_cons (c : Char) (l : List Char) :
    digitsValue (c :: l) = (c.toNat - 48) * 10 ^ l.length + digitsValue l := by
  unfold digitsValue
  rw [List.foldl_cons, foldl_digits]
  simp

theorem digitsValue_lt : ∀ l : List Char, (∀ c ∈ l, isDigit c = true) →
    digitsValue l < 10 ^ l.length := by
  intro l
  induction l with
  | nil =>
    intro _
    simp [digitsValue]
  | cons c cs ih =>
    intro h
    rw [digitsValue_cons, List.length_cons, pow_succ]
    have hc := h c (List.mem_cons_self _ _)
    simp only [isDigit, Bool.and_eq_true, decide_eq_true_eq] at hc
    have := ih (fun x hx => h x (List.mem_cons_of_mem _ hx))
    have h9 : c.toNat - 48 ≤ 9 := by omega
    nlinarith [Nat.mul_le_mul_right (10 ^ cs.length) h9]

/-- Digit strings of one length are ordered as the numbers they denote. -/
theorem leChars_of_value_le : ∀ u v : List Char, u.length = v.length →
    (∀ c ∈ u, isDigit c = true) → (∀ c ∈ v, isDigit c = true) →
    digitsValue u ≤ digitsValue v → leChars u v = true := by
  intro u
  induction u with
  | nil =>
    intro v _ _ _ _
    rfl
  | cons a as ih =>
    intro v hlen hu hv hval
    cases v with
    | nil => simp at hlen
    | cons b bs =>
      simp only [List.length_cons, Nat.add_right_cancel_iff] at hlen
      have hus : ∀ c ∈ as, isDigit c = true := fun x hx => hu x (List.mem_cons_of_mem _ hx)
      have hvs : ∀ c ∈ bs, isDigit c = true := fun x hx => hv x (List.mem_cons_of_mem _ hx)
      rw [digitsValue_cons, digitsValue_cons, hlen] at hval
      simp only [leChars]
      by_cases hab : a = b
      · rw [if_pos hab]
        apply ih bs hlen hus hvs
        rw [hab] at hval
        omega
      · rw [if_neg hab]
        simp only [decide_eq_true_eq]
        have ha := hu a (List.mem_cons_self _ _)
        have hb := hv b (List.mem_cons_self _ _)
        simp only [isDigit, Bool.and_eq_true, decide_eq_true_eq] at ha hb
        by_contra hlt
        have hne : a.toNat ≠ b.toNat := fun h => hab (char_toNat_inj h)
        have hgt : b.toNat - 48 + 1 ≤ a.toNat - 48 := by omega
        have h1 := digitsValue_lt bs hvs
        have h2 := Nat.mul_le_mul_right (10 ^ bs.length) hgt
        nlinarith

theorem zeroPad_mono {w : Nat} (hw : 0 < w) {a b : Nat} (hab : a ≤ b) (hb : b < 10 ^ w) :
    leChars (zeroPad w a) (zeroPad w b) = true := by
  apply leChars_of_value_le
  · rw [zeroPad_length hw (by omega), zeroPad_length hw hb]
  · exact zeroPad_isDigit w a
  · exact zeroPad_isDigit w b
  · rw [digitsValue_zeroPad, digitsValue_zeroPad]
    exact hab

theorem leChars_append_right : ∀ (u v e : List Char), u.length = v.length → leChars u v = true →
    leChars (u ++ e) (v ++ e) = true := by
  intro u
  induction u with
  | nil =>
    intro v e hlen _
    have : v = [] := List.length_eq_zero.1 hlen.symm
    subst this
    exact leChars_refl e
  | cons a as ih =>
    intro v e hlen h
    cases v with
    | nil => simp at hlen
    | cons b bs =>
      simp only [List.length_cons, Nat.add_right_cancel_iff] at hlen
      simp only [List.cons_append, leChars] at h ⊢
      by_cases hab : a = b
      · rw [if_pos hab] at h ⊢
        exact ih bs e hlen h
      · rw [if_neg hab] at h ⊢
        exact h

/-- Below 100000 the numbered names are ordered as their numbers. -/
theorem seqName_mono (base ext : String) {i j : Nat} (hij : i ≤ j) (hj : j < 100000) :
    nameLe (seqName base i ext) (seqName base j ext) := by
  unfold nameLe seqName
  simp only [List.append_assoc, List.cons_append]
  rw [leChars_append_left]
  simp only [leChars, if_true]
  apply leChars_append_right
  · rw [zeroPad_length (by omega) (by omega), zeroPad_length (by omega) (by omega)]
  · exact zeroPad_mono (by omega) hij (by omega)

theorem sorted_seqNames (base ext : String) {N : Nat} (hN : N < 100000) :
    ((List.range N).map (fun k => seqName base (k + 1) ext)).Sorted nameLe := by
  unfold List.Sorted
  rw [List.pairwise_map]
  have h := List.pairwise_lt_range N
  have hmem : ∀ k ∈ List.range N, k < N := fun k hk => List.mem_range.1 hk
  refine (List.Pairwise.and_mem.1 h).imp ?_
  rintro a b ⟨_, hb, hab⟩
  exact seqName_mono base ext (by omega) (by have := hmem b hb; omega)

theorem noClash_iff (fs : FS) (dir : Path) (pics : String) :
    noClash fs dir pics = true ↔
      ∀ j, j < (entriesMatching fs dir isImageName).length → ∀ i, i < j →
        (entriesMatching fs dir isImageName)[j]? ≠ some (seqName pics (i + 1) ".jpg") := by
  simp only [noClash, List.all_eq_true, List.mem_range, bne_iff_ne, ne_eq]

/-- Entries of `target` and `target` itself are untouched by the loop over the buckets. -/
theorem organiseBucketsLoop_short {target : Path} (ht : noMeta target = true) :
    ∀ (es : List (String × Bool)) (fs fs' : FS) (e : Option Err), WF fs →
      (∀ x ∈ es, x.2 = true → hasMeta x.1 = false) →
      organiseBucketsLoop target es fs = (fs', e) →
      WF fs' ∧ ∀ p : Path, p.length ≤ target.length + 1 → stat fs' p = stat fs p := by
  intro es
  induction es with
  | nil =>
    intro fs fs' e hwf _ h
    simp only [organiseBucketsLoop, Prod.mk.injEq] at h
    rw [← h.1]
    exact ⟨hwf, fun _ _ => rfl⟩
  | cons x rest ih =>
    intro fs fs' e hwf hm h
    obtain ⟨name, isDir⟩ := x
    have hmr : ∀ y ∈ rest, y.2 = true → hasMeta y.1 = false :=
      fun y hy => hm y (List.mem_cons_of_mem _ hy)
    cases isDir with
    | false =>
      simp only [organiseBucketsLoop] at h
      exact ih fs fs' e hwf hmr h
    | true =>
      have hmeta : hasMeta name = false := hm (name, true) (List.mem_cons_self _ _) rfl
      have hdm := noMeta_snoc ht hmeta
      simp only [organiseBucketsLoop, not_true_eq_false, if_false] at h
      have hlen : ∀ (p : Path) (x : String), p.length ≤ target.length + 1 →
          ¬ (target ++ [name] ++ [x]) <+: p := by
        intro p x hp hc
        have := hc.length_le
        simp at this
        omega
      cases hv : organiseVideos fs (target ++ [name]) name with
      | mk fs1 e1 =>
        obtain ⟨hwf1, hf1⟩ := organiseVideos_frame hwf hdm name hv
        have hs1 : ∀ p : Path, p.length ≤ target.length + 1 → stat fs1 p = stat fs p :=
          fun p hp => hf1 p (hlen p _ hp) (fun n _ => hlen p n hp)
        cases e1 with
        | some err =>
          simp only [hv, Prod.mk.injEq] at h
          rw [← h.1]
          exact ⟨hwf1, hs1⟩
        | none =>
          simp only [hv] at h
          cases hj : renameJPGs fs1 (target ++ [name]) name with
          | mk fs2 e2 =>
            obtain ⟨hwf2, hf2⟩ := renameJPGs_frame hwf1 hdm name hj
            have hs2 : ∀ p : Path, p.length ≤ target.length + 1 → stat fs2 p = stat fs p :=
              fun p hp => (hf2 p (fun x _ => hlen p x hp)).trans (hs1 p hp)
            cases e2 with
            | some err =>
              simp only [hj, Prod.mk.injEq] at h
              rw [← h.1]
              exact ⟨hwf2, hs2⟩
            | none =>
              simp only [hj] at h
              obtain ⟨hwf', hf'⟩ := ih fs2 fs' e hwf2 hmr h
              exact ⟨hwf', fun p hp => (hf' p hp).trans (hs2 p hp)⟩

/-- After a sequence of renames that all succeeded, nothing is left at a
source, nor where nothing was, when no destination is at or above the path. -/
theorem renamePairs_sources_gone : ∀ (pairs : List (Path × Path)) (fs fs' : FS), WF fs →
    renamePairs pairs fs = (fs', none) →
    ∀ s : Path, (∀ x ∈ pairs, ¬ x.2 <+: s) → (stat fs s = none ∨ ∃ x ∈ pairs, x.1 <+: s) →
    stat fs' s = none := by
  intro pairs
  induction pairs with
  | nil =>
    intro fs fs' _ h s _ hs
    simp only [renamePairs, Prod.mk.injEq, and_true] at h
    subst h
    rcases hs with hs | ⟨x, hx, _⟩
    · exact hs
    · cases hx
  | cons x rest ih =>
    intro fs fs' hwf h s hd hs
    obtain ⟨a, b⟩ := x
    simp only [renamePairs] at h
    cases hr : rename fs a b with
    | none => simp [hr] at h
    | some fs1 =>
      simp only [hr] at h
      have hst := stat_rename hwf hr s
      rw [if_neg (hd (a, b) (List.mem_cons_self _ _))] at hst
      apply ih fs1 fs' (WF_rename hwf hr) h s (fun y hy => hd y (List.mem_cons_of_mem _ hy))
      by_cases has : a <+: s
      · left
        rw [hst, if_pos has]
      · rw [if_neg has] at hst
        rcases hs with hs | ⟨y, hy, hys⟩
        · left
          rw [hst, hs]
        · rcases List.mem_cons.1 hy with rfl | hy
          · exact absurd hys has
          · exact Or.inr ⟨y, hy, hys⟩

/-- A video step that returned nil leaves no video entry in the bucket. -/
theorem organiseVideos_clears {fs : FS} (hwf : WF fs) {dir : Path} (hd : noMeta dir = true)
    (dirName : String) {fs' : FS} (h : organiseVideos fs dir dirName = (fs', none)) :
    entriesMatching fs' dir isVideoName = [] := by
  have hwf' := (organiseVideos_frame hwf hd dirName h).1
  obtain ⟨L, hL, hlen, hsort⟩ := sortPaths_videos hwf hd
  unfold organiseVideos at h
  simp only [hL] at h
  by_cases h0 : L.length = 0
  · simp only [h0, if_true, Prod.mk.injEq, and_true] at h
    subst h
    exact List.length_eq_zero.1 (by omega)
  · simp only [h0, if_false] at h
    cases hmk : mkdirAll fs (dir ++ ["videos"]) with
    | none => simp [hmk] at h
    | some fs1 =>
      simp only [hmk] at h
      by_cases h4 : (Fields dirName).length = 4
      · simp only [h4, ne_eq, not_true_eq_false, if_false, organiseVideosLoop_eq, hsort] at h
        rw [List.eq_nil_iff_forall_not_mem]
        intro n hn
        obtain ⟨_, hsome, hvn⟩ := (mem_entriesMatching hwf' dir _ n).1 hn
        have hgone := renamePairs_sources_gone _ fs1 fs' (WF_mkdirAll hwf hmk) h (dir ++ [n])
          (by
            intro x hx hpre
            obtain ⟨k, _, _, hdst⟩ := mem_seqPairs hx
            rw [hdst] at hpre
            have := hpre.length_le
            simp at this)
          (by
            by_cases hmem : n ∈ entriesMatching fs dir isVideoName
            · right
              have hsrc : dir ++ [n] ∈ (seqPairs
                  (fun k f => dir ++ ["videos"] ++ [seqName (Join (Fields dirName) "_") (k + 1) (Ext f)])
                  ((entriesMatching fs dir isVideoName).map (fun n => dir ++ [n])) 0).map Prod.fst := by
                rw [seqPairs_fst]
                exact List.mem_map_of_mem _ hmem
              obtain ⟨x, hx, hx1⟩ := List.mem_map.1 hsrc
              exact ⟨x, hx, hx1 ▸ List.prefix_refl _⟩
            · left
              rw [stat_mkdirAll hmk]
              have hnone : stat fs (dir ++ [n]) = none := by
                by_contra hne
                apply hmem
                rw [mem_entriesMatching hwf]
                refine ⟨?_, Option.isSome_iff_ne_none.2 hne, hvn⟩
                have hpd := hwf.parent_dir (p := dir ++ [n]) (by simp)
                  (Option.isSome_iff_ne_none.2 hne)
                rw [parent_snoc] at hpd
                exact isDirAt_iff.2 hpd
              rw [hnone]
              have hnp : ¬ (dir ++ [n]) <+: dir ++ ["videos"] := by
                intro hpre
                have := snoc_prefix_snoc hpre
                rw [this, isVideoName_videos] at hvn
                cases hvn
              simp [hnp])
        rw [hgone] at hsome
        cases hsome
      · simp [h4] at h

/-- After a run that returned nil no bucket has a video entry directly inside. -/
theorem videos_cleared {fs fs' : FS} {target : Path} {b : String} (hwf : WF fs)
    (ht : noMeta target = true)
    (hm : ∀ x ∈ (readDir fs target).getD [], x.2 = true → hasMeta x.1 = false)
    (hb : isDirAt fs (target ++ [b]) = true) (hslash : '/' ∉ b.data)
    (hrun : OrganiseVideosAndRenameJPGs fs target = (fs', none)) :
    entriesMatching fs' (target ++ [b]) isVideoName = [] := by
  unfold OrganiseVideosAndRenameJPGs at hrun
  cases hrd : readDir fs target with
  | none => simp [hrd] at hrun
  | some es =>
    simp only [hrd] at hrun
    have hbmem : (b, true) ∈ es := (mem_readDir hwf hrd b true).2 ⟨Node.dir, isDirAt_iff.1 hb, rfl⟩
    have hmes : ∀ x ∈ es, x.2 = true → hasMeta x.1 = false := by
      simpa [hrd] using hm
    have hdn : noMeta (target ++ [b]) = true := noMeta_snoc ht (hmes (b, true) hbmem rfl)
    obtain ⟨fsa, fsv, fsb, hwfa, hfa, hv, hj, hwf', hf'⟩ :=
      organiseBucketsLoop_focus ht b es fs fs' hwf (nodup_readDir hwf hrd) hbmem hmes hrun
    have hwfv := (organiseVideos_frame hwfa hdn b hv).1
    have hclear := organiseVideos_clears hwfa hdn b hv
    rw [List.eq_nil_iff_forall_not_mem] at hclear ⊢
    intro n hn
    obtain ⟨hd', hsome, hvn⟩ := (mem_entriesMatching hwf' _ _ n).1 hn
    apply hclear n
    rw [mem_entriesMatching hwfv]
    have hk := renameJPGs_keeps hwfv hdn (join_fields_no_slash hslash) hj (not_image_of_video hvn) []
    rw [List.append_nil] at hk
    have hdirv : stat fsb (target ++ [b]) = stat fsv (target ++ [b]) := by
      apply (renameJPGs_frame hwfv hdn b hj).2
      intro x _ hpre
      have := hpre.length_le
      simp at this
    refine ⟨?_, ?_, hvn⟩
    · unfold isDirAt at hd' ⊢
      rw [← hdirv, ← hf' _ (List.prefix_refl _)]
      exact hd'
    · rw [← hk, ← hf' _ (List.prefix_append _ _)]
      exact hsome

/-- A run that returned nil found four fields in the name of every bucket
with a matching entry. -/
theorem four_fields_of_nil {fs fs' : FS} {target : Path} {b : String} (hwf : WF fs)
    (ht : noMeta target = true)
    (hm : ∀ x ∈ (readDir fs target).getD [], x.2 = true → hasMeta x.1 = false)
    (hb : isDirAt fs (target ++ [b]) = true)
    (hmt : hasMatching fs (target ++ [b]) = true)
    (hrun : OrganiseVideosAndRenameJPGs fs target = (fs', none)) :
    (Fields b).length = 4 := by
  unfold OrganiseVideosAndRenameJPGs at hrun
  cases hrd : readDir fs target with
  | none => simp [hrd] at hrun
  | some es =>
    simp only [hrd] at hrun
    have hbmem : (b, true) ∈ es := (mem_readDir hwf hrd b true).2 ⟨Node.dir, isDirAt_iff.1 hb, rfl⟩
    have hmes : ∀ x ∈ es, x.2 = true → hasMeta x.1 = false := by
      simpa [hrd] using hm
    obtain ⟨_, i2, _⟩ := organiseBucketsLoop_format ht es fs fs' none hwf (nodup_readDir hwf hrd)
      hmes hrun (by simp)
    by_contra h4
    have := i2.2 ⟨(b, true), hbmem, rfl, hmt, h4⟩
    cases this

/-- A bucket without matching entries is in normal form. -/
theorem normalised_of_noMatching {fs : FS} {dir : Path} (name : String)
    (h : hasMatching fs dir = false) : normalised fs dir name = true := by
  have hv : entriesMatching fs dir isVideoName = [] := by
    by_contra hne
    have := (hasMatching_iff fs dir).2 (Or.inl hne)
    rw [h] at this
    cases this
  have hi : entriesMatching fs dir isImageName = [] := by
    by_contra hne
    have := (hasMatching_iff fs dir).2 (Or.inr hne)
    rw [h] at this
    cases this
  simp [normalised, hv, hi]

/-- After a run that returned nil, a bucket that was clean is in normal form. -/
theorem normalised_after_organise {fs fs' : FS} {target : Path} {b : String} (hwf : WF fs)
    (ht : noMeta target = true)
    (hm : ∀ x ∈ (readDir fs target).getD [], x.2 = true → hasMeta x.1 = false)
    (hb : isDirAt fs (target ++ [b]) = true)
    (hc : cleanBucket fs (target ++ [b]) b = true)
    (hrun : OrganiseVideosAndRenameJPGs fs target = (fs', none)) :
    normalised fs' (target ++ [b]) b = true := by
  have hrun0 := hrun
  unfold OrganiseVideosAndRenameJPGs at hrun
  cases hrd : readDir fs target with
  | none => simp [hrd] at hrun
  | some es =>
    simp only [hrd] at hrun
    have hbmem : (b, true) ∈ es := (mem_readDir hwf hrd b true).2 ⟨Node.dir, isDirAt_iff.1 hb, rfl⟩
    have hmes : ∀ x ∈ es, x.2 = true → hasMeta x.1 = false := by
      simpa [hrd] using hm
    have hdn : noMeta (target ++ [b]) = true := noMeta_snoc ht (hmes (b, true) hbmem rfl)
    by_cases hmt : hasMatching fs (target ++ [b]) = true
    · simp only [cleanBucket, Bool.and_eq_true, List.all_eq_true, decide_eq_true_eq,
        noClash_iff] at hc
      obtain ⟨⟨⟨hslash', hifiles⟩, hN⟩, hclash⟩ := hc
      have h4 := four_fields_of_nil hwf ht hm hb hmt hrun0
      obtain ⟨hperm, hcont⟩ := images_after_organise fs fs' target b hwf ht hm hb hslash' h4
        hifiles hclash hrun0
      have hvnil := videos_cleared hwf ht hm hb hslash' hrun0
      set names := entriesMatching fs (target ++ [b]) isImageName with hnames
      haveI := nameLe_isTotal
      haveI := nameLe_isTrans
      haveI := nameLe_isAntisymm
      have heq : entriesMatching fs' (target ++ [b]) isImageName =
          (List.range names.length).map (fun k => seqName (Join (Fields b) "_") (k + 1) ".jpg") :=
        List.eq_of_perm_of_sorted hperm (sorted_entriesMatching _ _ _)
          (sorted_seqNames _ _ hN)
      have hlen : (entriesMatching fs' (target ++ [b]) isImageName).length = names.length := by
        rw [heq]
        simp
      simp only [normalised, Bool.and_eq_true, List.isEmpty_iff, beq_iff_eq, List.all_eq_true,
        Bool.or_eq_true]
      refine ⟨⟨⟨hvnil, ?_⟩, ?_⟩, Or.inr h4⟩
      · rw [hlen]
        exact heq
      · intro n hn
        rw [heq] at hn
        obtain ⟨k, hk, rfl⟩ := List.mem_map.1 hn
        have hk' := List.mem_range.1 hk
        have hget : names[k]? = some names[k] := List.getElem?_eq_getElem hk'
        have := hifiles _ (List.getElem_mem hk')
        unfold isFileAt at this ⊢
        rw [hcont k _ hget]
        exact this
    · have hmt' : hasMatching fs (target ++ [b]) = false := by
        simpa using hmt
      obtain ⟨fsa, fsv, fsb, hwfa, hfa, hv, hj, hwf', hf'⟩ :=
        organiseBucketsLoop_focus ht b es fs fs' hwf (nodup_readDir hwf hrd) hbmem hmes hrun
      have hma : hasMatching fsa (target ++ [b]) = false := by
        rw [hasMatching_congr hwfa hwf _ hfa]
        exact hmt'
      obtain ⟨h1, h2⟩ := noMatching_noop hwfa hdn b hma
      rw [h1] at hv
      simp only [Prod.mk.injEq, and_true] at hv
      subst hv
      rw [h2] at hj
      simp only [Prod.mk.injEq, and_true] at hj
      subst hj
      apply normalised_of_noMatching
      rw [hasMatching_congr hwf' hwf _ (fun p hp => (hf' p hp).trans (hfa p hp))]
      exact hmt'

/-- A run that returned nil on a target whose buckets were clean leaves every
bucket in normal form. -/
theorem normalised_after_run {fs fs1 : FS} {target : Path} (hwf : WF fs) (ht : noMeta target = true)
    (hc : ∀ x ∈ (readDir fs target).getD [], x.2 = true →
      hasMeta x.1 = false ∧ cleanBucket fs (target ++ [x.1]) x.1 = true)
    (hrun : OrganiseVideosAndRenameJPGs fs target = (fs1, none)) :
    WF fs1 ∧ isDirAt fs1 target = true ∧
    ∀ x ∈ (readDir fs1 target).getD [], x.2 = true →
      hasMeta x.1 = false ∧ normalised fs1 (target ++ [x.1]) x.1 = true := by
  have hm : ∀ x ∈ (readDir fs target).getD [], x.2 = true → hasMeta x.1 = false :=
    fun x hx h => (hc x hx h).1
  have hrun0 := hrun
  unfold OrganiseVideosAndRenameJPGs at hrun
  cases hrd : readDir fs target with
  | none => simp [hrd] at hrun
  | some es =>
    simp only [hrd] at hrun
    rw [hrd] at hc
    simp only [Option.getD_some] at hc
    obtain ⟨hwf1, hshort⟩ := organiseBucketsLoop_short ht es fs fs1 none hwf
      (fun x hx h => (hc x hx h).1) hrun
    have hdir1 : isDirAt fs1 target = true := by
      have := readDir_isSome fs target
      rw [hrd] at this
      unfold isDirAt at this ⊢
      rw [hshort target (by omega)]
      exact this.symm
    refine ⟨hwf1, hdir1, ?_⟩
    cases hrd1 : readDir fs1 target with
    | none =>
      have := readDir_isSome fs1 target
      rw [hrd1, hdir1] at this
      cases this
    | some es1 =>
      simp only [Option.getD_some]
      intro x hx hx2
      obtain ⟨n, d⟩ := x
      simp only at hx2
      subst hx2
      obtain ⟨node, hs, hd⟩ := (mem_readDir hwf1 hrd1 n true).1 hx
      rw [hshort _ (by simp)] at hs
      have hmem : (n, true) ∈ es := (mem_readDir hwf hrd n true).2 ⟨node, hs, hd⟩
      have hdirn : isDirAt fs (target ++ [n]) = true := by
        cases node with
        | file t c => cases hd
        | dir => exact isDirAt_iff.2 hs
      obtain ⟨h1, h2⟩ := hc (n, true) hmem rfl
      exact ⟨h1, normalised_after_organise hwf ht hm hdirn h2 hrun0⟩

/-- C7 (amended): let no component of `target` and no name of a directory
entry of `target` hold a glob metacharacter, and let the image entries of
every subdirectory of `target` be regular files, fewer than 100000, none of
them bearing the name that an image before it in ascending order is to
receive. When a first run of `OrganiseVideosAndRenameJPGs` returned nil,
every subdirectory is in normal form in the state it left (no video directly
inside; the image entries are regular files named, in ascending order,
`<prefix>_<%05d of 1>.jpg`, `<prefix>_<%05d of 2>.jpg`, ...), and a second
run returns nil and leaves exactly that state. -/
theorem organise_idempotent (fs fs1 : FS) (target : Path) (hwf : WF fs)
    (ht : noMeta target = true)
    (hc : ∀ x ∈ (readDir fs target).getD [], x.2 = true →
      hasMeta x.1 = false ∧ cleanBucket fs (target ++ [x.1]) x.1 = true)
    (hrun : OrganiseVideosAndRenameJPGs fs target = (fs1, none)) :
    (∀ x ∈ (readDir fs1 target).getD [], x.2 = true →
      normalised fs1 (target ++ [x.1]) x.1 = true) ∧
    OrganiseVideosAndRenameJPGs fs1 target = (fs1, none) := by
  obtain ⟨hwf1, hdir1, hn⟩ := normalised_after_run hwf ht hc hrun
  refine ⟨fun x hx h => (hn x hx h).2, ?_⟩
  unfold OrganiseVideosAndRenameJPGs
  cases hrd : readDir fs1 target with
  | none =>
    have := readDir_isSome fs1 target
    rw [hrd, hdir1] at this
    cases this
  | some es =>
    rw [hrd] at hn
    exact organiseBucketsLoop_noop hwf1 ht es hn

/-- Witness of C7: a bucket with two images and one video, an empty directory
and a text file; the second run leaves the state of the first, in which the
images are numbers 1 and 2. -/
theorem organise_idempotent_witness :
    ((∀ x ∈ (readDir (OrganiseVideosAndRenameJPGs c7Fs ["t"]).1 ["t"]).getD [], x.2 = true →
      normalised (OrganiseVideosAndRenameJPGs c7Fs ["t"]).1 (["t"] ++ [x.1]) x.1 = true) ∧
    OrganiseVideosAndRenameJPGs (OrganiseVideosAndRenameJPGs c7Fs ["t"]).1 ["t"] =
      ((OrganiseVideosAndRenameJPGs c7Fs ["t"]).1, none)) ∧
    entriesMatching (OrganiseVideosAndRenameJPGs c7Fs ["t"]).1 ["t", "2023 06 June 15"]
      isImageName = ["2023_06_June_15_00001.jpg", "2023_06_June_15_00002.jpg"] ∧
    entriesMatching (OrganiseVideosAndRenameJPGs c7Fs ["t"]).1 ["t", "2023 06 June 15", "videos"]
      isVideoName = ["2023_06_June_15_00001.mov"] :=
  ⟨organise_idempotent c7Fs _ ["t"] (by decide) (by decide) (by decide) (by decide),
    by decide, by decide⟩

/-- Counterexample to C7 as stated. First state: the bucket holds `0.jpg` and
`2023_06_June_15_00001.jpg`; the first run returns nil and leaves one image,
number 2; the second run returns nil and renames it to number 1, so the state
is not the one the first run left. Second state: the bucket holds a
subdirectory `album.jpg`; the first run returns nil, having renamed it to
`2023_06_June_15_00001.jpg`; the second run returns an error. Third state:
two subdirectories have names with glob metacharacters; the first run returns
nil and leaves the image in `2023 06 June [15]`; the second run returns nil
and moves it to `2023 06 June ?15]`. -/
theorem organise_second_run_counterexample :
    (WF c7ClashFs ∧
      (OrganiseVideosAndRenameJPGs c7ClashFs ["t"]).2 = none ∧
      entriesMatching (OrganiseVideosAndRenameJPGs c7ClashFs ["t"]).1 ["t", "2023 06 June 15"]
        isImageName = ["2023_06_June_15_00002.jpg"] ∧
      (OrganiseVideosAndRenameJPGs (OrganiseVideosAndRenameJPGs c7ClashFs ["t"]).1 ["t"]).2 = none ∧
      entriesMatching
        (OrganiseVideosAndRenameJPGs (OrganiseVideosAndRenameJPGs c7ClashFs ["t"]).1 ["t"]).1
        ["t", "2023 06 June 15"] isImageName = ["2023_06_June_15_00001.jpg"] ∧
      (OrganiseVideosAndRenameJPGs (OrganiseVideosAndRenameJPGs c7ClashFs ["t"]).1 ["t"]).1 ≠
        (OrganiseVideosAndRenameJPGs c7ClashFs ["t"]).1) ∧
    (WF c7DirFs ∧
      (OrganiseVideosAndRenameJPGs c7DirFs ["t"]).2 = none ∧
      stat (OrganiseVideosAndRenameJPGs c7DirFs ["t"]).1
        ["t", "2023 06 June 15", "2023_06_June_15_00001.jpg"] = some Node.dir ∧
      (OrganiseVideosAndRenameJPGs (OrganiseVideosAndRenameJPGs c7DirFs ["t"]).1 ["t"]).2 =
        some Err.io) ∧
    (WF c7MetaFs ∧
      (OrganiseVideosAndRenameJPGs c7MetaFs ["t"]).2 = none ∧
      stat (OrganiseVideosAndRenameJPGs c7MetaFs ["t"]).1
        ["t", "2023 06 June [15]", "2023_06_June_[15]_00001.jpg"] = some (Node.file c7Date "a") ∧
      (OrganiseVideosAndRenameJPGs (OrganiseVideosAndRenameJPGs c7MetaFs ["t"]).1 ["t"]).2 = none ∧
      stat (OrganiseVideosAndRenameJPGs (OrganiseVideosAndRenameJPGs c7MetaFs ["t"]).1 ["t"]).1
        ["t", "2023 06 June [15]", "2023_06_June_[15]_00001.jpg"] = none ∧
      stat (OrganiseVideosAndRenameJPGs (OrganiseVideosAndRenameJPGs c7MetaFs ["t"]).1 ["t"]).1
        ["t", "2023 06 June ?15]", "2023_06_June_?15]_00001.jpg"] = some (Node.file c7Date "a")) := by
  decide

/-- C8 (amended): let `par/B` be an existing directory whose name `B` has at
least four fields, with no glob metacharacter in the components of its path,
and `newName` a text without separator such that the computed new path
`par/<first four fields>[ <newName>]` is `par/B` itself. When the image
entries of the directory are regular files, none of them bearing the new name
of an image before it in ascending order, and the video entries of its
`videos` subdirectory are regular files, `RenameDirectory` returns nil; the
directory is still at `par/B`, its parent has the entries it had, and the
image entries of the directory are exactly `<P>_<%05d of k+1>.jpg` for `k`
below their number, the `k`-th image in ascending name order being number
`k+1`, where `P` is `B` with every space replaced by `_`. -/
theorem renameDirectory_same_path (fs : FS) (par : Path) (B newName : String)
    (hwf : WF fs) (hdir : isDirAt fs (par ++ [B]) = true) (hmeta : noMeta (par ++ [B]) = true)
    (hBs : '/' ∉ B.data) (h4 : 4 ≤ (Fields B).length) (hns : '/' ∉ newName.data)
    (hsame : joinPath par (newDirName B newName) = par ++ [B])
    (hfiles : ∀ n ∈ entriesMatching fs (par ++ [B]) isImageName,
      isFileAt fs (par ++ [B] ++ [n]) = true)
    (hclash : ∀ j, j < (entriesMatching fs (par ++ [B]) isImageName).length → ∀ i, i < j →
      (entriesMatching fs (par ++ [B]) isImageName)[j]? ≠
        some (seqName (replaceSpaces B) (i + 1) ".jpg"))
    (hvfiles : ∀ n ∈ entriesMatching fs (par ++ [B] ++ ["videos"]) isVideoName,
      isFileAt fs (par ++ [B] ++ ["videos"] ++ [n]) = true) :
    (RenameDirectory fs (par ++ [B]) newName).2 = none ∧
    isDirAt (RenameDirectory fs (par ++ [B]) newName).1 (par ++ [B]) = true ∧
    (∀ n, stat (RenameDirectory fs (par ++ [B]) newName).1 (par ++ [n]) = stat fs (par ++ [n])) ∧
    (entriesMatching (RenameDirectory fs (par ++ [B]) newName).1 (par ++ [B]) isImageName).Perm
      ((List.range (entriesMatching fs (par ++ [B]) isImageName).length).map
        (fun k => seqName (replaceSpaces B) (k + 1) ".jpg")) ∧
    ∀ k n, (entriesMatching fs (par ++ [B]) isImageName)[k]? = some n →
      stat (RenameDirectory fs (par ++ [B]) newName).1
          (par ++ [B] ++ [seqName (replaceSpaces B) (k + 1) ".jpg"]) =
        stat fs (par ++ [B] ++ [n]) := by
  have hnd := newDirName_no_slash hBs hns
  have hpath : joinPath par (newDirName B newName) = par ++ [newDirName B newName] :=
    joinPath_single par _ hnd (newDirName_plain newName h4).1
      (newDirName_plain newName h4).2.1 (newDirName_plain newName h4).2.2
  have hB : newDirName B newName = B := by
    rw [hpath] at hsame
    exact (snoc_inj hsame).2
  have hnb : '/' ∉ (replaceSpaces B).data := replaceSpaces_no_slash hBs
  obtain ⟨fs3, hsteps, hwf3, hA, hB3⟩ := renameImagesStep_spec hwf hmeta
    (par ++ [B]) B hnb hfiles
    (by
      intro i j hij
      by_cases hj : j < (entriesMatching fs (par ++ [B]) isImageName).length
      · exact hclash j hj i hij
      · rw [List.getElem?_eq_none (by omega)]
        simp)
    hvfiles
  set absDir := par ++ [B] with habs
  set nb := replaceSpaces B with hnbd
  set names := entriesMatching fs absDir isImageName with hnames
  have hsd : stat fs absDir = some Node.dir := isDirAt_iff.1 hdir
  have hshort : ∀ p : Path, p.length ≤ absDir.length → stat fs3 p = stat fs p := by
    intro p hp
    rw [hB3]
    · rw [if_neg]
      intro h
      obtain ⟨n, _, hn⟩ := List.mem_map.1 h
      have := congrArg List.length hn
      simp at this
      omega
    · intro h
      have := h.length_le
      simp at this
      omega
    · intro k _ h
      have := congrArg List.length h
      simp at this
      omega
  have hrun : RenameDirectory fs absDir newName = (fs3, none) := by
    unfold RenameDirectory
    have hb : Base absDir = B := Base_snoc par B
    have hpar : parent absDir = par := parent_snoc par B
    simp only [hsd, hb, hpar]
    have hjp : joinPath par B = absDir := by
      have h := hsame
      rw [hB] at h
      exact h
    rw [if_neg (by omega), hB, hjp, if_neg (by simp), hsteps]
    unfold renameDirStep
    rw [if_neg (by simp)]
  rw [hrun]
  simp only
  refine ⟨trivial, ?_, ?_, ?_, ?_⟩
  · rw [isDirAt_iff, hshort _ (le_refl _)]
    exact hsd
  · intro n
    exact hshort _ (by simp [habs])
  · apply entries_after_renumber hwf hwf3 absDir absDir isImageName
      (fun k => seqName nb (k + 1) ".jpg")
    · intro i j _ _ h
      have := seqName_inj rfl h
      omega
    · exact fun k => isImageName_seqName hnb _
    · unfold isDirAt
      rw [hshort _ (le_refl _)]
    · intro k n hk
      exact hA k n hk
    · intro n hn hne'
      rw [hB3]
      · by_cases hmem : n ∈ names
        · rw [if_pos hmem, if_pos (List.mem_map_of_mem _ hmem)]
        · rw [if_neg hmem, if_neg]
          intro h
          obtain ⟨m, hm, hh⟩ := List.mem_map.1 h
          exact hmem ((snoc_inj hh).2 ▸ hm)
      · exact not_videos_prefix_of_image absDir hn
      · intro k hk h
        exact hne' k hk (snoc_inj h).2
  · intro k n hk
    exact hA k n hk

/-- Witness of C8: `RenameDirectory("/a/2023 06 June 15 Paris", "Paris")` on a
directory with the images `x.jpg` and `y.JPG`. -/
theorem renameDirectory_same_path_witness :
    ((RenameDirectory c8Fs (["a"] ++ ["2023 06 June 15 Paris"]) "Paris").2 = none ∧
    isDirAt (RenameDirectory c8Fs (["a"] ++ ["2023 06 June 15 Paris"]) "Paris").1
      (["a"] ++ ["2023 06 June 15 Paris"]) = true ∧
    (∀ n, stat (RenameDirectory c8Fs (["a"] ++ ["2023 06 June 15 Paris"]) "Paris").1 (["a"] ++ [n]) =
      stat c8Fs (["a"] ++ [n])) ∧
    (entriesMatching (RenameDirectory c8Fs (["a"] ++ ["2023 06 June 15 Paris"]) "Paris").1
        (["a"] ++ ["2023 06 June 15 Paris"]) isImageName).Perm
      ((List.range (entriesMatching c8Fs (["a"] ++ ["2023 06 June 15 Paris"]) isImageName).length).map
        (fun k => seqName (replaceSpaces "2023 06 June 15 Paris") (k + 1) ".jpg")) ∧
    ∀ k n, (entriesMatching c8Fs (["a"] ++ ["2023 06 June 15 Paris"]) isImageName)[k]? = some n →
      stat (RenameDirectory c8Fs (["a"] ++ ["2023 06 June 15 Paris"]) "Paris").1
          (["a"] ++ ["2023 06 June 15 Paris"] ++
            [seqName (replaceSpaces "2023 06 June 15 Paris") (k + 1) ".jpg"]) =
        stat c8Fs (["a"] ++ ["2023 06 June 15 Paris"] ++ [n])) ∧
    stat (RenameDirectory c8Fs ["a", "2023 06 June 15 Paris"] "Paris").1
      ["a", "2023 06 June 15 Paris", "2023_06_June_15_Paris_00002.jpg"] =
        some (Node.file c8Date "y") :=
  ⟨renameDirectory_same_path c8Fs ["a"] "2023 06 June 15 Paris" "Paris" (by decide) (by decide)
    (by decide) (by decide) (by decide) (by decide) (by decide) (by decide) (by decide)
    (by decide), by decide⟩

/-- Counterexample to C8 as stated. First state: the directory holds the two
images `0.jpg` and `2023_06_June_15_Paris_00001.jpg`; the computed path is the
path of the directory, the call returns nil and one image is left, number 2.
Second state: the parent is named `p[x]`; the call returns nil and the image
is still named `x.jpg`. -/
theorem renameDirectory_same_path_counterexample :
    (WF c8ClashFs ∧
      joinPath ["a"] (newDirName "2023 06 June 15 Paris" "Paris") = ["a", "2023 06 June 15 Paris"] ∧
      entriesMatching c8ClashFs ["a", "2023 06 June 15 Paris"] isImageName =
        ["0.jpg", "2023_06_June_15_Paris_00001.jpg"] ∧
      (RenameDirectory c8ClashFs ["a", "2023 06 June 15 Paris"] "Paris").2 = none ∧
      entriesMatching (RenameDirectory c8ClashFs ["a", "2023 06 June 15 Paris"] "Paris").1
        ["a", "2023 06 June 15 Paris"] isImageName = ["2023_06_June_15_Paris_00002.jpg"]) ∧
    (WF c8MetaFs ∧
      joinPath ["p[x]"] (newDirName "2023 06 June 15 Paris" "Paris") =
        ["p[x]", "2023 06 June 15 Paris"] ∧
      (RenameDirectory c8MetaFs ["p[x]", "2023 06 June 15 Paris"] "Paris").2 = none ∧
      entriesMatching (RenameDirectory c8MetaFs ["p[x]", "2023 06 June 15 Paris"] "Paris").1
        ["p[x]", "2023 06 June 15 Paris"] isImageName = ["x.jpg"]) := by
  decide

/-- C9 (amended): let no component of `target` and no name of a directory
entry of `target` hold a glob metacharacter, and let the call
`OrganiseVideosAndRenameJPGs(target)` not fail in a file-system call. Then it
returns nil or the format error; the format error exactly when some
subdirectory of `target` with a matching entry (video or image pattern) has a
name not of four fields; in that case every entry under such a subdirectory
is still where it was (a `videos` directory may have been created); and the
run is the run over the subdirectories that have a matching entry, the others
being passed without effect whatever their name. -/
theorem organise_format_error (fs : FS) (target : Path) (hwf : WF fs) (ht : noMeta target = true)
    (hm : ∀ x ∈ (readDir fs target).getD [], x.2 = true → hasMeta x.1 = false)
    (hio : (OrganiseVideosAndRenameJPGs fs target).2 ≠ some Err.io) :
    ((OrganiseVideosAndRenameJPGs fs target).2 = none ∨
      (OrganiseVideosAndRenameJPGs fs target).2 = some Err.format) ∧
    ((OrganiseVideosAndRenameJPGs fs target).2 = some Err.format ↔
      ∃ b, isDirAt fs (target ++ [b]) = true ∧ hasMatching fs (target ++ [b]) = true ∧
        (Fields b).length ≠ 4) ∧
    ((OrganiseVideosAndRenameJPGs fs target).2 = some Err.format →
      ∀ b, isDirAt fs (target ++ [b]) = true → hasMatching fs (target ++ [b]) = true →
        (Fields b).length ≠ 4 →
        ∀ p node, (target ++ [b]) <+: p → stat fs p = some node →
          stat (OrganiseVideosAndRenameJPGs fs target).1 p = some node) ∧
    OrganiseVideosAndRenameJPGs fs target =
      organiseBucketsLoop target
        (((readDir fs target).getD []).filter
          (fun x => x.2 && hasMatching fs (target ++ [x.1]))) fs := by
  unfold OrganiseVideosAndRenameJPGs at hio ⊢
  cases hrd : readDir fs target with
  | none =>
    rw [hrd] at hio
    exact absurd rfl hio
  | some es =>
    rw [hrd] at hio hm
    simp only [Option.getD_some] at hm ⊢
    have hnd := nodup_readDir hwf hrd
    have hmem : ∀ b, (b, true) ∈ es ↔ isDirAt fs (target ++ [b]) = true := by
      intro b
      rw [mem_readDir hwf hrd, isDirAt_iff]
      constructor
      · rintro ⟨node, hs, hd⟩
        cases node with
        | file t c => cases hd
        | dir => exact hs
      · intro hs
        exact ⟨Node.dir, hs, rfl⟩
    obtain ⟨i1, i2, i3⟩ := organiseBucketsLoop_format ht es fs _ _ hwf hnd hm rfl hio
    refine ⟨i1, ?_, ?_, ?_⟩
    · rw [i2]
      constructor
      · rintro ⟨⟨b, d⟩, hx, hd, hmt, h4⟩
        simp only at hd hmt h4
        subst hd
        exact ⟨b, (hmem b).1 hx, hmt, h4⟩
      · rintro ⟨b, hb, hmt, h4⟩
        exact ⟨(b, true), (hmem b).2 hb, rfl, hmt, h4⟩
    · intro he b hb hmt h4
      exact i3 he (b, true) ((hmem b).2 hb) rfl hmt h4
    · exact organiseBucketsLoop_skip ht (fun b => hasMatching fs (target ++ [b])) es fs hwf hnd hm
        (fun _ _ _ => rfl)

/-- Witness of C9: the directory `misc` holds an image and has a one-field
name; the run returns the format error, `misc/a.jpg` is where it was, and the
image of the well-named bucket, handled before, has been renumbered. -/
theorem organise_format_error_witness :
    (((OrganiseVideosAndRenameJPGs c9Fs ["t"]).2 = none ∨
      (OrganiseVideosAndRenameJPGs c9Fs ["t"]).2 = some Err.format) ∧
    ((OrganiseVideosAndRenameJPGs c9Fs ["t"]).2 = some Err.format ↔
      ∃ b, isDirAt c9Fs (["t"] ++ [b]) = true ∧ hasMatching c9Fs (["t"] ++ [b]) = true ∧
        (Fields b).length ≠ 4) ∧
    ((OrganiseVideosAndRenameJPGs c9Fs ["t"]).2 = some Err.format →
      ∀ b, isDirAt c9Fs (["t"] ++ [b]) = true → hasMatching c9Fs (["t"] ++ [b]) = true →
        (Fields b).length ≠ 4 →
        ∀ p node, (["t"] ++ [b]) <+: p → stat c9Fs p = some node →
          stat (OrganiseVideosAndRenameJPGs c9Fs ["t"]).1 p = some node) ∧
    OrganiseVideosAndRenameJPGs c9Fs ["t"] =
      organiseBucketsLoop ["t"]
        (((readDir c9Fs ["t"]).getD []).filter
          (fun x => x.2 && hasMatching c9Fs (["t"] ++ [x.1]))) c9Fs) ∧
    (OrganiseVideosAndRenameJPGs c9Fs ["t"]).2 = some Err.format ∧
    stat (OrganiseVideosAndRenameJPGs c9Fs ["t"]).1 ["t", "misc", "a.jpg"] =
      some (Node.file c9Date "a") ∧
    stat (OrganiseVideosAndRenameJPGs c9Fs ["t"]).1
      ["t", "2023 06 June 15", "2023_06_June_15_00001.jpg"] = some (Node.file c9Date "i") :=
  ⟨organise_format_error c9Fs ["t"] (by decide) (by decide) (by decide) (by decide),
    by decide, by decide, by decide⟩

/-- Counterexample to C9 as stated. First state: `target` holds an empty
directory named `*` and a well-named bucket with an image; the run returns the
format error, the pattern `target/*/*.jpg` having matched the image of the
other bucket. Second state: `target` holds an empty directory named `a[`; the
run returns the bad-pattern error of `filepath.Glob`. -/
theorem organise_format_error_counterexample :
    (WF c9StarFs ∧
      (readDir c9StarFs ["t"]) = some [("*", true), ("2023 06 June 15", true)] ∧
      hasMatching c9StarFs ["t", "*"] = false ∧
      (Fields "2023 06 June 15").length = 4 ∧
      (OrganiseVideosAndRenameJPGs c9StarFs ["t"]).2 = some Err.format) ∧
    (WF c9BracketFs ∧
      (readDir c9BracketFs ["t"]) = some [("a[", true)] ∧
      hasMatching c9BracketFs ["t", "a["] = false ∧
      (OrganiseVideosAndRenameJPGs c9BracketFs ["t"]).2 = some Err.badPattern) := by
  decide

theorem not_prefix_bucket_of_source {src tgt : Path} (hns : ¬ src <+: tgt) (d : String) (q : Path)
    (b : String) : ¬ (src ++ d :: q) <+: tgt ++ [b] := by
  intro h
  rcases prefix_snoc_cases h with h | h
  · rcases List.eq_nil_or_concat q with hq | ⟨q', x, hq⟩
    · subst hq
      have h' : src ++ [d] = tgt ++ [b] := h
      exact hns ((snoc_inj h').1 ▸ List.prefix_refl _)
    · subst hq
      have h' : (src ++ d :: q') ++ [x] = tgt ++ [b] := by
        rw [← h]
        simp
      exact hns ((snoc_inj h').1 ▸ List.prefix_append _ _)
  · exact hns ((List.prefix_append _ _).trans h)

/-- One step of `OrganiseByDate` from the state `fs`: the directories of the
bucket path are made, then the file is moved. -/
theorem organiseByDate_step {fs fs1 fs2 : FS} (hwf : WF fs) {src tgt : Path} {name : String}
    {t : Time} {c : String} (hs : stat fs (src ++ [name]) = some (Node.file t c))
    (hmk : mkdirAll fs (tgt ++ [formatDate t]) = some fs1)
    (hrn : rename fs1 (src ++ [name]) (tgt ++ [formatDate t, name]) = some fs2) :
    WF fs2 ∧
    (∀ p node, stat fs2 p = some node → stat fs p = some node ∨
      (node = Node.dir ∧ p <+: tgt ++ [formatDate t]) ∨
      (node = Node.file t c ∧ p = tgt ++ [formatDate t, name])) ∧
    (∀ p, p ≠ src ++ [name] → p ≠ tgt ++ [formatDate t, name] → ¬ p <+: tgt ++ [formatDate t] →
      stat fs2 p = stat fs p) := by
  have hwf1 := WF_mkdirAll hwf hmk
  have hold1 : stat fs1 (src ++ [name]) = some (Node.file t c) := stat_mkdirAll_of_some hmk hs
  have hst2 := stat_rename_file hwf1 hrn (isFileAt_of_stat hold1)
  refine ⟨WF_rename hwf1 hrn, ?_, ?_⟩
  · intro p node hp
    rw [hst2] at hp
    by_cases h1 : p = tgt ++ [formatDate t, name]
    · rw [if_pos h1, hold1] at hp
      exact Or.inr (Or.inr ⟨(Option.some.inj hp).symm, h1⟩)
    · rw [if_neg h1] at hp
      by_cases h2 : p = src ++ [name]
      · rw [if_pos h2] at hp
        cases hp
      · rw [if_neg h2, stat_mkdirAll hmk] at hp
        cases hsp : stat fs p with
        | some n =>
          rw [hsp] at hp
          exact Or.inl hp
        | none =>
          rw [hsp] at hp
          by_cases h3 : p <+: tgt ++ [formatDate t]
          · simp only [h3, if_true, Option.some.injEq] at hp
            exact Or.inr (Or.inl ⟨hp.symm, h3⟩)
          · simp [h3] at hp
  · intro p h1 h2 h3
    rw [hst2, if_neg h2, if_neg h1, stat_mkdirAll hmk]
    cases hsp : stat fs p with
    | some n => rfl
    | none => simp [h3]

/-- What the loop of `OrganiseByDate` leaves, whatever its outcome: every entry
is an entry of the start at its place, a directory on the path of a bucket, or
a regular file of the start, direct entry of the source, in its bucket. -/
theorem organiseByDateLoop_origin (src tgt : Path) :
    ∀ (entries : List (String × Bool)) (fs fs' : FS) (e : Option Err), WF fs →
      (entries.map Prod.fst).Nodup →
      organiseByDateLoop src tgt entries fs = (fs', e) →
      ∀ p node, stat fs' p = some node → stat fs p = some node ∨
        (node = Node.dir ∧ ∃ t, p <+: tgt ++ [formatDate t]) ∨
        (∃ name t c, name ∈ entries.map Prod.fst ∧ node = Node.file t c ∧
          p = tgt ++ [formatDate t, name] ∧ stat fs (src ++ [name]) = some (Node.file t c)) := by
  intro entries
  induction entries with
  | nil =>
    intro fs fs' e _ _ h p node hp
    simp only [organiseByDateLoop, Prod.mk.injEq] at h
    rw [← h.1] at hp
    exact Or.inl hp
  | cons x rest ih =>
    intro fs fs' e hwf hnd h p node hp
    obtain ⟨name1, isDir1⟩ := x
    simp only [List.map_cons, List.nodup_cons] at hnd
    cases isDir1 with
    | true =>
      simp only [organiseByDateLoop, if_true] at h
      rcases ih fs fs' e hwf hnd.2 h p node hp with h1 | h1 | ⟨name, t, c, hm, h1⟩
      · exact Or.inl h1
      · exact Or.inr (Or.inl h1)
      · exact Or.inr (Or.inr ⟨name, t, c, List.mem_cons_of_mem _ hm, h1⟩)
    | false =>
      simp only [organiseByDateLoop, Bool.false_eq_true, if_false] at h
      cases hs1 : stat fs (src ++ [name1]) with
      | none =>
        simp only [hs1, Prod.mk.injEq] at h
        rw [← h.1] at hp
        exact Or.inl hp
      | some node1 =>
        cases node1 with
        | dir =>
          simp only [hs1, Prod.mk.injEq] at h
          rw [← h.1] at hp
          exact Or.inl hp
        | file t1 c1 =>
          simp only [hs1] at h
          cases hmk : mkdirAll fs (tgt ++ [formatDate t1]) with
          | none =>
            simp only [hmk, Prod.mk.injEq] at h
            rw [← h.1] at hp
            exact Or.inl hp
          | some fs1 =>
            simp only [hmk] at h
            cases hrn : rename fs1 (src ++ [name1]) (tgt ++ [formatDate t1, name1]) with
            | none =>
              simp only [hrn, Prod.mk.injEq] at h
              rw [← h.1, stat_mkdirAll hmk] at hp
              cases hsp : stat fs p with
              | some n =>
                rw [hsp] at hp
                exact Or.inl hp
              | none =>
                rw [hsp] at hp
                by_cases h3 : p <+: tgt ++ [formatDate t1]
                · simp only [h3, if_true, Option.some.injEq] at hp
                  exact Or.inr (Or.inl ⟨hp.symm, t1, h3⟩)
                · simp [h3] at hp
            | some fs2 =>
              simp only [hrn] at h
              obtain ⟨hwf2, hstep, _⟩ := organiseByDate_step hwf hs1 hmk hrn
              rcases ih fs2 fs' e hwf2 hnd.2 h p node hp with h1 | h1 | ⟨name, t, c, hm, hn, hpd, hsrc⟩
              · rcases hstep p node h1 with h2 | ⟨h2, h3⟩ | ⟨h2, h3⟩
                · exact Or.inl h2
                · exact Or.inr (Or.inl ⟨h2, t1, h3⟩)
                · exact Or.inr (Or.inr ⟨name1, t1, c1, List.mem_cons_self _ _, h2, h3, hs1⟩)
              · exact Or.inr (Or.inl h1)
              · refine Or.inr (Or.inr ⟨name, t, c, List.mem_cons_of_mem _ hm, hn, hpd, ?_⟩)
                have hne : name ≠ name1 := fun hc => hnd.1 (hc ▸ hm)
                rcases hstep _ _ hsrc with h2 | ⟨h2, _⟩ | ⟨_, h3⟩
                · exact h2
                · cases h2
                · have h3' : src ++ [name] = (tgt ++ [formatDate t1]) ++ [name1] := by
                    rw [h3]
                    simp
                  exact absurd (snoc_inj h3').2 hne

/-- What lies under a subdirectory of the source is untouched by the loop of
`OrganiseByDate`, whatever its outcome, when the target is neither the source
nor beneath it. -/
theorem organiseByDateLoop_subdir {src tgt : Path} (hns : ¬ src <+: tgt) (d : String) :
    ∀ (entries : List (String × Bool)) (fs fs' : FS) (e : Option Err), WF fs →
      organiseByDateLoop src tgt entries fs = (fs', e) →
      stat fs (src ++ [d]) = some Node.dir →
      ∀ q, stat fs' (src ++ d :: q) = stat fs (src ++ d :: q) := by
  intro entries
  induction entries with
  | nil =>
    intro fs fs' e _ h _ q
    simp only [organiseByDateLoop, Prod.mk.injEq] at h
    rw [← h.1]
  | cons x rest ih =>
    intro fs fs' e hwf h hd q
    obtain ⟨name1, isDir1⟩ := x
    cases isDir1 with
    | true =>
      simp only [organiseByDateLoop, if_true] at h
      exact ih fs fs' e hwf h hd q
    | false =>
      simp only [organiseByDateLoop, Bool.false_eq_true, if_false] at h
      cases hs1 : stat fs (src ++ [name1]) with
      | none =>
        simp only [hs1, Prod.mk.injEq] at h
        rw [← h.1]
      | some node1 =>
        cases node1 with
        | dir =>
          simp only [hs1, Prod.mk.injEq] at h
          rw [← h.1]
        | file t1 c1 =>
          simp only [hs1] at h
          have hne : d ≠ name1 := by
            intro hc
            rw [hc, hs1] at hd
            cases hd
          cases hmk : mkdirAll fs (tgt ++ [formatDate t1]) with
          | none =>
            simp only [hmk, Prod.mk.injEq] at h
            rw [← h.1]
          | some fs1 =>
            simp only [hmk] at h
            have hmkq : ∀ q, stat fs1 (src ++ d :: q) = stat fs (src ++ d :: q) := by
              intro q
              rw [stat_mkdirAll hmk]
              cases hsp : stat fs (src ++ d :: q) with
              | some n => rfl
              | none => simp [not_prefix_bucket_of_source hns d q (formatDate t1)]
            cases hrn : rename fs1 (src ++ [name1]) (tgt ++ [formatDate t1, name1]) with
            | none =>
              simp only [hrn, Prod.mk.injEq] at h
              rw [← h.1]
              exact hmkq q
            | some fs2 =>
              simp only [hrn] at h
              obtain ⟨hwf2, _, hframe⟩ := organiseByDate_step hwf hs1 hmk hrn
              have hstepq : ∀ q, stat fs2 (src ++ d :: q) = stat fs (src ++ d :: q) := by
                intro q
                apply hframe
                · intro hc
                  have := List.append_cancel_left hc
                  simp only [List.cons.injEq] at this
                  exact hne this.1
                · intro hc
                  have hsp : src <+: tgt ++ [formatDate t1, name1] := hc ▸ List.prefix_append _ _
                  have htp : tgt <+: tgt ++ [formatDate t1, name1] := List.prefix_append _ _
                  rcases List.prefix_or_prefix_of_prefix hsp htp with h1 | h1
                  · exact hns h1
                  · have hlen := congrArg List.length hc
                    have hle := h1.length_le
                    have hlt : tgt.length ≠ src.length := by
                      intro hl
                      exact hns (List.IsPrefix.eq_of_length h1 hl ▸ List.prefix_refl _)
                    simp only [List.length_append, List.length_cons, List.length_nil] at hlen
                    have hq : q = [] := List.length_eq_zero.1 (by omega)
                    subst hq
                    have hc' : src ++ [d] = (tgt ++ [formatDate t1]) ++ [name1] := by
                      rw [hc]
                      simp
                    exact hne (snoc_inj hc').2
                · exact not_prefix_bucket_of_source hns d q (formatDate t1)
              rw [ih fs2 fs' e hwf2 h (by rw [hstepq []]; exact hd) q]
              exact hstepq q

/-- C10 (amended): when `target` is neither `source` nor beneath it, whatever
`OrganiseByDate(source, target)` returns, every path at or under a
subdirectory that is a direct entry of `source` holds afterwards what it held
before; and every entry of the state afterwards is an entry of the state
before at its place, a directory on the path of a bucket `target/<date>`, or
a regular file that was a direct entry of `source`, now at
`target/<date of its modification time>/<its name>`. -/
theorem organiseByDate_keeps_subdirectories (fs : FS) (source target : Path) (hwf : WF fs)
    (hns : ¬ source <+: target) :
    (∀ d q, isDirAt fs (source ++ [d]) = true →
      stat (OrganiseByDate fs source target).1 (source ++ d :: q) = stat fs (source ++ d :: q)) ∧
    (∀ p node, stat (OrganiseByDate fs source target).1 p = some node →
      stat fs p = some node ∨
      (node = Node.dir ∧ ∃ t, p <+: target ++ [formatDate t]) ∨
      (∃ name t c, node = Node.file t c ∧ p = target ++ [formatDate t, name] ∧
        stat fs (source ++ [name]) = some (Node.file t c))) := by
  unfold OrganiseByDate
  cases hrd : readDir fs source with
  | none => exact ⟨fun _ _ _ => rfl, fun _ _ h => Or.inl h⟩
  | some es =>
    simp only
    constructor
    · intro d q hd
      exact organiseByDateLoop_subdir hns d es fs _ _ hwf rfl (isDirAt_iff.1 hd) q
    · intro p node hp
      rcases organiseByDateLoop_origin source target es fs _ _ hwf (nodup_readDir hwf hrd) rfl
        p node hp with h | h | ⟨name, t, c, _, h⟩
      · exact Or.inl h
      · exact Or.inr (Or.inl h)
      · exact Or.inr (Or.inr ⟨name, t, c, h⟩)

/-- Witness of C10: the image of the source is moved to its bucket and the
subdirectory `keep` holds its image as before. -/
theorem organiseByDate_keeps_subdirectories_witness :
    ((∀ d q, isDirAt c10Fs (["s"] ++ [d]) = true →
      stat (OrganiseByDate c10Fs ["s"] ["t"]).1 (["s"] ++ d :: q) = stat c10Fs (["s"] ++ d :: q)) ∧
    (∀ p node, stat (OrganiseByDate c10Fs ["s"] ["t"]).1 p = some node →
      stat c10Fs p = some node ∨
      (node = Node.dir ∧ ∃ t, p <+: ["t"] ++ [formatDate t]) ∨
      (∃ name t c, node = Node.file t c ∧ p = ["t"] ++ [formatDate t, name] ∧
        stat c10Fs (["s"] ++ [name]) = some (Node.file t c)))) ∧
    (OrganiseByDate c10Fs ["s"] ["t"]).2 = none ∧
    stat (OrganiseByDate c10Fs ["s"] ["t"]).1 ["t", "2023 06 June 15", "x.jpg"] =
      some (Node.file c10Date "x") ∧
    stat (OrganiseByDate c10Fs ["s"] ["t"]).1 ["s", "keep", "inner.jpg"] =
      some (Node.file c10Date "k") :=
  ⟨organiseByDate_keeps_subdirectories c10Fs ["s"] ["t"] (by decide) (by decide),
    by decide, by decide, by decide⟩

/-- Counterexample to C10 as stated. First state: source and target are the
same directory, which holds the bucket `2023 06 June 15` and an image of that
day; the call returns nil and the subdirectory has a new entry, the image.
Second state: the target is the subdirectory `sorted` of the source; the call
returns nil and the subdirectory has a new entry, the bucket. -/
theorem organiseByDate_subdirectory_counterexample :
    (WF c10SameFs ∧
      isDirAt c10SameFs ["s", "2023 06 June 15"] = true ∧
      stat c10SameFs ["s", "2023 06 June 15", "x.jpg"] = none ∧
      (OrganiseByDate c10SameFs ["s"] ["s"]).2 = none ∧
      stat (OrganiseByDate c10SameFs ["s"] ["s"]).1 ["s", "2023 06 June 15", "x.jpg"] =
        some (Node.file c10Date "x")) ∧
    (WF c10InsideFs ∧
      isDirAt c10InsideFs ["s", "sorted"] = true ∧
      stat c10InsideFs ["s", "sorted", "2023 06 June 15"] = none ∧
      (OrganiseByDate c10InsideFs ["s"] ["s", "sorted"]).2 = none ∧
      stat (OrganiseByDate c10InsideFs ["s"] ["s", "sorted"]).1 ["s", "sorted", "2023 06 June 15"] =
        some Node.dir) := by
  decide

theorem ext_video_no_slash (vd : Path) {n : String} (hv : isVideoName n = true) :
    '/' ∉ (Ext (vd ++ [n])).data := by
  rcases (Ext_video vd hv).1 with h | h <;> rw [h] <;> decide

/-- The video step of `RenameDirectory` on a state whose video entries under
`videos` are regular files, none of them bearing the new name of an earlier
one: it succeeds and leads to the final step; only the videos have changed. -/
theorem renameVideosStep_spec {fs1 : FS} (hwf1 : WF fs1) {absDir : Path} (hd : noMeta absDir = true)
    (newDirPath : Path) (nd : String) (hnb : '/' ∉ (replaceSpaces nd).data)
    (hvfiles : ∀ n ∈ entriesMatching fs1 (absDir ++ ["videos"]) isVideoName,
      isFileAt fs1 (absDir ++ ["videos"] ++ [n]) = true)
    (hvclash : ∀ i j ni nj, i < j →
      (entriesMatching fs1 (absDir ++ ["videos"]) isVideoName)[i]? = some ni →
      (entriesMatching fs1 (absDir ++ ["videos"]) isVideoName)[j]? = some nj →
      nj ≠ videoSeqName (absDir ++ ["videos"]) (replaceSpaces nd) i ni) :
    ∃ fs3, renameVideosStep fs1 absDir newDirPath nd = renameDirStep fs3 absDir newDirPath ∧
      WF fs3 ∧
      (∀ k n, (entriesMatching fs1 (absDir ++ ["videos"]) isVideoName)[k]? = some n →
        stat fs3 (absDir ++ ["videos"] ++
            [videoSeqName (absDir ++ ["videos"]) (replaceSpaces nd) k n]) =
          stat fs1 (absDir ++ ["videos"] ++ [n])) ∧
      (∀ p, (∀ k n, (entriesMatching fs1 (absDir ++ ["videos"]) isVideoName)[k]? = some n →
          p ≠ absDir ++ ["videos"] ++ [videoSeqName (absDir ++ ["videos"]) (replaceSpaces nd) k n]) →
        stat fs3 p =
          if p ∈ (entriesMatching fs1 (absDir ++ ["videos"]) isVideoName).map
              (fun n => absDir ++ ["videos"] ++ [n]) then none
          else stat fs1 p) := by
  set nb := replaceSpaces nd with hnbdef
  set vd := absDir ++ ["videos"] with hvd
  set vnames := entriesMatching fs1 vd isVideoName with hvn
  have hvdn : noMeta vd = true := noMeta_snoc hd (by decide)
  unfold renameVideosStep
  by_cases hisd : isDirAt fs1 vd = true
  · obtain ⟨Lv, hLv, hlenv, hsortv⟩ := sortPaths_videos hwf1 hvdn
    simp only [← hvd, hisd, if_true, hLv]
    by_cases h0 : Lv.length > 0
    · simp only [h0, if_true, renameVideosLoop_eq, hsortv, ← hnbdef]
      have hcongr : seqPairs (fun k f => joinPath vd (seqName nb (k + 1) (Ext f)))
          (vnames.map (fun n => vd ++ [n])) 0 =
          seqPairs (fun k f => vd ++ [seqName nb (k + 1) (Ext f)])
            (vnames.map (fun n => vd ++ [n])) 0 := by
        apply seqPairs_congr
        intro k f hf
        obtain ⟨n, hn, rfl⟩ := List.mem_map.1 hf
        exact joinPath_seqName vd hnb (k + 1)
          (ext_video_no_slash vd ((mem_entriesMatching hwf1 vd _ n).1 hn).2.2)
      rw [hcongr]
      obtain ⟨fs3, hrun, hwf3, hA, hB⟩ := renumber_spec hwf1 vd isVideoName
        (fun k f => vd ++ [seqName nb (k + 1) (Ext f)]) (fun k n => videoSeqName vd nb k n)
        (fun _ _ => rfl)
        (by
          intro k n hn
          exact isVideoName_seqName hnb _ (Ext_video vd ((mem_entriesMatching hwf1 vd _ n).1 hn).2.2).1)
        (by
          intro i j n m hn hm h
          have hvn' := ((mem_entriesMatching hwf1 vd _ n).1 hn).2.2
          have hvm := ((mem_entriesMatching hwf1 vd _ m).1 hm).2.2
          have := seqName_inj (by rw [Ext_video_length vd hvn', Ext_video_length vd hvm]) h
          omega)
        hvfiles hvclash
      rw [hrun]
      exact ⟨fs3, rfl, hwf3, hA, hB⟩
    · have hnil : vnames = [] := by
        rw [hvn]
        exact List.length_eq_zero.1 (by omega)
      simp only [h0, if_false]
      refine ⟨fs1, rfl, hwf1, ?_, ?_⟩
      · intro k n hk
        rw [hnil] at hk
        simp at hk
      · intro p _
        rw [hnil]
        simp
  · have hnil : vnames = [] := by
      rw [List.eq_nil_iff_forall_not_mem]
      intro n hn
      exact hisd ((mem_entriesMatching hwf1 vd _ n).1 hn).1
    simp only [← hvd, hisd, Bool.false_eq_true, if_false]
    refine ⟨fs1, rfl, hwf1, ?_, ?_⟩
    · intro k n hk
      rw [hnil] at hk
      simp at hk
    · intro p _
      rw [hnil]
      simp

/-- An image step of `RenameDirectory` that did not fail leaves `videos` and
the directory itself as they were. -/
theorem renameImagesStep_nil {fs fs' : FS} (hwf : WF fs) {absDir : Path} (hd : noMeta absDir = true)
    (newDirPath : Path) (nd : String) (hnb : '/' ∉ (replaceSpaces nd).data)
    (h : renameImagesStep fs absDir newDirPath nd = (fs', none)) :
    ∃ fs1, WF fs1 ∧ renameVideosStep fs1 absDir newDirPath nd = (fs', none) ∧
      stat fs1 absDir = stat fs absDir ∧
      ∀ r, stat fs1 (absDir ++ ["videos"] ++ r) = stat fs (absDir ++ ["videos"] ++ r) := by
  obtain ⟨L, hL, hlen, hsort⟩ := sortPaths_images hwf hd
  unfold renameImagesStep at h
  simp only [hL] at h
  by_cases h0 : L.length > 0
  · simp only [h0, if_true] at h
    cases hloop : renameImagesLoop absDir (replaceSpaces nd) (sortPaths L) 0 fs with
    | mk fs1 e1 =>
      cases e1 with
      | some err => simp [hloop] at h
      | none =>
        simp only [hloop] at h
        rw [renameImagesLoop_eq_JPGs absDir hnb, renameJPGsLoop_eq, hsort] at hloop
        obtain ⟨hwf1, hfr⟩ := renamePairs_frame _ fs fs1 none hwf hloop
        have hout : ∀ p : Path, (∀ x : String, isImageName x = true → ¬ (absDir ++ [x]) <+: p) →
            stat fs1 p = stat fs p := by
          intro p hp
          apply hfr
          intro x hx
          obtain ⟨k, _, hmem, hdst⟩ := mem_seqPairs hx
          obtain ⟨n, hn, hxn⟩ := List.mem_map.1 hmem
          constructor
          · rw [← hxn]
            exact hp n ((mem_entriesMatching hwf absDir _ n).1 hn).2.2
          · rw [hdst]
            exact hp _ (isImageName_seqName hnb _)
        refine ⟨fs1, hwf1, h, ?_, ?_⟩
        · apply hout
          intro x _ hpre
          have := hpre.length_le
          simp at this
        · intro r
          apply hout
          intro x hx hpre
          have h1 : (absDir ++ [x]) <+: (absDir ++ ["videos"]) := by
            have h2 : (absDir ++ ["videos"]) <+: (absDir ++ ["videos"] ++ r) :=
              List.prefix_append _ _
            rcases List.prefix_or_prefix_of_prefix hpre h2 with h3 | h3
            · exact h3
            · exact List.IsPrefix.eq_of_length h3 (by simp) ▸ List.prefix_refl _
          have := snoc_prefix_snoc h1
          rw [this, isImageName_videos] at hx
          cases hx
  · simp only [h0, if_false] at h
    exact ⟨fs, hwf, h, rfl, fun _ => rfl⟩

/-- The final step of `RenameDirectory`, when it succeeds, puts at the new
path what was at the old one. -/
theorem renameDirStep_nil {fs3 fs' : FS} (hwf3 : WF fs3) {absDir newDirPath : Path}
    (h : renameDirStep fs3 absDir newDirPath = (fs', none)) :
    WF fs' ∧ (∀ r, stat fs' (newDirPath ++ r) = stat fs3 (absDir ++ r)) ∧
    (∀ p, ¬ newDirPath <+: p → stat fs' p = if absDir <+: p then none else stat fs3 p) := by
  unfold renameDirStep at h
  by_cases hne : absDir ≠ newDirPath
  · rw [if_pos hne] at h
    cases hr : rename fs3 absDir newDirPath with
    | none => simp [hr] at h
    | some fs4 =>
      simp only [hr, Prod.mk.injEq, and_true] at h
      subst h
      have hst := stat_rename hwf3 hr
      refine ⟨WF_rename hwf3 hr, ?_, ?_⟩
      · intro r
        rw [hst]
        simp
      · intro p hp
        rw [hst, if_neg hp]
  · rw [if_neg hne] at h
    simp only [Prod.mk.injEq, and_true] at h
    subst h
    have heq : absDir = newDirPath := not_not.1 hne
    subst heq
    refine ⟨hwf3, fun _ => rfl, ?_⟩
    intro p hp
    rw [if_neg hp]

/-- A call of `RenameDirectory` that returned nil: the directory exists, its
name has four fields at least, the new path is free or the old one, and the
result is that of the steps. -/
theorem renameDirectory_nil {fs : FS} {par : Path} {B newName : String} (hBs : '/' ∉ B.data)
    (hns : '/' ∉ newName.data) (h : (RenameDirectory fs (par ++ [B]) newName).2 = none) :
    stat fs (par ++ [B]) = some Node.dir ∧ 4 ≤ (Fields B).length ∧
    (par ++ [B] = par ++ [newDirName B newName] ∨ stat fs (par ++ [newDirName B newName]) = none) ∧
    renameImagesStep fs (par ++ [B]) (par ++ [newDirName B newName]) (newDirName B newName) =
      ((RenameDirectory fs (par ++ [B]) newName).1, none) ∧
    RenameDirectory fs (par ++ [B]) newName =
      renameImagesStep fs (par ++ [B]) (par ++ [newDirName B newName]) (newDirName B newName) := by
  have key : ∀ r : FS × Option Err, r.2 = none → r = (r.1, none) := by
    rintro ⟨a, b⟩ hb
    simp only at hb
    rw [hb]
  unfold RenameDirectory at h ⊢
  cases hs : stat fs (par ++ [B]) with
  | none => simp [hs] at h
  | some node =>
    cases node with
    | file t c => simp [hs] at h
    | dir =>
      simp only [hs] at h ⊢
      by_cases h4 : (Fields (Base (par ++ [B]))).length < 4
      · rw [if_pos h4] at h
        cases h
      · rw [if_neg h4] at h ⊢
        have h4' : 4 ≤ (Fields B).length := by
          rw [Base_snoc] at h4
          omega
        have hp := newDirPath_eq par newName hBs h4' hns
        rw [hp, Base_snoc] at h ⊢
        by_cases hc : par ++ [B] ≠ par ++ [newDirName B newName] ∧
            (stat fs (par ++ [newDirName B newName])).isSome = true
        · rw [if_pos hc] at h
          cases h
        · rw [if_neg hc] at h ⊢
          refine ⟨trivial, h4', ?_, key _ h, rfl⟩
          by_cases he : par ++ [B] = par ++ [newDirName B newName]
          · exact Or.inl he
          · right
            cases hst : stat fs (par ++ [newDirName B newName]) with
            | none => rfl
            | some n =>
              exfalso
              exact hc ⟨he, by rw [hst]; rfl⟩

/-- The videos under `videos` after a call of `RenameDirectory` that returned
nil, the video entries being regular files of which none bears the new name
of an earlier one. -/
theorem videos_after_rename {fs : FS} {par : Path} {B newName : String} (hwf : WF fs)
    (hmeta : noMeta (par ++ [B]) = true) (hBs : '/' ∉ B.data) (hns : '/' ∉ newName.data)
    (hvfiles : ∀ n ∈ entriesMatching fs (par ++ [B] ++ ["videos"]) isVideoName,
      isFileAt fs (par ++ [B] ++ ["videos"] ++ [n]) = true)
    (hvclash : ∀ i j ni nj, i < j →
      (entriesMatching fs (par ++ [B] ++ ["videos"]) isVideoName)[i]? = some ni →
      (entriesMatching fs (par ++ [B] ++ ["videos"]) isVideoName)[j]? = some nj →
      nj ≠ videoSeqName (par ++ [B] ++ ["videos"]) (replaceSpaces (newDirName B newName)) i ni)
    (hrun : (RenameDirectory fs (par ++ [B]) newName).2 = none) :
    WF (RenameDirectory fs (par ++ [B]) newName).1 ∧
    stat (RenameDirectory fs (par ++ [B]) newName).1 (par ++ [newDirName B newName] ++ ["videos"]) =
      stat fs (par ++ [B] ++ ["videos"]) ∧
    (∀ k n, (entriesMatching fs (par ++ [B] ++ ["videos"]) isVideoName)[k]? = some n →
      stat (RenameDirectory fs (par ++ [B]) newName).1
          (par ++ [newDirName B newName] ++ ["videos"] ++
            [videoSeqName (par ++ [B] ++ ["videos"]) (replaceSpaces (newDirName B newName)) k n]) =
        stat fs (par ++ [B] ++ ["videos"] ++ [n])) ∧
    (∀ x, (∀ k n, (entriesMatching fs (par ++ [B] ++ ["videos"]) isVideoName)[k]? = some n →
        x ≠ videoSeqName (par ++ [B] ++ ["videos"]) (replaceSpaces (newDirName B newName)) k n) →
      stat (RenameDirectory fs (par ++ [B]) newName).1
          (par ++ [newDirName B newName] ++ ["videos"] ++ [x]) =
        if x ∈ entriesMatching fs (par ++ [B] ++ ["videos"]) isVideoName then none
        else stat fs (par ++ [B] ++ ["videos"] ++ [x])) := by
  obtain ⟨hsd, h4, _, hsteps, _⟩ := renameDirectory_nil hBs hns hrun
  have hnd := newDirName_no_slash hBs hns
  have hnb := replaceSpaces_no_slash hnd
  set fs' := (RenameDirectory fs (par ++ [B]) newName).1 with hfs'
  set absDir := par ++ [B] with habs
  set nd := newDirName B newName with hndd
  set nb := replaceSpaces nd with hnbd
  set vd := absDir ++ ["videos"] with hvd
  obtain ⟨fs1, hwf1, hvstep, _, hvsame⟩ := renameImagesStep_nil hwf hmeta (par ++ [nd]) nd hnb hsteps
  have hvnames : entriesMatching fs1 vd isVideoName = entriesMatching fs vd isVideoName := by
    apply entriesMatching_congr hwf1 hwf
    · unfold isDirAt
      have := hvsame []
      rw [List.append_nil] at this
      rw [this]
    · intro n _
      rw [hvsame [n]]
  obtain ⟨fs3, hstep3, hwf3, hA, hB⟩ := renameVideosStep_spec hwf1 hmeta (par ++ [nd]) nd hnb
    (by
      intro n hn
      rw [hvnames] at hn
      have := hvfiles n hn
      unfold isFileAt at this ⊢
      rw [hvsame [n]]
      exact this)
    (by
      rw [hvnames]
      exact hvclash)
  rw [hvnames] at hA hB
  rw [hstep3] at hvstep
  obtain ⟨hwf', hmoved, _⟩ := renameDirStep_nil hwf3 hvstep
  have hlenne : ∀ (k : Nat) (n : String), vd ≠ vd ++ [videoSeqName vd nb k n] := by
    intro k n h
    have := congrArg List.length h
    simp at this
  have hm2 : ∀ x : String, stat fs' (par ++ [nd] ++ ["videos"] ++ [x]) = stat fs3 (vd ++ [x]) := by
    intro x
    rw [List.append_assoc (par ++ [nd]), hmoved, hvd, List.append_assoc absDir]
  refine ⟨hwf', ?_, ?_, ?_⟩
  · have h1 := hmoved ["videos"]
    rw [h1, hB vd (fun k n _ => hlenne k n), if_neg]
    · have := hvsame []
      rw [List.append_nil] at this
      exact this
    · intro h
      obtain ⟨n, _, hn⟩ := List.mem_map.1 h
      have := congrArg List.length hn
      simp [hvd] at this
  · intro k n hk
    rw [hm2, hA k n hk]
    exact hvsame [n]
  · intro x hx
    rw [hm2, hB (vd ++ [x]) (fun k n hk h => hx k n hk (snoc_inj h).2)]
    by_cases hmem : x ∈ entriesMatching fs vd isVideoName
    · rw [if_pos hmem, if_pos (List.mem_map_of_mem _ hmem)]
    · rw [if_neg hmem, if_neg]
      · exact hvsame [x]
      · intro h
        obtain ⟨m, hm, hh⟩ := List.mem_map.1 h
        exact hmem ((snoc_inj hh).2 ▸ hm)

/-- C11 (amended): let `par/B` be a directory with no glob metacharacter in the
components of its path, `newName` a text without separator, the video
entries of `par/B/videos` regular files of which none bears the name that a
video before it in ascending order is to receive. After `RenameDirectory`
returned nil, the video entries of `videos` in the renamed directory are
exactly the names `<P>_<%05d of k+1><ext>` for `k` below their number, the
`k`-th video in ascending name order being number `k+1` with `<ext>` its own
`.mov` or `.MOV`, where `P` is the new directory name with every space
replaced by `_`; the numbers do not depend on the images. -/
theorem renameDirectory_renames_videos (fs : FS) (par : Path) (B newName : String)
    (hwf : WF fs) (hmeta : noMeta (par ++ [B]) = true) (hBs : '/' ∉ B.data)
    (hns : '/' ∉ newName.data)
    (hvfiles : ∀ n ∈ entriesMatching fs (par ++ [B] ++ ["videos"]) isVideoName,
      isFileAt fs (par ++ [B] ++ ["videos"] ++ [n]) = true)
    (hvclash : ∀ j, j < (entriesMatching fs (par ++ [B] ++ ["videos"]) isVideoName).length →
      ∀ i, i < j →
      (entriesMatching fs (par ++ [B] ++ ["videos"]) isVideoName)[j]? ≠
        some (seqName (replaceSpaces (newDirName B newName)) (i + 1)
          (Ext (par ++ [B] ++ ["videos"] ++
            [(entriesMatching fs (par ++ [B] ++ ["videos"]) isVideoName).getD i ""]))))
    (hrun : (RenameDirectory fs (par ++ [B]) newName).2 = none) :
    (entriesMatching (RenameDirectory fs (par ++ [B]) newName).1
        (par ++ [newDirName B newName] ++ ["videos"]) isVideoName).Perm
      ((List.range (entriesMatching fs (par ++ [B] ++ ["videos"]) isVideoName).length).map
        (fun k => seqName (replaceSpaces (newDirName B newName)) (k + 1)
          (Ext (par ++ [B] ++ ["videos"] ++
            [(entriesMatching fs (par ++ [B] ++ ["videos"]) isVideoName).getD k ""])))) ∧
    ∀ k n, (entriesMatching fs (par ++ [B] ++ ["videos"]) isVideoName)[k]? = some n →
      stat (RenameDirectory fs (par ++ [B]) newName).1
          (par ++ [newDirName B newName] ++ ["videos"] ++
            [seqName (replaceSpaces (newDirName B newName)) (k + 1)
              (Ext (par ++ [B] ++ ["videos"] ++ [n]))]) =
        stat fs (par ++ [B] ++ ["videos"] ++ [n]) ∧
      (Ext (par ++ [B] ++ ["videos"] ++ [n]) = ".mov" ∨
        Ext (par ++ [B] ++ ["videos"] ++ [n]) = ".MOV") ∧
      (Ext (par ++ [B] ++ ["videos"] ++ [n])).data <:+ n.data := by
  set vd := par ++ [B] ++ ["videos"] with hvd
  set nb := replaceSpaces (newDirName B newName) with hnbd
  set vnames := entriesMatching fs vd isVideoName with hvn
  have hnb : '/' ∉ nb.data := replaceSpaces_no_slash (newDirName_no_slash hBs hns)
  have hvideo : ∀ n ∈ vnames, isVideoName n = true := fun n hn =>
    ((mem_entriesMatching hwf vd _ n).1 hn).2.2
  obtain ⟨hwf', hdir, hA, hB⟩ := videos_after_rename hwf hmeta hBs hns hvfiles
    (by
      intro i j ni nj hij hi hj
      have hjl : j < vnames.length := (List.getElem?_eq_some_iff.1 hj).1
      have := hvclash j hjl i hij
      rw [hj] at this
      simp only [List.getD_eq_getElem?_getD, hi, Option.getD_some] at this
      intro h
      apply this
      rw [h]
      rfl)
    hrun
  constructor
  · have hperm := entries_after_renumber hwf hwf' vd (par ++ [newDirName B newName] ++ ["videos"])
      isVideoName
      (fun k => seqName nb (k + 1) (match vnames[k]? with
        | some n => Ext (vd ++ [n])
        | none => ".mov"))
      (by
        intro i j hi hj h
        simp only [List.getElem?_eq_getElem hi, List.getElem?_eq_getElem hj] at h
        have := seqName_inj (by
          rw [Ext_video_length _ (hvideo _ (List.getElem_mem hi)),
            Ext_video_length _ (hvideo _ (List.getElem_mem hj))]) h
        omega)
      (by
        intro k
        apply isVideoName_seqName hnb
        cases hk : vnames[k]? with
        | none => exact Or.inl rfl
        | some n => exact (Ext_video vd (hvideo n (List.getElem?_mem hk))).1)
      (by
        unfold isDirAt
        rw [hdir])
      (by
        intro k n hk
        simp only [hk]
        exact hA k n hk)
      (by
        intro n _ hne
        apply hB
        intro k m hk h
        apply hne k (List.getElem?_eq_some_iff.1 hk).1
        simp only [hk]
        exact h)
    refine hperm.trans (List.Perm.of_eq ?_)
    apply List.map_congr_left
    intro k hk
    have hk' := List.mem_range.1 hk
    simp only [List.getElem?_eq_getElem hk', List.getD_eq_getElem?_getD, Option.getD_some]
  · intro k n hk
    exact ⟨hA k n hk, Ext_video vd (hvideo n (List.getElem?_mem hk))⟩

/-- Witness of C11: `v1.mov` and `v2.MOV` under `videos` become numbers 1 and 2
of the pattern of `Rome`, the text file stays. -/
theorem renameDirectory_renames_videos_witness :
    ((entriesMatching (RenameDirectory c11Fs (["a"] ++ ["2023 06 June 15 Paris"]) "Rome").1
        (["a"] ++ [newDirName "2023 06 June 15 Paris" "Rome"] ++ ["videos"]) isVideoName).Perm
      ((List.range (entriesMatching c11Fs (["a"] ++ ["2023 06 June 15 Paris"] ++ ["videos"])
          isVideoName).length).map
        (fun k => seqName (replaceSpaces (newDirName "2023 06 June 15 Paris" "Rome")) (k + 1)
          (Ext (["a"] ++ ["2023 06 June 15 Paris"] ++ ["videos"] ++
            [(entriesMatching c11Fs (["a"] ++ ["2023 06 June 15 Paris"] ++ ["videos"])
              isVideoName).getD k ""])))) ∧
    ∀ k n, (entriesMatching c11Fs (["a"] ++ ["2023 06 June 15 Paris"] ++ ["videos"])
        isVideoName)[k]? = some n →
      stat (RenameDirectory c11Fs (["a"] ++ ["2023 06 June 15 Paris"]) "Rome").1
          (["a"] ++ [newDirName "2023 06 June 15 Paris" "Rome"] ++ ["videos"] ++
            [seqName (replaceSpaces (newDirName "2023 06 June 15 Paris" "Rome")) (k + 1)
              (Ext (["a"] ++ ["2023 06 June 15 Paris"] ++ ["videos"] ++ [n]))]) =
        stat c11Fs (["a"] ++ ["2023 06 June 15 Paris"] ++ ["videos"] ++ [n]) ∧
      (Ext (["a"] ++ ["2023 06 June 15 Paris"] ++ ["videos"] ++ [n]) = ".mov" ∨
        Ext (["a"] ++ ["2023 06 June 15 Paris"] ++ ["videos"] ++ [n]) = ".MOV") ∧
      (Ext (["a"] ++ ["2023 06 June 15 Paris"] ++ ["videos"] ++ [n])).data <:+ n.data) ∧
    entriesMatching (RenameDirectory c11Fs ["a", "2023 06 June 15 Paris"] "Rome").1
      ["a", "2023 06 June 15 Rome", "videos"] (fun _ => true) =
        ["2023_06_June_15_Rome_00001.mov", "2023_06_June_15_Rome_00002.MOV", "notes.txt"] ∧
    stat (RenameDirectory c11Fs ["a", "2023 06 June 15 Paris"] "Rome").1
      ["a", "2023 06 June 15 Rome", "videos", "2023_06_June_15_Rome_00002.MOV"] =
        some (Node.file c11Date "two") :=
  ⟨renameDirectory_renames_videos c11Fs ["a"] "2023 06 June 15 Paris" "Rome" (by decide)
    (by decide) (by decide) (by decide) (by decide) (by decide) (by decide), by decide, by decide⟩

/-- Counterexample to C11 as stated. First state: the parent is named `p[x]`;
the call returns nil and the video under `videos` is still named `v1.mov`.
Second state: `videos` holds `0.mov` and `2023_06_June_15_Rome_00001.mov`; the
call returns nil and `videos` holds one video, number 2. Third state:
`videos` holds the video file `b.mov` and a subdirectory `a.mov`; the call
returns nil and the one video file is number 2. -/
theorem renameDirectory_videos_counterexample :
    (WF c11MetaFs ∧
      (RenameDirectory c11MetaFs ["p[x]", "2023 06 June 15 Paris"] "Rome").2 = none ∧
      entriesMatching (RenameDirectory c11MetaFs ["p[x]", "2023 06 June 15 Paris"] "Rome").1
        ["p[x]", "2023 06 June 15 Rome", "videos"] isVideoName = ["v1.mov"]) ∧
    (WF c11ClashFs ∧
      entriesMatching c11ClashFs ["a", "2023 06 June 15 Paris", "videos"] isVideoName =
        ["0.mov", "2023_06_June_15_Rome_00001.mov"] ∧
      (RenameDirectory c11ClashFs ["a", "2023 06 June 15 Paris"] "Rome").2 = none ∧
      entriesMatching (RenameDirectory c11ClashFs ["a", "2023 06 June 15 Paris"] "Rome").1
        ["a", "2023 06 June 15 Rome", "videos"] isVideoName = ["2023_06_June_15_Rome_00002.mov"]) ∧
    (WF c11DirFs ∧
      (RenameDirectory c11DirFs ["a", "2023 06 June 15 Paris"] "Rome").2 = none ∧
      stat (RenameDirectory c11DirFs ["a", "2023 06 June 15 Paris"] "Rome").1
        ["a", "2023 06 June 15 Rome", "videos", "2023_06_June_15_Rome_00001.mov"] =
          some Node.dir ∧
      stat (RenameDirectory c11DirFs ["a", "2023 06 June 15 Paris"] "Rome").1
        ["a", "2023 06 June 15 Rome", "videos", "2023_06_June_15_Rome_00002.mov"] =
          some (Node.file c11Date "b")) := by
  decide

/-- C12 (code bug): on the buckets of the three tests `OrganiseVideosAndRenameJPGs`
returns nil; `img2.jpeg` has become `<prefix>_00002.jpg`, not
`<prefix>_00002.jpeg`; `img2.HEIC` and `img2.heic` are no image names of the
program and are left under their old names, nothing standing at
`<prefix>_00002.heic`. -/
theorem heic_and_jpeg_not_kept :
    (isImageName "img2.heic" = false ∧ isImageName "img2.HEIC" = false) ∧
    ((OrganiseVideosAndRenameJPGs c12JpegFs ["t"]).2 = none ∧
      entriesMatching (OrganiseVideosAndRenameJPGs c12JpegFs ["t"]).1 ["t", "2023 06 June 15"]
        (fun _ => true) = ["2023_06_June_15_00001.jpg", "2023_06_June_15_00002.jpg"] ∧
      stat (OrganiseVideosAndRenameJPGs c12JpegFs ["t"]).1
        ["t", "2023 06 June 15", "2023_06_June_15_00002.jpeg"] = none) ∧
    ((OrganiseVideosAndRenameJPGs c12UpperFs ["t"]).2 = none ∧
      entriesMatching (OrganiseVideosAndRenameJPGs c12UpperFs ["t"]).1 ["t", "2023 06 June 15"]
        (fun _ => true) = ["2023_06_June_15_00001.jpg", "img2.HEIC", "videos"] ∧
      stat (OrganiseVideosAndRenameJPGs c12UpperFs ["t"]).1
        ["t", "2023 06 June 15", "2023_06_June_15_00002.heic"] = none) ∧
    ((OrganiseVideosAndRenameJPGs c12HeicFs ["t"]).2 = none ∧
      entriesMatching (OrganiseVideosAndRenameJPGs c12HeicFs ["t"]).1 ["t", "2023 06 June 15"]
        (fun _ => true) = ["2023_06_June_15_00001.jpg", "img2.heic", "videos"] ∧
      stat (OrganiseVideosAndRenameJPGs c12HeicFs ["t"]).1
        ["t", "2023 06 June 15", "2023_06_June_15_00002.heic"] = none) := by
  decide

/-- Two distinct strings of one length in order stay in order, and distinct,
whatever is appended to each. -/
theorem leChars_append_of_ne : ∀ (u v : List Char), u.length = v.length → u ≠ v →
    leChars u v = true → ∀ e1 e2 : List Char,
      leChars (u ++ e1) (v ++ e2) = true ∧ leChars (v ++ e2) (u ++ e1) = false := by
  intro u
  induction u with
  | nil =>
    intro v hlen hne _
    have : v = [] := List.length_eq_zero.1 hlen.symm
    exact absurd this.symm hne
  | cons a as ih =>
    intro v hlen hne h e1 e2
    cases v with
    | nil => simp at hlen
    | cons b bs =>
      simp only [List.length_cons, Nat.add_right_cancel_iff] at hlen
      simp only [List.cons_append, leChars] at h ⊢
      by_cases hab : a = b
      · subst hab
        simp only [if_true] at h ⊢
        exact ih bs hlen (fun hc => hne (by rw [hc])) h e1 e2
      · rw [if_neg hab] at h
        rw [if_neg hab, if_neg (fun hc => hab hc.symm)]
        simp only [decide_eq_true_eq] at h
        simp only [decide_eq_true_eq, decide_eq_false_iff_not]
        exact ⟨h, by omega⟩

/-- Below 100000 a smaller number gives a name strictly before, whatever the
extensions. -/
theorem seqName_strict (base e1 e2 : String) {i j : Nat} (hij : i < j) (hj : j < 100000) :
    nameLe (seqName base i e1) (seqName base j e2) ∧
      ¬ nameLe (seqName base j e2) (seqName base i e1) := by
  unfold nameLe seqName
  simp only [List.append_assoc, List.cons_append]
  rw [leChars_append_left, leChars_append_left]
  simp only [leChars, if_true]
  have h := leChars_append_of_ne (zeroPad 5 i) (zeroPad 5 j)
    (by rw [zeroPad_length (by omega) (by omega), zeroPad_length (by omega) (by omega)])
    (fun hc => by have := zeroPad_injective 5 hc; omega)
    (zeroPad_mono (by omega) (by omega) (by omega)) e1.data e2.data
  exact ⟨h.1, by rw [h.2]; simp⟩

theorem pathLe_isTotal : IsTotal Path pathLe := ⟨fun _ _ => leChars_total _ _⟩

theorem pathLe_isTrans : IsTrans Path pathLe := ⟨fun _ _ _ h1 h2 => leChars_trans h1 h2⟩

/-- In the sorted list a path strictly before another stands at a smaller index. -/
theorem index_lt_of_sorted (L : List Path) {i j : Nat} {a b : Path}
    (ha : (sortPaths L)[i]? = some a) (hb : (sortPaths L)[j]? = some b) (hlt : ¬ pathLe b a) :
    i < j := by
  haveI := pathLe_isTotal
  haveI := pathLe_isTrans
  have hs : (sortPaths L).Sorted pathLe := List.sorted_insertionSort pathLe L
  by_contra hij
  have hji : j ≤ i := by omega
  obtain ⟨hi, hai⟩ := List.getElem?_eq_some_iff.1 ha
  obtain ⟨hj, hbj⟩ := List.getElem?_eq_some_iff.1 hb
  rcases Nat.lt_or_eq_of_le hji with h | h
  · have := List.pairwise_iff_getElem.1 hs j i hj hi h
    rw [hai, hbj] at this
    exact hlt this
  · subst h
    rw [hai] at hbj
    rw [hbj] at hlt
    exact hlt (leChars_refl _)

theorem sorted_c13Files : c13Files.Sorted pathLe := by
  unfold c13Files List.Sorted
  rw [List.pairwise_map]
  refine (List.Pairwise.and_mem.1 (List.pairwise_lt_range 100000)).imp ?_
  rintro a b ⟨_, hb, hab⟩
  rw [pathLe_snoc_iff]
  exact zeroPad_mono (by omega) (by omega) (by have := List.mem_range.1 hb; omega)

/-- C13 (amended): for a list of fewer than 100000 matched paths, sorted as the
program sorts them, the loops give the path at index `i` the name
`<prefix>_<%05d of i+1><ext>`; when the old path `a` is strictly before the
old path `b`, the new name of `a` is strictly before the new name of `b`,
whatever the extensions, and the sequence fields have five digits. -/
theorem renumbering_keeps_order (L : List Path) (dir : Path) (base : String) (i j : Nat)
    (a b : Path) (hN : L.length < 100000)
    (ha : (sortPaths L)[i]? = some a) (hb : (sortPaths L)[j]? = some b) (hlt : ¬ pathLe b a) :
    (∀ fs, renameJPGsLoop dir base (sortPaths L) 0 fs =
        renamePairs (seqPairs (fun k _ => dir ++ [seqName base (k + 1) ".jpg"]) (sortPaths L) 0) fs) ∧
    (seqPairs (fun k _ => dir ++ [seqName base (k + 1) ".jpg"]) (sortPaths L) 0)[i]? =
      some (a, dir ++ [seqName base (i + 1) ".jpg"]) ∧
    (∀ fs, organiseVideosLoop dir base (sortPaths L) 0 fs =
        renamePairs (seqPairs (fun k f => dir ++ [seqName base (k + 1) (Ext f)]) (sortPaths L) 0) fs) ∧
    (seqPairs (fun k f => dir ++ [seqName base (k + 1) (Ext f)]) (sortPaths L) 0)[i]? =
      some (a, dir ++ [seqName base (i + 1) (Ext a)]) ∧
    (∀ e1 e2 : String, nameLe (seqName base (i + 1) e1) (seqName base (j + 1) e2) ∧
      ¬ nameLe (seqName base (j + 1) e2) (seqName base (i + 1) e1)) ∧
    (zeroPad 5 (i + 1)).length = 5 ∧ (zeroPad 5 (j + 1)).length = 5 := by
  have hij := index_lt_of_sorted L ha hb hlt
  have hjl : j < (sortPaths L).length := (List.getElem?_eq_some_iff.1 hb).1
  have hlen : (sortPaths L).length = L.length := List.length_insertionSort _ _
  refine ⟨fun fs => renameJPGsLoop_eq _ _ _ _ _, ?_, fun fs => organiseVideosLoop_eq _ _ _ _ _,
    ?_, ?_, ?_, ?_⟩
  · rw [getElem?_seqPairs, ha]
    simp
  · rw [getElem?_seqPairs, ha]
    simp
  · intro e1 e2
    exact seqName_strict base e1 e2 (by omega) (by omega)
  · exact zeroPad_length (by omega) (by omega)
  · exact zeroPad_length (by omega) (by omega)

/-- Witness of C13: of three videos `a.mov` is before `c.MOV`, and so are their
new names, numbers 1 and 3. -/
theorem renumbering_keeps_order_witness :
    ((∀ fs, renameJPGsLoop ["d", "videos"] "p" (sortPaths c13Videos) 0 fs =
        renamePairs (seqPairs (fun k _ => ["d", "videos"] ++ [seqName "p" (k + 1) ".jpg"])
          (sortPaths c13Videos) 0) fs) ∧
    (seqPairs (fun k _ => ["d", "videos"] ++ [seqName "p" (k + 1) ".jpg"])
        (sortPaths c13Videos) 0)[0]? =
      some (["d", "a.mov"], ["d", "videos"] ++ [seqName "p" (0 + 1) ".jpg"]) ∧
    (∀ fs, organiseVideosLoop ["d", "videos"] "p" (sortPaths c13Videos) 0 fs =
        renamePairs (seqPairs (fun k f => ["d", "videos"] ++ [seqName "p" (k + 1) (Ext f)])
          (sortPaths c13Videos) 0) fs) ∧
    (seqPairs (fun k f => ["d", "videos"] ++ [seqName "p" (k + 1) (Ext f)])
        (sortPaths c13Videos) 0)[0]? =
      some (["d", "a.mov"], ["d", "videos"] ++ [seqName "p" (0 + 1) (Ext ["d", "a.mov"])]) ∧
    (∀ e1 e2 : String, nameLe (seqName "p" (0 + 1) e1) (seqName "p" (2 + 1) e2) ∧
      ¬ nameLe (seqName "p" (2 + 1) e2) (seqName "p" (0 + 1) e1)) ∧
    (zeroPad 5 (0 + 1)).length = 5 ∧ (zeroPad 5 (2 + 1)).length = 5) ∧
    seqName "p" (0 + 1) (Ext ["d", "a.mov"]) = "p_00001.mov" ∧
    seqName "p" (2 + 1) (Ext ["d", "c.MOV"]) = "p_00003.MOV" :=
  ⟨renumbering_keeps_order c13Videos ["d", "videos"] "p" 0 2 ["d", "a.mov"] ["d", "c.MOV"]
    (by decide) (by decide) (by decide) (by decide), by decide, by decide⟩

/-- Counterexample to C13 as stated: the list holds 100000 paths in order; the
path at index 10000 is strictly before the path at index 99999, and the name
given to it, number 10001, is strictly after the name given to the other,
number 100000, whose sequence field has six digits. -/
theorem renumbering_order_counterexample :
    c13Files.length = 100000 ∧
    (sortPaths c13Files)[10000]? = some ["d", "010000"] ∧
    (sortPaths c13Files)[99999]? = some ["d", "099999"] ∧
    ¬ pathLe ["d", "099999"] ["d", "010000"] ∧
    seqName "p" (10000 + 1) ".jpg" = "p_10001.jpg" ∧
    seqName "p" (99999 + 1) ".jpg" = "p_100000.jpg" ∧
    nameLe (seqName "p" (99999 + 1) ".jpg") (seqName "p" (10000 + 1) ".jpg") ∧
    ¬ nameLe (seqName "p" (10000 + 1) ".jpg") (seqName "p" (99999 + 1) ".jpg") ∧
    (zeroPad 5 (99999 + 1)).length = 6 := by
  have hs : sortPaths c13Files = c13Files := List.Sorted.insertionSort_eq sorted_c13Files
  refine ⟨by simp [c13Files], ?_, ?_, by decide, by decide, by decide, by decide, by decide,
    by decide⟩
  · rw [hs, c13Files, List.getElem?_map, List.getElem?_range (by omega)]
    decide
  · rw [hs, c13Files, List.getElem?_map, List.getElem?_range (by omega)]
    decide

/-- A field read by `strings.Fields` is not empty and holds no space. -/
theorem fieldsAux_token : ∀ (l cur tok : List Char), (∀ c ∈ cur, isSpace c = false) →
    tok ∈ fieldsAux l cur → tok ≠ [] ∧ ∀ c ∈ tok, isSpace c = false := by
  intro l
  induction l with
  | nil =>
    intro cur tok hcur h
    by_cases hc : cur = []
    · simp [fieldsAux, hc] at h
    · simp only [fieldsAux, hc, if_false, List.mem_singleton] at h
      subst h
      exact ⟨hc, hcur⟩
  | cons x xs ih =>
    intro cur tok hcur h
    by_cases hx : isSpace x = true
    · by_cases hc : cur = []
      · simp only [fieldsAux, hx, hc, if_true] at h
        exact ih [] tok (by simp) h
      · simp only [fieldsAux, hx, hc, if_true, if_false, List.mem_cons] at h
        rcases h with rfl | h
        · exact ⟨hc, hcur⟩
        · exact ih [] tok (by simp) h
    · simp only [fieldsAux, hx, Bool.false_eq_true, if_false] at h
      apply ih (cur ++ [x]) tok _ h
      intro c hc
      rcases List.mem_append.1 hc with h1 | h1
      · exact hcur c h1
      · simp only [List.mem_singleton] at h1
        rw [h1]
        simpa using hx

theorem fieldsAux_cons_space {c : Char} (hc : isSpace c = true) (cs : List Char) {cur : List Char}
    (hcur : cur ≠ []) : fieldsAux (c :: cs) cur = cur :: fieldsAux cs [] := by
  rw [fieldsAux, if_pos hc, if_neg hcur]

theorem fieldsAux_cons_other {c : Char} (hc : isSpace c = false) (cs cur : List Char) :
    fieldsAux (c :: cs) cur = fieldsAux cs (cur ++ [c]) := by
  rw [fieldsAux, if_neg (by simp [hc])]

/-- Reading a run of non-space characters extends the current field. -/
theorem fieldsAux_run : ∀ (w rest cur : List Char), (∀ c ∈ w, isSpace c = false) →
    fieldsAux (w ++ rest) cur = fieldsAux rest (cur ++ w) := by
  intro w
  induction w with
  | nil =>
    intro rest cur _
    simp
  | cons x xs ih =>
    intro rest cur hw
    have hx : isSpace x = false := hw x (List.mem_cons_self _ _)
    rw [List.cons_append, fieldsAux_cons_other hx,
      ih rest (cur ++ [x]) (fun c hc => hw c (List.mem_cons_of_mem _ hc))]
    simp

/-- The fields of fields joined by single spaces, with a space and more text
behind, are the fields followed by those of the text. -/
theorem fieldsAux_join_more : ∀ (toks : List (List Char)) (more : List Char), toks ≠ [] →
    (∀ t ∈ toks, t ≠ [] ∧ ∀ c ∈ t, isSpace c = false) →
    fieldsAux (joinChars [' '] toks ++ ' ' :: more) [] = toks ++ fieldsAux more [] := by
  intro toks
  induction toks with
  | nil =>
    intro _ h
    exact absurd rfl h
  | cons t rest ih =>
    intro more _ ht
    obtain ⟨ht0, hts⟩ := ht t (List.mem_cons_self _ _)
    cases rest with
    | nil =>
      rw [joinChars, fieldsAux_run t _ [] hts, List.nil_append,
        fieldsAux_cons_space (by decide) _ ht0]
      rfl
    | cons t2 rest2 =>
      have hj : joinChars [' '] (t :: t2 :: rest2) ++ ' ' :: more =
          t ++ (' ' :: (joinChars [' '] (t2 :: rest2) ++ ' ' :: more)) := by
        simp [joinChars]
      rw [hj, fieldsAux_run t _ [] hts, List.nil_append, fieldsAux_cons_space (by decide) _ ht0,
        ih more (by simp) (fun x hx => ht x (List.mem_cons_of_mem _ hx))]
      rfl

/-- The fields of fields joined by single spaces are the fields. -/
theorem fieldsAux_join : ∀ (toks : List (List Char)),
    (∀ t ∈ toks, t ≠ [] ∧ ∀ c ∈ t, isSpace c = false) →
    fieldsAux (joinChars [' '] toks) [] = toks := by
  intro toks
  induction toks with
  | nil =>
    intro _
    rfl
  | cons t rest ih =>
    intro ht
    obtain ⟨ht0, hts⟩ := ht t (List.mem_cons_self _ _)
    cases rest with
    | nil =>
      have := fieldsAux_run t [] [] hts
      rw [List.append_nil, List.nil_append] at this
      rw [joinChars, this, fieldsAux, if_neg ht0]
    | cons t2 rest2 =>
      have hj : joinChars [' '] (t :: t2 :: rest2) =
          t ++ (' ' :: joinChars [' '] (t2 :: rest2)) := by
        simp [joinChars]
      rw [hj, fieldsAux_run t _ [] hts, List.nil_append, fieldsAux_cons_space (by decide) _ ht0,
        ih (fun x hx => ht x (List.mem_cons_of_mem _ hx))]

/-- The fields of the new directory name: the first four fields of the old
name, then the fields of the new text. -/
theorem fields_newDirName (B newName : String) (h1 : 1 ≤ (Fields B).length) :
    Fields (newDirName B newName) = (Fields B).take 4 ++ Fields newName := by
  have htok : ∀ t ∈ (fieldsAux B.data []).take 4, t ≠ [] ∧ ∀ c ∈ t, isSpace c = false :=
    fun t ht => fieldsAux_token B.data [] t (by simp) (List.mem_of_mem_take ht)
  have hdata : (List.take 4 (Fields B)).map String.data = (fieldsAux B.data []).take 4 := by
    simp only [Fields, ← List.map_take, List.map_map]
    conv_rhs => rw [← List.map_id (List.take 4 (fieldsAux B.data []))]
    rfl
  have hne : (fieldsAux B.data []).take 4 ≠ [] := by
    intro h
    have := congrArg List.length h
    simp only [Fields, List.length_map] at h1
    simp only [List.length_take, List.length_nil] at this
    omega
  have hjoin : (Join ((Fields B).take 4) " ").data = joinChars [' '] ((fieldsAux B.data []).take 4) := by
    show joinChars (" " : String).data ((List.take 4 (Fields B)).map String.data) = _
    rw [hdata]
  have hF : (Fields B).take 4 = ((fieldsAux B.data []).take 4).map String.mk := by
    simp [Fields, List.map_take]
  unfold newDirName
  by_cases hn : newName ≠ ""
  · rw [if_pos hn]
    show (fieldsAux ((Join ((Fields B).take 4) " ").data ++ ' ' :: newName.data) []).map String.mk = _
    rw [hjoin, fieldsAux_join_more _ newName.data hne htok, List.map_append, hF]
    rfl
  · rw [if_neg hn]
    have hn' : newName = "" := not_not.1 hn
    subst hn'
    show (fieldsAux (Join ((Fields B).take 4) " ").data []).map String.mk = _
    rw [hjoin, fieldsAux_join _ htok, hF]
    simp [Fields, fieldsAux]

/-- The steps of `RenameDirectory` never return the format error. -/
theorem renameImagesStep_not_format (fs : FS) (absDir newDirPath : Path) (nd : String) :
    (renameImagesStep fs absDir newDirPath nd).2 ≠ some Err.format := by
  have hdir : ∀ fs3, (renameDirStep fs3 absDir newDirPath).2 ≠ some Err.format := by
    intro fs3
    unfold renameDirStep
    split
    · split <;> simp
    · simp
  have hvid : ∀ fs1, (renameVideosStep fs1 absDir newDirPath nd).2 ≠ some Err.format := by
    intro fs1
    unfold renameVideosStep
    split
    · split
      · simp
      · split
        · rename_i fsv ev heq
          split
          · rename_i fs2 e hl
            rw [renameVideosLoop_eq] at hl
            rcases renamePairs_err _ _ _ _ hl with h | h <;> simp at h
            subst h
            simp
          · exact hdir _
        · exact hdir _
    · exact hdir _
  unfold renameImagesStep
  split
  · simp
  · split
    · split
      · rename_i fs2 e hl
        rw [renameImagesLoop_eq] at hl
        rcases renamePairs_err _ _ _ _ hl with h | h <;> simp at h
        subst h
        simp
      · exact hvid _
    · exact hvid _

/-- C14: for an existing directory, `RenameDirectory` returns the format error
exactly when the base name has fewer than four fields, and then the state is
the state before; with four fields or more the call is the three steps on the
new name, whose fields are the first four fields of the old name followed by
the fields of the new text, every later field of the old name being dropped,
unless the new path exists and is not the old one. -/
theorem renameDirectory_format_iff (fs : FS) (absDir : Path) (newName : String)
    (hdir : isDirAt fs absDir = true) :
    ((RenameDirectory fs absDir newName).2 = some Err.format ↔
      (Fields (Base absDir)).length < 4) ∧
    ((Fields (Base absDir)).length < 4 → (RenameDirectory fs absDir newName).1 = fs) ∧
    (4 ≤ (Fields (Base absDir)).length →
      Fields (newDirName (Base absDir) newName) =
        (Fields (Base absDir)).take 4 ++ Fields newName ∧
      RenameDirectory fs absDir newName =
        if absDir ≠ joinPath (parent absDir) (newDirName (Base absDir) newName) ∧
            (stat fs (joinPath (parent absDir) (newDirName (Base absDir) newName))).isSome = true
        then (fs, some Err.targetExists)
        else renameImagesStep fs absDir
          (joinPath (parent absDir) (newDirName (Base absDir) newName))
          (newDirName (Base absDir) newName)) := by
  have hs := isDirAt_iff.1 hdir
  have hunf : RenameDirectory fs absDir newName =
      if (Fields (Base absDir)).length < 4 then (fs, some Err.format)
      else if absDir ≠ joinPath (parent absDir) (newDirName (Base absDir) newName) ∧
            (stat fs (joinPath (parent absDir) (newDirName (Base absDir) newName))).isSome = true
        then (fs, some Err.targetExists)
        else renameImagesStep fs absDir
          (joinPath (parent absDir) (newDirName (Base absDir) newName))
          (newDirName (Base absDir) newName) := by
    unfold RenameDirectory
    simp only [hs]
  refine ⟨?_, ?_, ?_⟩
  · constructor
    · intro h
      by_contra h4
      rw [hunf, if_neg h4] at h
      split at h
      · cases h
      · exact renameImagesStep_not_format _ _ _ _ h
    · intro h4
      rw [hunf, if_pos h4]
  · intro h4
    rw [hunf, if_pos h4]
  · intro h4
    refine ⟨fields_newDirName _ _ (by omega), ?_⟩
    rw [hunf, if_neg (by omega)]

/-- Witness of C14: a directory of six fields renamed to `Rome`, and a
directory of three fields, on which the call fails and changes nothing. -/
theorem renameDirectory_format_iff_witness :
    (((RenameDirectory c14Fs ["a", "2023 06 June 15 Paris by night"] "Rome").2 = some Err.format ↔
      (Fields (Base ["a", "2023 06 June 15 Paris by night"])).length < 4) ∧
    ((Fields (Base ["a", "2023 06 June 15 Paris by night"])).length < 4 →
      (RenameDirectory c14Fs ["a", "2023 06 June 15 Paris by night"] "Rome").1 = c14Fs) ∧
    (4 ≤ (Fields (Base ["a", "2023 06 June 15 Paris by night"])).length →
      Fields (newDirName (Base ["a", "2023 06 June 15 Paris by night"]) "Rome") =
        (Fields (Base ["a", "2023 06 June 15 Paris by night"])).take 4 ++ Fields "Rome" ∧
      RenameDirectory c14Fs ["a", "2023 06 June 15 Paris by night"] "Rome" =
        if ["a", "2023 06 June 15 Paris by night"] ≠
              joinPath (parent ["a", "2023 06 June 15 Paris by night"])
                (newDirName (Base ["a", "2023 06 June 15 Paris by night"]) "Rome") ∧
            (stat c14Fs (joinPath (parent ["a", "2023 06 June 15 Paris by night"])
              (newDirName (Base ["a", "2023 06 June 15 Paris by night"]) "Rome"))).isSome = true
        then (c14Fs, some Err.targetExists)
        else renameImagesStep c14Fs ["a", "2023 06 June 15 Paris by night"]
          (joinPath (parent ["a", "2023 06 June 15 Paris by night"])
            (newDirName (Base ["a", "2023 06 June 15 Paris by night"]) "Rome"))
          (newDirName (Base ["a", "2023 06 June 15 Paris by night"]) "Rome"))) ∧
    (RenameDirectory c14Fs ["a", "2023 06 June 15 Paris by night"] "Rome").2 = none ∧
    stat (RenameDirectory c14Fs ["a", "2023 06 June 15 Paris by night"] "Rome").1
      ["a", "2023 06 June 15 Rome", "2023_06_June_15_Rome_00001.jpg"] =
        some (Node.file c14Date "x") ∧
    Fields (newDirName "2023 06 June 15 Paris by night" "Rome") =
      ["2023", "06", "June", "15", "Rome"] ∧
    RenameDirectory c14Fs ["a", "2023 06 June"] "Rome" = (c14Fs, some Err.format) :=
  ⟨renameDirectory_format_iff c14Fs ["a", "2023 06 June 15 Paris by night"] "Rome" (by decide),
    by decide, by decide, by decide, by decide⟩

/-- Every character of the new directory name comes from the old name, from
the new text, or is a space. -/
theorem mem_newDirName {B x : String} {c : Char} (h : c ∈ (newDirName B x).data) :
    c ∈ B.data ∨ c = ' ' ∨ c ∈ x.data := by
  have hj : ∀ c, c ∈ (Join ((Fields B).take 4) " ").data → c ∈ B.data ∨ c = ' ' := by
    intro c hc
    simp only [Join, Fields] at hc
    rcases mem_joinChars hc with h1 | ⟨l, hl, hcl⟩
    · right
      simpa using h1
    · obtain ⟨tokS, htokS, rfl⟩ := List.mem_map.1 hl
      have := List.mem_of_mem_take htokS
      obtain ⟨tok, htok, rfl⟩ := List.mem_map.1 this
      rcases mem_fieldsAux _ _ _ htok _ hcl with h1 | h1
      · simp at h1
      · exact Or.inl h1
  unfold newDirName at h
  by_cases hne : x ≠ ""
  · rw [if_pos hne] at h
    simp only [List.mem_append, List.mem_cons] at h
    rcases h with h | h | h
    · rcases hj c h with h1 | h1
      · exact Or.inl h1
      · exact Or.inr (Or.inl h1)
    · exact Or.inr (Or.inl h)
    · exact Or.inr (Or.inr h)
  · rw [if_neg hne] at h
    rcases hj c h with h1 | h1
    · exact Or.inl h1
    · exact Or.inr (Or.inl h1)

theorem hasMeta_newDirName {B x : String} (hB : hasMeta B = false) (hx : hasMeta x = false) :
    hasMeta (newDirName B x) = false := by
  rw [hasMeta_eq_false_iff] at hB hx ⊢
  intro c hc
  rcases mem_newDirName hc with h | h | h
  · exact hB c h
  · rw [h]
    decide
  · exact hx c h

/-- The first four fields of the new directory name are those of the old one. -/
theorem take_fields_newDirName (B x : String) (h4 : 4 ≤ (Fields B).length) :
    (Fields (newDirName B x)).take 4 = (Fields B).take 4 := by
  rw [fields_newDirName B x (by omega), List.take_append_of_le_length (by simp; omega),
    List.take_take]
  simp

theorem length_fields_newDirName (B x : String) (h4 : 4 ≤ (Fields B).length) :
    4 ≤ (Fields (newDirName B x)).length := by
  rw [fields_newDirName B x (by omega)]
  simp only [List.length_append, List.length_take]
  omega

/-- Renaming a renamed directory computes the name that renaming the first
one computes. -/
theorem newDirName_newDirName (B a b : String) (h4 : 4 ≤ (Fields B).length) :
    newDirName (newDirName B a) b = newDirName B b := by
  have key : ∀ B1 B2 : String, (Fields B1).take 4 = (Fields B2).take 4 →
      newDirName B1 b = newDirName B2 b := by
    intro B1 B2 h
    unfold newDirName
    rw [h]
  exact key _ _ (take_fields_newDirName B a h4)

/-- Numbered names with five-digit numbers are equal only for equal numbers. -/
theorem seqName_inj_bases {b1 b2 e1 e2 : String} {i j : Nat} (hi : i < 100000) (hj : j < 100000)
    (hlen : e1.data.length = e2.data.length) (h : seqName b1 i e1 = seqName b2 j e2) : i = j := by
  have hd := congrArg String.data h
  simp only [seqName] at hd
  have h1 := (List.append_inj' hd hlen).1
  have h2 := (List.append_inj' h1 (by
    simp only [List.length_cons]
    rw [zeroPad_length (by omega) (by omega), zeroPad_length (by omega) (by omega)])).2
  simp only [List.cons.injEq, true_and] at h2
  exact zeroPad_injective 5 h2

/-- The extension of a numbered video name is the extension it was given. -/
theorem Ext_seqName (p : Path) (nb : String) (k : Nat) {e : String}
    (he : e = ".mov" ∨ e = ".MOV") : Ext (p ++ [seqName nb k e]) = e := by
  rw [Ext_snoc]
  rcases he with rfl | rfl
  · have : (seqName nb k ".mov").data = (nb.data ++ '_' :: zeroPad 5 k) ++ '.' :: "mov".data := rfl
    rw [this, extChars_append _ _ (by decide)]
  · have : (seqName nb k ".MOV").data = (nb.data ++ '_' :: zeroPad 5 k) ++ '.' :: "MOV".data := rfl
    rw [this, extChars_append _ _ (by decide)]

/-- Below 100000 the numbered names are in ascending order, whatever their
extensions. -/
theorem sorted_seqNames_ext (base : String) (e : Nat → String) {N : Nat} (hN : N < 100000) :
    ((List.range N).map (fun k => seqName base (k + 1) (e k))).Sorted nameLe := by
  unfold List.Sorted
  rw [List.pairwise_map]
  refine (List.Pairwise.and_mem.1 (List.pairwise_lt_range N)).imp ?_
  rintro a b ⟨_, hb, hab⟩
  exact (seqName_strict base (e a) (e b) (by omega) (by have := List.mem_range.1 hb; omega)).1

/-- The image step of `RenameDirectory` on a directory whose image entries
are regular files, none of them bearing the new name of an earlier one: it
succeeds and leads to the video step; only the images have changed. -/
theorem renameImagesStep_images {fs : FS} (hwf : WF fs) {absDir : Path} (hd : noMeta absDir = true)
    (newDirPath : Path) (nd : String) (hnb : '/' ∉ (replaceSpaces nd).data)
    (hfiles : ∀ n ∈ entriesMatching fs absDir isImageName, isFileAt fs (absDir ++ [n]) = true)
    (hclash : ∀ i j, i < j → (entriesMatching fs absDir isImageName)[j]? ≠
      some (seqName (replaceSpaces nd) (i + 1) ".jpg")) :
    ∃ fs1, renameImagesStep fs absDir newDirPath nd = renameVideosStep fs1 absDir newDirPath nd ∧
      WF fs1 ∧
      (∀ k n, (entriesMatching fs absDir isImageName)[k]? = some n →
        stat fs1 (absDir ++ [seqName (replaceSpaces nd) (k + 1) ".jpg"]) = stat fs (absDir ++ [n])) ∧
      (∀ p, (∀ k, k < (entriesMatching fs absDir isImageName).length →
          p ≠ absDir ++ [seqName (replaceSpaces nd) (k + 1) ".jpg"]) →
        stat fs1 p =
          if p ∈ (entriesMatching fs absDir isImageName).map (fun n => absDir ++ [n]) then none
          else stat fs p) := by
  obtain ⟨L, hL, hlen, fs1, hloop, hwf1, hA, hB⟩ :=
    renameJPGsLoop_spec hwf hd (replaceSpaces nd) hnb hfiles hclash
  refine ⟨fs1, ?_, hwf1, hA, hB⟩
  unfold renameImagesStep
  simp only [hL]
  by_cases h0 : L.length > 0
  · simp only [h0, if_true, renameImagesLoop_eq_JPGs absDir hnb, hloop]
  · have hL0 : L = [] := List.length_eq_zero.1 (by omega)
    rw [hL0] at hloop
    simp only [sortPaths, List.insertionSort, renameJPGsLoop, Prod.mk.injEq, and_true] at hloop
    simp only [h0, if_false, hloop]

/-- The state after a call of `RenameDirectory` that returned nil, path by
path, on a directory whose image entries and video entries under `videos` are
regular files, none of them bearing the new name of an earlier one. -/
theorem renameDirectory_full {fs : FS} {par : Path} {B x : String} (hwf : WF fs)
    (hmeta : noMeta (par ++ [B]) = true) (hBs : '/' ∉ B.data) (hxs : '/' ∉ x.data)
    (hifiles : ∀ n ∈ entriesMatching fs (par ++ [B]) isImageName,
      isFileAt fs (par ++ [B] ++ [n]) = true)
    (hiclash : ∀ i j, i < j → (entriesMatching fs (par ++ [B]) isImageName)[j]? ≠
      some (seqName (replaceSpaces (newDirName B x)) (i + 1) ".jpg"))
    (hvfiles : ∀ n ∈ entriesMatching fs (par ++ [B] ++ ["videos"]) isVideoName,
      isFileAt fs (par ++ [B] ++ ["videos"] ++ [n]) = true)
    (hvclash : ∀ i j ni nj, i < j →
      (entriesMatching fs (par ++ [B] ++ ["videos"]) isVideoName)[i]? = some ni →
      (entriesMatching fs (par ++ [B] ++ ["videos"]) isVideoName)[j]? = some nj →
      nj ≠ videoSeqName (par ++ [B] ++ ["videos"]) (replaceSpaces (newDirName B x)) i ni)
    (hrun : (RenameDirectory fs (par ++ [B]) x).2 = none) :
    WF (RenameDirectory fs (par ++ [B]) x).1 ∧
    (∀ p, ¬ (par ++ [newDirName B x]) <+: p →
      stat (RenameDirectory fs (par ++ [B]) x).1 p =
        if (par ++ [B]) <+: p then none else stat fs p) ∧
    (∀ k n, (entriesMatching fs (par ++ [B]) isImageName)[k]? = some n →
      stat (RenameDirectory fs (par ++ [B]) x).1
          (par ++ [newDirName B x] ++ [seqName (replaceSpaces (newDirName B x)) (k + 1) ".jpg"]) =
        stat fs (par ++ [B] ++ [n])) ∧
    (∀ k n, (entriesMatching fs (par ++ [B] ++ ["videos"]) isVideoName)[k]? = some n →
      stat (RenameDirectory fs (par ++ [B]) x).1
          (par ++ [newDirName B x] ++ ["videos"] ++
            [videoSeqName (par ++ [B] ++ ["videos"]) (replaceSpaces (newDirName B x)) k n]) =
        stat fs (par ++ [B] ++ ["videos"] ++ [n])) ∧
    (∀ r : Path,
      (∀ k, k < (entriesMatching fs (par ++ [B]) isImageName).length →
        r ≠ [seqName (replaceSpaces (newDirName B x)) (k + 1) ".jpg"]) →
      (∀ k n, (entriesMatching fs (par ++ [B] ++ ["videos"]) isVideoName)[k]? = some n →
        r ≠ ["videos", videoSeqName (par ++ [B] ++ ["videos"]) (replaceSpaces (newDirName B x)) k n]) →
      stat (RenameDirectory fs (par ++ [B]) x).1 (par ++ [newDirName B x] ++ r) =
        if r ∈ (entriesMatching fs (par ++ [B]) isImageName).map (fun n => [n]) ∨
            r ∈ (entriesMatching fs (par ++ [B] ++ ["videos"]) isVideoName).map
              (fun n => ["videos", n])
        then none else stat fs (par ++ [B] ++ r)) := by
  obtain ⟨hsd, h4, _, hsteps, _⟩ := renameDirectory_nil hBs hxs hrun
  have hnd := newDirName_no_slash hBs hxs
  have hnb := replaceSpaces_no_slash hnd
  generalize hfs' : (RenameDirectory fs (par ++ [B]) x).1 = fs' at hsteps ⊢
  generalize hDd : par ++ [B] = D at *
  generalize hndd : newDirName B x = nd at *
  generalize hnbd : replaceSpaces nd = nb at *
  obtain ⟨fs1, hstep1, hwf1, hA1, hB1⟩ :=
    renameImagesStep_images hwf hmeta (par ++ [nd]) nd (by rw [hnbd]; exact hnb) hifiles
      (by rw [hnbd]; exact hiclash)
  rw [hnbd] at hA1 hB1
  have hisrc : ∀ (p : Path), (D ++ ["videos"]) <+: p →
      p ∉ (entriesMatching fs D isImageName).map (fun n => D ++ [n]) := by
    intro p hp h
    obtain ⟨n, hn, hh⟩ := List.mem_map.1 h
    have hi := ((mem_entriesMatching hwf D _ n).1 hn).2.2
    apply not_videos_prefix_of_image D hi
    rw [hh]
    exact hp
  have hinew : ∀ (p : Path), (D ++ ["videos"]) <+: p → ∀ k, p ≠ D ++ [seqName nb (k + 1) ".jpg"] := by
    intro p hp k h
    apply not_videos_prefix_of_image D (isImageName_seqName hnb (k + 1))
    rw [← h]
    exact hp
  have hvsame : ∀ r : Path, stat fs1 (D ++ ["videos"] ++ r) = stat fs (D ++ ["videos"] ++ r) := by
    intro r
    rw [hB1 _ (fun k _ => hinew _ (List.prefix_append _ _) k),
      if_neg (hisrc _ (List.prefix_append _ _))]
  have hvnames : entriesMatching fs1 (D ++ ["videos"]) isVideoName =
      entriesMatching fs (D ++ ["videos"]) isVideoName := by
    apply entriesMatching_congr hwf1 hwf
    · unfold isDirAt
      have := hvsame []
      rw [List.append_nil] at this
      rw [this]
    · intro n _
      rw [hvsame [n]]
  obtain ⟨fs3, hstep3, hwf3, hA3, hB3⟩ := renameVideosStep_spec hwf1 hmeta (par ++ [nd]) nd
    (by rw [hnbd]; exact hnb)
    (by
      intro n hn
      rw [hvnames] at hn
      have := hvfiles n hn
      unfold isFileAt at this ⊢
      rw [hvsame [n]]
      exact this)
    (by
      rw [hvnames, hnbd]
      exact hvclash)
  rw [hvnames, hnbd] at hA3 hB3
  rw [hstep1, hstep3] at hsteps
  obtain ⟨hwf', hmoved, hout⟩ := renameDirStep_nil hwf3 hsteps
  -- a path that is no new video path and no video source is as after the image step
  have hkeep3 : ∀ p : Path, ¬ (D ++ ["videos"]) <+: p → stat fs3 p = stat fs1 p := by
    intro p hp
    rw [hB3 p, if_neg]
    · intro h
      obtain ⟨n, _, hn⟩ := List.mem_map.1 h
      exact hp (hn ▸ List.prefix_append _ _)
    · intro k n _ h
      exact hp (h ▸ List.prefix_append _ _)
  refine ⟨hwf', ?_, ?_, ?_, ?_⟩
  · intro p hp
    rw [hout p hp]
    by_cases hD : D <+: p
    · rw [if_pos hD, if_pos hD]
    · rw [if_neg hD, if_neg hD]
      have hnv : ¬ (D ++ ["videos"]) <+: p := fun h => hD ((List.prefix_append _ _).trans h)
      rw [hkeep3 p hnv, hB1 p, if_neg]
      · intro h
        obtain ⟨n, _, hn⟩ := List.mem_map.1 h
        exact hD (hn ▸ List.prefix_append _ _)
      · intro k _ h
        exact hD (h ▸ List.prefix_append _ _)
  · intro k n hk
    rw [hmoved, hkeep3, hA1 k n hk]
    exact not_videos_prefix_of_image D (isImageName_seqName hnb _)
  · intro k n hk
    rw [List.append_assoc (par ++ [nd]), hmoved, ← List.append_assoc, hA3 k n hk]
    exact hvsame [n]
  · intro r hri hrv
    rw [hmoved]
    have hcancel : ∀ (l : List String) (f : String → Path),
        (D ++ r ∈ l.map (fun n => D ++ f n)) ↔ r ∈ l.map f := by
      intro l f
      simp only [List.mem_map]
      constructor
      · rintro ⟨n, hn, h⟩
        exact ⟨n, hn, List.append_cancel_left h⟩
      · rintro ⟨n, hn, h⟩
        exact ⟨n, hn, by rw [h]⟩
    have hvsrc : (D ++ r ∈ (entriesMatching fs (D ++ ["videos"]) isVideoName).map
        (fun n => D ++ ["videos"] ++ [n])) ↔
        r ∈ (entriesMatching fs (D ++ ["videos"]) isVideoName).map (fun n => ["videos", n]) := by
      simp
    have hisrc' : (D ++ r ∈ (entriesMatching fs D isImageName).map (fun n => D ++ [n])) ↔
        r ∈ (entriesMatching fs D isImageName).map (fun n => [n]) :=
      hcancel (entriesMatching fs D isImageName) (fun n => [n])
    rw [hB3 (D ++ r) (by
      intro k n hk h
      apply hrv k n hk
      have : D ++ r = D ++ ["videos", videoSeqName (D ++ ["videos"]) nb k n] := by
        rw [h]
        simp
      exact List.append_cancel_left this)]
    by_cases hv : r ∈ (entriesMatching fs (D ++ ["videos"]) isVideoName).map (fun n => ["videos", n])
    · rw [if_pos (hvsrc.2 hv), if_pos (Or.inr hv)]
    · rw [if_neg (fun h => hv (hvsrc.1 h)), hB1 (D ++ r) (by
        intro k hk h
        exact hri k hk (List.append_cancel_left h))]
      by_cases hi : r ∈ (entriesMatching fs D isImageName).map (fun n => [n])
      · rw [if_pos (hisrc'.2 hi), if_pos (Or.inl hi)]
      · rw [if_neg (fun h => hi (hisrc'.1 h)), if_neg]
        rintro (h | h)
        · exact hi h
        · exact hv h

/-- The image entries of the renamed directory, in order: the numbered names. -/
theorem images_after_full {fs : FS} {par : Path} {B x : String} (hwf : WF fs)
    (hmeta : noMeta (par ++ [B]) = true) (hBs : '/' ∉ B.data) (hxs : '/' ∉ x.data)
    (hifiles : ∀ n ∈ entriesMatching fs (par ++ [B]) isImageName,
      isFileAt fs (par ++ [B] ++ [n]) = true)
    (hiclash : ∀ i j, i < j → (entriesMatching fs (par ++ [B]) isImageName)[j]? ≠
      some (seqName (replaceSpaces (newDirName B x)) (i + 1) ".jpg"))
    (hvfiles : ∀ n ∈ entriesMatching fs (par ++ [B] ++ ["videos"]) isVideoName,
      isFileAt fs (par ++ [B] ++ ["videos"] ++ [n]) = true)
    (hvclash : ∀ i j ni nj, i < j →
      (entriesMatching fs (par ++ [B] ++ ["videos"]) isVideoName)[i]? = some ni →
      (entriesMatching fs (par ++ [B] ++ ["videos"]) isVideoName)[j]? = some nj →
      nj ≠ videoSeqName (par ++ [B] ++ ["videos"]) (replaceSpaces (newDirName B x)) i ni)
    (hN : (entriesMatching fs (par ++ [B]) isImageName).length < 100000)
    (hrun : (RenameDirectory fs (par ++ [B]) x).2 = none) :
    entriesMatching (RenameDirectory fs (par ++ [B]) x).1 (par ++ [newDirName B x]) isImageName =
      (List.range (entriesMatching fs (par ++ [B]) isImageName).length).map
        (fun k => seqName (replaceSpaces (newDirName B x)) (k + 1) ".jpg") := by
  obtain ⟨hwf', _, hI, _, hR⟩ :=
    renameDirectory_full hwf hmeta hBs hxs hifiles hiclash hvfiles hvclash hrun
  have hnb := replaceSpaces_no_slash (newDirName_no_slash hBs hxs)
  haveI := nameLe_isTotal
  haveI := nameLe_isTrans
  haveI := nameLe_isAntisymm
  refine List.eq_of_perm_of_sorted ?_ (sorted_entriesMatching _ _ _) (sorted_seqNames _ _ hN)
  apply entries_after_renumber hwf hwf' (par ++ [B]) (par ++ [newDirName B x]) isImageName
  · intro i j _ _ h
    have := seqName_inj rfl h
    omega
  · exact fun k => isImageName_seqName hnb _
  · unfold isDirAt
    have := hR [] (by simp) (by simp)
    rw [if_neg (by simp), List.append_nil, List.append_nil] at this
    rw [this]
  · exact hI
  · intro n hn hne
    rw [hR [n] (fun k hk h => hne k hk (by simpa using h)) (by simp)]
    by_cases hmem : n ∈ entriesMatching fs (par ++ [B]) isImageName
    · rw [if_pos hmem, if_pos (Or.inl (List.mem_map_of_mem _ hmem))]
    · rw [if_neg hmem, if_neg]
      rintro (h | h)
      · obtain ⟨m, hm, hh⟩ := List.mem_map.1 h
        simp only [List.cons.injEq, and_true] at hh
        exact hmem (hh ▸ hm)
      · obtain ⟨m, _, hh⟩ := List.mem_map.1 h
        simp at hh

theorem videos_after_full_aux {fs : FS} {par : Path} {B x : String} (hwf : WF fs)
    (hmeta : noMeta (par ++ [B]) = true) (hBs : '/' ∉ B.data) (hxs : '/' ∉ x.data)
    (hifiles : ∀ n ∈ entriesMatching fs (par ++ [B]) isImageName,
      isFileAt fs (par ++ [B] ++ [n]) = true)
    (hiclash : ∀ i j, i < j → (entriesMatching fs (par ++ [B]) isImageName)[j]? ≠
      some (seqName (replaceSpaces (newDirName B x)) (i + 1) ".jpg"))
    (hvfiles : ∀ n ∈ entriesMatching fs (par ++ [B] ++ ["videos"]) isVideoName,
      isFileAt fs (par ++ [B] ++ ["videos"] ++ [n]) = true)
    (hvclash : ∀ i j ni nj, i < j →
      (entriesMatching fs (par ++ [B] ++ ["videos"]) isVideoName)[i]? = some ni →
      (entriesMatching fs (par ++ [B] ++ ["videos"]) isVideoName)[j]? = some nj →
      nj ≠ videoSeqName (par ++ [B] ++ ["videos"]) (replaceSpaces (newDirName B x)) i ni)
    (hM : (entriesMatching fs (par ++ [B] ++ ["videos"]) isVideoName).length < 100000)
    (hrun : (RenameDirectory fs (par ++ [B]) x).2 = none) :
    entriesMatching (RenameDirectory fs (par ++ [B]) x).1 (par ++ [newDirName B x] ++ ["videos"])
        isVideoName =
      (List.range (entriesMatching fs (par ++ [B] ++ ["videos"]) isVideoName).length).map
        (fun k => seqName (replaceSpaces (newDirName B x)) (k + 1)
          (match (entriesMatching fs (par ++ [B] ++ ["videos"]) isVideoName)[k]? with
            | some n => Ext (par ++ [B] ++ ["videos"] ++ [n])
            | none => ".mov")) := by
  obtain ⟨hwf', _, _, hV, hR⟩ :=
    renameDirectory_full hwf hmeta hBs hxs hifiles hiclash hvfiles hvclash hrun
  have hnb := replaceSpaces_no_slash (newDirName_no_slash hBs hxs)
  have hvideo : ∀ n ∈ entriesMatching fs (par ++ [B] ++ ["videos"]) isVideoName,
      isVideoName n = true := fun n hn => ((mem_entriesMatching hwf _ _ n).1 hn).2.2
  haveI := nameLe_isTotal
  haveI := nameLe_isTrans
  haveI := nameLe_isAntisymm
  refine List.eq_of_perm_of_sorted ?_ (sorted_entriesMatching _ _ _)
    (sorted_seqNames_ext _ _ hM)
  apply entries_after_renumber hwf hwf' (par ++ [B] ++ ["videos"])
    (par ++ [newDirName B x] ++ ["videos"]) isVideoName
  · intro i j hi hj h
    simp only [List.getElem?_eq_getElem hi, List.getElem?_eq_getElem hj] at h
    have := seqName_inj (by
      rw [Ext_video_length _ (hvideo _ (List.getElem_mem hi)),
        Ext_video_length _ (hvideo _ (List.getElem_mem hj))]) h
    omega
  · intro k
    apply isVideoName_seqName hnb
    cases hk : (entriesMatching fs (par ++ [B] ++ ["videos"]) isVideoName)[k]? with
    | none => exact Or.inl rfl
    | some n => exact (Ext_video _ (hvideo n (List.getElem?_mem hk))).1
  · unfold isDirAt
    have := hR ["videos"]
      (by
        intro k _ h
        simp only [List.cons.injEq, and_true] at h
        have := isImageName_seqName hnb (k + 1)
        rw [← h, isImageName_videos] at this
        cases this)
      (by simp)
    rw [if_neg] at this
    · rw [this]
    · rintro (h | h)
      · obtain ⟨m, hm, hh⟩ := List.mem_map.1 h
        simp only [List.cons.injEq, and_true] at hh
        have := ((mem_entriesMatching hwf _ _ m).1 hm).2.2
        rw [hh, isImageName_videos] at this
        cases this
      · obtain ⟨m, _, hh⟩ := List.mem_map.1 h
        simp at hh
  · intro k n hk
    simp only [hk]
    exact hV k n hk
  · intro n hn hne
    have := hR ["videos", n] (by simp)
      (by
        intro k m hk h
        apply hne k (List.getElem?_eq_some_iff.1 hk).1
        simp only [hk]
        simp only [List.cons.injEq, true_and, and_true] at h
        exact h)
    simp only [List.append_assoc, List.cons_append, List.nil_append] at this ⊢
    rw [this]
    by_cases hmem : n ∈ entriesMatching fs (par ++ [B, "videos"]) isVideoName
    · rw [if_pos hmem, if_pos]
      right
      exact List.mem_map_of_mem _ hmem
    · rw [if_neg hmem, if_neg]
      rintro (h | h)
      · obtain ⟨m, _, hh⟩ := List.mem_map.1 h
        simp at hh
      · apply hmem
        obtain ⟨m, hm, hh⟩ := List.mem_map.1 h
        simp only [List.cons.injEq, true_and, and_true] at hh
        exact hh ▸ hm

/-- The video entries under `videos` of the renamed directory, in order: the
numbered names with the extensions of the old names. -/
theorem videos_after_full {fs : FS} {par : Path} {B x : String} (hwf : WF fs)
    (hmeta : noMeta (par ++ [B]) = true) (hBs : '/' ∉ B.data) (hxs : '/' ∉ x.data)
    (hifiles : ∀ n ∈ entriesMatching fs (par ++ [B]) isImageName,
      isFileAt fs (par ++ [B] ++ [n]) = true)
    (hiclash : ∀ i j, i < j → (entriesMatching fs (par ++ [B]) isImageName)[j]? ≠
      some (seqName (replaceSpaces (newDirName B x)) (i + 1) ".jpg"))
    (hvfiles : ∀ n ∈ entriesMatching fs (par ++ [B] ++ ["videos"]) isVideoName,
      isFileAt fs (par ++ [B] ++ ["videos"] ++ [n]) = true)
    (hvclash : ∀ i j ni nj, i < j →
      (entriesMatching fs (par ++ [B] ++ ["videos"]) isVideoName)[i]? = some ni →
      (entriesMatching fs (par ++ [B] ++ ["videos"]) isVideoName)[j]? = some nj →
      nj ≠ videoSeqName (par ++ [B] ++ ["videos"]) (replaceSpaces (newDirName B x)) i ni)
    (hM : (entriesMatching fs (par ++ [B] ++ ["videos"]) isVideoName).length < 100000)
    (hrun : (RenameDirectory fs (par ++ [B]) x).2 = none) :
    entriesMatching (RenameDirectory fs (par ++ [B]) x).1 (par ++ [newDirName B x] ++ ["videos"])
        isVideoName =
      (List.range (entriesMatching fs (par ++ [B] ++ ["videos"]) isVideoName).length).map
        (fun k => seqName (replaceSpaces (newDirName B x)) (k + 1)
          (Ext (par ++ [B] ++ ["videos"] ++
            [(entriesMatching fs (par ++ [B] ++ ["videos"]) isVideoName).getD k ""]))) := by
  rw [videos_after_full_aux hwf hmeta hBs hxs hifiles hiclash hvfiles hvclash hM hrun]
  apply List.map_congr_left
  intro k hk
  rw [List.mem_range] at hk
  simp only [List.getElem?_eq_getElem hk, List.getD_eq_getElem?_getD, Option.getD_some]

theorem isFileAt_congr {fs fs' : FS} {p q : Path} (h : stat fs' q = stat fs p) :
    isFileAt fs' q = isFileAt fs p := by
  unfold isFileAt
  rw [h]

/-- After a successful `RenameDirectory` on a directory whose entries were
renumbered without loss, the renamed directory is ready for a further
renumbering to any name: its image and video entries are the numbered names,
regular files, and none bears a name of another pattern number. -/
theorem second_call_ready {fs : FS} {par : Path} {B x : String} (y : String) (hwf : WF fs)
    (hmeta : noMeta (par ++ [B]) = true) (hBs : '/' ∉ B.data) (hxs : '/' ∉ x.data)
    (hxm : hasMeta x = false)
    (hifiles : ∀ n ∈ entriesMatching fs (par ++ [B]) isImageName,
      isFileAt fs (par ++ [B] ++ [n]) = true)
    (hiclash : ∀ i j, i < j → (entriesMatching fs (par ++ [B]) isImageName)[j]? ≠
      some (seqName (replaceSpaces (newDirName B x)) (i + 1) ".jpg"))
    (hvfiles : ∀ n ∈ entriesMatching fs (par ++ [B] ++ ["videos"]) isVideoName,
      isFileAt fs (par ++ [B] ++ ["videos"] ++ [n]) = true)
    (hvclash : ∀ i j ni nj, i < j →
      (entriesMatching fs (par ++ [B] ++ ["videos"]) isVideoName)[i]? = some ni →
      (entriesMatching fs (par ++ [B] ++ ["videos"]) isVideoName)[j]? = some nj →
      nj ≠ videoSeqName (par ++ [B] ++ ["videos"]) (replaceSpaces (newDirName B x)) i ni)
    (hN : (entriesMatching fs (par ++ [B]) isImageName).length < 100000)
    (hM : (entriesMatching fs (par ++ [B] ++ ["videos"]) isVideoName).length < 100000)
    (hrun : (RenameDirectory fs (par ++ [B]) x).2 = none) :
    noMeta (par ++ [newDirName B x]) = true ∧
    (∀ n ∈ entriesMatching (RenameDirectory fs (par ++ [B]) x).1 (par ++ [newDirName B x])
        isImageName,
      isFileAt (RenameDirectory fs (par ++ [B]) x).1 (par ++ [newDirName B x] ++ [n]) = true) ∧
    (∀ i j, i < j →
      (entriesMatching (RenameDirectory fs (par ++ [B]) x).1 (par ++ [newDirName B x])
        isImageName)[j]? ≠
      some (seqName (replaceSpaces (newDirName (newDirName B x) y)) (i + 1) ".jpg")) ∧
    (∀ n ∈ entriesMatching (RenameDirectory fs (par ++ [B]) x).1
        (par ++ [newDirName B x] ++ ["videos"]) isVideoName,
      isFileAt (RenameDirectory fs (par ++ [B]) x).1
        (par ++ [newDirName B x] ++ ["videos"] ++ [n]) = true) ∧
    (∀ i j ni nj, i < j →
      (entriesMatching (RenameDirectory fs (par ++ [B]) x).1
        (par ++ [newDirName B x] ++ ["videos"]) isVideoName)[i]? = some ni →
      (entriesMatching (RenameDirectory fs (par ++ [B]) x).1
        (par ++ [newDirName B x] ++ ["videos"]) isVideoName)[j]? = some nj →
      nj ≠ videoSeqName (par ++ [newDirName B x] ++ ["videos"])
        (replaceSpaces (newDirName (newDirName B x) y)) i ni) := by
  obtain ⟨_, _, hI, hV, _⟩ :=
    renameDirectory_full hwf hmeta hBs hxs hifiles hiclash hvfiles hvclash hrun
  have hie := images_after_full hwf hmeta hBs hxs hifiles hiclash hvfiles hvclash hN hrun
  have hve := videos_after_full hwf hmeta hBs hxs hifiles hiclash hvfiles hvclash hM hrun
  have hvideo : ∀ n ∈ entriesMatching fs (par ++ [B] ++ ["videos"]) isVideoName,
      isVideoName n = true := fun n hn => ((mem_entriesMatching hwf _ _ n).1 hn).2.2
  have hBm : hasMeta B = false := (noMeta_iff _).1 hmeta B (by simp)
  have hparm : noMeta par = true := by
    rw [noMeta_iff] at hmeta ⊢
    exact fun c hc => hmeta c (List.mem_append_left _ hc)
  refine ⟨noMeta_snoc hparm (hasMeta_newDirName hBm hxm), ?_, ?_, ?_, ?_⟩
  · intro n hn
    rw [hie] at hn
    obtain ⟨k, hk, rfl⟩ := List.mem_map.1 hn
    rw [List.mem_range] at hk
    rw [isFileAt_congr (hI k _ (List.getElem?_eq_getElem hk))]
    exact hifiles _ (List.getElem_mem hk)
  · intro i j hij h
    rw [hie] at h
    have hj : j < (entriesMatching fs (par ++ [B]) isImageName).length := by
      by_contra hc
      rw [List.getElem?_eq_none (by simpa using hc)] at h
      cases h
    rw [List.getElem?_eq_getElem (by simpa using hj)] at h
    simp only [List.getElem_map, List.getElem_range, Option.some.injEq] at h
    have := seqName_inj_bases (by omega) (by omega) rfl h
    omega
  · intro n hn
    rw [hve] at hn
    obtain ⟨k, hk, rfl⟩ := List.mem_map.1 hn
    rw [List.mem_range] at hk
    have := hV k _ (List.getElem?_eq_getElem hk)
    unfold videoSeqName at this
    simp only [List.getD_eq_getElem?_getD, List.getElem?_eq_getElem hk, Option.getD_some]
    rw [isFileAt_congr this]
    exact hvfiles _ (List.getElem_mem hk)
  · intro i j ni nj hij hi hj h
    rw [hve] at hi hj
    have hjl : j < (entriesMatching fs (par ++ [B] ++ ["videos"]) isVideoName).length := by
      by_contra hc
      rw [List.getElem?_eq_none (by simpa using hc)] at hj
      cases hj
    have hil : i < (entriesMatching fs (par ++ [B] ++ ["videos"]) isVideoName).length := by omega
    rw [List.getElem?_eq_getElem (by simpa using hjl)] at hj
    rw [List.getElem?_eq_getElem (by simpa using hil)] at hi
    simp only [List.getElem_map, List.getElem_range, Option.some.injEq,
      List.getD_eq_getElem?_getD, List.getElem?_eq_getElem hjl, List.getElem?_eq_getElem hil,
      Option.getD_some] at hi hj
    have hei := (Ext_video (par ++ [B] ++ ["videos"]) (hvideo _ (List.getElem_mem hil))).1
    have hej := (Ext_video (par ++ [B] ++ ["videos"]) (hvideo _ (List.getElem_mem hjl))).1
    rw [← hi, ← hj] at h
    unfold videoSeqName at h
    rw [Ext_seqName _ _ _ hei] at h
    have := seqName_inj_bases (by omega) (by omega) (by
      rw [Ext_video_length _ (hvideo _ (List.getElem_mem hil)),
        Ext_video_length _ (hvideo _ (List.getElem_mem hjl))]) h
    omega

/-- Two successive renames against the single rename to the last name: when
each of the three calls returns nil, the entries are regular files, fewer
than 100000 of each kind, none bearing the name that an earlier one is to
receive, and the path and the first name hold no glob metacharacter, the two
final states are well formed and agree at every path. -/
theorem rename_twice {fs : FS} {par : Path} {B a b : String} (hwf : WF fs)
    (hmeta : noMeta (par ++ [B]) = true) (hBs : '/' ∉ B.data) (has : '/' ∉ a.data)
    (hbs : '/' ∉ b.data) (ham : hasMeta a = false)
    (hifiles : ∀ n ∈ entriesMatching fs (par ++ [B]) isImageName,
      isFileAt fs (par ++ [B] ++ [n]) = true)
    (hvfiles : ∀ n ∈ entriesMatching fs (par ++ [B] ++ ["videos"]) isVideoName,
      isFileAt fs (par ++ [B] ++ ["videos"] ++ [n]) = true)
    (hN : (entriesMatching fs (par ++ [B]) isImageName).length < 100000)
    (hM : (entriesMatching fs (par ++ [B] ++ ["videos"]) isVideoName).length < 100000)
    (hiclash : ∀ x, x = a ∨ x = b → ∀ i j, i < j →
      (entriesMatching fs (par ++ [B]) isImageName)[j]? ≠
        some (seqName (replaceSpaces (newDirName B x)) (i + 1) ".jpg"))
    (hvclash : ∀ x, x = a ∨ x = b → ∀ i j ni nj, i < j →
      (entriesMatching fs (par ++ [B] ++ ["videos"]) isVideoName)[i]? = some ni →
      (entriesMatching fs (par ++ [B] ++ ["videos"]) isVideoName)[j]? = some nj →
      nj ≠ videoSeqName (par ++ [B] ++ ["videos"]) (replaceSpaces (newDirName B x)) i ni)
    (hrun1 : (RenameDirectory fs (par ++ [B]) a).2 = none)
    (hrun2 : (RenameDirectory (RenameDirectory fs (par ++ [B]) a).1
      (par ++ [newDirName B a]) b).2 = none)
    (hrunS : (RenameDirectory fs (par ++ [B]) b).2 = none) :
    WF (RenameDirectory (RenameDirectory fs (par ++ [B]) a).1 (par ++ [newDirName B a]) b).1 ∧
    WF (RenameDirectory fs (par ++ [B]) b).1 ∧
    ∀ p, stat (RenameDirectory (RenameDirectory fs (par ++ [B]) a).1
        (par ++ [newDirName B a]) b).1 p =
      stat (RenameDirectory fs (par ++ [B]) b).1 p := by
  obtain ⟨hD, h4, hex, _, _⟩ := renameDirectory_nil hBs has hrun1
  have hAA := newDirName_newDirName B a b h4
  have hica := hiclash a (Or.inl rfl)
  have hicb := hiclash b (Or.inr rfl)
  have hvca := hvclash a (Or.inl rfl)
  have hvcb := hvclash b (Or.inr rfl)
  obtain ⟨hnm, hif1, hic1, hvf1, hvc1⟩ :=
    second_call_ready b hwf hmeta hBs has ham hifiles hica hvfiles hvca hN hM hrun1
  obtain ⟨hwf1, h1i, h1I, h1V, h1R⟩ :=
    renameDirectory_full hwf hmeta hBs has hifiles hica hvfiles hvca hrun1
  obtain ⟨hwf2, h2i, h2I, h2V, h2R⟩ :=
    renameDirectory_full hwf1 hnm (newDirName_no_slash hBs has) hbs hif1 hic1 hvf1 hvc1 hrun2
  obtain ⟨hwfS, hSi, hSI, hSV, hSR⟩ :=
    renameDirectory_full hwf hmeta hBs hbs hifiles hicb hvfiles hvcb hrunS
  have hie := images_after_full hwf hmeta hBs has hifiles hica hvfiles hvca hN hrun1
  have hve := videos_after_full hwf hmeta hBs has hifiles hica hvfiles hvca hM hrun1
  have hvideo : ∀ n ∈ entriesMatching fs (par ++ [B] ++ ["videos"]) isVideoName,
      isVideoName n = true := fun n hn => ((mem_entriesMatching hwf _ _ n).1 hn).2.2
  have hnba := replaceSpaces_no_slash (newDirName_no_slash hBs has)
  simp only [hAA, hie, hve] at h2i h2I h2V h2R
  -- the k-th image of the intermediate state
  have hi1 : ∀ k, k < (entriesMatching fs (par ++ [B]) isImageName).length →
      ((List.range (entriesMatching fs (par ++ [B]) isImageName).length).map
        (fun k => seqName (replaceSpaces (newDirName B a)) (k + 1) ".jpg"))[k]? =
      some (seqName (replaceSpaces (newDirName B a)) (k + 1) ".jpg") := by
    intro k hk
    rw [List.getElem?_eq_getElem (by simpa using hk)]
    simp
  -- the k-th video of the intermediate state and its name after the second call
  have hv1 : ∀ k n, (entriesMatching fs (par ++ [B] ++ ["videos"]) isVideoName)[k]? = some n →
      ((List.range (entriesMatching fs (par ++ [B] ++ ["videos"]) isVideoName).length).map
        (fun k => seqName (replaceSpaces (newDirName B a)) (k + 1)
          (Ext (par ++ [B] ++ ["videos"] ++
            [(entriesMatching fs (par ++ [B] ++ ["videos"]) isVideoName).getD k ""]))))[k]? =
      some (videoSeqName (par ++ [B] ++ ["videos"]) (replaceSpaces (newDirName B a)) k n) := by
    intro k n hk
    have hkl := (List.getElem?_eq_some_iff.1 hk).1
    rw [List.getElem?_eq_getElem (by simpa using hkl)]
    simp only [List.getElem_map, List.getElem_range, List.getD_eq_getElem?_getD, hk,
      Option.getD_some]
    rfl
  have hvs : ∀ k n, (entriesMatching fs (par ++ [B] ++ ["videos"]) isVideoName)[k]? = some n →
      videoSeqName (par ++ [newDirName B a] ++ ["videos"]) (replaceSpaces (newDirName B b)) k
        (videoSeqName (par ++ [B] ++ ["videos"]) (replaceSpaces (newDirName B a)) k n) =
      videoSeqName (par ++ [B] ++ ["videos"]) (replaceSpaces (newDirName B b)) k n := by
    intro k n hk
    unfold videoSeqName
    rw [Ext_seqName _ _ _ (Ext_video _ (hvideo n (List.getElem?_mem hk))).1]
  refine ⟨hwf2, hwfS, fun p => ?_⟩
  by_cases hp : (par ++ [newDirName B b]) <+: p
  · obtain ⟨r, rfl⟩ := hp
    by_cases hr1 : ∃ k, k < (entriesMatching fs (par ++ [B]) isImageName).length ∧
        r = [seqName (replaceSpaces (newDirName B b)) (k + 1) ".jpg"]
    · obtain ⟨k, hk, rfl⟩ := hr1
      rw [h2I k _ (hi1 k hk), h1I k _ (List.getElem?_eq_getElem hk),
        hSI k _ (List.getElem?_eq_getElem hk)]
    by_cases hr2 : ∃ k n,
        (entriesMatching fs (par ++ [B] ++ ["videos"]) isVideoName)[k]? = some n ∧
        r = ["videos", videoSeqName (par ++ [B] ++ ["videos"])
          (replaceSpaces (newDirName B b)) k n]
    · obtain ⟨k, n, hk, rfl⟩ := hr2
      have e2 := h2V k _ (hv1 k n hk)
      rw [hvs k n hk] at e2
      have e1 := h1V k n hk
      have eS := hSV k n hk
      simp only [List.append_assoc, List.cons_append, List.nil_append] at e1 e2 eS ⊢
      rw [e2, e1, eS]
    · have hn1 : ∀ k, k < (entriesMatching fs (par ++ [B]) isImageName).length →
          r ≠ [seqName (replaceSpaces (newDirName B b)) (k + 1) ".jpg"] :=
        fun k hk h => hr1 ⟨k, hk, h⟩
      have hn2 : ∀ k n,
          (entriesMatching fs (par ++ [B] ++ ["videos"]) isVideoName)[k]? = some n →
          r ≠ ["videos", videoSeqName (par ++ [B] ++ ["videos"])
            (replaceSpaces (newDirName B b)) k n] :=
        fun k n hk h => hr2 ⟨k, n, hk, h⟩
      rw [hSR r hn1 hn2]
      rw [h2R r (by
          intro k hk
          exact hn1 k (by simpa using hk))
        (by
          intro k n hk
          have hkl : k < (entriesMatching fs (par ++ [B] ++ ["videos"]) isVideoName).length := by
            by_contra hc
            rw [List.getElem?_eq_none (by simpa using hc)] at hk
            cases hk
          have h0 := hv1 k _ (List.getElem?_eq_getElem hkl)
          rw [hk] at h0
          rw [Option.some.inj h0, hvs k _ (List.getElem?_eq_getElem hkl)]
          exact hn2 k _ (List.getElem?_eq_getElem hkl))]
      by_cases hnew : r ∈ ((List.range (entriesMatching fs (par ++ [B]) isImageName).length).map
            (fun k => seqName (replaceSpaces (newDirName B a)) (k + 1) ".jpg")).map
              (fun n => [n]) ∨
          r ∈ ((List.range
            (entriesMatching fs (par ++ [B] ++ ["videos"]) isVideoName).length).map
              (fun k => seqName (replaceSpaces (newDirName B a)) (k + 1)
                (Ext (par ++ [B] ++ ["videos"] ++
                  [(entriesMatching fs (par ++ [B] ++ ["videos"]) isVideoName).getD k ""])))).map
                    (fun n => ["videos", n])
      · rw [if_pos hnew]
        by_cases hold : r ∈ (entriesMatching fs (par ++ [B]) isImageName).map (fun n => [n]) ∨
            r ∈ (entriesMatching fs (par ++ [B] ++ ["videos"]) isVideoName).map
              (fun n => ["videos", n])
        · rw [if_pos hold]
        · rw [if_neg hold]
          symm
          rw [← Option.not_isSome_iff_eq_none]
          intro hsome
          apply hold
          rcases hnew with h | h
          · left
            obtain ⟨n, hn, rfl⟩ := List.mem_map.1 h
            obtain ⟨k, _, rfl⟩ := List.mem_map.1 hn
            apply List.mem_map_of_mem
            exact (mem_entriesMatching hwf _ _ _).2
              ⟨isDirAt_iff.2 hD, hsome, isImageName_seqName hnba _⟩
          · right
            obtain ⟨n, hn, rfl⟩ := List.mem_map.1 h
            obtain ⟨k, hk, rfl⟩ := List.mem_map.1 hn
            rw [List.mem_range] at hk
            apply List.mem_map_of_mem
            have hmem := List.getElem_mem hk
            refine (mem_entriesMatching hwf _ _ _).2
              ⟨((mem_entriesMatching hwf _ _ _).1 hmem).1, ?_, ?_⟩
            · simpa using hsome
            · apply isVideoName_seqName hnba
              rw [List.getD_eq_getElem _ _ hk]
              exact (Ext_video _ (hvideo _ hmem)).1
      · rw [if_neg hnew]
        rw [h1R r (by
            intro k hk h
            apply hnew
            left
            rw [h]
            exact List.mem_map_of_mem _ (List.mem_map.2 ⟨k, List.mem_range.2 hk, rfl⟩))
          (by
            intro k n hk h
            apply hnew
            right
            rw [h]
            apply List.mem_map_of_mem
            exact List.getElem?_mem (hv1 k n hk))]
  · rw [h2i p hp, hSi p hp]
    by_cases hpa : (par ++ [newDirName B a]) <+: p
    · rw [if_pos hpa]
      by_cases hpd : (par ++ [B]) <+: p
      · rw [if_pos hpd]
      · rw [if_neg hpd]
        rcases hex with h | h
        · rw [← h] at hpa
          exact absurd hpa hpd
        · obtain ⟨r, rfl⟩ := hpa
          exact (hwf.no_child_of_none h r).symm
    · rw [if_neg hpa, h1i p hpa]

/-- C15 (amended): renames compose, the last name wins. Let `par/B` be a
directory with no glob metacharacter in the components of its path, `a` and
`b` names without separator, `a` without glob metacharacter, the image entries of
the directory and the video entries of its `videos` regular files, fewer than
100000 of each, none of them bearing the name that an entry before it in
ascending order is to receive under `a` or under `b`. When `RenameDirectory`
to `a`, then `RenameDirectory` of the resulting directory to `b`, and the
single `RenameDirectory` to `b` each return nil, the two final states are the
same: the resulting directory bears the same name, made of the first four
fields of `B` and `b`, every path holds the same node in both, and every
directory lists the same entries. -/
theorem renames_compose (fs : FS) (par : Path) (B a b : String) (hwf : WF fs)
    (hmeta : noMeta (par ++ [B]) = true) (hBs : '/' ∉ B.data) (has : '/' ∉ a.data)
    (hbs : '/' ∉ b.data) (ham : hasMeta a = false)
    (hifiles : ∀ n ∈ entriesMatching fs (par ++ [B]) isImageName,
      isFileAt fs (par ++ [B] ++ [n]) = true)
    (hvfiles : ∀ n ∈ entriesMatching fs (par ++ [B] ++ ["videos"]) isVideoName,
      isFileAt fs (par ++ [B] ++ ["videos"] ++ [n]) = true)
    (hN : (entriesMatching fs (par ++ [B]) isImageName).length < 100000)
    (hM : (entriesMatching fs (par ++ [B] ++ ["videos"]) isVideoName).length < 100000)
    (hiclash : ∀ x ∈ [a, b], ∀ j, j < (entriesMatching fs (par ++ [B]) isImageName).length →
      ∀ i, i < j → (entriesMatching fs (par ++ [B]) isImageName)[j]? ≠
        some (seqName (replaceSpaces (newDirName B x)) (i + 1) ".jpg"))
    (hvclash : ∀ x ∈ [a, b],
      ∀ j, j < (entriesMatching fs (par ++ [B] ++ ["videos"]) isVideoName).length →
      ∀ i, i < j → (entriesMatching fs (par ++ [B] ++ ["videos"]) isVideoName)[j]? ≠
        some (seqName (replaceSpaces (newDirName B x)) (i + 1)
          (Ext (par ++ [B] ++ ["videos"] ++
            [(entriesMatching fs (par ++ [B] ++ ["videos"]) isVideoName).getD i ""]))))
    (hrun1 : (RenameDirectory fs (par ++ [B]) a).2 = none)
    (hrun2 : (RenameDirectory (RenameDirectory fs (par ++ [B]) a).1
      (par ++ [newDirName B a]) b).2 = none)
    (hrunS : (RenameDirectory fs (par ++ [B]) b).2 = none) :
    newDirName (newDirName B a) b = newDirName B b ∧
    Fields (newDirName B b) = (Fields B).take 4 ++ Fields b ∧
    (∀ p, stat (RenameDirectory (RenameDirectory fs (par ++ [B]) a).1
        (par ++ [newDirName B a]) b).1 p =
      stat (RenameDirectory fs (par ++ [B]) b).1 p) ∧
    ∀ dir pred, entriesMatching (RenameDirectory (RenameDirectory fs (par ++ [B]) a).1
        (par ++ [newDirName B a]) b).1 dir pred =
      entriesMatching (RenameDirectory fs (par ++ [B]) b).1 dir pred := by
  obtain ⟨_, h4, _, _, _⟩ := renameDirectory_nil hBs has hrun1
  obtain ⟨hwf2, hwfS, hst⟩ := rename_twice hwf hmeta hBs has hbs ham hifiles hvfiles hN hM
    (by
      intro x hx i j hij
      by_cases hj : j < (entriesMatching fs (par ++ [B]) isImageName).length
      · exact hiclash x (by simpa using hx) j hj i hij
      · rw [List.getElem?_eq_none (by omega)]
        simp)
    (by
      intro x hx i j ni nj hij hi hj
      have hjl := (List.getElem?_eq_some_iff.1 hj).1
      have := hvclash x (by simpa using hx) j hjl i hij
      rw [hj] at this
      simp only [List.getD_eq_getElem?_getD, hi, Option.getD_some] at this
      intro h
      apply this
      rw [h]
      rfl)
    hrun1 hrun2 hrunS
  refine ⟨newDirName_newDirName B a b h4, fields_newDirName B b (by omega), hst, ?_⟩
  intro dir pred
  apply entriesMatching_congr hwf2 hwfS
  · unfold isDirAt
    rw [hst]
  · intro n _
    rw [hst]

/-- Witness of C15: renaming `2023 06 June 15 Paris` to `Oslo` and then to
`Rome` ends in the state of the single rename to `Rome`, with the images
and the videos numbered under the pattern of `Rome`. -/
theorem renames_compose_witness :
    (newDirName (newDirName "2023 06 June 15 Paris" "Oslo") "Rome" =
      newDirName "2023 06 June 15 Paris" "Rome" ∧
    Fields (newDirName "2023 06 June 15 Paris" "Rome") =
      (Fields "2023 06 June 15 Paris").take 4 ++ Fields "Rome" ∧
    (∀ p, stat (RenameDirectory (RenameDirectory c15Fs (["a"] ++ ["2023 06 June 15 Paris"])
        "Oslo").1 (["a"] ++ [newDirName "2023 06 June 15 Paris" "Oslo"]) "Rome").1 p =
      stat (RenameDirectory c15Fs (["a"] ++ ["2023 06 June 15 Paris"]) "Rome").1 p) ∧
    ∀ dir pred, entriesMatching (RenameDirectory (RenameDirectory c15Fs
        (["a"] ++ ["2023 06 June 15 Paris"]) "Oslo").1
        (["a"] ++ [newDirName "2023 06 June 15 Paris" "Oslo"]) "Rome").1 dir pred =
      entriesMatching (RenameDirectory c15Fs (["a"] ++ ["2023 06 June 15 Paris"]) "Rome").1
        dir pred) ∧
    entriesMatching (RenameDirectory c15Fs ["a", "2023 06 June 15 Paris"] "Oslo").1
      ["a", "2023 06 June 15 Oslo"] (fun _ => true) =
        ["2023_06_June_15_Oslo_00001.jpg", "2023_06_June_15_Oslo_00002.jpg", "notes.txt",
          "videos"] ∧
    entriesMatching (RenameDirectory (RenameDirectory c15Fs ["a", "2023 06 June 15 Paris"]
      "Oslo").1 ["a", "2023 06 June 15 Oslo"] "Rome").1
      ["a", "2023 06 June 15 Rome"] (fun _ => true) =
        ["2023_06_June_15_Rome_00001.jpg", "2023_06_June_15_Rome_00002.jpg", "notes.txt",
          "videos"] ∧
    entriesMatching (RenameDirectory (RenameDirectory c15Fs ["a", "2023 06 June 15 Paris"]
      "Oslo").1 ["a", "2023 06 June 15 Oslo"] "Rome").1
      ["a", "2023 06 June 15 Rome", "videos"] (fun _ => true) =
        ["2023_06_June_15_Rome_00001.mov", "2023_06_June_15_Rome_00002.MOV"] ∧
    entriesMatching (RenameDirectory c15Fs ["a", "2023 06 June 15 Paris"] "Rome").1
      ["a", "2023 06 June 15 Rome", "videos"] (fun _ => true) =
        ["2023_06_June_15_Rome_00001.mov", "2023_06_June_15_Rome_00002.MOV"] :=
  ⟨renames_compose c15Fs ["a"] "2023 06 June 15 Paris" "Oslo" "Rome" (by decide) (by decide)
    (by decide) (by decide) (by decide) (by decide) (by decide) (by decide) (by decide)
    (by decide) (by decide) (by decide) (by decide) (by decide) (by decide),
    by decide, by decide, by decide, by decide⟩

/-- Counterexample to C15 as stated; in each state the three calls return
nil. First state: one image `x.jpg`, first name `[x]`, last name `Rome`; after
the two calls the image is `2023_06_June_15_[x]_00001.jpg`, after the single
call it is `2023_06_June_15_Rome_00001.jpg`. Second state: the directory is
`2023 06 June 15 [x]` with one image; after the renames to `Oslo` and `Rome`
the image is `2023_06_June_15_Rome_00001.jpg`, after the single rename to
`Rome` it is still `x.jpg`. Third state: images `0.jpg` and
`2023_06_June_15_Rome_00001.jpg`; the renames to `Oslo` and `Rome` leave two
images, the single rename to `Rome` leaves one. Last, number 100000 of a
pattern sorts before its number 10001, so a second rename would not number
100000 images in the order of the first. -/
theorem renames_compose_counterexample :
    (WF c15OneFs ∧
      (RenameDirectory c15OneFs ["a", "2023 06 June 15 Paris"] "[x]").2 = none ∧
      (RenameDirectory (RenameDirectory c15OneFs ["a", "2023 06 June 15 Paris"] "[x]").1
        ["a", newDirName "2023 06 June 15 Paris" "[x]"] "Rome").2 = none ∧
      (RenameDirectory c15OneFs ["a", "2023 06 June 15 Paris"] "Rome").2 = none ∧
      entriesMatching (RenameDirectory (RenameDirectory c15OneFs
        ["a", "2023 06 June 15 Paris"] "[x]").1
        ["a", newDirName "2023 06 June 15 Paris" "[x]"] "Rome").1
        ["a", "2023 06 June 15 Rome"] isImageName = ["2023_06_June_15_[x]_00001.jpg"] ∧
      entriesMatching (RenameDirectory c15OneFs ["a", "2023 06 June 15 Paris"] "Rome").1
        ["a", "2023 06 June 15 Rome"] isImageName = ["2023_06_June_15_Rome_00001.jpg"]) ∧
    (WF c15MetaFs ∧
      (RenameDirectory c15MetaFs ["a", "2023 06 June 15 [x]"] "Oslo").2 = none ∧
      (RenameDirectory (RenameDirectory c15MetaFs ["a", "2023 06 June 15 [x]"] "Oslo").1
        ["a", newDirName "2023 06 June 15 [x]" "Oslo"] "Rome").2 = none ∧
      (RenameDirectory c15MetaFs ["a", "2023 06 June 15 [x]"] "Rome").2 = none ∧
      entriesMatching (RenameDirectory (RenameDirectory c15MetaFs
        ["a", "2023 06 June 15 [x]"] "Oslo").1
        ["a", newDirName "2023 06 June 15 [x]" "Oslo"] "Rome").1
        ["a", "2023 06 June 15 Rome"] isImageName = ["2023_06_June_15_Rome_00001.jpg"] ∧
      entriesMatching (RenameDirectory c15MetaFs ["a", "2023 06 June 15 [x]"] "Rome").1
        ["a", "2023 06 June 15 Rome"] isImageName = ["x.jpg"]) ∧
    (WF c15ClashFs ∧
      (RenameDirectory c15ClashFs ["a", "2023 06 June 15 Paris"] "Oslo").2 = none ∧
      (RenameDirectory (RenameDirectory c15ClashFs ["a", "2023 06 June 15 Paris"] "Oslo").1
        ["a", newDirName "2023 06 June 15 Paris" "Oslo"] "Rome").2 = none ∧
      (RenameDirectory c15ClashFs ["a", "2023 06 June 15 Paris"] "Rome").2 = none ∧
      entriesMatching (RenameDirectory (RenameDirectory c15ClashFs
        ["a", "2023 06 June 15 Paris"] "Oslo").1
        ["a", newDirName "2023 06 June 15 Paris" "Oslo"] "Rome").1
        ["a", "2023 06 June 15 Rome"] isImageName =
          ["2023_06_June_15_Rome_00001.jpg", "2023_06_June_15_Rome_00002.jpg"] ∧
      entriesMatching (RenameDirectory c15ClashFs ["a", "2023 06 June 15 Paris"] "Rome").1
        ["a", "2023 06 June 15 Rome"] isImageName = ["2023_06_June_15_Rome_00002.jpg"]) ∧
    (nameLe (seqName "2023_06_June_15_Oslo" 100000 ".jpg")
        (seqName "2023_06_June_15_Oslo" 10001 ".jpg") ∧
      ¬ nameLe (seqName "2023_06_June_15_Oslo" 10001 ".jpg")
        (seqName "2023_06_June_15_Oslo" 100000 ".jpg")) := by
  refine ⟨?_, ?_, ?_, ?_⟩ <;> decide

end PicStore
